import Mathlib

/-!
# Brainfuck engines of `Karesis/brain-fuck`: a shallow embedding

The development embeds two programs of the repository:

* `bfopt.c`: the bytecode compiler `compile_source` and the virtual machine `tap_run`
  running on a chunked, doubly linked tape bounded by `cells_limit`
  (namespace `BfOpt`);
* `bf.c`: the direct, character-by-character interpreter with its bracket scanners
  `tap_jump_forward` / `tap_jump_back` (namespace `Bf`).

Modelling conventions.

* The C heap of `struct Node` objects is a list: the node at address `a` is the
  `a`-th node ever allocated.  `malloc` hands out the next free addresses, so a chunk
  of `count` nodes allocated on a heap `h` occupies `h.length .. h.length + count - 1`.
  Allocation failure (`malloc` / `realloc` returning null) is outside the model.
* A `struct Node*` is a `Ptr`: the null pointer, the address of the static sentinel
  `TOMP`, or the address of a heap node.
* `uint8_t` data are naturals kept below 256 by an explicit `% 256`.  `size_t`
  counters (`operand`, `pc`, `current_cells_size`, `prog->size`) are naturals: each is
  bounded by the length of the source or the number of allocated nodes, far below
  `2 ^ 64`.
* `getchar` / `putchar` are an explicit `World`: the result of the `k`-th `getchar`
  call and whether the `k`-th `putchar` call succeeds.
* A C string (`source`, `codes`) is the list of its characters before the terminating
  NUL, so `strlen` is the length of the list.
* Loops that C runs until a condition holds take a fuel argument here.
-/

namespace BrainFuck

/-! ## Data model shared by `bf.c` and `bfopt.c` -/

/-- A value of type `struct Node*`. -/
inductive Ptr where
  | null
  | tomp
  | cell (a : Nat)
deriving DecidableEq, Repr

/-- The C `struct Node`. -/
structure Node where
  prev : Ptr
  next : Ptr
  data : Nat
deriving DecidableEq, Repr

/-- The static sentinel `TOMP = {.prev = nullptr, .next = nullptr, .data = UINT8_MAX}`
(`bf.c` initialises `.data` with `INT_MAX`, which a `uint8_t` field truncates to 255). -/
def TOMP : Node := { prev := Ptr.null, next := Ptr.null, data := 255 }

/-- The test `node == &TOMP`. -/
def node_is_tomp (node : Ptr) : Bool :=
  decide (node = Ptr.tomp)

/-- The heap of `struct Node` objects, indexed by address. -/
abbrev Heap := List Node

/-- Reading `*p`.  Reading through the sentinel address gives the fields of `TOMP`;
reading through null or a dangling address (undefined behaviour in C) gives a zeroed node. -/
def load (h : Heap) : Ptr → Node
  | Ptr.cell a => h.getD a { prev := Ptr.null, next := Ptr.null, data := 0 }
  | Ptr.tomp => TOMP
  | Ptr.null => { prev := Ptr.null, next := Ptr.null, data := 0 }

/-- Updating `*p` in place.  A store through anything but the address of an allocated
node leaves the heap as it is. -/
def store (h : Heap) (p : Ptr) (f : Node → Node) : Heap :=
  match p with
  | Ptr.cell a => h.set a (f (load h (Ptr.cell a)))
  | _ => h

/-- The assignment `p->prev = q`. -/
def store_prev (h : Heap) (p q : Ptr) : Heap :=
  store h p (fun n => { n with prev := q })

/-- The assignment `p->next = q`. -/
def store_next (h : Heap) (p q : Ptr) : Heap :=
  store h p (fun n => { n with next := q })

/-- The assignment `p->data = d`. -/
def store_data (h : Heap) (p : Ptr) (d : Nat) : Heap :=
  store h p (fun n => { n with data := d })

/-- The nodes built by `create_chunk(count)` when `malloc` returns address `base`:
node `i` links to its array neighbours, the two ends are null, all data are 0. -/
def create_chunk (base count : Nat) : List Node :=
  (List.range count).map (fun i =>
    { prev := if i = 0 then Ptr.null else Ptr.cell (base + (i - 1)),
      next := if i = count - 1 then Ptr.null else Ptr.cell (base + (i + 1)),
      data := 0 })

/-- The heap after the stores of a successful `tap_resize_right` with `self->cell = old_tail`
(the same statements in `bf.c` and `bfopt.c`). -/
def grown_right (h : Heap) (old_tail : Ptr) : Heap :=
  store_next
    (store_prev (store_next (h ++ create_chunk h.length 1024) old_tail (Ptr.cell h.length))
      (Ptr.cell h.length) old_tail)
    (Ptr.cell (h.length + (1024 - 1))) Ptr.tomp

/-- The heap after the stores of a successful `tap_resize_left` with `self->cell = old_head`
(the same statements in `bf.c` and `bfopt.c`). -/
def grown_left (h : Heap) (old_head : Ptr) : Heap :=
  store_prev
    (store_next (store_prev (h ++ create_chunk h.length 1024) old_head
        (Ptr.cell (h.length + (1024 - 1))))
      (Ptr.cell (h.length + (1024 - 1))) old_head)
    (Ptr.cell h.length) Ptr.tomp

/-- The tape is a doubly linked list: the `next` (`prev`) field of an allocated node is the
sentinel address or the address of an allocated node whose `prev` (`next`) field points
back. -/
def linked (h : Heap) : Prop :=
  ∀ a, a < h.length →
    ((load h (Ptr.cell a)).next = Ptr.tomp ∨
      ∃ b, b < h.length ∧ (load h (Ptr.cell a)).next = Ptr.cell b ∧
        (load h (Ptr.cell b)).prev = Ptr.cell a) ∧
    ((load h (Ptr.cell a)).prev = Ptr.tomp ∨
      ∃ b, b < h.length ∧ (load h (Ptr.cell a)).prev = Ptr.cell b ∧
        (load h (Ptr.cell b)).next = Ptr.cell a)

/-- The pointer addresses an allocated node of the heap. -/
def allocated (h : Heap) (p : Ptr) : Prop :=
  ∃ a, p = Ptr.cell a ∧ a < h.length

/-- The standard streams as the interpreters see them: `getchar k` is the result of the
`k`-th call of `getchar()` (`none` is `EOF`), `putchar_ok k` tells whether the `k`-th call
of `putchar` succeeds. -/
structure World where
  getchar : Nat → Option Nat
  putchar_ok : Nat → Bool

/-- What has happened on the standard streams so far. -/
structure Console where
  reads : Nat
  writes : Nat
  out : List Nat
deriving DecidableEq, Repr

/-- The call `putchar(b)`: the byte reaches the output when the call succeeds. -/
def Console.put (w : World) (c : Console) (b : Nat) : Console :=
  { c with writes := c.writes + 1,
           out := if w.putchar_ok c.writes then c.out ++ [b] else c.out }

/-- The console after one more call of `getchar()`. -/
def Console.got (c : Console) : Console :=
  { c with reads := c.reads + 1 }

/-! ## `bfopt.c` -/

namespace BfOpt

/-- The C `struct Tap` of `bfopt.c`, together with the heap its nodes live in. -/
structure Tap where
  heap : Heap
  cell : Ptr
  cells_limit : Nat
  current_cells_size : Nat
deriving DecidableEq, Repr

/-- The C `enum OperationType`. -/
inductive OperationType where
  | INC_PTR
  | DEC_PTR
  | ADD_VAL
  | SUB_VAL
  | OUTPUT
  | INPUT
  | JUMP_ZERO
  | JUMP_NONZERO
  | SET_ZERO
  | HALT
deriving DecidableEq, Repr

/-- The C `struct Instruction`. -/
structure Instruction where
  type : OperationType
  operand : Nat
deriving DecidableEq, Repr

/-- The C `struct Program`: `ops[0 .. size - 1]`; the capacity is not modelled. -/
abbrev Program := List Instruction

/-- `tap_init(self, initial_size, max_cells)` on an empty heap. -/
def tap_init (initial_size max_cells : Nat) : Tap :=
  let cells := create_chunk 0 initial_size
  let cells := store_prev cells (Ptr.cell 0) Ptr.tomp
  let cells := store_next cells (Ptr.cell (initial_size - 1)) Ptr.tomp
  { heap := cells,
    cell := Ptr.cell (initial_size / 2),
    cells_limit := max_cells,
    current_cells_size := initial_size }

/-- `tap_resize_right(self)`: the returned flag is the C return value. -/
def tap_resize_right (self : Tap) : Bool × Tap :=
  if self.current_cells_size ≥ self.cells_limit then (false, self)
  else
    let size := 1024
    let new_chunk := self.heap.length
    let heap := self.heap ++ create_chunk new_chunk size
    let old_tail := self.cell
    let heap := store_next heap old_tail (Ptr.cell new_chunk)
    let heap := store_prev heap (Ptr.cell new_chunk) old_tail
    let heap := store_next heap (Ptr.cell (new_chunk + (size - 1))) Ptr.tomp
    (true, { self with heap := heap, current_cells_size := self.current_cells_size + 1024 })

/-- `tap_resize_left(self)`: the returned flag is the C return value. -/
def tap_resize_left (self : Tap) : Bool × Tap :=
  if self.current_cells_size ≥ self.cells_limit then (false, self)
  else
    let size := 1024
    let new_chunk := self.heap.length
    let heap := self.heap ++ create_chunk new_chunk size
    let old_head := self.cell
    let heap := store_prev heap old_head (Ptr.cell (new_chunk + (size - 1)))
    let heap := store_next heap (Ptr.cell (new_chunk + (size - 1))) old_head
    let heap := store_prev heap (Ptr.cell new_chunk) Ptr.tomp
    (true, { self with heap := heap, current_cells_size := self.current_cells_size + 1024 })

/-- One iteration of the `for` loop of `case OperationType_INC_PTR`: the flag is `false`
when `tap_resize_right` refused and `tap_run` returns. -/
def inc_ptr_body (self : Tap) : Bool × Tap :=
  if node_is_tomp (load self.heap self.cell).next then
    match tap_resize_right self with
    | (false, self1) => (false, self1)
    | (true, self1) => (true, { self1 with cell := (load self1.heap self1.cell).next })
  else (true, { self with cell := (load self.heap self.cell).next })

/-- One iteration of the `for` loop of `case OperationType_DEC_PTR`. -/
def dec_ptr_body (self : Tap) : Bool × Tap :=
  if node_is_tomp (load self.heap self.cell).prev then
    match tap_resize_left self with
    | (false, self1) => (false, self1)
    | (true, self1) => (true, { self1 with cell := (load self1.heap self1.cell).prev })
  else (true, { self with cell := (load self.heap self.cell).prev })

/-- The loop `for (size_t k = 0; k < instr.operand; k++)` around a body; the first
argument counts the iterations still to run. -/
def ptr_loop (body : Tap → Bool × Tap) : Nat → Tap → Bool × Tap
  | 0, self => (true, self)
  | k + 1, self =>
    match body self with
    | (false, self1) => (false, self1)
    | (true, self1) => ptr_loop body k self1

/-- The state of a run of `tap_run`: the tape, the local `pc` and the streams. -/
structure Machine where
  tap : Tap
  pc : Nat
  con : Console
deriving DecidableEq, Repr

/-- How `tap_run` can return: `HALT` was executed, a resize was refused, or the loop
condition `pc < prog->size` became false. -/
inductive Exit where
  | halt
  | tape_limit
  | pc_end
deriving DecidableEq, Repr

/-- The result of one step: the loop goes on, or `tap_run` has returned. -/
inductive Step where
  | continue (m : Machine)
  | exit (e : Exit) (m : Machine)
deriving DecidableEq, Repr

/-- The `switch (instr.type)` of `tap_run`, before the `pc++` that follows it. -/
def exec_switch (w : World) (instr : Instruction) (m : Machine) : Step :=
  let self := m.tap
  match instr.type with
  | OperationType.INC_PTR =>
    match ptr_loop inc_ptr_body instr.operand self with
    | (false, self1) => Step.exit Exit.tape_limit { m with tap := self1 }
    | (true, self1) => Step.continue { m with tap := self1 }
  | OperationType.DEC_PTR =>
    match ptr_loop dec_ptr_body instr.operand self with
    | (false, self1) => Step.exit Exit.tape_limit { m with tap := self1 }
    | (true, self1) => Step.continue { m with tap := self1 }
  | OperationType.ADD_VAL =>
    let d := (load self.heap self.cell).data
    Step.continue { m with tap := { self with
      heap := store_data self.heap self.cell ((d + instr.operand % 256) % 256) } }
  | OperationType.SUB_VAL =>
    let d := (load self.heap self.cell).data
    Step.continue { m with tap := { self with
      heap := store_data self.heap self.cell ((d + 256 - instr.operand % 256) % 256) } }
  | OperationType.OUTPUT =>
    Step.continue { m with con := m.con.put w (load self.heap self.cell).data }
  | OperationType.INPUT =>
    match w.getchar m.con.reads with
    | some c =>
      Step.continue { m with
        tap := { self with heap := store_data self.heap self.cell (c % 256) },
        con := m.con.got }
    | none => Step.continue { m with con := m.con.got }
  | OperationType.JUMP_ZERO =>
    if (load self.heap self.cell).data = 0 then Step.continue { m with pc := instr.operand }
    else Step.continue m
  | OperationType.JUMP_NONZERO =>
    if (load self.heap self.cell).data ≠ 0 then Step.continue { m with pc := instr.operand }
    else Step.continue m
  | OperationType.SET_ZERO =>
    Step.continue { m with tap := { self with heap := store_data self.heap self.cell 0 } }
  | OperationType.HALT => Step.exit Exit.halt m

/-- One iteration of `while (pc < prog->size)`: fetch, `switch`, then `pc++`. -/
def tap_run_step (w : World) (prog : Program) (m : Machine) : Step :=
  match prog.get? m.pc with
  | none => Step.exit Exit.pc_end m
  | some instr =>
    match exec_switch w instr m with
    | Step.continue m1 => Step.continue { m1 with pc := m1.pc + 1 }
    | Step.exit e m1 => Step.exit e m1

/-- The `while` loop of `tap_run`, run for at most `fuel` iterations:
`Step.continue` means that the loop is still running when the fuel is spent. -/
def tap_run_loop (w : World) (prog : Program) : Nat → Machine → Step
  | 0, m => Step.continue m
  | fuel + 1, m =>
    match tap_run_step w prog m with
    | Step.continue m1 => tap_run_loop w prog fuel m1
    | Step.exit e m1 => Step.exit e m1

/-- The machine on which `tap_run(self, prog)` starts: `pc = 0`, untouched streams. -/
def start (self : Tap) : Machine :=
  { tap := self, pc := 0, con := { reads := 0, writes := 0, out := [] } }

/-- The call `tap_run(self, prog)`, with at most `fuel` loop iterations. -/
def tap_run (w : World) (prog : Program) (self : Tap) (fuel : Nat) : Step :=
  tap_run_loop w prog fuel (start self)

/-! ### The compiler -/

/-- The place where `compile_source` returns `false`.  `fuel` is not a C outcome: it
marks a `compile_loop` cut short by its fuel, which `compile_source` never is. -/
inductive CompileError where
  | nesting_too_deep
  | unmatched_close
  | unmatched_open
  | fuel
deriving DecidableEq, Repr

/-- `program_init`: an empty instruction array (`size = 0`). -/
def program_init : Program := []

/-- The inner loop `while (i + 1 < len && source[i + 1] == c) { instr.operand++; i++; }`.
`rest` is the source after position `i`; the result is the final operand and the
source after the final position `i`. -/
def fold_run (c : Char) : List Char → Nat → Nat × List Char
  | [], operand => (operand, [])
  | d :: rest, operand =>
    if d = c then fold_run c rest (operand + 1) else (operand, d :: rest)

/-- The test `i + 2 < len && (source[i + 1] == '-' || source[i + 1] == '+') &&
source[i + 2] == ']'`, on the source after position `i`. -/
def set_zero_idiom (rest : List Char) : Bool :=
  match rest with
  | c1 :: c2 :: _ => (decide (c1 = '-') || decide (c1 = '+')) && decide (c2 = ']')
  | _ => false

/-- The assignment `prog->ops[idx].operand = v`. -/
def set_operand (prog : Program) (idx v : Nat) : Program :=
  match prog.get? idx with
  | some instr => prog.set idx { instr with operand := v }
  | none => prog

/-- The state of the `for` loop of `compile_source` at the top of an iteration: the
source from position `i` on, the program built so far, and the loop stack
`loop_stack[stack_top], ..., loop_stack[0]` (so `stack_top = loop_stack.length - 1`). -/
structure CompileState where
  source : List Char
  prog : Program
  loop_stack : List Nat
deriving DecidableEq, Repr

/-- The tail of an iteration: `prog->ops[prog->size++] = instr`, with the loop going on at
`source`. -/
def emit (source : List Char) (prog : Program) (loop_stack : List Nat)
    (type : OperationType) (operand : Nat) : Except CompileError CompileState :=
  Except.ok { source := source,
              prog := prog ++ [{ type := type, operand := operand }],
              loop_stack := loop_stack }

/-- One iteration of the `for` loop of `compile_source` on the character `c = source[i]`;
`rest` is the source after position `i`.  The result is the state at the top of the next
iteration, or the reason of `return false`. -/
def compile_iter (c : Char) (rest : List Char) (prog : Program) (loop_stack : List Nat) :
    Except CompileError CompileState :=
  if c = '>' then
    emit (fold_run '>' rest 1).2 prog loop_stack OperationType.INC_PTR (fold_run '>' rest 1).1
  else if c = '<' then
    emit (fold_run '<' rest 1).2 prog loop_stack OperationType.DEC_PTR (fold_run '<' rest 1).1
  else if c = '+' then
    emit (fold_run '+' rest 1).2 prog loop_stack OperationType.ADD_VAL (fold_run '+' rest 1).1
  else if c = '-' then
    emit (fold_run '-' rest 1).2 prog loop_stack OperationType.SUB_VAL (fold_run '-' rest 1).1
  else if c = '.' then emit rest prog loop_stack OperationType.OUTPUT 0
  else if c = ',' then emit rest prog loop_stack OperationType.INPUT 0
  else if c = '[' then
    if set_zero_idiom rest then emit (rest.drop 2) prog loop_stack OperationType.SET_ZERO 0
    else if loop_stack.length ≥ 4096 then Except.error CompileError.nesting_too_deep
    else emit rest prog (prog.length :: loop_stack) OperationType.JUMP_ZERO 0
  else if c = ']' then
    match loop_stack with
    | [] => Except.error CompileError.unmatched_close
    | open_idx :: stack1 =>
      emit rest (set_operand prog open_idx prog.length) stack1
        OperationType.JUMP_NONZERO open_idx
  else Except.ok { source := rest, prog := prog, loop_stack := loop_stack }

/-- The `for` loop of `compile_source`, for at most `fuel` iterations.  Every iteration
consumes at least one character, so a fuel of the length of the source is enough. -/
def compile_loop : Nat → CompileState → Except CompileError CompileState
  | _, { source := [], prog := prog, loop_stack := loop_stack } =>
    Except.ok { source := [], prog := prog, loop_stack := loop_stack }
  | 0, { source := _ :: _, .. } => Except.error CompileError.fuel
  | fuel + 1, { source := c :: rest, prog := prog, loop_stack := loop_stack } =>
    match compile_iter c rest prog loop_stack with
    | Except.error e => Except.error e
    | Except.ok s => compile_loop fuel s

/-- `compile_source(source, prog)`.  `Except.ok` carries the program when C returns
`true`.  The trailing `HALT` is written by `prog->ops[prog->size].type = HALT` alone, so
its operand is whatever the uninitialised array held there: the parameter `junk`. -/
def compile_source (junk : Nat) (source : List Char) (prog : Program) :
    Except CompileError Program :=
  match compile_loop source.length { source := source, prog := prog, loop_stack := [] } with
  | Except.error e => Except.error e
  | Except.ok s =>
    if s.loop_stack.length ≥ 1 then Except.error CompileError.unmatched_open
    else Except.ok (s.prog ++ [{ type := OperationType.HALT, operand := junk }])

/-! ### Vocabulary for the statements about `compile_source` -/

/-- The four characters whose runs `compile_source` folds. -/
def fold_char (c : Char) : Prop :=
  c = '>' ∨ c = '<' ∨ c = '+' ∨ c = '-'

/-- The opcode that `compile_source` emits for a run of the character `c`. -/
def fold_opcode (c : Char) : OperationType :=
  if c = '>' then OperationType.INC_PTR
  else if c = '<' then OperationType.DEC_PTR
  else if c = '+' then OperationType.ADD_VAL
  else OperationType.SUB_VAL

/-- A character that is none of the eight instruction characters. -/
def inert_char (c : Char) : Prop :=
  c ≠ '>' ∧ c ≠ '<' ∧ c ≠ '+' ∧ c ≠ '-' ∧ c ≠ '.' ∧ c ≠ ',' ∧ c ≠ '[' ∧ c ≠ ']'

/-- The `for` loop of `compile_source` with the fuel that `compile_source` gives it. -/
def compile_all (s : CompileState) : Except CompileError CompileState :=
  compile_loop s.source.length s

/-- One iteration of the `for` loop takes the state `s` to the state `s1`. -/
def iter_step (s s1 : CompileState) : Prop :=
  ∃ c rest, s.source = c :: rest ∧ compile_iter c rest s.prog s.loop_stack = Except.ok s1

/-- The state `s1` is reached from the state `s` by iterations of the `for` loop. -/
def reaches (s s1 : CompileState) : Prop :=
  Relation.ReflTransGen iter_step s s1

/-- The bracket counter of a left-to-right reading of the source, started at depth `d`:
`[` adds one, `]` removes one, and `none` reports a `]` met at depth 0. -/
def bracket_scan : List Char → Nat → Option Nat
  | [], d => some d
  | c :: rest, d =>
    if c = '[' then bracket_scan rest (d + 1)
    else if c = ']' then (if d = 0 then none else bracket_scan rest (d - 1))
    else bracket_scan rest d

/-- The `[` / `]` of the source are balanced. -/
def balanced (source : List Char) : Prop :=
  bracket_scan source 0 = some 0

/-- Read from depth `d`, no `[` of the source brings the nesting depth above `bound`. -/
def depth_within (bound : Nat) : List Char → Nat → Prop
  | [], _ => True
  | c :: rest, d =>
    if c = '[' then d + 1 ≤ bound ∧ depth_within bound rest (d + 1)
    else if c = ']' then depth_within bound rest (d - 1)
    else depth_within bound rest d

instance balanced_decidable (source : List Char) : Decidable (balanced source) := by
  unfold balanced
  infer_instance

instance depth_within_decidable (bound : Nat) :
    ∀ (source : List Char) (d : Nat), Decidable (depth_within bound source d)
  | [], _ => isTrue True.intro
  | c :: rest, d => by
    unfold depth_within
    have h1 := depth_within_decidable bound rest (d + 1)
    have h2 := depth_within_decidable bound rest (d - 1)
    have h3 := depth_within_decidable bound rest d
    infer_instance

/-- The `[` at position `p` and the `]` at position `q` of the source match: the text
strictly between them is balanced. -/
def matching (source : List Char) (p q : Nat) : Prop :=
  ∃ pre seg rest, source = pre ++ '[' :: (seg ++ ']' :: rest) ∧ pre.length = p ∧
    q = p + 1 + seg.length ∧ balanced seg

/-- The `[` at position `p` of the source starts a set-zero idiom `[-]` or `[+]`. -/
def idiom_at (source : List Char) (p : Nat) : Prop :=
  set_zero_idiom (source.drop (p + 1)) = true

/-- Compiling `source` (into the empty program), the `for` loop is at position `p` at the
top of an iteration, with `i` instructions emitted so far: what position `p` emits, it
emits at index `i`. -/
def emitted_at (source : List Char) (p i : Nat) : Prop :=
  ∃ s pre, reaches { source := source, prog := program_init, loop_stack := [] } s ∧
    source = pre ++ s.source ∧ pre.length = p ∧ s.prog.length = i

/-- The loop stack is strictly decreasing from the top, and every entry is the index of a
`JUMP_ZERO` instruction whose operand is still the placeholder 0. -/
def stack_ok (s : CompileState) : Prop :=
  List.Pairwise (fun x y => y < x) s.loop_stack ∧
  ∀ x, x ∈ s.loop_stack →
    s.prog.get? x = some { type := OperationType.JUMP_ZERO, operand := 0 }

/-- The instruction at index `x` is final: it is emitted and no pending `[` points to it. -/
def frozen (s : CompileState) (x : Nat) : Prop :=
  x < s.prog.length ∧ x ∉ s.loop_stack

/-- The history of the loop stack `stack` when the loop started in `s0` is at the source
`source`: the top entry was pushed by the iteration of a reached state `so` on a generic
`[`, the text read since then is balanced, and the rest of the stack is the stack of
`so`, with its own history. -/
inductive opened (s0 : CompileState) : List Char → List Nat → Prop where
  | nil (source : List Char) : opened s0 source []
  | cons (so : CompileState) (seg source : List Char) :
      reaches s0 so → so.source = '[' :: (seg ++ source) →
      set_zero_idiom (seg ++ source) = false → balanced seg →
      opened s0 so.source so.loop_stack →
      opened s0 source (so.prog.length :: so.loop_stack)

/-! ### Vocabulary for the statements about `tap_run` -/

/-- The invariant of the tape: a doubly linked heap and a cursor on an allocated node. -/
def Tap.wf (self : Tap) : Prop :=
  linked self.heap ∧ allocated self.heap self.cell

/-- The effect on the tape of one of the four folded instructions with operand `n`. -/
def tape_op (op : OperationType) (n : Nat) (self : Tap) : Bool × Tap :=
  match op with
  | OperationType.INC_PTR => ptr_loop inc_ptr_body n self
  | OperationType.DEC_PTR => ptr_loop dec_ptr_body n self
  | OperationType.ADD_VAL =>
    (true, { self with
      heap := store_data self.heap self.cell (((load self.heap self.cell).data + n % 256) % 256) })
  | OperationType.SUB_VAL =>
    (true, { self with
      heap := store_data self.heap self.cell
        (((load self.heap self.cell).data + 256 - n % 256) % 256) })
  | _ => (true, self)

/-- What a finished run shows: how it ended, the tape and the streams (not the `pc`). -/
def Step.outcome : Step → Option (Exit × Tap × Console)
  | Step.continue _ => none
  | Step.exit e m => some (e, m.tap, m.con)

/-- The four opcodes that `compile_source` folds. -/
def folded (op : OperationType) : Prop :=
  op = OperationType.INC_PTR ∨ op = OperationType.DEC_PTR ∨
  op = OperationType.ADD_VAL ∨ op = OperationType.SUB_VAL

/-- The input stream of the bytes `'A'`, `'B'` followed by end-of-stream for ever, with an
output that accepts every byte. -/
def world_AB : World :=
  { getchar := fun k => if k = 0 then some 65 else if k = 1 then some 66 else none,
    putchar_ok := fun _ => true }

/-- The program that `compile_source` builds from `,[.,]`. -/
def echo_program (junk : Nat) : Program :=
  [{ type := OperationType.INPUT, operand := 0 },
   { type := OperationType.JUMP_ZERO, operand := 4 },
   { type := OperationType.OUTPUT, operand := 0 },
   { type := OperationType.INPUT, operand := 0 },
   { type := OperationType.JUMP_NONZERO, operand := 1 },
   { type := OperationType.HALT, operand := junk }]

/-- The machine running `,[.,]` on `world_AB` each time it is about to execute `OUTPUT`
after the end of the input: the cell holds `'B'`, and `k` more copies of `'B'` have been
written after `"A"`. -/
def echo_cycle (self : Tap) (k : Nat) : Machine :=
  { tap := { self with heap := store_data (store_data self.heap self.cell 65) self.cell 66 },
    pc := 2,
    con := { reads := 2 + k, writes := 1 + k, out := 65 :: List.replicate k 66 } }

end BfOpt

/-! ## `bf.c` -/

namespace Bf

/-- The C `struct Tap` of `bf.c`, together with the heap its nodes live in.  The field
`code_length` always holds `strlen(codes)`; it is the function `Tap.code_length`. -/
structure Tap where
  heap : Heap
  cell : Ptr
  codes : List Char
  pc : Nat
deriving DecidableEq, Repr

/-- The field `code_length`, set once by `tap_init` to `strlen(codes)`. -/
def Tap.code_length (self : Tap) : Nat := self.codes.length

/-- `tap_init(self, codes, initial_size)` on an empty heap. -/
def tap_init (codes : List Char) (initial_size : Nat) : Tap :=
  let cells := create_chunk 0 initial_size
  let cells := store_prev cells (Ptr.cell 0) Ptr.tomp
  let cells := store_next cells (Ptr.cell (initial_size - 1)) Ptr.tomp
  { heap := cells, cell := Ptr.cell (initial_size / 2), codes := codes, pc := 0 }

/-- `tap_resize_right(self)`; without allocation failure it returns `true`. -/
def tap_resize_right (self : Tap) : Bool × Tap :=
  let size := 1024
  let new_chunk := self.heap.length
  let heap := self.heap ++ create_chunk new_chunk size
  let old_tail := self.cell
  let heap := store_next heap old_tail (Ptr.cell new_chunk)
  let heap := store_prev heap (Ptr.cell new_chunk) old_tail
  let heap := store_next heap (Ptr.cell (new_chunk + (size - 1))) Ptr.tomp
  (true, { self with heap := heap })

/-- `tap_resize_left(self)`; without allocation failure it returns `true`. -/
def tap_resize_left (self : Tap) : Bool × Tap :=
  let size := 1024
  let new_chunk := self.heap.length
  let heap := self.heap ++ create_chunk new_chunk size
  let old_head := self.cell
  let heap := store_prev heap old_head (Ptr.cell (new_chunk + (size - 1)))
  let heap := store_next heap (Ptr.cell (new_chunk + (size - 1))) old_head
  let heap := store_prev heap (Ptr.cell new_chunk) Ptr.tomp
  (true, { self with heap := heap })

/-- `tap_move_right(self)`. -/
def tap_move_right (self : Tap) : Bool × Tap :=
  if node_is_tomp (load self.heap self.cell).next then
    match tap_resize_right self with
    | (false, self1) => (false, self1)
    | (true, self1) => (true, { self1 with cell := (load self1.heap self1.cell).next })
  else (true, { self with cell := (load self.heap self.cell).next })

/-- `tap_move_left(self)`. -/
def tap_move_left (self : Tap) : Bool × Tap :=
  if node_is_tomp (load self.heap self.cell).prev then
    match tap_resize_left self with
    | (false, self1) => (false, self1)
    | (true, self1) => (true, { self1 with cell := (load self1.heap self1.cell).prev })
  else (true, { self with cell := (load self.heap self.cell).prev })

/-- `tap_increment(self)`: `self->cell->data++` on a `uint8_t`. -/
def tap_increment (self : Tap) : Bool × Tap :=
  (true, { self with
    heap := store_data self.heap self.cell (((load self.heap self.cell).data + 1) % 256) })

/-- `tap_decrement(self)`: `self->cell->data--` on a `uint8_t`. -/
def tap_decrement (self : Tap) : Bool × Tap :=
  (true, { self with
    heap := store_data self.heap self.cell (((load self.heap self.cell).data + 255) % 256) })

/-- The state of a run of `bf.c`: the tape (with its `pc`) and the streams. -/
structure Machine where
  tap : Tap
  con : Console
deriving DecidableEq, Repr

/-- `tap_output(self)`: `false` when `putchar` reports `EOF`. -/
def tap_output (w : World) (m : Machine) : Bool × Machine :=
  (w.putchar_ok m.con.writes, { m with con := m.con.put w (load m.tap.heap m.tap.cell).data })

/-- `tap_input(self)`. -/
def tap_input (w : World) (m : Machine) : Bool × Machine :=
  match w.getchar m.con.reads with
  | some c =>
    (true, { tap := { m.tap with heap := store_data m.tap.heap m.tap.cell (c % 256) },
             con := m.con.got })
  | none => (true, { m with con := m.con.got })

/-- The C `enum LoopResult`. -/
inductive LoopResult where
  | UNCLOSED
  | OK
deriving DecidableEq, Repr

/-- The loop of `tap_jump_forward`.  `rest` holds the characters `codes[pc + 1]`,
`codes[pc + 2]`, ... up to the end of the code, so that `pc + 1 >= code_length` exactly
when `rest` is empty.  The result is the `LoopResult` and the final `pc`. -/
def jump_forward_loop : List Char → Nat → Nat → LoopResult × Nat
  | _, pc, 0 => (LoopResult.OK, pc)
  | [], pc, _ + 1 => (LoopResult.UNCLOSED, pc + 1)
  | c :: rest, pc, nesting + 1 =>
    if c = '[' then jump_forward_loop rest (pc + 1) (nesting + 2)
    else if c = ']' then jump_forward_loop rest (pc + 1) nesting
    else jump_forward_loop rest (pc + 1) (nesting + 1)

/-- `tap_jump_forward(self)`. -/
def tap_jump_forward (self : Tap) : LoopResult × Tap :=
  let r := jump_forward_loop (self.codes.drop (self.pc + 1)) self.pc 1
  (r.1, { self with pc := r.2 })

/-- The loop of `tap_jump_back`, by recursion on `pc`.  The result is the `LoopResult`
and the final `pc`. -/
def jump_back_loop (codes : List Char) : Nat → Nat → LoopResult × Nat
  | pc, 0 => (LoopResult.OK, pc)
  | 0, _ + 1 => (LoopResult.UNCLOSED, 0)
  | pc + 1, nesting + 1 =>
    let c := codes.getD pc ' '
    if c = ']' then jump_back_loop codes pc (nesting + 2)
    else if c = '[' then jump_back_loop codes pc nesting
    else jump_back_loop codes pc (nesting + 1)

/-- `tap_jump_back(self)`. -/
def tap_jump_back (self : Tap) : LoopResult × Tap :=
  let r := jump_back_loop self.codes self.pc 1
  (r.1, { self with pc := r.2 })

/-- How `tap_run` of `bf.c` can return: the loop condition `pc < code_length` became
false, a bracket scan reported `UNCLOSED`, or an operation returned `false`. -/
inductive Exit where
  | finished
  | unclosed
  | runtime_error
deriving DecidableEq, Repr

/-- The result of one step: the loop goes on, or `tap_run` has returned. -/
inductive Step where
  | continue (m : Machine)
  | exit (e : Exit) (m : Machine)
deriving DecidableEq, Repr

/-- The end of an iteration of `tap_run`: `if (!ok) return; self->pc++;`. -/
def finish_step (r : Bool × Machine) : Step :=
  if r.1 then Step.continue { r.2 with tap := { r.2.tap with pc := r.2.tap.pc + 1 } }
  else Step.exit Exit.runtime_error r.2

/-- One iteration of `while (self->pc < self->code_length)` in `tap_run`. -/
def tap_run_step (w : World) (m : Machine) : Step :=
  match m.tap.codes.get? m.tap.pc with
  | none => Step.exit Exit.finished m
  | some c =>
    if c = '>' then
      finish_step ((tap_move_right m.tap).1, { m with tap := (tap_move_right m.tap).2 })
    else if c = '<' then
      finish_step ((tap_move_left m.tap).1, { m with tap := (tap_move_left m.tap).2 })
    else if c = '+' then
      finish_step ((tap_increment m.tap).1, { m with tap := (tap_increment m.tap).2 })
    else if c = '-' then
      finish_step ((tap_decrement m.tap).1, { m with tap := (tap_decrement m.tap).2 })
    else if c = '.' then finish_step (tap_output w m)
    else if c = ',' then finish_step (tap_input w m)
    else if c = '[' then
      if (load m.tap.heap m.tap.cell).data = 0 then
        match tap_jump_forward m.tap with
        | (LoopResult.OK, self1) => finish_step (true, { m with tap := self1 })
        | (LoopResult.UNCLOSED, self1) => Step.exit Exit.unclosed { m with tap := self1 }
      else finish_step (true, m)
    else if c = ']' then
      if (load m.tap.heap m.tap.cell).data ≠ 0 then
        match tap_jump_back m.tap with
        | (LoopResult.OK, self1) => finish_step (true, { m with tap := self1 })
        | (LoopResult.UNCLOSED, self1) => Step.exit Exit.unclosed { m with tap := self1 }
      else finish_step (true, m)
    else finish_step (true, m)

/-- The `while` loop of `tap_run`, run for at most `fuel` iterations:
`Step.continue` means that the loop is still running when the fuel is spent. -/
def tap_run_loop (w : World) : Nat → Machine → Step
  | 0, m => Step.continue m
  | fuel + 1, m =>
    match tap_run_step w m with
    | Step.continue m1 => tap_run_loop w fuel m1
    | Step.exit e m1 => Step.exit e m1

/-- The machine on which `tap_run(self)` starts: untouched streams. -/
def start (self : Tap) : Machine :=
  { tap := self, con := { reads := 0, writes := 0, out := [] } }

/-- The call `tap_run(self)`, with at most `fuel` loop iterations. -/
def tap_run (w : World) (self : Tap) (fuel : Nat) : Step :=
  tap_run_loop w fuel (start self)

end Bf

/-! ### Vocabulary for the comparison of the two engines -/

/-- What one folded character `>`, `<`, `+`, `-` does to the heap and the cursor in
`bf.c` (`tap_move_right`, `tap_move_left`, `tap_increment`, `tap_decrement`). -/
def unit_op (c : Char) (h : Heap) (cell : Ptr) : Heap × Ptr :=
  if c = '>' then
    if node_is_tomp (load h cell).next then
      (grown_right h cell, (load (grown_right h cell) cell).next)
    else (h, (load h cell).next)
  else if c = '<' then
    if node_is_tomp (load h cell).prev then
      (grown_left h cell, (load (grown_left h cell) cell).prev)
    else (h, (load h cell).prev)
  else if c = '+' then (store_data h cell (((load h cell).data + 1) % 256), cell)
  else (store_data h cell (((load h cell).data + 255) % 256), cell)

/-- The program that `compile_source` builds from `+[-].` (with a zero `HALT` operand). -/
def witness_program : BfOpt.Program :=
  [{ type := BfOpt.OperationType.ADD_VAL, operand := 1 },
   { type := BfOpt.OperationType.SET_ZERO, operand := 0 },
   { type := BfOpt.OperationType.OUTPUT, operand := 0 },
   { type := BfOpt.OperationType.HALT, operand := 0 }]

/-- The machine that a result of `bfopt.c` carries. -/
def BfOpt.Step.machine : BfOpt.Step → BfOpt.Machine
  | BfOpt.Step.continue m => m
  | BfOpt.Step.exit _ m => m

/-- The machine that a result of `bf.c` carries. -/
def Bf.Step.machine : Bf.Step → Bf.Machine
  | Bf.Step.continue m => m
  | Bf.Step.exit _ m => m

/-- The bytecode machine `M` of `bfopt.c` and the machine `B` of `bf.c` are at the same
point of the run of `source`: the compiling loop reaches a state `s` whose position in the
source is the `pc` of `B` and whose program size is the `pc` of `M`; heap, cursor and
streams are the same; the tape is well formed. -/
def sim (source : List Char) (M : BfOpt.Machine) (B : Bf.Machine) : Prop :=
  ∃ s, BfOpt.reaches { source := source, prog := BfOpt.program_init, loop_stack := [] } s ∧
    B.tap.pc + s.source.length = source.length ∧ M.pc = s.prog.length ∧
    B.tap.codes = source ∧ B.tap.heap = M.tap.heap ∧ B.tap.cell = M.tap.cell ∧
    B.con = M.con ∧ M.tap.wf

/-- The two machines show the same thing: heap, cursor and streams. -/
def same_view (M : BfOpt.Machine) (B : Bf.Machine) : Prop :=
  B.tap.heap = M.tap.heap ∧ B.tap.cell = M.tap.cell ∧ B.con = M.con

/-! ### Vocabulary for the statements about single instructions -/

/-- Between the heaps `h` and `h1` nothing but the data byte of the node at `p` may have
changed: same nodes, every other node as it was, links of the node at `p` as they were. -/
def only_data_at (h h1 : Heap) (p : Ptr) : Prop :=
  h1.length = h.length ∧ (∀ q, q ≠ p → load h1 q = load h q) ∧
  (load h1 p).prev = (load h p).prev ∧ (load h1 p).next = (load h p).next

/-- An output stream whose first write fails and whose later writes succeed; the input is
empty. -/
def first_write_fails : World :=
  { getchar := fun _ => none, putchar_ok := fun k => decide (k ≠ 0) }

/-- The pointer reached from `p` by following the field `link` (`next` or `prev`) of the
addressed node `k` times. -/
def nth_link (link : Node → Ptr) (h : Heap) (p : Ptr) : Nat → Ptr
  | 0 => p
  | k + 1 => link (load h (nth_link link h p k))

/-- The pointer `p->next->...->next`, with `k` times `next`. -/
abbrev nth_next (h : Heap) (p : Ptr) (k : Nat) : Ptr := nth_link Node.next h p k

/-- The pointer `p->prev->...->prev`, with `k` times `prev`. -/
abbrev nth_prev (h : Heap) (p : Ptr) (k : Nat) : Ptr := nth_link Node.prev h p k

/-! ### Vocabulary for further statements about `compile_source` -/

namespace BfOpt

/-- No instruction of the program is `HALT`. -/
def halt_free (prog : Program) : Prop :=
  ∀ i instr, prog.get? i = some instr → instr.type ≠ OperationType.HALT

/-- The text `pre` followed directly by the text `rest` shows `compile_source` something
that a character between them hides: the last character of `pre` is one of `>` `<` `+` `-`
and `rest` starts with the same character (one run to fold), or `pre` ends with `[` and
`rest` starts with `-]` or `+]`, or `pre` ends with `[-` or `[+` and `rest` starts with `]`
(a set-zero idiom). -/
def joins (pre rest : List Char) : Bool :=
  match pre.reverse, rest with
  | a :: before, b :: _ =>
    (decide (a = b) &&
      (decide (a = '>') || decide (a = '<') || decide (a = '+') || decide (a = '-'))) ||
    (decide (a = '[') && set_zero_idiom rest) ||
    ((decide (a = '-') || decide (a = '+')) && decide (before.head? = some '[') &&
      decide (b = ']'))
  | _, _ => false

/-- One of the eight instruction characters `>` `<` `+` `-` `.` `,` `[` `]`. -/
def instruction_char (c : Char) : Bool :=
  decide (c = '>') || decide (c = '<') || decide (c = '+') || decide (c = '-') ||
  decide (c = '.') || decide (c = ',') || decide (c = '[') || decide (c = ']')

/-- The source with all characters other than the eight instruction characters removed. -/
def strip_inert (source : List Char) : List Char :=
  source.filter instruction_char

/-- No character of `source` that is not an instruction character hides a join: `acc`
holds the instruction characters read so far, and at every other character the
instruction characters before it and the instruction characters after it do not join. -/
def no_hidden_join_from (acc : List Char) : List Char → Bool
  | [] => true
  | x :: rest =>
    if instruction_char x then no_hidden_join_from (acc ++ [x]) rest
    else !joins acc (strip_inert rest) && no_hidden_join_from acc rest

/-- No character of the source that is not an instruction character separates two equal
characters among `>` `<` `+` `-` or stands inside a `[-]` / `[+]`, other such characters
disregarded. -/
def no_hidden_join (source : List Char) : Bool :=
  no_hidden_join_from [] source

/-- Read from depth `d`, no `[` of the source that does not start a set-zero idiom brings
the nesting depth above `bound`: at most `bound` generic loops are open at the same time. -/
def generic_within (bound : Nat) : List Char → Nat → Prop
  | [], _ => True
  | c :: rest, d =>
    if c = '[' then
      if set_zero_idiom rest = true then generic_within bound rest (d + 1)
      else d + 1 ≤ bound ∧ generic_within bound rest (d + 1)
    else if c = ']' then generic_within bound rest (d - 1)
    else generic_within bound rest d

instance generic_within_decidable (bound : Nat) :
    ∀ (source : List Char) (d : Nat), Decidable (generic_within bound source d)
  | [], _ => isTrue True.intro
  | c :: rest, d => by
    unfold generic_within
    have h1 := generic_within_decidable bound rest (d + 1)
    have h2 := generic_within_decidable bound rest (d - 1)
    have h3 := generic_within_decidable bound rest d
    infer_instance

/-- The source `++++++++[>++++[>++>+++>+++>+<<<<-]>+>+>->>+[<]<-]>>.>---.+++++++..+++.`. -/
def hello_source : List Char :=
  ['+', '+', '+', '+', '+', '+', '+', '+', '[', '>', '+', '+', '+', '+', '[', '>', '+', '+',
   '>', '+', '+', '+', '>', '+', '+', '+', '>', '+', '<', '<', '<', '<', '-', ']', '>', '+',
   '>', '+', '>', '-', '>', '>', '+', '[', '<', ']', '<', '-', ']', '>', '>', '.', '>', '-',
   '-', '-', '.', '+', '+', '+', '+', '+', '+', '+', '.', '.', '+', '+', '+', '.']

/-- The instructions that `compile_source` builds from `hello_source`, before `HALT`. -/
def hello_body : Program :=
  [⟨OperationType.ADD_VAL, 8⟩, ⟨OperationType.JUMP_ZERO, 29⟩, ⟨OperationType.INC_PTR, 1⟩,
   ⟨OperationType.ADD_VAL, 4⟩, ⟨OperationType.JUMP_ZERO, 15⟩, ⟨OperationType.INC_PTR, 1⟩,
   ⟨OperationType.ADD_VAL, 2⟩, ⟨OperationType.INC_PTR, 1⟩, ⟨OperationType.ADD_VAL, 3⟩,
   ⟨OperationType.INC_PTR, 1⟩, ⟨OperationType.ADD_VAL, 3⟩, ⟨OperationType.INC_PTR, 1⟩,
   ⟨OperationType.ADD_VAL, 1⟩, ⟨OperationType.DEC_PTR, 4⟩, ⟨OperationType.SUB_VAL, 1⟩,
   ⟨OperationType.JUMP_NONZERO, 4⟩, ⟨OperationType.INC_PTR, 1⟩, ⟨OperationType.ADD_VAL, 1⟩,
   ⟨OperationType.INC_PTR, 1⟩, ⟨OperationType.ADD_VAL, 1⟩, ⟨OperationType.INC_PTR, 1⟩,
   ⟨OperationType.SUB_VAL, 1⟩, ⟨OperationType.INC_PTR, 2⟩, ⟨OperationType.ADD_VAL, 1⟩,
   ⟨OperationType.JUMP_ZERO, 26⟩, ⟨OperationType.DEC_PTR, 1⟩, ⟨OperationType.JUMP_NONZERO, 24⟩,
   ⟨OperationType.DEC_PTR, 1⟩, ⟨OperationType.SUB_VAL, 1⟩, ⟨OperationType.JUMP_NONZERO, 1⟩,
   ⟨OperationType.INC_PTR, 2⟩, ⟨OperationType.OUTPUT, 0⟩, ⟨OperationType.INC_PTR, 1⟩,
   ⟨OperationType.SUB_VAL, 3⟩, ⟨OperationType.OUTPUT, 0⟩, ⟨OperationType.ADD_VAL, 7⟩,
   ⟨OperationType.OUTPUT, 0⟩, ⟨OperationType.OUTPUT, 0⟩, ⟨OperationType.ADD_VAL, 3⟩,
   ⟨OperationType.OUTPUT, 0⟩]

/-- The program that `compile_source` builds from `hello_source`. -/
def hello_program (junk : Nat) : Program :=
  hello_body ++ [⟨OperationType.HALT, junk⟩]

/-- An empty input and an output that accepts every byte. -/
def empty_input : World :=
  { getchar := fun _ => none, putchar_ok := fun _ => true }

/-! ### A window on the tape

A run that stays on a stretch of consecutive cells of one chunk can be followed on an
array of the data bytes of these cells.  The definitions below are this array view of
`tap_run`; `window_of` ties it to the machine. -/

/-- A stretch of consecutive cells seen as an array: their data bytes, the index of the
cursor in the stretch, and the `pc` and streams of the machine. -/
structure Window where
  cells : List Nat
  pos : Nat
  pc : Nat
  con : Console
deriving DecidableEq, Repr

/-- The `switch` of `tap_run` on a window.  The flag is `true` when the loop goes on and
`false` at `HALT`; the result is `none` when a pointer move would leave the window. -/
def window_switch (w : World) (instr : Instruction) (a : Window) : Option (Bool × Window) :=
  match instr.type with
  | OperationType.INC_PTR =>
    if a.pos + instr.operand < a.cells.length then
      some (true, { a with pos := a.pos + instr.operand })
    else none
  | OperationType.DEC_PTR =>
    if instr.operand ≤ a.pos then some (true, { a with pos := a.pos - instr.operand })
    else none
  | OperationType.ADD_VAL =>
    some (true, { a with
      cells := a.cells.set a.pos ((a.cells.getD a.pos 0 + instr.operand % 256) % 256) })
  | OperationType.SUB_VAL =>
    some (true, { a with
      cells := a.cells.set a.pos ((a.cells.getD a.pos 0 + 256 - instr.operand % 256) % 256) })
  | OperationType.OUTPUT => some (true, { a with con := a.con.put w (a.cells.getD a.pos 0) })
  | OperationType.INPUT =>
    match w.getchar a.con.reads with
    | some c => some (true, { a with cells := a.cells.set a.pos (c % 256), con := a.con.got })
    | none => some (true, { a with con := a.con.got })
  | OperationType.JUMP_ZERO =>
    if a.cells.getD a.pos 0 = 0 then some (true, { a with pc := instr.operand })
    else some (true, a)
  | OperationType.JUMP_NONZERO =>
    if a.cells.getD a.pos 0 ≠ 0 then some (true, { a with pc := instr.operand })
    else some (true, a)
  | OperationType.SET_ZERO => some (true, { a with cells := a.cells.set a.pos 0 })
  | OperationType.HALT => some (false, a)

/-- One iteration of the loop of `tap_run` on a window; `none` also when `pc` is past the
program. -/
def window_step (w : World) (prog : Program) (a : Window) : Option (Bool × Window) :=
  match prog.get? a.pc with
  | none => none
  | some instr =>
    match window_switch w instr a with
    | some (true, a1) => some (true, { a1 with pc := a1.pc + 1 })
    | some (false, a1) => some (false, a1)
    | none => none

/-- At most `fuel` iterations of the loop of `tap_run` on a window. -/
def window_run (w : World) (prog : Program) : Nat → Window → Option (Bool × Window)
  | 0, a => some (true, a)
  | fuel + 1, a =>
    match window_step w prog a with
    | some (true, a1) => window_run w prog fuel a1
    | some (false, a1) => some (false, a1)
    | none => none

/-- The nodes of the heap form one chunk linked in address order, with the sentinel at
both ends: the heap of a tape that has not grown. -/
def chained (h : Heap) : Prop :=
  ∀ x, x < h.length →
    (load h (Ptr.cell x)).next = (if x = h.length - 1 then Ptr.tomp else Ptr.cell (x + 1)) ∧
    (load h (Ptr.cell x)).prev = (if x = 0 then Ptr.tomp else Ptr.cell (x - 1))

/-- The window `a` shows the cells `base`, `base + 1`, ... of the machine `m`, whose tape
is one chunk: same `pc` and streams, cursor at `base + a.pos`, data bytes as in `a.cells`;
the window touches neither end of the chunk. -/
def window_of (base : Nat) (a : Window) (m : Machine) : Prop :=
  a.pos < a.cells.length ∧ 1 ≤ base ∧ base + a.cells.length < m.tap.heap.length ∧
  m.pc = a.pc ∧ m.con = a.con ∧ m.tap.cell = Ptr.cell (base + a.pos) ∧ chained m.tap.heap ∧
  ∀ i, i < a.cells.length → (load m.tap.heap (Ptr.cell (base + i))).data = a.cells.getD i 0

/-! ### The successful growths of a run -/

/-- The number of successful growths in one iteration of the `for` loop of
`case OperationType_INC_PTR`: the iteration calls `tap_resize_right` when the `next` link
of the cursor cell is the sentinel, and the growth is successful when the call returns
`true`. -/
def inc_ptr_growths (self : Tap) : Nat :=
  if node_is_tomp (load self.heap self.cell).next then
    match tap_resize_right self with
    | (false, _) => 0
    | (true, _) => 1
  else 0

/-- The number of successful growths in one iteration of the `for` loop of
`case OperationType_DEC_PTR`: the calls of `tap_resize_left` that return `true`. -/
def dec_ptr_growths (self : Tap) : Nat :=
  if node_is_tomp (load self.heap self.cell).prev then
    match tap_resize_left self with
    | (false, _) => 0
    | (true, _) => 1
  else 0

/-- The number of successful growths in the iterations that `ptr_loop body` runs, when
`growths` counts those of one iteration. -/
def ptr_loop_growths (body : Tap → Bool × Tap) (growths : Tap → Nat) : Nat → Tap → Nat
  | 0, _ => 0
  | k + 1, self =>
    match body self with
    | (false, _) => growths self
    | (true, self1) => growths self + ptr_loop_growths body growths k self1

/-- The number of successful growths in the `switch (instr.type)` of `tap_run`: only the
pointer moves call the resize functions. -/
def exec_switch_growths (instr : Instruction) (m : Machine) : Nat :=
  match instr.type with
  | OperationType.INC_PTR => ptr_loop_growths inc_ptr_body inc_ptr_growths instr.operand m.tap
  | OperationType.DEC_PTR => ptr_loop_growths dec_ptr_body dec_ptr_growths instr.operand m.tap
  | _ => 0

/-- The number of successful growths in one iteration of `while (pc < prog->size)`. -/
def tap_run_step_growths (prog : Program) (m : Machine) : Nat :=
  match prog.get? m.pc with
  | none => 0
  | some instr => exec_switch_growths instr m

/-- The number of successful growths in the iterations that `tap_run_loop` runs. -/
def tap_run_loop_growths (w : World) (prog : Program) : Nat → Machine → Nat
  | 0, _ => 0
  | fuel + 1, m =>
    match tap_run_step w prog m with
    | Step.continue m1 => tap_run_step_growths prog m + tap_run_loop_growths w prog fuel m1
    | Step.exit _ _ => tap_run_step_growths prog m

/-- The number of successful growths (calls of `tap_resize_right` / `tap_resize_left` that
return `true`) during `tap_run(self, prog)` with at most `fuel` loop iterations. -/
def tap_run_growths (w : World) (prog : Program) (self : Tap) (fuel : Nat) : Nat :=
  tap_run_loop_growths w prog fuel (start self)

/-- The tape `t` differs from the tape `t0` by `g` growths in its sizes: same limit, 1024
more in `current_cells_size` and 1024 more nodes per growth, and a size below
`cells_limit + 1024` when that of `t0` is. -/
def grown_by (t0 : Tap) (g : Nat) (t : Tap) : Prop :=
  t.cells_limit = t0.cells_limit ∧
  t.current_cells_size = t0.current_cells_size + 1024 * g ∧
  t.heap.length = t0.heap.length + 1024 * g ∧
  (t0.current_cells_size < t0.cells_limit + 1024 →
    t.current_cells_size < t.cells_limit + 1024)

/-! ### `main` of `bfopt.c` -/

/-- The status that `main` returns. -/
inductive ExitStatus where
  | EXIT_SUCCESS
  | EXIT_FAILURE
deriving DecidableEq, Repr

/-- The lines that `compile_source`, `tap_resize_right` / `tap_resize_left`, `tap_run` and
`main` write on the standard error stream: `Error: Unmatched [`, `Compilation Failed.`,
`Error: Tape limit exceeded!` and `Runtime Error: Memory limit exceeded`. -/
inductive Message where
  | unmatched_open
  | compilation_failed
  | tape_limit_exceeded
  | memory_limit_exceeded
deriving DecidableEq, Repr

/-- What `compile_source` writes before it returns `false`: a line for a `[` left open,
nothing at a `]` with no `[` open and nothing at a full loop stack. -/
def compile_messages : CompileError → List Message
  | CompileError.unmatched_open => [Message.unmatched_open]
  | _ => []

/-- What `tap_run` has written when it returns: at a refused growth the line of the
resize function and then the line of `tap_run`; nothing at `HALT`. -/
def run_messages : Exit → List Message
  | Exit.tape_limit => [Message.tape_limit_exceeded, Message.memory_limit_exceeded]
  | _ => []

/-- The function `main` from the point where the options are parsed and the file is read
(`source`), without `--verbose` and with no allocation failure: the status it returns and
what has been written on the standard error stream.  `none` means that `tap_run` has not
returned within `fuel` iterations. -/
def main_after_read (w : World) (junk : Nat) (source : List Char) (tape_size max_cells : Nat)
    (fuel : Nat) : Option (ExitStatus × List Message) :=
  match compile_source junk source program_init with
  | Except.error e =>
    some (ExitStatus.EXIT_FAILURE, compile_messages e ++ [Message.compilation_failed])
  | Except.ok program =>
    match tap_run w program (tap_init tape_size max_cells) fuel with
    | Step.continue _ => none
    | Step.exit e _ => some (ExitStatus.EXIT_SUCCESS, run_messages e)

end BfOpt

/-! ## `bflist.c` -/

namespace BfList

/-- The C `struct Tap` of `bflist.c`: the arrays `right` and `left` with their capacities,
the position `pos` (a `long`, negative on the left side) and the limit.  Capacities and
indices are naturals: they are bounded by `limit`, far below `2 ^ 64`. -/
structure Tap where
  right : List Nat
  right_cap : Nat
  left : List Nat
  left_cap : Nat
  pos : Int
  limit : Nat
deriving DecidableEq, Repr

/-- `tap_init(self, initial_size, limit)`: two zeroed arrays (`calloc`). -/
def tap_init (initial_size limit : Nat) : Tap :=
  { right := List.replicate initial_size 0,
    right_cap := initial_size,
    left := List.replicate initial_size 0,
    left_cap := initial_size,
    limit := limit,
    pos := 0 }

/-- The byte `*tap_get_ptr(self)`: `right[pos]` for `pos >= 0`, `left[~pos]` otherwise.
A read outside the array (undefined behaviour in C) gives 0. -/
def tap_get (self : Tap) : Nat :=
  if self.pos ≥ 0 then self.right.getD self.pos.toNat 0
  else self.left.getD (-self.pos - 1).toNat 0

/-- The index that `tap_get_ptr` uses on the side of `pos`: `pos` or `~pos`. -/
def side_index (pos : Int) : Nat :=
  if pos ≥ 0 then pos.toNat else (-pos - 1).toNat

/-- `tap_move(self, offset)`: the returned flag is the C return value.  `realloc` keeps the
old bytes and `memset` zeroes the new ones. -/
def tap_move (self : Tap) (offset : Int) : Bool × Tap :=
  let self := { self with pos := self.pos + offset }
  if self.pos ≥ 0 then
    if self.pos.toNat ≥ self.right_cap then
      let new_cap := self.right_cap * 2
      let new_cap := if new_cap ≤ self.pos.toNat then self.pos.toNat + 1 else new_cap
      if new_cap > self.limit then (false, self)
      else
        (true, { self with right := self.right ++ List.replicate (new_cap - self.right_cap) 0,
                           right_cap := new_cap })
    else (true, self)
  else
    let index := (-self.pos - 1).toNat
    if index ≥ self.left_cap then
      let new_cap := self.left_cap * 2
      let new_cap := if new_cap ≤ index then index + 1 else new_cap
      if new_cap > self.limit then (false, self)
      else
        (true, { self with left := self.left ++ List.replicate (new_cap - self.left_cap) 0,
                           left_cap := new_cap })
    else (true, self)

end BfList

end BrainFuck


namespace BrainFuck

/-! ## Heap lemmas -/

theorem length_store (h : Heap) (p : Ptr) (f : Node → Node) :
    (store h p f).length = h.length := by
  cases p <;> simp [store]

theorem load_store_same (h : Heap) (a : Nat) (f : Node → Node) (ha : a < h.length) :
    load (store h (Ptr.cell a) f) (Ptr.cell a) = f (load h (Ptr.cell a)) := by
  simp [store, load, List.getD_eq_getElem?_getD, List.getElem?_set, ha]

theorem load_store_other (h : Heap) (p q : Ptr) (f : Node → Node) (hpq : p ≠ q) :
    load (store h p f) q = load h q := by
  cases p with
  | null => rfl
  | tomp => rfl
  | cell a =>
    cases q with
    | null => rfl
    | tomp => rfl
    | cell b =>
      have hab : a ≠ b := fun e => hpq (by rw [e])
      simp [store, load, List.getD_eq_getElem?_getD, List.getElem?_set, hab]

theorem store_invalid (h : Heap) (a : Nat) (f : Node → Node) (ha : h.length ≤ a) :
    store h (Ptr.cell a) f = h := by
  simp only [store]
  exact List.set_eq_of_length_le ha

theorem store_store_same (h : Heap) (p : Ptr) (f g : Node → Node) :
    store (store h p f) p g = store h p (fun n => g (f n)) := by
  cases p with
  | null => rfl
  | tomp => rfl
  | cell a =>
    by_cases ha : a < h.length
    · have := load_store_same h a f ha
      simp only [store] at this ⊢
      rw [this, List.set_set]
    · rw [store_invalid h a f (by omega), store_invalid h a g (by omega),
        store_invalid h a _ (by omega)]

theorem store_data_twice (h : Heap) (p : Ptr) (d e : Nat) :
    store_data (store_data h p d) p e = store_data h p e := by
  simp only [store_data, store_store_same]

theorem load_store_data (h : Heap) (p : Ptr) :
    (∀ d, (load (store_data h p d) p).data = d) ∨ (∀ d, store_data h p d = h) := by
  cases p with
  | null => right; intro d; rfl
  | tomp => right; intro d; rfl
  | cell a =>
    by_cases ha : a < h.length
    · left; intro d; simp only [store_data]; rw [load_store_same h a _ ha]
    · right; intro d; exact store_invalid h a _ (by omega)

theorem length_create_chunk (base count : Nat) : (create_chunk base count).length = count := by
  simp [create_chunk]

theorem load_create_chunk (h : Heap) (count i : Nat) (hi : i < count) :
    load (h ++ create_chunk h.length count) (Ptr.cell (h.length + i)) =
      { prev := if i = 0 then Ptr.null else Ptr.cell (h.length + (i - 1)),
        next := if i = count - 1 then Ptr.null else Ptr.cell (h.length + (i + 1)),
        data := 0 } := by
  have hlen : (h ++ create_chunk h.length count).length = h.length + count := by
    simp [create_chunk]
  have hget : (h ++ create_chunk h.length count)[h.length + i]? =
      (create_chunk h.length count)[i]? := by
    rw [List.getElem?_append_right (by omega)]
    simp
  simp only [load, List.getD_eq_getElem?_getD, hget]
  simp [create_chunk, List.getElem?_range, hi]

theorem load_append_left (h c : Heap) (a : Nat) (ha : a < h.length) :
    load (h ++ c) (Ptr.cell a) = load h (Ptr.cell a) := by
  simp [load, List.getD_eq_getElem?_getD, List.getElem?_append_left, ha]

theorem load_invalid (h : Heap) (a : Nat) (ha : h.length ≤ a) :
    load h (Ptr.cell a) = { prev := Ptr.null, next := Ptr.null, data := 0 } := by
  simp [load, List.getD_eq_getElem?_getD, List.getElem?_eq_none ha]

/-- A pointer whose `next` field reads as the sentinel addresses an allocated node. -/
theorem valid_of_next_tomp (h : Heap) (p : Ptr) (hn : (load h p).next = Ptr.tomp) :
    ∃ a, p = Ptr.cell a ∧ a < h.length := by
  cases p with
  | null => simp [load] at hn
  | tomp => simp [load, TOMP] at hn
  | cell a =>
    by_cases ha : a < h.length
    · exact ⟨a, rfl, ha⟩
    · rw [load_invalid h a (by omega)] at hn
      simp at hn

/-- A pointer whose `prev` field reads as the sentinel addresses an allocated node. -/
theorem valid_of_prev_tomp (h : Heap) (p : Ptr) (hn : (load h p).prev = Ptr.tomp) :
    ∃ a, p = Ptr.cell a ∧ a < h.length := by
  cases p with
  | null => simp [load] at hn
  | tomp => simp [load, TOMP] at hn
  | cell a =>
    by_cases ha : a < h.length
    · exact ⟨a, rfl, ha⟩
    · rw [load_invalid h a (by omega)] at hn
      simp at hn

namespace BfOpt

theorem exec_switch_folded (w : World) (op : OperationType) (n : Nat) (m : Machine)
    (hop : folded op) :
    exec_switch w { type := op, operand := n } m =
      match tape_op op n m.tap with
      | (true, t) => Step.continue { m with tap := t }
      | (false, t) => Step.exit Exit.tape_limit { m with tap := t } := by
  rcases hop with h | h | h | h <;> subst h <;> simp only [exec_switch, tape_op]
  · rcases ptr_loop inc_ptr_body n m.tap with ⟨_ | _, t⟩ <;> rfl
  · rcases ptr_loop dec_ptr_body n m.tap with ⟨_ | _, t⟩ <;> rfl

theorem ptr_loop_one (body : Tap → Bool × Tap) (t : Tap) : ptr_loop body 1 t = body t := by
  simp only [ptr_loop]
  rcases body t with ⟨_ | _, t1⟩ <;> rfl

theorem ptr_loop_succ (body : Tap → Bool × Tap) (n : Nat) (t : Tap) :
    ptr_loop body (n + 1) t =
      match ptr_loop body 1 t with
      | (true, t1) => ptr_loop body n t1
      | (false, t1) => (false, t1) := by
  rw [ptr_loop_one]
  simp only [ptr_loop]
  rcases body t with ⟨_ | _, t1⟩ <;> rfl

theorem tape_op_succ (op : OperationType) (n : Nat) (t : Tap) (hop : folded op) :
    tape_op op (n + 1) t =
      match tape_op op 1 t with
      | (true, t1) => tape_op op n t1
      | (false, t1) => (false, t1) := by
  rcases hop with h | h | h | h <;> subst h <;> simp only [tape_op]
  · exact ptr_loop_succ _ n t
  · exact ptr_loop_succ _ n t
  · rcases load_store_data t.heap t.cell with h | h
    · simp only [h, store_data_twice]
      congr 3
      omega
    · simp only [h]
  · rcases load_store_data t.heap t.cell with h | h
    · simp only [h, store_data_twice]
      congr 3
      omega
    · simp only [h]

theorem tap_run_step_folded (w : World) (prog : Program) (op : OperationType) (n : Nat)
    (m : Machine) (hop : folded op) (hget : prog.get? m.pc = some { type := op, operand := n }) :
    tap_run_step w prog m =
      match tape_op op n m.tap with
      | (true, t) => Step.continue { m with tap := t, pc := m.pc + 1 }
      | (false, t) => Step.exit Exit.tape_limit { m with tap := t } := by
  simp only [tap_run_step, hget, exec_switch_folded w op n m hop]
  rcases tape_op op n m.tap with ⟨_ | _, t⟩ <;> rfl

theorem tap_run_step_halt (w : World) (prog : Program) (j : Nat) (m : Machine)
    (hget : prog.get? m.pc = some { type := OperationType.HALT, operand := j }) :
    tap_run_step w prog m = Step.exit Exit.halt m := by
  simp only [tap_run_step, hget, exec_switch]

/-- A block of `n` unit instructions followed by `HALT` acts as `tape_op op n`. -/
theorem run_units (w : World) (prog : Program) (op : OperationType) (j : Nat)
    (hop : folded op) :
    ∀ (n : Nat) (m : Machine), 1 ≤ n →
      (∀ i, i < n → prog.get? (m.pc + i) = some { type := op, operand := 1 }) →
      prog.get? (m.pc + n) = some { type := OperationType.HALT, operand := j } →
      (tap_run_loop w prog (n + 1) m).outcome =
        match tape_op op n m.tap with
        | (true, t) => some (Exit.halt, t, m.con)
        | (false, t) => some (Exit.tape_limit, t, m.con) := by
  intro n
  induction n with
  | zero => intro m h; omega
  | succ n ih =>
    intro m _ hunits hhalt
    have h0 := hunits 0 (by omega)
    rw [Nat.add_zero] at h0
    rw [tap_run_loop, tap_run_step_folded w prog op 1 m hop h0]
    by_cases hn : n = 0
    · subst hn
      rcases h1 : tape_op op 1 m.tap with ⟨_ | _, t⟩
      · rfl
      · have hh : prog.get? (m.pc + 1) = some { type := OperationType.HALT, operand := j } := by
          simpa using hhalt
        simp only [h1]
        rw [tap_run_loop, tap_run_step_halt w prog j _ hh]
        rfl
    · rw [tape_op_succ op n m.tap hop]
      rcases h1 : tape_op op 1 m.tap with ⟨_ | _, t⟩
      · rfl
      · have := ih { m with tap := t, pc := m.pc + 1 } (by omega)
          (fun i hi => by
            have := hunits (i + 1) (by omega)
            simpa [Nat.add_assoc, Nat.add_comm 1 i] using this)
          (by simpa [Nat.add_assoc, Nat.add_comm 1 n] using hhalt)
        simpa using this

/-- C4: for each of `INC_PTR`, `DEC_PTR`, `ADD_VAL`, `SUB_VAL`, every `N >= 1` and every
tape, running the folded instruction with operand `N` followed by `HALT` ends exactly as
running `N` copies of the instruction with operand 1 followed by `HALT`: same way of
ending (`HALT` or tape-limit failure), same heap, cursor and `current_cells_size`, same
streams; and both runs do end. -/
theorem folded_instruction_equals_unit_instructions (w : World) (op : OperationType)
    (N j : Nat) (self : Tap) (hop : folded op) (hN : 1 ≤ N) :
    (tap_run w [{ type := op, operand := N }, { type := OperationType.HALT, operand := j }]
        self 2).outcome =
      (tap_run w (List.replicate N { type := op, operand := 1 } ++
        [{ type := OperationType.HALT, operand := j }]) self (N + 1)).outcome ∧
    (tap_run w [{ type := op, operand := N }, { type := OperationType.HALT, operand := j }]
        self 2).outcome ≠ none := by
  have hfold : (tap_run w [{ type := op, operand := N },
      { type := OperationType.HALT, operand := j }] self 2).outcome =
      match tape_op op N self with
      | (true, t) => some (Exit.halt, t, (start self).con)
      | (false, t) => some (Exit.tape_limit, t, (start self).con) := by
    rw [tap_run, tap_run_loop, tap_run_step_folded w
      [{ type := op, operand := N }, { type := OperationType.HALT, operand := j }]
      op N (start self) hop rfl]
    show Step.outcome (match (match tape_op op N self with
      | (true, t) => Step.continue { start self with tap := t, pc := (start self).pc + 1 }
      | (false, t) => Step.exit Exit.tape_limit { start self with tap := t }) with
      | Step.continue m1 => tap_run_loop w _ 1 m1
      | Step.exit e m1 => Step.exit e m1) = _
    rcases tape_op op N self with ⟨_ | _, t⟩
    · rfl
    · rfl
  have hunits := run_units w (List.replicate N { type := op, operand := 1 } ++
      [{ type := OperationType.HALT, operand := j }]) op j hop N (start self) hN
      (fun i hi => by
        show List.get? _ (0 + i) = _
        rw [Nat.zero_add, List.get?_eq_getElem?, List.getElem?_append_left (by simpa using hi)]
        simp [List.getElem?_replicate, hi])
      (by
        show List.get? _ (0 + N) = _
        rw [Nat.zero_add, List.get?_eq_getElem?, List.getElem?_append_right (by simp)]
        simp)
  constructor
  · rw [hfold, tap_run, hunits]
    rfl
  · rw [hfold]
    rcases tape_op op N self with ⟨_ | _, t⟩ <;> simp

theorem folded_instruction_equals_unit_instructions_witness :
    folded OperationType.ADD_VAL ∧ 1 ≤ 3 ∧
    ((tap_run { getchar := fun _ => none, putchar_ok := fun _ => true }
        [{ type := OperationType.ADD_VAL, operand := 3 },
          { type := OperationType.HALT, operand := 0 }] (tap_init 2 2048) 2).outcome =
      (tap_run { getchar := fun _ => none, putchar_ok := fun _ => true }
        (List.replicate 3 { type := OperationType.ADD_VAL, operand := 1 } ++
          [{ type := OperationType.HALT, operand := 0 }]) (tap_init 2 2048) (3 + 1)).outcome ∧
    (tap_run { getchar := fun _ => none, putchar_ok := fun _ => true }
        [{ type := OperationType.ADD_VAL, operand := 3 },
          { type := OperationType.HALT, operand := 0 }] (tap_init 2 2048) 2).outcome ≠ none) :=
  ⟨Or.inr (Or.inr (Or.inl rfl)), by decide,
    folded_instruction_equals_unit_instructions _ OperationType.ADD_VAL 3 0 _
      (Or.inr (Or.inr (Or.inl rfl))) (by decide)⟩

end BfOpt

end BrainFuck


namespace BrainFuck

theorem load_store (h : Heap) (a x : Nat) (f : Node → Node) :
    load (store h (Ptr.cell a) f) (Ptr.cell x) =
      if x = a ∧ a < h.length then f (load h (Ptr.cell a)) else load h (Ptr.cell x) := by
  by_cases hx : x = a
  · subst hx
    by_cases ha : x < h.length
    · simp [load_store_same, ha]
    · simp [ha, store_invalid h x f (by omega)]
  · rw [load_store_other h _ _ f (fun e => hx (by injection e with e; exact e.symm))]
    simp [hx]

theorem length_grown_right (h : Heap) (p : Ptr) :
    (grown_right h p).length = h.length + 1024 := by
  simp [grown_right, store_next, store_prev, length_store, length_create_chunk]

theorem length_grown_left (h : Heap) (p : Ptr) :
    (grown_left h p).length = h.length + 1024 := by
  simp [grown_left, store_next, store_prev, length_store, length_create_chunk]

theorem load_append_chunk (h : Heap) (count x : Nat) :
    load (h ++ create_chunk h.length count) (Ptr.cell x) =
      if x < h.length then load h (Ptr.cell x)
      else if x < h.length + count then
        { prev := if x = h.length then Ptr.null else Ptr.cell (x - 1),
          next := if x = h.length + (count - 1) then Ptr.null else Ptr.cell (x + 1),
          data := 0 }
      else { prev := Ptr.null, next := Ptr.null, data := 0 } := by
  by_cases h1 : x < h.length
  · simp [h1, load_append_left]
  · by_cases h2 : x < h.length + count
    · obtain ⟨i, rfl⟩ : ∃ i, x = h.length + i := ⟨x - h.length, by omega⟩
      rw [load_create_chunk h count i (by omega)]
      simp only [h1, h2, if_false, if_true]
      congr 1
      · by_cases hi : i = 0
        · simp [hi]
        · have : h.length + i ≠ h.length := by omega
          simp only [hi, this, if_false]
          congr 1
          omega
      · by_cases hi : i = count - 1
        · simp [hi]
        · have : h.length + i ≠ h.length + (count - 1) := by omega
          simp only [hi, this, if_false]
          rfl
    · rw [load_invalid _ x (by simp [length_create_chunk]; omega)]
      simp [h1, h2]

/-- Every node of the heap after a right growth at the allocated cell `a`. -/
theorem load_grown_right (h : Heap) (a x : Nat) (ha : a < h.length) :
    load (grown_right h (Ptr.cell a)) (Ptr.cell x) =
      if x < h.length then
        (if x = a then { load h (Ptr.cell a) with next := Ptr.cell h.length }
         else load h (Ptr.cell x))
      else if x < h.length + 1024 then
        { prev := if x = h.length then Ptr.cell a else Ptr.cell (x - 1),
          next := if x = h.length + 1023 then Ptr.tomp else Ptr.cell (x + 1),
          data := 0 }
      else { prev := Ptr.null, next := Ptr.null, data := 0 } := by
  simp only [grown_right, store_next, store_prev, load_store, length_store, List.length_append,
    length_create_chunk, load_append_chunk]
  by_cases h1 : x < h.length
  · have e1 : ¬ (x = h.length + (1024 - 1)) := by omega
    have e2 : ¬ (x = h.length) := by omega
    by_cases h2 : x = a
    · subst h2
      have e5 : x < h.length + 1024 := by omega
      simp [h1, e1, e2, e5]
    · simp [h1, e1, e2, h2, ha]
  · by_cases h2 : x < h.length + 1024
    · have e3 : x ≠ a := by omega
      by_cases h3 : x = h.length
      · subst h3
        simp [ha, e3]
      · by_cases h4 : x = h.length + 1023
        · subst h4
          simp [ha, e3]
        · have e4 : ¬ (x = h.length + (1024 - 1)) := by omega
          simp [h1, h2, h3, h4, e3, e4, ha]
    · have e1 : ¬ (x = h.length + (1024 - 1)) := by omega
      have e2 : ¬ (x = h.length) := by omega
      have e3 : x ≠ a := by omega
      simp [h1, h2, e1, e2, e3]

/-- Every node of the heap after a left growth at the allocated cell `a`. -/
theorem load_grown_left (h : Heap) (a x : Nat) (ha : a < h.length) :
    load (grown_left h (Ptr.cell a)) (Ptr.cell x) =
      if x < h.length then
        (if x = a then { load h (Ptr.cell a) with prev := Ptr.cell (h.length + 1023) }
         else load h (Ptr.cell x))
      else if x < h.length + 1024 then
        { prev := if x = h.length then Ptr.tomp else Ptr.cell (x - 1),
          next := if x = h.length + 1023 then Ptr.cell a else Ptr.cell (x + 1),
          data := 0 }
      else { prev := Ptr.null, next := Ptr.null, data := 0 } := by
  simp only [grown_left, store_next, store_prev, load_store, length_store, List.length_append,
    length_create_chunk, load_append_chunk]
  by_cases h1 : x < h.length
  · have e1 : ¬ (x = h.length + (1024 - 1)) := by omega
    have e2 : ¬ (x = h.length) := by omega
    by_cases h2 : x = a
    · subst h2
      have e5 : x < h.length + 1024 := by omega
      simp [h1, e1, e2, e5]
    · simp [h1, e1, e2, h2, ha]
  · by_cases h2 : x < h.length + 1024
    · have e3 : x ≠ a := by omega
      by_cases h3 : x = h.length
      · subst h3
        simp [ha, e3]
      · by_cases h4 : x = h.length + 1023
        · subst h4
          simp [ha, e3]
        · have e4 : ¬ (x = h.length + (1024 - 1)) := by omega
          simp [h1, h2, h3, h4, e3, e4, ha]
    · have e1 : ¬ (x = h.length + (1024 - 1)) := by omega
      have e2 : ¬ (x = h.length) := by omega
      have e3 : x ≠ a := by omega
      simp [h1, h2, e1, e2, e3]


theorem linked_grown_right (h : Heap) (a : Nat) (ha : a < h.length) (hl : linked h)
    (hn : (load h (Ptr.cell a)).next = Ptr.tomp) : linked (grown_right h (Ptr.cell a)) := by
  intro x hx
  rw [length_grown_right] at hx
  simp only [length_grown_right, load_grown_right h a _ ha]
  by_cases h1 : x < h.length
  · obtain ⟨hnx, hpx⟩ := hl x h1
    simp only [h1, if_true]
    constructor
    · by_cases h2 : x = a
      · subst h2
        right
        refine ⟨h.length, by omega, by simp, by simp⟩
      · rcases hnx with hnx | ⟨b, hb, hb1, hb2⟩
        · left; simp [h2, hnx]
        · right
          refine ⟨b, by omega, by simp [h2, hb1], ?_⟩
          simp only [hb, if_true]
          by_cases h3 : b = a
          · subst h3; simp [hb2]
          · simp [h3, hb2]
    · rcases hpx with hpx | ⟨b, hb, hb1, hb2⟩
      · left
        by_cases h2 : x = a
        · subst h2; simp [hpx]
        · simp [h2, hpx]
      · right
        have hba : b ≠ a := by
          intro e
          subst e
          rw [hn] at hb2
          exact absurd hb2 (by simp)
        refine ⟨b, by omega, ?_, ?_⟩
        · by_cases h2 : x = a
          · subst h2; simp [hb1]
          · simp [h2, hb1]
        · simp [hb, hba, hb2]
  · have h2 : x < h.length + 1024 := hx
    simp only [h1, h2, if_true, if_false]
    constructor
    · by_cases h3 : x = h.length + 1023
      · left; simp [h3]
      · right
        refine ⟨x + 1, by omega, by simp [h3], ?_⟩
        have e1 : ¬ (x + 1 < h.length) := by omega
        have e2 : x + 1 < h.length + 1024 := by omega
        have e3 : x + 1 ≠ h.length := by omega
        simp [e1, e2, e3]
    · right
      by_cases h3 : x = h.length
      · refine ⟨a, by omega, by simp [h3], ?_⟩
        simp [ha, h3]
      · refine ⟨x - 1, by omega, by simp [h3], ?_⟩
        have e1 : ¬ (x - 1 < h.length) := by omega
        have e2 : x - 1 < h.length + 1024 := by omega
        have e3 : x - 1 ≠ h.length + 1023 := by omega
        have e4 : x - 1 + 1 = x := by omega
        simp [e1, e2, e3, e4]

theorem linked_grown_left (h : Heap) (a : Nat) (ha : a < h.length) (hl : linked h)
    (hn : (load h (Ptr.cell a)).prev = Ptr.tomp) : linked (grown_left h (Ptr.cell a)) := by
  intro x hx
  rw [length_grown_left] at hx
  simp only [length_grown_left, load_grown_left h a _ ha]
  by_cases h1 : x < h.length
  · obtain ⟨hnx, hpx⟩ := hl x h1
    simp only [h1, if_true]
    constructor
    · rcases hnx with hnx | ⟨b, hb, hb1, hb2⟩
      · left
        by_cases h2 : x = a
        · subst h2; simp [hnx]
        · simp [h2, hnx]
      · right
        have hba : b ≠ a := by
          intro e
          subst e
          rw [hn] at hb2
          exact absurd hb2 (by simp)
        refine ⟨b, by omega, ?_, ?_⟩
        · by_cases h2 : x = a
          · subst h2; simp [hb1]
          · simp [h2, hb1]
        · simp [hb, hba, hb2]
    · by_cases h2 : x = a
      · subst h2
        right
        refine ⟨h.length + 1023, by omega, by simp, by simp⟩
      · rcases hpx with hpx | ⟨b, hb, hb1, hb2⟩
        · left; simp [h2, hpx]
        · right
          refine ⟨b, by omega, by simp [h2, hb1], ?_⟩
          simp only [hb, if_true]
          by_cases h3 : b = a
          · subst h3; simp [hb2]
          · simp [h3, hb2]
  · have h2 : x < h.length + 1024 := hx
    simp only [h1, h2, if_true, if_false]
    constructor
    · right
      by_cases h3 : x = h.length + 1023
      · refine ⟨a, by omega, by simp [h3], ?_⟩
        simp [ha, h3]
      · refine ⟨x + 1, by omega, by simp [h3], ?_⟩
        have e1 : ¬ (x + 1 < h.length) := by omega
        have e2 : x + 1 < h.length + 1024 := by omega
        have e3 : x + 1 ≠ h.length := by omega
        simp [e1, e2, e3]
    · by_cases h3 : x = h.length
      · left; simp [h3]
      · right
        refine ⟨x - 1, by omega, by simp [h3], ?_⟩
        have e1 : ¬ (x - 1 < h.length) := by omega
        have e2 : x - 1 < h.length + 1024 := by omega
        have e3 : x - 1 ≠ h.length + 1023 := by omega
        have e4 : x - 1 + 1 = x := by omega
        simp [e1, e2, e3, e4]

theorem load_store_data_links (h : Heap) (p q : Ptr) (d : Nat) :
    (load (store_data h p d) q).next = (load h q).next ∧
    (load (store_data h p d) q).prev = (load h q).prev := by
  by_cases hpq : p = q
  · subst hpq
    cases p with
    | null => exact ⟨rfl, rfl⟩
    | tomp => exact ⟨rfl, rfl⟩
    | cell a =>
      simp only [store_data, load_store]
      by_cases ha : a < h.length
      · simp [ha]
      · simp [ha]
  · simp only [store_data]
    rw [load_store_other h p q _ hpq]
    exact ⟨rfl, rfl⟩

theorem linked_store_data (h : Heap) (p : Ptr) (d : Nat) (hl : linked h) :
    linked (store_data h p d) := by
  intro x hx
  have hlen : (store_data h p d).length = h.length := length_store h p _
  rw [hlen] at hx ⊢
  obtain ⟨hnx, hpx⟩ := hl x hx
  simp only [(load_store_data_links h p _ d).1, (load_store_data_links h p _ d).2]
  exact ⟨hnx, hpx⟩

theorem allocated_store_data (h : Heap) (p q : Ptr) (d : Nat) (ha : allocated h q) :
    allocated (store_data h p d) q := by
  obtain ⟨a, rfl, ha⟩ := ha
  exact ⟨a, rfl, by simpa [store_data, length_store] using ha⟩

end BrainFuck


namespace BrainFuck

/-- Every node of the heap built by `tap_init`. -/
theorem load_init_heap (s x : Nat) :
    load (store_next (store_prev (create_chunk 0 s) (Ptr.cell 0) Ptr.tomp)
        (Ptr.cell (s - 1)) Ptr.tomp) (Ptr.cell x) =
      if x < s then
        { prev := if x = 0 then Ptr.tomp else Ptr.cell (x - 1),
          next := if x = s - 1 then Ptr.tomp else Ptr.cell (x + 1),
          data := 0 }
      else { prev := Ptr.null, next := Ptr.null, data := 0 } := by
  have hc := load_append_chunk [] s
  simp only [List.nil_append, List.length_nil, Nat.zero_add, Nat.not_lt_zero, if_false] at hc
  simp only [store_next, store_prev, load_store, length_store, length_create_chunk, hc]
  by_cases h1 : x < s
  · by_cases h2 : x = 0
    · subst h2
      by_cases h3 : 0 = s - 1
      · have e : s - 1 < s := by omega
        simp [h1, ← h3]
      · have e : s - 1 < s := by omega
        simp [h1, h3, e]
    · by_cases h3 : x = s - 1
      · have e : s - 1 < s := by omega
        have e0 : 0 < s := by omega
        subst h3
        simp [h2, e, e0]
      · simp [h1, h2, h3]
  · have e : ¬ (s - 1 < s ∧ x = s - 1) := by omega
    have e0 : ¬ (0 < s ∧ x = 0) := by omega
    by_cases h2 : x = 0
    · have hs : ¬ (0 < s) := by omega
      by_cases h3 : x = s - 1
      · have hs1 : ¬ (s - 1 < s) := by omega
        simp [h1, hs, hs1]
      · simp [h1, hs, h3]
    · by_cases h3 : x = s - 1
      · have hs1 : ¬ (s - 1 < s) := by omega
        simp [h1, h2, hs1]
      · simp [h1, h2, h3]

theorem length_init_heap (s : Nat) :
    (store_next (store_prev (create_chunk 0 s) (Ptr.cell 0) Ptr.tomp)
        (Ptr.cell (s - 1)) Ptr.tomp).length = s := by
  simp [store_next, store_prev, length_store, length_create_chunk]

theorem linked_init_heap (s : Nat) :
    linked (store_next (store_prev (create_chunk 0 s) (Ptr.cell 0) Ptr.tomp)
        (Ptr.cell (s - 1)) Ptr.tomp) := by
  intro x hx
  rw [length_init_heap] at hx
  simp only [length_init_heap, load_init_heap]
  simp only [hx, if_true]
  constructor
  · by_cases h3 : x = s - 1
    · left; simp [h3]
    · right
      have e1 : x + 1 < s := by omega
      refine ⟨x + 1, e1, by simp [h3], ?_⟩
      simp [e1]
  · by_cases h2 : x = 0
    · left; simp [h2]
    · right
      have e1 : x - 1 < s := by omega
      have e2 : x - 1 ≠ s - 1 := by omega
      have e3 : x - 1 + 1 = x := by omega
      refine ⟨x - 1, e1, by simp [h2], ?_⟩
      simp [e1, e2, e3]

namespace BfOpt

theorem tap_init_wf (s l : Nat) (hs : 1 ≤ s) : (tap_init s l).wf := by
  refine ⟨linked_init_heap s, s / 2, rfl, ?_⟩
  show s / 2 < List.length (store_next (store_prev (create_chunk 0 s) (Ptr.cell 0) Ptr.tomp)
        (Ptr.cell (s - 1)) Ptr.tomp)
  rw [length_init_heap]
  omega

theorem tap_resize_right_eq (t : Tap) :
    tap_resize_right t =
      if t.current_cells_size ≥ t.cells_limit then (false, t)
      else (true, { t with heap := grown_right t.heap t.cell,
                           current_cells_size := t.current_cells_size + 1024 }) := rfl

theorem tap_resize_left_eq (t : Tap) :
    tap_resize_left t =
      if t.current_cells_size ≥ t.cells_limit then (false, t)
      else (true, { t with heap := grown_left t.heap t.cell,
                           current_cells_size := t.current_cells_size + 1024 }) := rfl

/-- The three ways an iteration of the `INC_PTR` loop can go. -/
theorem inc_ptr_body_cases (t : Tap) :
    ((load t.heap t.cell).next ≠ Ptr.tomp ∧
      inc_ptr_body t = (true, { t with cell := (load t.heap t.cell).next })) ∨
    ((load t.heap t.cell).next = Ptr.tomp ∧ t.cells_limit ≤ t.current_cells_size ∧
      inc_ptr_body t = (false, t)) ∨
    ((load t.heap t.cell).next = Ptr.tomp ∧ t.current_cells_size < t.cells_limit ∧
      inc_ptr_body t = (true, { heap := grown_right t.heap t.cell,
                                cell := Ptr.cell t.heap.length,
                                cells_limit := t.cells_limit,
                                current_cells_size := t.current_cells_size + 1024 })) := by
  by_cases hn : (load t.heap t.cell).next = Ptr.tomp
  · right
    by_cases hl : t.cells_limit ≤ t.current_cells_size
    · left
      refine ⟨hn, hl, ?_⟩
      simp [inc_ptr_body, node_is_tomp, hn, tap_resize_right_eq, hl]
    · right
      refine ⟨hn, by omega, ?_⟩
      obtain ⟨a, hca, ha⟩ := valid_of_next_tomp _ _ hn
      have hld : (load (grown_right t.heap t.cell) t.cell).next = Ptr.cell t.heap.length := by
        rw [hca, load_grown_right _ _ _ ha]
        simp [ha]
      simp [inc_ptr_body, node_is_tomp, hn, tap_resize_right_eq, hl, hld]
  · left
    refine ⟨hn, ?_⟩
    simp [inc_ptr_body, node_is_tomp, hn]

/-- The three ways an iteration of the `DEC_PTR` loop can go. -/
theorem dec_ptr_body_cases (t : Tap) :
    ((load t.heap t.cell).prev ≠ Ptr.tomp ∧
      dec_ptr_body t = (true, { t with cell := (load t.heap t.cell).prev })) ∨
    ((load t.heap t.cell).prev = Ptr.tomp ∧ t.cells_limit ≤ t.current_cells_size ∧
      dec_ptr_body t = (false, t)) ∨
    ((load t.heap t.cell).prev = Ptr.tomp ∧ t.current_cells_size < t.cells_limit ∧
      dec_ptr_body t = (true, { heap := grown_left t.heap t.cell,
                                cell := Ptr.cell (t.heap.length + 1023),
                                cells_limit := t.cells_limit,
                                current_cells_size := t.current_cells_size + 1024 })) := by
  by_cases hn : (load t.heap t.cell).prev = Ptr.tomp
  · right
    by_cases hl : t.cells_limit ≤ t.current_cells_size
    · left
      refine ⟨hn, hl, ?_⟩
      simp [dec_ptr_body, node_is_tomp, hn, tap_resize_left_eq, hl]
    · right
      refine ⟨hn, by omega, ?_⟩
      obtain ⟨a, hca, ha⟩ := valid_of_prev_tomp _ _ hn
      have hld : (load (grown_left t.heap t.cell) t.cell).prev =
          Ptr.cell (t.heap.length + 1023) := by
        rw [hca, load_grown_left _ _ _ ha]
        simp [ha]
      simp [dec_ptr_body, node_is_tomp, hn, tap_resize_left_eq, hl, hld]
  · left
    refine ⟨hn, ?_⟩
    simp [dec_ptr_body, node_is_tomp, hn]

/-- An iteration of the `INC_PTR` loop keeps the tape invariant. -/
theorem inc_ptr_body_wf (t : Tap) (hwf : t.wf) : (inc_ptr_body t).2.wf := by
  obtain ⟨hl, a, hca, ha⟩ := hwf
  rcases inc_ptr_body_cases t with ⟨hn, he⟩ | ⟨_, _, he⟩ | ⟨hn, _, he⟩
  · rw [he]
    refine ⟨hl, ?_⟩
    rw [hca] at hn ⊢
    rcases (hl a ha).1 with h1 | ⟨b, hb, hb1, _⟩
    · exact absurd h1 hn
    · exact ⟨b, hb1, hb⟩
  · rw [he]; exact ⟨hl, a, hca, ha⟩
  · rw [he]
    rw [hca] at hn
    refine ⟨?_, t.heap.length, rfl, ?_⟩
    · show linked (grown_right t.heap t.cell)
      rw [hca]
      exact linked_grown_right _ a ha hl hn
    · show t.heap.length < (grown_right t.heap t.cell).length
      rw [length_grown_right]; omega

/-- An iteration of the `DEC_PTR` loop keeps the tape invariant. -/
theorem dec_ptr_body_wf (t : Tap) (hwf : t.wf) : (dec_ptr_body t).2.wf := by
  obtain ⟨hl, a, hca, ha⟩ := hwf
  rcases dec_ptr_body_cases t with ⟨hn, he⟩ | ⟨_, _, he⟩ | ⟨hn, _, he⟩
  · rw [he]
    refine ⟨hl, ?_⟩
    rw [hca] at hn ⊢
    rcases (hl a ha).2 with h1 | ⟨b, hb, hb1, _⟩
    · exact absurd h1 hn
    · exact ⟨b, hb1, hb⟩
  · rw [he]; exact ⟨hl, a, hca, ha⟩
  · rw [he]
    rw [hca] at hn
    refine ⟨?_, t.heap.length + 1023, rfl, ?_⟩
    · show linked (grown_left t.heap t.cell)
      rw [hca]
      exact linked_grown_left _ a ha hl hn
    · show t.heap.length + 1023 < (grown_left t.heap t.cell).length
      rw [length_grown_left]; omega

theorem ptr_loop_wf (body : Tap → Bool × Tap) (hbody : ∀ t, t.wf → (body t).2.wf) :
    ∀ (n : Nat) (t : Tap), t.wf → (ptr_loop body n t).2.wf := by
  intro n
  induction n with
  | zero => intro t h; exact h
  | succ n ih =>
    intro t h
    have hb := hbody t h
    simp only [ptr_loop]
    rcases hbt : body t with ⟨_ | _, t1⟩
    · rw [hbt] at hb; exact hb
    · rw [hbt] at hb; exact ih t1 hb

end BfOpt

end BrainFuck


namespace BrainFuck

namespace BfOpt

theorem ptr_loop_succ_right (body : Tap → Bool × Tap) :
    ∀ (n : Nat) (t : Tap),
      ptr_loop body (n + 1) t =
        match ptr_loop body n t with
        | (true, t1) => body t1
        | (false, t1) => (false, t1) := by
  intro n
  induction n with
  | zero =>
    intro t
    rw [ptr_loop_one]
    rfl
  | succ n ih =>
    intro t
    rw [ptr_loop_succ body (n + 1) t, ptr_loop_succ body n t, ptr_loop_one]
    rcases body t with ⟨_ | _, t1⟩
    · rfl
    · exact ih t1

/-- A successful iteration of the `INC_PTR` loop: old nodes keep `prev` and `data`, and the
new cursor's `prev` is the old cursor. -/
theorem inc_ptr_body_frame (t t1 : Tap) (hwf : t.wf) (h : inc_ptr_body t = (true, t1)) :
    t.heap.length ≤ t1.heap.length ∧
    (∀ x, x < t.heap.length →
      (load t1.heap (Ptr.cell x)).prev = (load t.heap (Ptr.cell x)).prev ∧
      (load t1.heap (Ptr.cell x)).data = (load t.heap (Ptr.cell x)).data) ∧
    (load t1.heap t1.cell).prev = t.cell := by
  obtain ⟨hl, a, hca, ha⟩ := hwf
  rcases inc_ptr_body_cases t with ⟨hn, he⟩ | ⟨_, _, he⟩ | ⟨hn, _, he⟩
  · rw [he] at h
    injection h with _ h
    subst h
    refine ⟨Nat.le_refl _, fun x _ => ⟨rfl, rfl⟩, ?_⟩
    rw [hca] at hn ⊢
    rcases (hl a ha).1 with h1 | ⟨b, _, hb1, hb2⟩
    · exact absurd h1 hn
    · show (load t.heap (load t.heap (Ptr.cell a)).next).prev = Ptr.cell a
      rw [hb1, hb2]
  · rw [he] at h
    injection h with h _
    exact absurd h (by simp)
  · rw [he] at h
    injection h with _ h
    subst h
    simp only [length_grown_right, hca, load_grown_right t.heap a _ ha]
    refine ⟨by omega, ?_, by simp⟩
    intro x hx
    by_cases hxa : x = a
    · subst hxa; simp [hx]
    · simp [hx, hxa]

theorem ptr_loop_inc_frame :
    ∀ (n : Nat) (t t1 : Tap), t.wf → ptr_loop inc_ptr_body n t = (true, t1) →
      t.heap.length ≤ t1.heap.length ∧
      (∀ x, x < t.heap.length →
        (load t1.heap (Ptr.cell x)).prev = (load t.heap (Ptr.cell x)).prev ∧
        (load t1.heap (Ptr.cell x)).data = (load t.heap (Ptr.cell x)).data) := by
  intro n
  induction n with
  | zero =>
    intro t t1 _ h
    simp only [ptr_loop] at h
    injection h with _ h
    subst h
    exact ⟨Nat.le_refl _, fun x _ => ⟨rfl, rfl⟩⟩
  | succ n ih =>
    intro t t1 hwf h
    simp only [ptr_loop] at h
    rcases hb : inc_ptr_body t with ⟨_ | _, t2⟩
    · rw [hb] at h
      injection h with h _
      exact absurd h (by simp)
    · rw [hb] at h
      have hwf2 : t2.wf := by
        have := inc_ptr_body_wf t hwf
        rw [hb] at this
        exact this
      obtain ⟨hlen, hfr, _⟩ := inc_ptr_body_frame t t2 hwf hb
      obtain ⟨hlen2, hfr2⟩ := ih t2 t1 hwf2 h
      refine ⟨by omega, fun x hx => ?_⟩
      have h1 := hfr x hx
      have h2 := hfr2 x (by omega)
      exact ⟨h2.1.trans h1.1, h2.2.trans h1.2⟩

/-- Moving right `n` cells and then left `n` cells comes back to the starting cell without
touching the heap. -/
theorem ptr_loop_round_trip :
    ∀ (n : Nat) (t t1 : Tap), t.wf → ptr_loop inc_ptr_body n t = (true, t1) →
      ptr_loop dec_ptr_body n t1 = (true, { t1 with cell := t.cell }) := by
  intro n
  induction n with
  | zero =>
    intro t t1 _ h
    simp only [ptr_loop] at h
    injection h with _ h
    subst h
    rfl
  | succ n ih =>
    intro t t1 hwf h
    simp only [ptr_loop] at h
    rcases hb : inc_ptr_body t with ⟨_ | _, t2⟩
    · rw [hb] at h
      injection h with h _
      exact absurd h (by simp)
    · rw [hb] at h
      have hwf2 : t2.wf := by
        have := inc_ptr_body_wf t hwf
        rw [hb] at this
        exact this
      obtain ⟨_, _, hprev⟩ := inc_ptr_body_frame t t2 hwf hb
      obtain ⟨_, hfr2⟩ := ptr_loop_inc_frame n t2 t1 hwf2 h
      rw [ptr_loop_succ_right, ih t2 t1 hwf2 h]
      obtain ⟨_, a2, hca2, ha2⟩ := hwf2
      obtain ⟨_, a, hca, _⟩ := hwf
      have hp : (load t1.heap t2.cell).prev = t.cell := by
        rw [hca2] at hprev ⊢
        rw [(hfr2 a2 ha2).1, hprev]
      rcases dec_ptr_body_cases { t1 with cell := t2.cell } with ⟨_, he⟩ | ⟨hn, _, _⟩ | ⟨hn, _, _⟩
      · simp only [he, hp]
      · simp only [hp, hca] at hn
        exact absurd hn (by simp)
      · simp only [hp, hca] at hn
        exact absurd hn (by simp)

/-- C10: from every well-formed tape from which a move right by `N` succeeds, the program
`[INC_PTR N, DEC_PTR N, HALT]` reaches `HALT` with the cursor on the cell it started on and
the data byte of every previously existing cell unchanged; the return trip triggers no
growth: the heap and `current_cells_size` are those reached by the move right. -/
theorem move_right_then_left_round_trip (w : World) (N j : Nat) (self : Tap)
    (hwf : self.wf) (hright : (ptr_loop inc_ptr_body N self).1 = true) :
    ∃ m, tap_run w [{ type := OperationType.INC_PTR, operand := N },
          { type := OperationType.DEC_PTR, operand := N },
          { type := OperationType.HALT, operand := j }] self 3 = Step.exit Exit.halt m ∧
      m.tap.cell = self.cell ∧
      (∀ a, a < self.heap.length →
        (load m.tap.heap (Ptr.cell a)).data = (load self.heap (Ptr.cell a)).data) ∧
      m.tap.heap = (ptr_loop inc_ptr_body N self).2.heap ∧
      m.tap.current_cells_size = (ptr_loop inc_ptr_body N self).2.current_cells_size := by
  rcases hr : ptr_loop inc_ptr_body N self with ⟨b, t1⟩
  rw [hr] at hright
  simp only at hright
  subst hright
  have hback := ptr_loop_round_trip N self t1 hwf hr
  obtain ⟨_, hfr⟩ := ptr_loop_inc_frame N self t1 hwf hr
  refine ⟨{ tap := { t1 with cell := self.cell }, pc := 2, con := (start self).con }, ?_, rfl,
    fun a ha => (hfr a ha).2, rfl, rfl⟩
  obtain ⟨prog, hprog⟩ : ∃ prog : Program, prog =
      [{ type := OperationType.INC_PTR, operand := N },
       { type := OperationType.DEC_PTR, operand := N },
       { type := OperationType.HALT, operand := j }] := ⟨_, rfl⟩
  rw [← hprog]
  have g0 : prog.get? (start self).pc = some { type := OperationType.INC_PTR, operand := N } := by
    rw [hprog]; rfl
  have g1 : prog.get? 1 = some { type := OperationType.DEC_PTR, operand := N } := by
    rw [hprog]; rfl
  have g2 : prog.get? 2 = some { type := OperationType.HALT, operand := j } := by
    rw [hprog]; rfl
  have s1 : tap_run_step w prog (start self) =
      Step.continue { tap := t1, pc := 1, con := (start self).con } := by
    rw [tap_run_step_folded w prog OperationType.INC_PTR N (start self) (Or.inl rfl) g0]
    show (match ptr_loop inc_ptr_body N self with
      | (true, t) => Step.continue { start self with tap := t, pc := (start self).pc + 1 }
      | (false, t) => Step.exit Exit.tape_limit { start self with tap := t }) = _
    rw [hr]
    rfl
  have s2 : tap_run_step w prog { tap := t1, pc := 1, con := (start self).con } =
      Step.continue { tap := { t1 with cell := self.cell }, pc := 2, con := (start self).con } := by
    rw [tap_run_step_folded w prog OperationType.DEC_PTR N _ (Or.inr (Or.inl rfl)) g1]
    show (match ptr_loop dec_ptr_body N t1 with
      | (true, t) => Step.continue { tap := t, pc := 1 + 1, con := (start self).con }
      | (false, t) => Step.exit Exit.tape_limit { tap := t, pc := 1, con := (start self).con })
      = _
    rw [hback]
  have s3 : tap_run_step w prog
      { tap := { t1 with cell := self.cell }, pc := 2, con := (start self).con } =
      Step.exit Exit.halt
        { tap := { t1 with cell := self.cell }, pc := 2, con := (start self).con } :=
    tap_run_step_halt w prog j _ g2
  simp only [tap_run, tap_run_loop, s1, s2, s3]

theorem move_right_then_left_round_trip_witness :
    (tap_init 2 30000).wf ∧ (ptr_loop inc_ptr_body 1 (tap_init 2 30000)).1 = true ∧
    ∃ m, tap_run { getchar := fun _ => none, putchar_ok := fun _ => true }
          [{ type := OperationType.INC_PTR, operand := 1 },
          { type := OperationType.DEC_PTR, operand := 1 },
          { type := OperationType.HALT, operand := 0 }] (tap_init 2 30000) 3 =
          Step.exit Exit.halt m ∧
      m.tap.cell = (tap_init 2 30000).cell ∧
      (∀ a, a < (tap_init 2 30000).heap.length →
        (load m.tap.heap (Ptr.cell a)).data =
          (load (tap_init 2 30000).heap (Ptr.cell a)).data) ∧
      m.tap.heap = (ptr_loop inc_ptr_body 1 (tap_init 2 30000)).2.heap ∧
      m.tap.current_cells_size =
        (ptr_loop inc_ptr_body 1 (tap_init 2 30000)).2.current_cells_size :=
  ⟨tap_init_wf 2 30000 (by decide), by decide,
    move_right_then_left_round_trip _ 1 0 _ (tap_init_wf 2 30000 (by decide)) (by decide)⟩

end BfOpt

end BrainFuck


namespace BrainFuck

namespace BfOpt

/-- C7: when a unit move (`INC_PTR 1` / `DEC_PTR 1`) starts on the boundary cell in its
direction, (1) if the growth brings `current_cells_size` to exactly `cells_limit`, the
step succeeds, the cursor is in the new chunk and `pc` advances; (2) if
`current_cells_size` equals `cells_limit`, `tap_run` returns at that instruction with the
whole machine (cursor, heap with its data and links, `current_cells_size`) unchanged. -/
theorem growth_to_the_limit_then_refusal (w : World) (prog : Program) (m : Machine)
    (instr : Instruction) (hfetch : prog.get? m.pc = some instr) (hunit : instr.operand = 1)
    (hboundary :
      (instr.type = OperationType.INC_PTR ∧ (load m.tap.heap m.tap.cell).next = Ptr.tomp) ∨
      (instr.type = OperationType.DEC_PTR ∧ (load m.tap.heap m.tap.cell).prev = Ptr.tomp)) :
    (m.tap.current_cells_size + 1024 = m.tap.cells_limit →
      ∃ m1, tap_run_step w prog m = Step.continue m1 ∧
        m1.tap.current_cells_size = m.tap.cells_limit ∧
        m1.tap.heap.length = m.tap.heap.length + 1024 ∧
        (∃ a, m1.tap.cell = Ptr.cell a ∧ m.tap.heap.length ≤ a ∧
          a < m.tap.heap.length + 1024) ∧
        m1.pc = m.pc + 1) ∧
    (m.tap.current_cells_size = m.tap.cells_limit →
      tap_run_step w prog m = Step.exit Exit.tape_limit m) := by
  obtain ⟨ty, n⟩ := instr
  simp only at hunit hboundary
  subst hunit
  rcases hboundary with ⟨hty, hn⟩ | ⟨hty, hn⟩
  · subst hty
    rw [tap_run_step_folded w prog _ 1 m (Or.inl rfl) hfetch]
    simp only [tape_op, ptr_loop_one]
    constructor
    · intro hsz
      rcases inc_ptr_body_cases m.tap with ⟨h1, _⟩ | ⟨_, h2, _⟩ | ⟨_, _, he⟩
      · exact absurd hn h1
      · omega
      · rw [he]
        exact ⟨_, rfl, hsz, length_grown_right _ _, ⟨_, rfl, Nat.le_refl _, by omega⟩, rfl⟩
    · intro hsz
      rcases inc_ptr_body_cases m.tap with ⟨h1, _⟩ | ⟨_, _, he⟩ | ⟨_, h2, _⟩
      · exact absurd hn h1
      · rw [he]
      · omega
  · subst hty
    rw [tap_run_step_folded w prog _ 1 m (Or.inr (Or.inl rfl)) hfetch]
    simp only [tape_op, ptr_loop_one]
    constructor
    · intro hsz
      rcases dec_ptr_body_cases m.tap with ⟨h1, _⟩ | ⟨_, h2, _⟩ | ⟨_, _, he⟩
      · exact absurd hn h1
      · omega
      · rw [he]
        exact ⟨_, rfl, hsz, length_grown_left _ _, ⟨_, rfl, by omega, by omega⟩, rfl⟩
    · intro hsz
      rcases dec_ptr_body_cases m.tap with ⟨h1, _⟩ | ⟨_, _, he⟩ | ⟨_, h2, _⟩
      · exact absurd hn h1
      · rw [he]
      · omega

theorem growth_to_the_limit_then_refusal_witness :
    (([{ type := OperationType.INC_PTR, operand := 1 }] : Program).get? (start (tap_init 1 1025)).pc
        = some { type := OperationType.INC_PTR, operand := 1 } ∧
      (load (tap_init 1 1025).heap (tap_init 1 1025).cell).next = Ptr.tomp ∧
      (tap_init 1 1025).current_cells_size + 1024 = (tap_init 1 1025).cells_limit ∧
      ∃ m1, tap_run_step { getchar := fun _ => none, putchar_ok := fun _ => true }
          [{ type := OperationType.INC_PTR, operand := 1 }] (start (tap_init 1 1025)) =
            Step.continue m1 ∧
        m1.tap.current_cells_size = (start (tap_init 1 1025)).tap.cells_limit ∧
        m1.tap.heap.length = (start (tap_init 1 1025)).tap.heap.length + 1024 ∧
        (∃ a, m1.tap.cell = Ptr.cell a ∧ (start (tap_init 1 1025)).tap.heap.length ≤ a ∧
          a < (start (tap_init 1 1025)).tap.heap.length + 1024) ∧
        m1.pc = (start (tap_init 1 1025)).pc + 1) ∧
    (([{ type := OperationType.DEC_PTR, operand := 1 }] : Program).get? (start (tap_init 1 1)).pc
        = some { type := OperationType.DEC_PTR, operand := 1 } ∧
      (load (tap_init 1 1).heap (tap_init 1 1).cell).prev = Ptr.tomp ∧
      (tap_init 1 1).current_cells_size = (tap_init 1 1).cells_limit ∧
      tap_run_step { getchar := fun _ => none, putchar_ok := fun _ => true }
          [{ type := OperationType.DEC_PTR, operand := 1 }] (start (tap_init 1 1)) =
        Step.exit Exit.tape_limit (start (tap_init 1 1))) :=
  ⟨⟨rfl, by decide, by decide,
      (growth_to_the_limit_then_refusal _ [{ type := OperationType.INC_PTR, operand := 1 }]
        (start (tap_init 1 1025)) { type := OperationType.INC_PTR, operand := 1 } rfl rfl
        (Or.inl ⟨rfl, by decide⟩)).1 (by decide)⟩,
    ⟨rfl, by decide, by decide,
      (growth_to_the_limit_then_refusal _ [{ type := OperationType.DEC_PTR, operand := 1 }]
        (start (tap_init 1 1)) { type := OperationType.DEC_PTR, operand := 1 } rfl rfl
        (Or.inr ⟨rfl, by decide⟩)).2 (by decide)⟩⟩

/-- C6, the run that breaks the bound: with `initial_size = 1 <= max_cells = 2`, the program
`[INC_PTR 1, HALT]` (the source `>`) reaches `HALT` with `current_cells_size = 1025`, above
`cells_limit = 2`: `tap_resize_right` compares the size before the growth with the limit. -/
theorem growth_overshoots_cells_limit :
    ∃ m, tap_run { getchar := fun _ => none, putchar_ok := fun _ => true }
        [{ type := OperationType.INC_PTR, operand := 1 },
         { type := OperationType.HALT, operand := 0 }] (tap_init 1 2) 2 = Step.exit Exit.halt m ∧
      m.tap.cells_limit = 2 ∧ m.tap.current_cells_size = 1025 ∧
      ¬ (m.tap.current_cells_size ≤ m.tap.cells_limit) := by
  obtain ⟨prog, hprog⟩ : ∃ prog : Program, prog =
      [{ type := OperationType.INC_PTR, operand := 1 },
       { type := OperationType.HALT, operand := 0 }] := ⟨_, rfl⟩
  rw [← hprog]
  have g0 : prog.get? (start (tap_init 1 2)).pc =
      some { type := OperationType.INC_PTR, operand := 1 } := by rw [hprog]; rfl
  have g1 : prog.get? 1 = some { type := OperationType.HALT, operand := 0 } := by
    rw [hprog]; rfl
  have hn : (load (tap_init 1 2).heap (tap_init 1 2).cell).next = Ptr.tomp := by decide
  have hb : inc_ptr_body (tap_init 1 2) =
      (true, { heap := grown_right (tap_init 1 2).heap (tap_init 1 2).cell,
               cell := Ptr.cell (tap_init 1 2).heap.length,
               cells_limit := 2, current_cells_size := 1 + 1024 }) := by
    rcases inc_ptr_body_cases (tap_init 1 2) with ⟨h1, _⟩ | ⟨_, h2, _⟩ | ⟨_, _, he⟩
    · exact absurd hn h1
    · exact absurd h2 (by decide)
    · exact he
  have s1 := tap_run_step_folded { getchar := fun _ => none, putchar_ok := fun _ => true }
    prog OperationType.INC_PTR 1 (start (tap_init 1 2)) (Or.inl rfl) g0
  simp only [tape_op, ptr_loop_one] at s1
  have hb' : inc_ptr_body (start (tap_init 1 2)).tap = _ := hb
  rw [hb'] at s1
  simp only at s1
  refine ⟨{ tap := { heap := grown_right (tap_init 1 2).heap (tap_init 1 2).cell,
                     cell := Ptr.cell (tap_init 1 2).heap.length,
                     cells_limit := 2, current_cells_size := 1 + 1024 },
            pc := 1, con := (start (tap_init 1 2)).con }, ?_, rfl, rfl, by decide⟩
  rw [tap_run, tap_run_loop, s1]
  simp only
  rw [tap_run_loop, tap_run_step_halt _ prog 0 _ g1]
  rfl

/-- C8, counterexample: on a zero cell, the step at `JUMP_ZERO 1` (first instruction of the
program compiled from `[]`) leaves `pc = 2`: the instruction fetched next is the one after
the operand, not the one at the operand. -/
theorem taken_jump_lands_after_its_operand :
    (load (tap_init 1 1).heap (tap_init 1 1).cell).data = 0 ∧
    tap_run_step { getchar := fun _ => none, putchar_ok := fun _ => true }
      [{ type := OperationType.JUMP_ZERO, operand := 1 },
       { type := OperationType.JUMP_NONZERO, operand := 0 },
       { type := OperationType.HALT, operand := 0 }] (start (tap_init 1 1)) =
      Step.continue { tap := tap_init 1 1, pc := 2, con := (start (tap_init 1 1)).con } ∧
    (2 : Nat) ≠ 1 := by
  decide

/-- C8, amended: after a step that goes on, `pc` is `operand + 1` when the instruction is a
taken jump (`JUMP_ZERO` on a zero cell, `JUMP_NONZERO` on a non-zero cell) and `pc + 1`
otherwise; the only steps that do not go on are `HALT` and a pointer move whose growth is
refused. -/
theorem pc_after_step (w : World) (prog : Program) (m : Machine) (instr : Instruction)
    (hfetch : prog.get? m.pc = some instr) :
    (∀ m1, tap_run_step w prog m = Step.continue m1 →
      m1.pc =
        if (instr.type = OperationType.JUMP_ZERO ∧ (load m.tap.heap m.tap.cell).data = 0) ∨
           (instr.type = OperationType.JUMP_NONZERO ∧ (load m.tap.heap m.tap.cell).data ≠ 0)
        then instr.operand + 1 else m.pc + 1) ∧
    ((∃ e m1, tap_run_step w prog m = Step.exit e m1) ↔
      (instr.type = OperationType.HALT ∨
        (instr.type = OperationType.INC_PTR ∧
          (ptr_loop inc_ptr_body instr.operand m.tap).1 = false) ∨
        (instr.type = OperationType.DEC_PTR ∧
          (ptr_loop dec_ptr_body instr.operand m.tap).1 = false))) := by
  obtain ⟨ty, n⟩ := instr
  simp only [tap_run_step, hfetch, exec_switch]
  cases ty
  · rcases ptr_loop inc_ptr_body n m.tap with ⟨_ | _, t1⟩ <;> simp
  · rcases ptr_loop dec_ptr_body n m.tap with ⟨_ | _, t1⟩ <;> simp
  · simp
  · simp
  · simp
  · cases w.getchar m.con.reads <;> simp
  · by_cases hd : (load m.tap.heap m.tap.cell).data = 0 <;> simp [hd]
  · by_cases hd : (load m.tap.heap m.tap.cell).data = 0 <;> simp [hd]
  · simp
  · simp

theorem pc_after_step_witness :
    ([{ type := OperationType.JUMP_ZERO, operand := 1 },
       { type := OperationType.JUMP_NONZERO, operand := 0 },
       { type := OperationType.HALT, operand := 0 }] : Program).get? (start (tap_init 1 1)).pc =
      some { type := OperationType.JUMP_ZERO, operand := 1 } ∧
    ((∀ m1, tap_run_step { getchar := fun _ => none, putchar_ok := fun _ => true }
        [{ type := OperationType.JUMP_ZERO, operand := 1 },
         { type := OperationType.JUMP_NONZERO, operand := 0 },
         { type := OperationType.HALT, operand := 0 }] (start (tap_init 1 1)) =
          Step.continue m1 →
      m1.pc =
        if ((⟨OperationType.JUMP_ZERO, 1⟩ : Instruction).type = OperationType.JUMP_ZERO ∧
              (load (start (tap_init 1 1)).tap.heap (start (tap_init 1 1)).tap.cell).data = 0) ∨
           ((⟨OperationType.JUMP_ZERO, 1⟩ : Instruction).type = OperationType.JUMP_NONZERO ∧
              (load (start (tap_init 1 1)).tap.heap (start (tap_init 1 1)).tap.cell).data ≠ 0)
        then (⟨OperationType.JUMP_ZERO, 1⟩ : Instruction).operand + 1
        else (start (tap_init 1 1)).pc + 1) ∧
    ((∃ e m1, tap_run_step { getchar := fun _ => none, putchar_ok := fun _ => true }
        [{ type := OperationType.JUMP_ZERO, operand := 1 },
         { type := OperationType.JUMP_NONZERO, operand := 0 },
         { type := OperationType.HALT, operand := 0 }] (start (tap_init 1 1)) =
          Step.exit e m1) ↔
      ((⟨OperationType.JUMP_ZERO, 1⟩ : Instruction).type = OperationType.HALT ∨
        ((⟨OperationType.JUMP_ZERO, 1⟩ : Instruction).type = OperationType.INC_PTR ∧
          (ptr_loop inc_ptr_body (⟨OperationType.JUMP_ZERO, 1⟩ : Instruction).operand
            (start (tap_init 1 1)).tap).1 = false) ∨
        ((⟨OperationType.JUMP_ZERO, 1⟩ : Instruction).type = OperationType.DEC_PTR ∧
          (ptr_loop dec_ptr_body (⟨OperationType.JUMP_ZERO, 1⟩ : Instruction).operand
            (start (tap_init 1 1)).tap).1 = false)))) :=
  ⟨rfl, pc_after_step _ _ (start (tap_init 1 1)) ⟨OperationType.JUMP_ZERO, 1⟩ rfl⟩

end BfOpt

end BrainFuck


namespace BrainFuck

namespace BfOpt

theorem tap_run_loop_add (w : World) (prog : Program) :
    ∀ (a b : Nat) (m : Machine),
      tap_run_loop w prog (a + b) m =
        match tap_run_loop w prog a m with
        | Step.continue m1 => tap_run_loop w prog b m1
        | Step.exit e m1 => Step.exit e m1 := by
  intro a
  induction a with
  | zero => intro b m; simp [tap_run_loop]
  | succ a ih =>
    intro b m
    rw [Nat.add_right_comm]
    simp only [tap_run_loop]
    rcases tap_run_step w prog m with m1 | ⟨e, m1⟩
    · exact ih b m1
    · rfl

theorem echo_compiles (junk : Nat) :
    compile_source junk [',', '[', '.', ',', ']'] program_init = Except.ok (echo_program junk) :=
  rfl

theorem echo_data (self : Tap) (hc : allocated self.heap self.cell) :
    (load (store_data self.heap self.cell 65) self.cell).data = 65 ∧
    (load (store_data (store_data self.heap self.cell 65) self.cell 66) self.cell).data = 66 := by
  obtain ⟨a, hca, ha⟩ := hc
  rw [hca]
  simp only [store_data]
  rw [load_store_same _ a _ ha, load_store_same _ a _ (by rw [length_store]; exact ha)]
  exact ⟨rfl, rfl⟩

/-- The first five steps of `,[.,]` on `"AB"`: read `'A'`, enter the loop, write `'A'`, read
`'B'`, jump back. -/
theorem echo_first_steps (junk : Nat) (self : Tap) (hc : allocated self.heap self.cell) :
    tap_run_loop world_AB (echo_program junk) 5 (start self) =
      Step.continue (echo_cycle self 0) ∧
    (∀ n, n < 5 → ∃ m, tap_run_loop world_AB (echo_program junk) n (start self) =
      Step.continue m ∧ m.con.out = (65 :: List.replicate n 66).take (n / 3)) := by
  obtain ⟨h65, h66⟩ := echo_data self hc
  have e65 : ¬ ((load (store_data self.heap self.cell 65) self.cell).data = 0) := by
    rw [h65]; decide
  have e66 : ¬ ((load (store_data (store_data self.heap self.cell 65) self.cell 66)
      self.cell).data = 0) := by rw [h66]; decide
  constructor
  · simp [tap_run_loop, tap_run_step, exec_switch, echo_program, start, world_AB, Console.put,
      Console.got, echo_cycle, e65, e66, h65]
  · intro n hn
    have hcases : n = 0 ∨ n = 1 ∨ n = 2 ∨ n = 3 ∨ n = 4 := by omega
    rcases hcases with h | h | h | h | h <;> subst h <;>
      simp [tap_run_loop, tap_run_step, exec_switch, echo_program, start, world_AB, Console.put,
        Console.got, e65, e66, h65, List.replicate]

/-- One turn of the loop after the end of the input: `'B'` is written once more. -/
theorem echo_turn (junk : Nat) (self : Tap) (hc : allocated self.heap self.cell) (k : Nat) :
    tap_run_loop world_AB (echo_program junk) 3 (echo_cycle self k) =
      Step.continue (echo_cycle self (k + 1)) ∧
    (∃ m, tap_run_loop world_AB (echo_program junk) 1 (echo_cycle self k) = Step.continue m ∧
      m.con.out = 65 :: List.replicate (k + 1) 66) ∧
    (∃ m, tap_run_loop world_AB (echo_program junk) 2 (echo_cycle self k) = Step.continue m ∧
      m.con.out = 65 :: List.replicate (k + 1) 66) := by
  obtain ⟨_, h66⟩ := echo_data self hc
  have e66 : ¬ ((load (store_data (store_data self.heap self.cell 65) self.cell 66)
      self.cell).data = 0) := by rw [h66]; decide
  have hrep : List.replicate k 66 ++ [66] = List.replicate (k + 1) 66 := by
    rw [List.replicate_succ']
  have hk0 : ¬ (2 + k = 0) := by omega
  have hk1 : ¬ (2 + k = 1) := by omega
  refine ⟨?_, ?_, ?_⟩ <;>
    simp [tap_run_loop, tap_run_step, exec_switch, echo_program, world_AB, Console.put,
      Console.got, echo_cycle, e66, h66, hrep, hk0, hk1, Nat.add_assoc, Nat.add_comm 1 k]
  omega

theorem echo_turns (junk : Nat) (self : Tap) (hc : allocated self.heap self.cell) :
    ∀ k, tap_run_loop world_AB (echo_program junk) (3 * k) (echo_cycle self 0) =
      Step.continue (echo_cycle self k) := by
  intro k
  induction k with
  | zero => rfl
  | succ k ih =>
    rw [Nat.mul_succ, tap_run_loop_add, ih]
    exact (echo_turn junk self hc k).1

theorem take_echo (j n : Nat) (h : j ≤ n) :
    (65 :: List.replicate n 66).take (j + 1) = 65 :: List.replicate j 66 := by
  rw [List.take_succ_cons, List.take_replicate, Nat.min_eq_left h]

/-- The run of `,[.,]` on `"AB"` is still going on after any number of steps, and has
written `'A'` followed by copies of `'B'`, one byte every three steps. -/
theorem echo_runs_forever (junk : Nat) (self : Tap) (hc : allocated self.heap self.cell)
    (fuel : Nat) :
    ∃ m, tap_run world_AB (echo_program junk) self fuel = Step.continue m ∧
      m.con.out = (65 :: List.replicate fuel 66).take (fuel / 3) := by
  by_cases h5 : fuel < 5
  · exact (echo_first_steps junk self hc).2 fuel h5
  · obtain ⟨k, r, hr, hfuel⟩ : ∃ k r, r < 3 ∧ fuel = 5 + (3 * k + r) :=
      ⟨(fuel - 5) / 3, (fuel - 5) % 3, Nat.mod_lt _ (by decide), by omega⟩
    have hrun : tap_run world_AB (echo_program junk) self fuel =
        tap_run_loop world_AB (echo_program junk) r (echo_cycle self k) := by
      rw [tap_run, hfuel, tap_run_loop_add, (echo_first_steps junk self hc).1]
      simp only
      rw [tap_run_loop_add, echo_turns junk self hc k]
    rw [hrun]
    have hcases : r = 0 ∨ r = 1 ∨ r = 2 := by omega
    rcases hcases with h | h | h <;> subst h
    · refine ⟨echo_cycle self k, rfl, ?_⟩
      have : fuel / 3 = k + 1 := by omega
      rw [this, take_echo k fuel (by omega)]
      rfl
    · obtain ⟨m, hm, hout⟩ := (echo_turn junk self hc k).2.1
      refine ⟨m, hm, ?_⟩
      have : fuel / 3 = (k + 1) + 1 := by omega
      rw [this, take_echo (k + 1) fuel (by omega), hout]
    · obtain ⟨m, hm, hout⟩ := (echo_turn junk self hc k).2.2
      refine ⟨m, hm, ?_⟩
      have : fuel / 3 = (k + 1) + 1 := by omega
      rw [this, take_echo (k + 1) fuel (by omega), hout]

/-- C9, counterexample: the source `,[.,]` compiles to `echo_program`, and on the input
`'A'`, `'B'`, end-of-stream (tape of the default size 1024 and limit 30000) no number of
steps ends the run, so it never reaches `HALT` with output `"AB"`; after nine steps the
output is already `"ABB"`. -/
theorem echo_AB_does_not_halt_with_AB :
    compile_source 0 [',', '[', '.', ',', ']'] program_init = Except.ok (echo_program 0) ∧
    (¬ ∃ fuel m, tap_run world_AB (echo_program 0) (tap_init 1024 30000) fuel =
        Step.exit Exit.halt m ∧ m.con.out = [65, 66]) ∧
    (∃ m, tap_run world_AB (echo_program 0) (tap_init 1024 30000) 9 = Step.continue m ∧
        m.con.out = [65, 66, 66]) := by
  have hc : allocated (tap_init 1024 30000).heap (tap_init 1024 30000).cell :=
    (tap_init_wf 1024 30000 (by decide)).2
  refine ⟨rfl, ?_, ?_⟩
  · rintro ⟨fuel, m, hm, _⟩
    obtain ⟨m1, hm1, _⟩ := echo_runs_forever 0 _ hc fuel
    rw [hm1] at hm
    exact absurd hm (by simp)
  · obtain ⟨m1, hm1, hout⟩ := echo_runs_forever 0 _ hc 9
    exact ⟨m1, hm1, by rw [hout]; rfl⟩

/-- C9, amended: the source `,[.,]` compiles to `echo_program`; run on the input `'A'`,
`'B'`, end-of-stream from a tape made by `tap_init` with `initial_size >= 1`, it is still
running after any number of steps and has then written `'A'` followed by copies of `'B'`,
one byte every three steps: the run never reaches `HALT`. -/
theorem echo_AB_repeats_B_forever (junk s l fuel : Nat) (hs : 1 ≤ s) :
    compile_source junk [',', '[', '.', ',', ']'] program_init =
      Except.ok (echo_program junk) ∧
    ∃ m, tap_run world_AB (echo_program junk) (tap_init s l) fuel = Step.continue m ∧
      m.con.out = (65 :: List.replicate fuel 66).take (fuel / 3) :=
  ⟨rfl, echo_runs_forever junk _ (tap_init_wf s l hs).2 fuel⟩

theorem echo_AB_repeats_B_forever_witness :
    1 ≤ 4 ∧
    (compile_source 0 [',', '[', '.', ',', ']'] program_init = Except.ok (echo_program 0) ∧
    ∃ m, tap_run world_AB (echo_program 0) (tap_init 4 30000) 12 = Step.continue m ∧
      m.con.out = (65 :: List.replicate 12 66).take (12 / 3)) :=
  ⟨by decide, echo_AB_repeats_B_forever 0 4 30000 12 (by decide)⟩

end BfOpt

end BrainFuck


namespace BrainFuck

namespace BfOpt

/-! ## The compiler: one iteration -/

/-- `fold_run` consumes the longest run of `c` at the head of the source and counts it. -/
theorem fold_run_spec (c : Char) :
    ∀ (rest : List Char) (k : Nat),
      ∃ j rest1, rest = List.replicate j c ++ rest1 ∧ rest1.head? ≠ some c ∧
        fold_run c rest k = (k + j, rest1) := by
  intro rest
  induction rest with
  | nil => intro k; exact ⟨0, [], rfl, by simp, rfl⟩
  | cons d rest ih =>
    intro k
    by_cases hd : d = c
    · subst hd
      obtain ⟨j, rest1, h1, h2, h3⟩ := ih (k + 1)
      refine ⟨j + 1, rest1, ?_, h2, ?_⟩
      · rw [List.replicate_succ, List.cons_append, ← h1]
      · simp only [fold_run, if_true, h3]
        congr 1
        omega
    · refine ⟨0, d :: rest, rfl, ?_, ?_⟩
      · simp only [List.head?_cons, ne_eq, Option.some.injEq]
        exact hd
      · simp only [fold_run, hd, if_false, Nat.add_zero]

theorem fold_run_length (c : Char) (rest : List Char) (k : Nat) :
    (fold_run c rest k).2.length ≤ rest.length := by
  obtain ⟨j, rest1, h1, _, h3⟩ := fold_run_spec c rest k
  rw [h3, h1]
  simp

theorem fold_opcode_folded (c : Char) : folded (fold_opcode c) := by
  unfold fold_opcode folded
  by_cases h1 : c = '>'
  · simp [h1]
  · by_cases h2 : c = '<'
    · simp [h2]
    · by_cases h3 : c = '+'
      · simp [h3]
      · simp [h1, h2, h3]

/-- The iteration on a folded character. -/
theorem compile_iter_fold (c : Char) (rest : List Char) (prog : Program) (st : List Nat)
    (hc : fold_char c) :
    compile_iter c rest prog st =
      Except.ok { source := (fold_run c rest 1).2,
                  prog := prog ++ [{ type := fold_opcode c, operand := (fold_run c rest 1).1 }],
                  loop_stack := st } := by
  rcases hc with h | h | h | h <;> subst h <;> rfl

/-- The iteration on `.` or `,`. -/
theorem compile_iter_output (rest : List Char) (prog : Program) (st : List Nat) :
    compile_iter '.' rest prog st =
      Except.ok { source := rest,
                  prog := prog ++ [{ type := OperationType.OUTPUT, operand := 0 }],
                  loop_stack := st } := rfl

theorem compile_iter_input (rest : List Char) (prog : Program) (st : List Nat) :
    compile_iter ',' rest prog st =
      Except.ok { source := rest,
                  prog := prog ++ [{ type := OperationType.INPUT, operand := 0 }],
                  loop_stack := st } := rfl

/-- The set-zero idiom is a `-` or a `+` followed by `]`. -/
theorem set_zero_idiom_iff (rest : List Char) :
    set_zero_idiom rest = true ↔
      ∃ c rest2, (c = '-' ∨ c = '+') ∧ rest = c :: ']' :: rest2 := by
  constructor
  · intro h
    match rest, h with
    | c1 :: c2 :: rest2, h =>
      simp only [set_zero_idiom, Bool.and_eq_true, Bool.or_eq_true, decide_eq_true_eq] at h
      obtain ⟨h1, h2⟩ := h
      subst h2
      exact ⟨c1, rest2, h1, rfl⟩
  · rintro ⟨c, rest2, hc, rfl⟩
    simp only [set_zero_idiom, Bool.and_eq_true, Bool.or_eq_true, decide_eq_true_eq, and_true]
    exact hc

/-- The iteration on the `[` of a set-zero idiom. -/
theorem compile_iter_idiom (c : Char) (rest2 : List Char) (prog : Program) (st : List Nat)
    (hc : c = '-' ∨ c = '+') :
    compile_iter '[' (c :: ']' :: rest2) prog st =
      Except.ok { source := rest2,
                  prog := prog ++ [{ type := OperationType.SET_ZERO, operand := 0 }],
                  loop_stack := st } := by
  have h : set_zero_idiom (c :: ']' :: rest2) = true :=
    (set_zero_idiom_iff _).2 ⟨c, rest2, hc, rfl⟩
  simp only [compile_iter, h, if_true, emit]
  rfl

/-- The iteration on a `[` that opens a generic loop. -/
theorem compile_iter_open (rest : List Char) (prog : Program) (st : List Nat)
    (hidiom : set_zero_idiom rest = false) :
    compile_iter '[' rest prog st =
      if st.length ≥ 4096 then Except.error CompileError.nesting_too_deep
      else Except.ok { source := rest,
                       prog := prog ++ [{ type := OperationType.JUMP_ZERO, operand := 0 }],
                       loop_stack := prog.length :: st } := by
  simp only [compile_iter, hidiom, emit]
  rfl

/-- The iteration on `]`. -/
theorem compile_iter_close (rest : List Char) (prog : Program) (st : List Nat) :
    compile_iter ']' rest prog st =
      match st with
      | [] => Except.error CompileError.unmatched_close
      | open_idx :: stack1 =>
        Except.ok { source := rest,
                    prog := set_operand prog open_idx prog.length ++
                      [{ type := OperationType.JUMP_NONZERO, operand := open_idx }],
                    loop_stack := stack1 } := by
  cases st <;> rfl

/-- The iteration on a character that is no instruction. -/
theorem compile_iter_inert (c : Char) (rest : List Char) (prog : Program) (st : List Nat)
    (hc : inert_char c) :
    compile_iter c rest prog st =
      Except.ok { source := rest, prog := prog, loop_stack := st } := by
  obtain ⟨h1, h2, h3, h4, h5, h6, h7, h8⟩ := hc
  simp only [compile_iter, h1, h2, h3, h4, h5, h6, h7, h8, if_false]

/-- Every character is of exactly one of the kinds that the iteration distinguishes. -/
theorem char_cases (c : Char) :
    fold_char c ∨ c = '.' ∨ c = ',' ∨ c = '[' ∨ c = ']' ∨ inert_char c := by
  unfold fold_char inert_char
  by_cases h1 : c = '>'
  · exact Or.inl (Or.inl h1)
  by_cases h2 : c = '<'
  · exact Or.inl (Or.inr (Or.inl h2))
  by_cases h3 : c = '+'
  · exact Or.inl (Or.inr (Or.inr (Or.inl h3)))
  by_cases h4 : c = '-'
  · exact Or.inl (Or.inr (Or.inr (Or.inr h4)))
  by_cases h5 : c = '.'
  · exact Or.inr (Or.inl h5)
  by_cases h6 : c = ','
  · exact Or.inr (Or.inr (Or.inl h6))
  by_cases h7 : c = '['
  · exact Or.inr (Or.inr (Or.inr (Or.inl h7)))
  by_cases h8 : c = ']'
  · exact Or.inr (Or.inr (Or.inr (Or.inr (Or.inl h8))))
  exact Or.inr (Or.inr (Or.inr (Or.inr (Or.inr ⟨h1, h2, h3, h4, h5, h6, h7, h8⟩))))

theorem fold_char_not_bracket (c : Char) (hc : fold_char c) : c ≠ '[' ∧ c ≠ ']' := by
  rcases hc with h | h | h | h <;> subst h <;> decide

/-- An iteration that goes on leaves a shorter source. -/
theorem compile_iter_length (c : Char) (rest : List Char) (prog : Program) (st : List Nat)
    (s1 : CompileState) (h : compile_iter c rest prog st = Except.ok s1) :
    s1.source.length ≤ rest.length := by
  rcases char_cases c with hc | hc | hc | hc | hc | hc
  · rw [compile_iter_fold c rest prog st hc] at h
    injection h with h
    subst h
    exact fold_run_length c rest 1
  · subst hc
    rw [compile_iter_output] at h
    injection h with h
    subst h
    exact Nat.le_refl _
  · subst hc
    rw [compile_iter_input] at h
    injection h with h
    subst h
    exact Nat.le_refl _
  · subst hc
    by_cases hi : set_zero_idiom rest = true
    · obtain ⟨c1, rest2, hc1, rfl⟩ := (set_zero_idiom_iff rest).1 hi
      rw [compile_iter_idiom c1 rest2 prog st hc1] at h
      injection h with h
      subst h
      simp only [List.length_cons]
      omega
    · rw [compile_iter_open rest prog st (by simpa using hi)] at h
      by_cases hd : st.length ≥ 4096
      · simp [hd] at h
      · simp only [hd, if_false] at h
        injection h with h
        subst h
        exact Nat.le_refl _
  · subst hc
    rw [compile_iter_close] at h
    cases st with
    | nil => simp at h
    | cons k st1 =>
      simp only at h
      injection h with h
      subst h
      exact Nat.le_refl _
  · rw [compile_iter_inert c rest prog st hc] at h
    injection h with h
    subst h
    exact Nat.le_refl _

/-! ## The compiler: the loop -/

theorem compile_loop_nil (n : Nat) (prog : Program) (st : List Nat) :
    compile_loop n { source := [], prog := prog, loop_stack := st } =
      Except.ok { source := [], prog := prog, loop_stack := st } := by
  cases n <;> rfl

theorem compile_loop_cons (n : Nat) (c : Char) (rest : List Char) (prog : Program)
    (st : List Nat) :
    compile_loop (n + 1) { source := c :: rest, prog := prog, loop_stack := st } =
      match compile_iter c rest prog st with
      | Except.error e => Except.error e
      | Except.ok s => compile_loop n s := rfl

/-- Any two fuels that cover the length of the source give the same result. -/
theorem compile_loop_fuel :
    ∀ (n m : Nat) (s : CompileState), s.source.length ≤ n → s.source.length ≤ m →
      compile_loop n s = compile_loop m s := by
  intro n
  induction n with
  | zero =>
    intro m s h _
    obtain ⟨src, prog, st⟩ := s
    cases src with
    | nil => rw [compile_loop_nil, compile_loop_nil]
    | cons c rest => simp at h
  | succ n ih =>
    intro m s h hm
    obtain ⟨src, prog, st⟩ := s
    cases src with
    | nil => rw [compile_loop_nil, compile_loop_nil]
    | cons c rest =>
      simp only [List.length_cons] at h hm
      obtain ⟨m1, rfl⟩ : ∃ m1, m = m1 + 1 := ⟨m - 1, by omega⟩
      rw [compile_loop_cons, compile_loop_cons]
      rcases hit : compile_iter c rest prog st with e | s1
      · rfl
      · have hlen := compile_iter_length c rest prog st s1 hit
        exact ih m1 s1 (by omega) (by omega)

theorem compile_all_nil (prog : Program) (st : List Nat) :
    compile_all { source := [], prog := prog, loop_stack := st } =
      Except.ok { source := [], prog := prog, loop_stack := st } := rfl

/-- Unfolding the loop by one iteration. -/
theorem compile_all_cons (c : Char) (rest : List Char) (prog : Program) (st : List Nat) :
    compile_all { source := c :: rest, prog := prog, loop_stack := st } =
      match compile_iter c rest prog st with
      | Except.error e => Except.error e
      | Except.ok s => compile_all s := by
  unfold compile_all
  simp only [List.length_cons]
  rw [compile_loop_cons]
  rcases hit : compile_iter c rest prog st with e | s1
  · rfl
  · exact compile_loop_fuel _ _ s1 (compile_iter_length c rest prog st s1 hit) (Nat.le_refl _)

theorem compile_all_step (s s1 : CompileState) (h : iter_step s s1) :
    compile_all s = compile_all s1 := by
  obtain ⟨c, rest, hs, hit⟩ := h
  obtain ⟨src, prog, st⟩ := s
  simp only at hs hit
  subst hs
  rw [compile_all_cons, hit]

theorem compile_all_reaches (s s1 : CompileState) (h : reaches s s1) :
    compile_all s = compile_all s1 := by
  induction h with
  | refl => rfl
  | tail _ hstep ih => rw [ih, compile_all_step _ _ hstep]

theorem compile_source_eq (junk : Nat) (source : List Char) (prog : Program) :
    compile_source junk source prog =
      match compile_all { source := source, prog := prog, loop_stack := [] } with
      | Except.error e => Except.error e
      | Except.ok s =>
        if s.loop_stack.length ≥ 1 then Except.error CompileError.unmatched_open
        else Except.ok (s.prog ++ [{ type := OperationType.HALT, operand := junk }]) := rfl

end BfOpt

end BrainFuck


namespace BrainFuck

namespace BfOpt

/-! ## Compilation succeeds exactly on balanced sources -/

theorem bracket_scan_skip (c : Char) (rest : List Char) (d : Nat) (h1 : c ≠ '[')
    (h2 : c ≠ ']') : bracket_scan (c :: rest) d = bracket_scan rest d := by
  simp only [bracket_scan, h1, h2, if_false]

theorem bracket_scan_replicate (c : Char) (h1 : c ≠ '[') (h2 : c ≠ ']') (rest : List Char)
    (d : Nat) : ∀ j, bracket_scan (List.replicate j c ++ rest) d = bracket_scan rest d := by
  intro j
  induction j with
  | zero => rfl
  | succ j ih => rw [List.replicate_succ, List.cons_append, bracket_scan_skip c _ d h1 h2, ih]

theorem bracket_scan_fold (c : Char) (hc : fold_char c) (rest : List Char) (d : Nat) :
    bracket_scan (c :: rest) d = bracket_scan (fold_run c rest 1).2 d := by
  obtain ⟨h1, h2⟩ := fold_char_not_bracket c hc
  obtain ⟨j, rest1, hr, _, hf⟩ := fold_run_spec c rest 1
  rw [hf, bracket_scan_skip c _ d h1 h2, hr, bracket_scan_replicate c h1 h2]

theorem bracket_scan_idiom (c : Char) (hc : c = '-' ∨ c = '+') (rest : List Char) (d : Nat) :
    bracket_scan ('[' :: c :: ']' :: rest) d = bracket_scan rest d := by
  have h1 : c ≠ '[' := by rcases hc with h | h <;> subst h <;> decide
  have h2 : c ≠ ']' := by rcases hc with h | h <;> subst h <;> decide
  simp [bracket_scan, h1, h2]

theorem depth_within_skip (b : Nat) (c : Char) (rest : List Char) (d : Nat) (h1 : c ≠ '[')
    (h2 : c ≠ ']') : depth_within b (c :: rest) d = depth_within b rest d := by
  simp only [depth_within, h1, h2, if_false]

theorem depth_within_replicate (b : Nat) (c : Char) (h1 : c ≠ '[') (h2 : c ≠ ']')
    (rest : List Char) (d : Nat) :
    ∀ j, depth_within b (List.replicate j c ++ rest) d = depth_within b rest d := by
  intro j
  induction j with
  | zero => rfl
  | succ j ih =>
    rw [List.replicate_succ, List.cons_append, depth_within_skip b c _ d h1 h2, ih]

theorem depth_within_fold (b : Nat) (c : Char) (hc : fold_char c) (rest : List Char) (d : Nat) :
    depth_within b (c :: rest) d = depth_within b (fold_run c rest 1).2 d := by
  obtain ⟨h1, h2⟩ := fold_char_not_bracket c hc
  obtain ⟨j, rest1, hr, _, hf⟩ := fold_run_spec c rest 1
  rw [hf, depth_within_skip b c _ d h1 h2, hr, depth_within_replicate b c h1 h2]

theorem depth_within_idiom (b : Nat) (c : Char) (hc : c = '-' ∨ c = '+') (rest : List Char)
    (d : Nat) (h : depth_within b ('[' :: c :: ']' :: rest) d) : depth_within b rest d := by
  have h1 : c ≠ '[' := by rcases hc with h | h <;> subst h <;> decide
  have h2 : c ≠ ']' := by rcases hc with h | h <;> subst h <;> decide
  simp only [depth_within, h1, h2, if_true, if_false] at h
  simpa using h.2

/-- If the loop ends without error, the bracket counter read from the depth of the loop
stack ends at the depth of the final loop stack. -/
theorem compile_all_scan :
    ∀ (n : Nat) (s sf : CompileState), s.source.length ≤ n → compile_all s = Except.ok sf →
      bracket_scan s.source s.loop_stack.length = some sf.loop_stack.length := by
  intro n
  induction n with
  | zero =>
    intro s sf h hc
    obtain ⟨src, prog, st⟩ := s
    cases src with
    | nil =>
      rw [compile_all_nil] at hc
      injection hc with hc
      subst hc
      rfl
    | cons c rest => simp at h
  | succ n ih =>
    intro s sf h hc
    obtain ⟨src, prog, st⟩ := s
    cases src with
    | nil =>
      rw [compile_all_nil] at hc
      injection hc with hc
      subst hc
      rfl
    | cons c rest =>
      simp only [List.length_cons] at h
      rw [compile_all_cons] at hc
      simp only
      rcases char_cases c with hk | hk | hk | hk | hk | hk
      · rw [compile_iter_fold c rest prog st hk] at hc
        rw [bracket_scan_fold c hk]
        exact ih _ sf (by have := fold_run_length c rest 1; simp only; omega) hc
      · subst hk
        rw [compile_iter_output] at hc
        rw [bracket_scan_skip _ _ _ (by decide) (by decide)]
        exact ih _ sf (by simp only; omega) hc
      · subst hk
        rw [compile_iter_input] at hc
        rw [bracket_scan_skip _ _ _ (by decide) (by decide)]
        exact ih _ sf (by simp only; omega) hc
      · subst hk
        by_cases hi : set_zero_idiom rest = true
        · obtain ⟨c1, rest2, hc1, rfl⟩ := (set_zero_idiom_iff rest).1 hi
          rw [compile_iter_idiom c1 rest2 prog st hc1] at hc
          rw [bracket_scan_idiom c1 hc1]
          exact ih _ sf (by simp only [List.length_cons] at h ⊢; omega) hc
        · rw [compile_iter_open rest prog st (by simpa using hi)] at hc
          by_cases hd : st.length ≥ 4096
          · simp [hd] at hc
          · simp only [hd, if_false] at hc
            have := ih _ sf (by simp only; omega) hc
            simpa [bracket_scan] using this
      · subst hk
        rw [compile_iter_close] at hc
        cases st with
        | nil => simp at hc
        | cons k st1 =>
          simp only at hc
          have := ih _ sf (by simp only; omega) hc
          simpa [bracket_scan] using this
      · rw [compile_iter_inert c rest prog st hk] at hc
        rw [bracket_scan_skip _ _ _ hk.2.2.2.2.2.2.1 hk.2.2.2.2.2.2.2]
        exact ih _ sf (by simp only; omega) hc

/-- If the bracket counter read from the depth of the loop stack does not fail and the
nesting stays within 4096, the loop ends without error. -/
theorem compile_all_of_scan :
    ∀ (n : Nat) (s : CompileState) (d : Nat), s.source.length ≤ n →
      bracket_scan s.source s.loop_stack.length = some d →
      depth_within 4096 s.source s.loop_stack.length →
      ∃ sf, compile_all s = Except.ok sf ∧ sf.loop_stack.length = d := by
  intro n
  induction n with
  | zero =>
    intro s d h hs _
    obtain ⟨src, prog, st⟩ := s
    cases src with
    | nil =>
      simp only [bracket_scan, Option.some.injEq] at hs
      exact ⟨_, compile_all_nil prog st, hs⟩
    | cons c rest => simp at h
  | succ n ih =>
    intro s d h hs hd
    obtain ⟨src, prog, st⟩ := s
    cases src with
    | nil =>
      simp only [bracket_scan, Option.some.injEq] at hs
      exact ⟨_, compile_all_nil prog st, hs⟩
    | cons c rest =>
      simp only [List.length_cons] at h
      simp only at hs hd
      rw [compile_all_cons]
      rcases char_cases c with hk | hk | hk | hk | hk | hk
      · rw [compile_iter_fold c rest prog st hk]
        rw [bracket_scan_fold c hk] at hs
        rw [depth_within_fold 4096 c hk] at hd
        exact ih _ d (by have := fold_run_length c rest 1; simp only; omega) hs hd
      · subst hk
        rw [compile_iter_output]
        rw [bracket_scan_skip _ _ _ (by decide) (by decide)] at hs
        rw [depth_within_skip _ _ _ _ (by decide) (by decide)] at hd
        exact ih _ d (by simp only; omega) hs hd
      · subst hk
        rw [compile_iter_input]
        rw [bracket_scan_skip _ _ _ (by decide) (by decide)] at hs
        rw [depth_within_skip _ _ _ _ (by decide) (by decide)] at hd
        exact ih _ d (by simp only; omega) hs hd
      · subst hk
        by_cases hi : set_zero_idiom rest = true
        · obtain ⟨c1, rest2, hc1, rfl⟩ := (set_zero_idiom_iff rest).1 hi
          rw [compile_iter_idiom c1 rest2 prog st hc1]
          rw [bracket_scan_idiom c1 hc1] at hs
          exact ih _ d (by simp only [List.length_cons] at h ⊢; omega) hs
            (depth_within_idiom 4096 c1 hc1 rest2 _ hd)
        · rw [compile_iter_open rest prog st (by simpa using hi)]
          simp only [depth_within, if_true] at hd
          have hlt : ¬ (st.length ≥ 4096) := by omega
          simp only [hlt, if_false]
          exact ih _ d (by simp only; omega) (by simpa [bracket_scan] using hs) hd.2
      · subst hk
        rw [compile_iter_close]
        cases st with
        | nil => simp [bracket_scan] at hs
        | cons k st1 =>
          simp only
          refine ih _ d (by simp only; omega) (by simpa [bracket_scan] using hs) ?_
          simpa [depth_within] using hd
      · rw [compile_iter_inert c rest prog st hk]
        rw [bracket_scan_skip _ _ _ hk.2.2.2.2.2.2.1 hk.2.2.2.2.2.2.2] at hs
        rw [depth_within_skip _ _ _ _ hk.2.2.2.2.2.2.1 hk.2.2.2.2.2.2.2] at hd
        exact ih _ d (by simp only; omega) hs hd

/-- A successful compilation comes from a loop that ended with an empty loop stack. -/
theorem compile_source_ok (junk : Nat) (source : List Char) (prog P : Program)
    (h : compile_source junk source prog = Except.ok P) :
    ∃ sf, compile_all { source := source, prog := prog, loop_stack := [] } = Except.ok sf ∧
      sf.loop_stack = [] ∧ P = sf.prog ++ [{ type := OperationType.HALT, operand := junk }] := by
  rw [compile_source_eq] at h
  rcases hc : compile_all { source := source, prog := prog, loop_stack := [] } with e | sf
  · rw [hc] at h; simp at h
  · rw [hc] at h
    simp only at h
    by_cases hl : sf.loop_stack.length ≥ 1
    · simp [hl] at h
    · simp only [hl, if_false] at h
      injection h with h
      refine ⟨sf, rfl, ?_, h.symm⟩
      cases hst : sf.loop_stack with
      | nil => rfl
      | cons k st => rw [hst] at hl; simp at hl

theorem compile_source_balanced (junk : Nat) (source : List Char) (prog P : Program)
    (h : compile_source junk source prog = Except.ok P) : balanced source := by
  obtain ⟨sf, hc, hst, _⟩ := compile_source_ok junk source prog P h
  have := compile_all_scan source.length _ sf (Nat.le_refl _) hc
  simpa [balanced, hst] using this

theorem compile_source_of_balanced (junk : Nat) (source : List Char) (prog : Program)
    (hb : balanced source) (hd : depth_within 4096 source 0) :
    ∃ P, compile_source junk source prog = Except.ok P := by
  obtain ⟨sf, hc, hl⟩ := compile_all_of_scan source.length
    { source := source, prog := prog, loop_stack := [] } 0 (Nat.le_refl _) hb hd
  refine ⟨sf.prog ++ [{ type := OperationType.HALT, operand := junk }], ?_⟩
  rw [compile_source_eq, hc]
  simp [hl]

theorem compile_source_error_of_not_ok (junk : Nat) (source : List Char) (prog : Program)
    (h : ¬ ∃ P, compile_source junk source prog = Except.ok P) :
    ∃ e, compile_source junk source prog = Except.error e := by
  rcases hc : compile_source junk source prog with e | P
  · exact ⟨e, rfl⟩
  · exact absurd ⟨P, hc⟩ h

/-- C2: `compile_source` fails on every source in which a `]` has no open `[` before it
(the bracket counter fails) and on every source that ends with a `[` still open (the
counter ends above 0); it succeeds on every balanced source whose nesting depth stays
within 4096; so within that depth it succeeds exactly on the balanced sources. -/
theorem compile_succeeds_iff_balanced (junk : Nat) (source : List Char) :
    (bracket_scan source 0 = none →
      ∃ e, compile_source junk source program_init = Except.error e) ∧
    (∀ d, bracket_scan source 0 = some (d + 1) →
      ∃ e, compile_source junk source program_init = Except.error e) ∧
    (balanced source → depth_within 4096 source 0 →
      ∃ P, compile_source junk source program_init = Except.ok P) ∧
    (depth_within 4096 source 0 →
      ((∃ P, compile_source junk source program_init = Except.ok P) ↔ balanced source)) := by
  refine ⟨?_, ?_, ?_, ?_⟩
  · intro hs
    apply compile_source_error_of_not_ok
    rintro ⟨P, hP⟩
    have := compile_source_balanced junk source _ P hP
    rw [balanced, hs] at this
    exact absurd this (by simp)
  · intro d hs
    apply compile_source_error_of_not_ok
    rintro ⟨P, hP⟩
    have := compile_source_balanced junk source _ P hP
    rw [balanced, hs] at this
    exact absurd this (by simp)
  · exact compile_source_of_balanced junk source _
  · intro hd
    exact ⟨fun ⟨P, hP⟩ => compile_source_balanced junk source _ P hP,
      fun hb => compile_source_of_balanced junk source _ hb hd⟩

theorem compile_succeeds_iff_balanced_witness :
    (bracket_scan [']'] 0 = none ∧
      ∃ e, compile_source 0 [']'] program_init = Except.error e) ∧
    (bracket_scan ['['] 0 = some (0 + 1) ∧
      ∃ e, compile_source 0 ['['] program_init = Except.error e) ∧
    (balanced ['+', '[', '-', '[', ']', ']'] ∧
      depth_within 4096 ['+', '[', '-', '[', ']', ']'] 0 ∧
      ∃ P, compile_source 0 ['+', '[', '-', '[', ']', ']'] program_init = Except.ok P) :=
  ⟨⟨rfl, (compile_succeeds_iff_balanced 0 [']']).1 rfl⟩,
    ⟨rfl, (compile_succeeds_iff_balanced 0 ['[']).2.1 0 rfl⟩,
    ⟨by decide, by decide,
      (compile_succeeds_iff_balanced 0 ['+', '[', '-', '[', ']', ']']).2.2.1
        (by decide) (by decide)⟩⟩

end BfOpt

end BrainFuck


namespace BrainFuck

namespace BfOpt

/-! ## Bracket counting -/

theorem bracket_scan_cons (c : Char) (rest : List Char) (d : Nat) :
    bracket_scan (c :: rest) d =
      if c = '[' then bracket_scan rest (d + 1)
      else if c = ']' then (if d = 0 then none else bracket_scan rest (d - 1))
      else bracket_scan rest d := rfl

theorem bracket_scan_append (a b : List Char) :
    ∀ d, bracket_scan (a ++ b) d = (bracket_scan a d).bind (bracket_scan b) := by
  induction a with
  | nil => intro d; rfl
  | cons c a ih =>
    intro d
    rw [List.cons_append, bracket_scan_cons, bracket_scan_cons]
    by_cases h1 : c = '['
    · simp only [h1, if_true, ih]
    · by_cases h2 : c = ']'
      · subst h2
        simp only [h1, if_false, if_true]
        by_cases h3 : d = 0
        · simp [h3]
        · simp only [h3, if_false, ih]
      · simp only [h1, h2, if_false, ih]

theorem bracket_scan_append_some (a b : List Char) (d e f : Nat)
    (ha : bracket_scan a d = some e) (hb : bracket_scan b e = some f) :
    bracket_scan (a ++ b) d = some f := by
  rw [bracket_scan_append, ha]
  exact hb

/-- A balanced text read from a higher depth comes back to that depth. -/
theorem bracket_scan_lift (a : List Char) :
    ∀ d e n, bracket_scan a d = some e → bracket_scan a (d + n) = some (e + n) := by
  induction a with
  | nil =>
    intro d e n h
    simp only [bracket_scan, Option.some.injEq] at h ⊢
    omega
  | cons c a ih =>
    intro d e n h
    simp only [bracket_scan] at h ⊢
    by_cases h1 : c = '['
    · simp only [h1, if_true] at h ⊢
      have := ih (d + 1) e n h
      rwa [Nat.add_right_comm] at this
    · by_cases h2 : c = ']'
      · simp only [h1, h2, if_false, if_true] at h ⊢
        by_cases h3 : d = 0
        · simp [h3] at h
        · simp only [h3, if_false] at h
          have h4 : ¬ (d + n = 0) := by omega
          simp only [h4, if_false]
          have := ih (d - 1) e n h
          have e1 : d + n - 1 = d - 1 + n := by omega
          rwa [e1]
      · simp only [h1, h2, if_false] at h ⊢
        exact ih d e n h

theorem balanced_nil : balanced [] := rfl

theorem balanced_append (a b : List Char) (ha : balanced a) (hb : balanced b) :
    balanced (a ++ b) :=
  bracket_scan_append_some a b 0 0 0 ha hb

/-- A balanced text between `[` and `]` is balanced. -/
theorem balanced_wrap (a : List Char) (ha : balanced a) : balanced ('[' :: (a ++ [']'])) := by
  unfold balanced at ha ⊢
  simp only [bracket_scan, if_true]
  have h1 := bracket_scan_lift a 0 0 1 ha
  simp only [Nat.zero_add] at h1
  exact bracket_scan_append_some a [']'] 1 1 0 h1 (by simp [bracket_scan])

theorem balanced_single (c : Char) (h1 : c ≠ '[') (h2 : c ≠ ']') : balanced [c] := by
  simp [balanced, bracket_scan, h1, h2]

theorem balanced_replicate (c : Char) (h1 : c ≠ '[') (h2 : c ≠ ']') (j : Nat) :
    balanced (List.replicate j c) := by
  have := bracket_scan_replicate c h1 h2 [] 0 j
  simpa [balanced, bracket_scan] using this

theorem balanced_idiom (c : Char) (hc : c = '-' ∨ c = '+') : balanced ['[', c, ']'] := by
  have := bracket_scan_idiom c hc [] 0
  simpa [balanced, bracket_scan] using this

/-- The `]` that closes a `[` is unique: a balanced text followed by `]` cannot be split
in two ways. -/
theorem first_return_unique (a : List Char) :
    ∀ (b r1 r2 : List Char) (d : Nat), bracket_scan a d = some 0 → bracket_scan b d = some 0 →
      a ++ ']' :: r1 = b ++ ']' :: r2 → a = b := by
  induction a with
  | nil =>
    intro b r1 r2 d ha hb h
    simp only [bracket_scan, Option.some.injEq] at ha
    subst ha
    cases b with
    | nil => rfl
    | cons c b =>
      simp only [List.nil_append, List.cons_append, List.cons.injEq] at h
      obtain ⟨hc, _⟩ := h
      subst hc
      simp [bracket_scan] at hb
  | cons c a ih =>
    intro b r1 r2 d ha hb h
    cases b with
    | nil =>
      simp only [bracket_scan, Option.some.injEq] at hb
      subst hb
      simp only [List.nil_append, List.cons_append, List.cons.injEq] at h
      obtain ⟨hc, _⟩ := h
      subst hc
      simp [bracket_scan] at ha
    | cons c2 b =>
      simp only [List.cons_append, List.cons.injEq] at h
      obtain ⟨hc, h⟩ := h
      subst hc
      simp only [bracket_scan] at ha hb
      by_cases h1 : c = '['
      · simp only [h1, if_true] at ha hb
        rw [ih b r1 r2 (d + 1) ha hb h]
      · by_cases h2 : c = ']'
        · simp only [h1, h2, if_false, if_true] at ha hb
          by_cases h3 : d = 0
          · simp [h3] at ha
          · simp only [h3, if_false] at ha hb
            rw [ih b r1 r2 (d - 1) ha hb h]
        · simp only [h1, h2, if_false] at ha hb
          rw [ih b r1 r2 d ha hb h]

/-! ## States reached by the loop -/

theorem iter_step_length (s s1 : CompileState) (h : iter_step s s1) :
    s1.source.length < s.source.length := by
  obtain ⟨c, rest, hs, hit⟩ := h
  have := compile_iter_length c rest s.prog s.loop_stack s1 hit
  rw [hs]
  simp only [List.length_cons]
  omega

theorem iter_step_unique (s s1 s2 : CompileState) (h1 : iter_step s s1) (h2 : iter_step s s2) :
    s1 = s2 := by
  obtain ⟨c, rest, hs, hit⟩ := h1
  obtain ⟨c2, rest2, hs2, hit2⟩ := h2
  rw [hs] at hs2
  injection hs2 with hc hr
  subst hc hr
  rw [hit] at hit2
  injection hit2

theorem reaches_length (s s1 : CompileState) (h : reaches s s1) :
    s1.source.length ≤ s.source.length := by
  induction h with
  | refl => exact Nat.le_refl _
  | tail _ hstep ih => have := iter_step_length _ _ hstep; omega

/-- Two states reached from the same state are reached one from the other. -/
theorem reaches_total (s a b : CompileState) (ha : reaches s a) (hb : reaches s b) :
    reaches a b ∨ reaches b a := by
  induction ha with
  | refl => exact Or.inl hb
  | tail hsa hstep ih =>
    rename_i a1 a2
    rcases ih with h | h
    · rcases Relation.ReflTransGen.cases_head h with h0 | ⟨c, hc, hcb⟩
      · subst h0
        exact Or.inr (Relation.ReflTransGen.single hstep)
      · have := iter_step_unique _ _ _ hstep hc
        subst this
        exact Or.inl hcb
    · exact Or.inr (Relation.ReflTransGen.tail h hstep)

theorem reaches_same_length (a b : CompileState) (h : reaches a b)
    (hl : a.source.length ≤ b.source.length) : a = b := by
  rcases Relation.ReflTransGen.cases_head h with h0 | ⟨c, hc, hcb⟩
  · exact h0
  · have h1 := iter_step_length _ _ hc
    have h2 := reaches_length _ _ hcb
    omega

end BfOpt

end BrainFuck


namespace BrainFuck

namespace BfOpt

/-! ## The effect of one iteration -/

theorem length_set_operand (prog : Program) (k v : Nat) :
    (set_operand prog k v).length = prog.length := by
  unfold set_operand
  cases prog.get? k <;> simp

theorem get?_set_operand_ne (prog : Program) (k v x : Nat) (h : x ≠ k) :
    (set_operand prog k v).get? x = prog.get? x := by
  unfold set_operand
  cases prog.get? k with
  | none => rfl
  | some instr =>
    simp only [List.get?_eq_getElem?]
    rw [List.getElem?_set_ne (fun e => h e.symm)]

theorem get?_set_operand_eq (prog : Program) (k v : Nat) (instr : Instruction)
    (h : prog.get? k = some instr) :
    (set_operand prog k v).get? k = some { instr with operand := v } := by
  unfold set_operand
  rw [h]
  simp only [List.get?_eq_getElem?] at h ⊢
  have hk : k < prog.length := by
    by_contra hc
    rw [List.getElem?_eq_none (by omega)] at h
    exact absurd h (by simp)
  rw [List.getElem?_set_self hk]

theorem get?_append_emit (prog : Program) (instr : Instruction) (x : Nat)
    (h : x < prog.length) : (prog ++ [instr]).get? x = prog.get? x := by
  simp only [List.get?_eq_getElem?]
  exact List.getElem?_append_left h

theorem get?_append_new (prog : Program) (instr : Instruction) :
    (prog ++ [instr]).get? prog.length = some instr := by
  simp only [List.get?_eq_getElem?]
  rw [List.getElem?_append_right (Nat.le_refl _)]
  simp

theorem lt_length_of_get? (prog : Program) (x : Nat) (instr : Instruction)
    (h : prog.get? x = some instr) : x < prog.length := by
  simp only [List.get?_eq_getElem?] at h
  by_contra hc
  rw [List.getElem?_eq_none (by omega)] at h
  exact absurd h (by simp)

/-- The seven kinds of iteration that go on. -/
theorem iter_step_cases (s s1 : CompileState) (h : iter_step s s1) :
    (∃ c j, fold_char c ∧ s.source = c :: (List.replicate j c ++ s1.source) ∧
      s1.source.head? ≠ some c ∧
      s1.prog = s.prog ++ [{ type := fold_opcode c, operand := j + 1 }] ∧
      s1.loop_stack = s.loop_stack) ∨
    (s.source = '.' :: s1.source ∧
      s1.prog = s.prog ++ [{ type := OperationType.OUTPUT, operand := 0 }] ∧
      s1.loop_stack = s.loop_stack) ∨
    (s.source = ',' :: s1.source ∧
      s1.prog = s.prog ++ [{ type := OperationType.INPUT, operand := 0 }] ∧
      s1.loop_stack = s.loop_stack) ∨
    (∃ c, (c = '-' ∨ c = '+') ∧ s.source = '[' :: c :: ']' :: s1.source ∧
      s1.prog = s.prog ++ [{ type := OperationType.SET_ZERO, operand := 0 }] ∧
      s1.loop_stack = s.loop_stack) ∨
    (s.source = '[' :: s1.source ∧ set_zero_idiom s1.source = false ∧
      s.loop_stack.length < 4096 ∧
      s1.prog = s.prog ++ [{ type := OperationType.JUMP_ZERO, operand := 0 }] ∧
      s1.loop_stack = s.prog.length :: s.loop_stack) ∨
    (∃ k, s.source = ']' :: s1.source ∧ s.loop_stack = k :: s1.loop_stack ∧
      s1.prog = set_operand s.prog k s.prog.length ++
        [{ type := OperationType.JUMP_NONZERO, operand := k }]) ∨
    (∃ c, inert_char c ∧ s.source = c :: s1.source ∧ s1.prog = s.prog ∧
      s1.loop_stack = s.loop_stack) := by
  obtain ⟨c, rest, hs, hit⟩ := h
  obtain ⟨src, prog, st⟩ := s
  simp only at hs hit ⊢
  subst hs
  rcases char_cases c with hk | hk | hk | hk | hk | hk
  · rw [compile_iter_fold c rest prog st hk] at hit
    injection hit with hit
    subst hit
    obtain ⟨j, rest1, hr, hh, hf⟩ := fold_run_spec c rest 1
    left
    refine ⟨c, j, hk, ?_, ?_, ?_, rfl⟩
    · simp only [hf]
      rw [hr]
    · simp only [hf]; exact hh
    · simp only [hf, Nat.add_comm 1 j]
  · subst hk
    rw [compile_iter_output] at hit
    injection hit with hit
    subst hit
    right; left
    exact ⟨rfl, rfl, rfl⟩
  · subst hk
    rw [compile_iter_input] at hit
    injection hit with hit
    subst hit
    right; right; left
    exact ⟨rfl, rfl, rfl⟩
  · subst hk
    by_cases hi : set_zero_idiom rest = true
    · obtain ⟨c1, rest2, hc1, rfl⟩ := (set_zero_idiom_iff rest).1 hi
      rw [compile_iter_idiom c1 rest2 prog st hc1] at hit
      injection hit with hit
      subst hit
      right; right; right; left
      exact ⟨c1, hc1, rfl, rfl, rfl⟩
    · have hi' : set_zero_idiom rest = false := by simpa using hi
      rw [compile_iter_open rest prog st hi'] at hit
      by_cases hd : st.length ≥ 4096
      · simp [hd] at hit
      · simp only [hd, if_false] at hit
        injection hit with hit
        subst hit
        right; right; right; right; left
        exact ⟨rfl, hi', by omega, rfl, rfl⟩
  · subst hk
    rw [compile_iter_close] at hit
    cases st with
    | nil => simp at hit
    | cons k st1 =>
      simp only at hit
      injection hit with hit
      subst hit
      right; right; right; right; right; left
      exact ⟨k, rfl, rfl, rfl⟩
  · rw [compile_iter_inert c rest prog st hk] at hit
    injection hit with hit
    subst hit
    right; right; right; right; right; right
    exact ⟨c, hk, rfl, rfl, rfl⟩

/-- An iteration consumes a non-empty balanced piece of the source, or a `[` that it
pushes, or a `]` that pops. -/
theorem iter_step_prog_length (s s1 : CompileState) (h : iter_step s s1) :
    s1.prog.length = s.prog.length ∨ s1.prog.length = s.prog.length + 1 := by
  rcases iter_step_cases s s1 h with ⟨c, j, _, _, _, hp, _⟩ | ⟨_, hp, _⟩ | ⟨_, hp, _⟩ |
    ⟨c, _, _, hp, _⟩ | ⟨_, _, _, hp, _⟩ | ⟨k, _, _, hp⟩ | ⟨c, _, _, hp, _⟩
  all_goals first
    | (right; rw [hp]; simp [length_set_operand]; done)
    | (left; rw [hp])

theorem reaches_prog_length (s s1 : CompileState) (h : reaches s s1) :
    s.prog.length ≤ s1.prog.length := by
  induction h with
  | refl => exact Nat.le_refl _
  | tail _ hstep ih => rcases iter_step_prog_length _ _ hstep with h | h <;> omega

/-- An iteration keeps the loop stack well formed. -/
theorem stack_ok_step (s s1 : CompileState) (h : iter_step s s1) (hok : stack_ok s) :
    stack_ok s1 := by
  obtain ⟨hpw, hget⟩ := hok
  have happ : ∀ (instr : Instruction), s1.prog = s.prog ++ [instr] →
      s1.loop_stack = s.loop_stack → stack_ok s1 := by
    intro instr hp hst
    refine ⟨by rw [hst]; exact hpw, fun x hx => ?_⟩
    rw [hst] at hx
    rw [hp, get?_append_emit _ _ _ (lt_length_of_get? _ _ _ (hget x hx))]
    exact hget x hx
  rcases iter_step_cases s s1 h with ⟨c, j, _, _, _, hp, hst⟩ | ⟨_, hp, hst⟩ | ⟨_, hp, hst⟩ |
    ⟨c, _, _, hp, hst⟩ | ⟨_, _, _, hp, hst⟩ | ⟨k, _, hst, hp⟩ | ⟨c, _, _, hp, hst⟩
  · exact happ _ hp hst
  · exact happ _ hp hst
  · exact happ _ hp hst
  · exact happ _ hp hst
  · refine ⟨?_, fun x hx => ?_⟩
    · rw [hst, List.pairwise_cons]
      exact ⟨fun x hx => lt_length_of_get? _ _ _ (hget x hx), hpw⟩
    · rw [hst, List.mem_cons] at hx
      rw [hp]
      rcases hx with hx | hx
      · rw [hx]; exact get?_append_new _ _
      · rw [get?_append_emit _ _ _ (lt_length_of_get? _ _ _ (hget x hx))]
        exact hget x hx
  · rw [hst, List.pairwise_cons] at hpw
    refine ⟨hpw.2, fun x hx => ?_⟩
    have hxk : x < k := hpw.1 x hx
    have hx' := hget x (by rw [hst]; exact List.mem_cons_of_mem _ hx)
    rw [hp, get?_append_emit _ _ _
      (by rw [length_set_operand]; exact lt_length_of_get? _ _ _ hx'),
      get?_set_operand_ne _ _ _ _ (by omega)]
    exact hx'
  · refine ⟨by rw [hst]; exact hpw, fun x hx => ?_⟩
    rw [hst] at hx
    rw [hp]
    exact hget x hx

theorem stack_ok_reaches (s s1 : CompileState) (h : reaches s s1) (hok : stack_ok s) :
    stack_ok s1 := by
  induction h with
  | refl => exact hok
  | tail _ hstep ih => exact stack_ok_step _ _ hstep ih

theorem stack_ok_start (source : List Char) (prog : Program) :
    stack_ok { source := source, prog := prog, loop_stack := [] } :=
  ⟨List.Pairwise.nil, fun x hx => by simp at hx⟩

/-- A final instruction stays final and unchanged through an iteration. -/
theorem frozen_step (s s1 : CompileState) (h : iter_step s s1) (x : Nat) (hx : frozen s x) :
    frozen s1 x ∧ s1.prog.get? x = s.prog.get? x := by
  obtain ⟨hlt, hnot⟩ := hx
  have happ : ∀ (instr : Instruction), s1.prog = s.prog ++ [instr] →
      s1.loop_stack = s.loop_stack → frozen s1 x ∧ s1.prog.get? x = s.prog.get? x := by
    intro instr hp hst
    refine ⟨⟨by rw [hp]; simp; omega, by rw [hst]; exact hnot⟩, ?_⟩
    rw [hp, get?_append_emit _ _ _ hlt]
  rcases iter_step_cases s s1 h with ⟨c, j, _, _, _, hp, hst⟩ | ⟨_, hp, hst⟩ | ⟨_, hp, hst⟩ |
    ⟨c, _, _, hp, hst⟩ | ⟨_, _, _, hp, hst⟩ | ⟨k, _, hst, hp⟩ | ⟨c, _, _, hp, hst⟩
  · exact happ _ hp hst
  · exact happ _ hp hst
  · exact happ _ hp hst
  · exact happ _ hp hst
  · refine ⟨⟨by rw [hp]; simp; omega, ?_⟩, ?_⟩
    · rw [hst, List.mem_cons]
      rintro (h1 | h1)
      · omega
      · exact hnot h1
    · rw [hp, get?_append_emit _ _ _ hlt]
  · have hxk : x ≠ k := by
      intro e
      apply hnot
      rw [hst, e]
      exact List.mem_cons_self _ _
    refine ⟨⟨by rw [hp]; simp [length_set_operand]; omega, ?_⟩, ?_⟩
    · intro h1
      apply hnot
      rw [hst]
      exact List.mem_cons_of_mem _ h1
    · rw [hp, get?_append_emit _ _ _ (by rw [length_set_operand]; exact hlt),
        get?_set_operand_ne _ _ _ _ hxk]
  · exact ⟨⟨by rw [hp]; exact hlt, by rw [hst]; exact hnot⟩, by rw [hp]⟩

theorem frozen_reaches (s s1 : CompileState) (h : reaches s s1) (x : Nat) (hx : frozen s x) :
    frozen s1 x ∧ s1.prog.get? x = s.prog.get? x := by
  induction h with
  | refl => exact ⟨hx, rfl⟩
  | tail _ hstep ih =>
    obtain ⟨h1, h2⟩ := frozen_step _ _ hstep x ih.1
    exact ⟨h1, h2.trans ih.2⟩

/-- A loop that ends without error has reached its final state, at the end of the source. -/
theorem compile_all_ok_reaches :
    ∀ (n : Nat) (s sf : CompileState), s.source.length ≤ n → compile_all s = Except.ok sf →
      reaches s sf ∧ sf.source = [] := by
  intro n
  induction n with
  | zero =>
    intro s sf h hc
    obtain ⟨src, prog, st⟩ := s
    cases src with
    | nil =>
      rw [compile_all_nil] at hc
      injection hc with hc
      subst hc
      exact ⟨Relation.ReflTransGen.refl, rfl⟩
    | cons c rest => simp at h
  | succ n ih =>
    intro s sf h hc
    obtain ⟨src, prog, st⟩ := s
    cases src with
    | nil =>
      rw [compile_all_nil] at hc
      injection hc with hc
      subst hc
      exact ⟨Relation.ReflTransGen.refl, rfl⟩
    | cons c rest =>
      rw [compile_all_cons] at hc
      rcases hit : compile_iter c rest prog st with e | s1
      · rw [hit] at hc; simp at hc
      · rw [hit] at hc
        simp only at hc
        have hlen := compile_iter_length c rest prog st s1 hit
        simp only [List.length_cons] at h
        obtain ⟨hr, hnil⟩ := ih s1 sf (by omega) hc
        exact ⟨Relation.ReflTransGen.head ⟨c, rest, rfl, hit⟩ hr, hnil⟩

/-- A loop that ends without error is at the end of the source or makes an iteration. -/
theorem compile_all_ok_step (s sf : CompileState) (hc : compile_all s = Except.ok sf) :
    (s.source = [] ∧ sf = s) ∨ ∃ s1, iter_step s s1 ∧ compile_all s1 = Except.ok sf := by
  obtain ⟨src, prog, st⟩ := s
  cases src with
  | nil =>
    rw [compile_all_nil] at hc
    injection hc with hc
    exact Or.inl ⟨rfl, hc.symm⟩
  | cons c rest =>
    rw [compile_all_cons] at hc
    rcases hit : compile_iter c rest prog st with e | s1
    · rw [hit] at hc; simp at hc
    · rw [hit] at hc
      exact Or.inr ⟨s1, ⟨c, rest, rfl, hit⟩, hc⟩

/-- Every instruction of the final program is emitted by an iteration of the loop. -/
theorem emitted_by_step (s sf : CompileState) (h : reaches s sf) :
    ∀ i, s.prog.length ≤ i → i < sf.prog.length →
      ∃ a b, reaches s a ∧ iter_step a b ∧ reaches b sf ∧ a.prog.length = i ∧
        b.prog.length = i + 1 := by
  induction h with
  | refl => intro i h1 h2; omega
  | tail hsa hstep ih =>
    rename_i a1 a2
    intro i h1 h2
    by_cases hi : i < a1.prog.length
    · obtain ⟨a, b, hra, hab, hrb, e1, e2⟩ := ih i h1 hi
      exact ⟨a, b, hra, hab, Relation.ReflTransGen.tail hrb hstep, e1, e2⟩
    · rcases iter_step_prog_length _ _ hstep with h | h
      · omega
      · exact ⟨a1, a2, hsa, hstep, Relation.ReflTransGen.refl, by omega, by omega⟩

end BfOpt

end BrainFuck


namespace BrainFuck

namespace BfOpt

/-! ## Where the loop stack comes from -/

/-- The piece of source that an iteration consumes: a balanced text, or a `[` that is
pushed, or a `]` that pops. -/
theorem iter_step_consumes (s s1 : CompileState) (h : iter_step s s1) :
    (∃ u, s.source = u ++ s1.source ∧ balanced u ∧ '[' ∉ u.tail ∧
      s1.loop_stack = s.loop_stack) ∨
    (s.source = '[' :: s1.source ∧ set_zero_idiom s1.source = false ∧
      s1.loop_stack = s.prog.length :: s.loop_stack) ∨
    (∃ k, s.source = ']' :: s1.source ∧ s.loop_stack = k :: s1.loop_stack) := by
  rcases iter_step_cases s s1 h with ⟨c, j, hc, hs, _, _, hst⟩ | ⟨hs, _, hst⟩ | ⟨hs, _, hst⟩ |
    ⟨c, hc, hs, _, hst⟩ | ⟨hs, hi, _, _, hst⟩ | ⟨k, hs, hst, _⟩ | ⟨c, hc, hs, _, hst⟩
  · obtain ⟨h1, h2⟩ := fold_char_not_bracket c hc
    left
    refine ⟨c :: List.replicate j c, by rw [hs]; simp, ?_, ?_, hst⟩
    · have := balanced_replicate c h1 h2 (j + 1)
      rwa [List.replicate_succ] at this
    · simp only [List.tail_cons, List.mem_replicate, not_and]
      exact fun _ e => h1 e.symm
  · exact Or.inl ⟨['.'], hs, by decide, by simp, hst⟩
  · exact Or.inl ⟨[','], hs, by decide, by simp, hst⟩
  · left
    refine ⟨['[', c, ']'], by rw [hs]; rfl, balanced_idiom c hc, ?_, hst⟩
    have h1 : c ≠ '[' := by rcases hc with h | h <;> subst h <;> decide
    simp only [List.tail_cons, List.mem_cons, List.mem_singleton, not_or]
    exact ⟨fun e => h1 e.symm, by decide, by simp⟩
  · exact Or.inr (Or.inl ⟨hs, hi, hst⟩)
  · exact Or.inr (Or.inr ⟨k, hs, hst⟩)
  · exact Or.inl ⟨[c], hs, balanced_single c hc.2.2.2.2.2.2.1 hc.2.2.2.2.2.2.2, by simp, hst⟩

theorem reaches_suffix (s s1 : CompileState) (h : reaches s s1) :
    ∃ pre, s.source = pre ++ s1.source := by
  induction h with
  | refl => exact ⟨[], rfl⟩
  | tail _ hstep ih =>
    obtain ⟨pre, hpre⟩ := ih
    rcases iter_step_consumes _ _ hstep with ⟨u, hu, _⟩ | ⟨hu, _⟩ | ⟨k, hu, _⟩
    · exact ⟨pre ++ u, by rw [hpre, hu, List.append_assoc]⟩
    · exact ⟨pre ++ ['['], by rw [hpre, hu]; simp⟩
    · exact ⟨pre ++ [']'], by rw [hpre, hu]; simp⟩

/-- The history of a non-empty loop stack. -/
theorem opened_cons_inv (s0 : CompileState) (source : List Char) (l : List Nat)
    (h : opened s0 source l) :
    ∀ k st, l = k :: st →
      ∃ so seg, reaches s0 so ∧ so.source = '[' :: (seg ++ source) ∧
        set_zero_idiom (seg ++ source) = false ∧ balanced seg ∧
        opened s0 so.source so.loop_stack ∧ so.prog.length = k ∧ so.loop_stack = st := by
  cases h with
  | nil => intro k st h; simp at h
  | cons so seg _ hr hs hi hb ho =>
    intro k st h
    injection h with h1 h2
    exact ⟨so, seg, hr, hs, hi, hb, ho, h1, h2⟩

/-- Reading a balanced text keeps the history of the loop stack. -/
theorem opened_advance (s0 : CompileState) (u source : List Char) (st : List Nat)
    (h : opened s0 (u ++ source) st) (hu : balanced u) : opened s0 source st := by
  cases st with
  | nil => exact opened.nil _
  | cons k st =>
    obtain ⟨so, seg, hr, hs, hi, hb, ho, h1, h2⟩ := opened_cons_inv s0 _ _ h k st rfl
    rw [← h1, ← h2]
    refine opened.cons so (seg ++ u) source hr ?_ ?_ (balanced_append _ _ hb hu) ho
    · rw [hs, List.append_assoc]
    · rw [List.append_assoc]; exact hi

/-- Every reached state knows the history of its loop stack. -/
theorem opened_reaches (s0 s : CompileState) (h : reaches s0 s) (h0 : s0.loop_stack = []) :
    opened s0 s.source s.loop_stack := by
  induction h with
  | refl => rw [h0]; exact opened.nil _
  | tail hsa hstep ih =>
    rename_i a b
    rcases iter_step_consumes _ _ hstep with ⟨u, hu, hbal, _, hst⟩ | ⟨hu, hi, hst⟩ | ⟨k, hu, hst⟩
    · rw [hu] at ih
      rw [hst]
      exact opened_advance s0 u _ _ ih hbal
    · rw [hst]
      exact opened.cons a [] b.source hsa (by rw [hu]; rfl) hi balanced_nil ih
    · rw [hu, hst] at ih
      obtain ⟨so, seg, hr, hs, hi, hb, ho, h1, h2⟩ := opened_cons_inv s0 _ _ ih _ _ rfl
      have hs' : so.source = ('[' :: (seg ++ [']'])) ++ b.source := by
        rw [hs]; simp
      rw [hs', h2] at ho
      exact opened_advance s0 _ _ _ ho (balanced_wrap seg hb)

/-! ## Where a pending `[` is closed -/

/-- If the loop ends with the entry `k` popped, some reached state is at the `]` that
pops `k`, and the text read until there closes the entries above `k` and is otherwise
balanced. -/
theorem closing_state :
    ∀ (n : Nat) (s sf : CompileState) (ks : List Nat) (k : Nat) (st : List Nat),
      s.source.length ≤ n → s.loop_stack = ks ++ k :: st → compile_all s = Except.ok sf →
      sf.loop_stack.length ≤ st.length →
      ∃ sc seg rest, reaches s sc ∧ s.source = seg ++ ']' :: rest ∧ sc.source = ']' :: rest ∧
        sc.loop_stack = k :: st ∧ bracket_scan seg ks.length = some 0 := by
  intro n
  induction n with
  | zero =>
    intro s sf ks k st hn hst hc hsf
    rcases compile_all_ok_step s sf hc with ⟨_, he⟩ | ⟨s1, hstep, _⟩
    · subst he
      rw [hst] at hsf
      simp at hsf
      omega
    · have := iter_step_length _ _ hstep
      omega
  | succ n ih =>
    intro s sf ks k st hn hst hc hsf
    rcases compile_all_ok_step s sf hc with ⟨_, he⟩ | ⟨s1, hstep, hc1⟩
    · subst he
      rw [hst] at hsf
      simp at hsf
      omega
    · have hlen := iter_step_length _ _ hstep
      rcases iter_step_consumes _ _ hstep with ⟨u, hu, hbal, _, hst1⟩ | ⟨hu, _, hst1⟩ |
        ⟨k1, hu, hst1⟩
      · obtain ⟨sc, seg, rest, hr, hs, hsc, hstk, hscan⟩ :=
          ih s1 sf ks k st (by omega) (by rw [hst1, hst]) hc1 hsf
        refine ⟨sc, u ++ seg, rest, Relation.ReflTransGen.head hstep hr, ?_, hsc, hstk, ?_⟩
        · rw [hu, hs, List.append_assoc]
        · have h1 := bracket_scan_lift u 0 0 ks.length hbal
          simp only [Nat.zero_add] at h1
          exact bracket_scan_append_some u seg _ _ _ h1 hscan
      · obtain ⟨sc, seg, rest, hr, hs, hsc, hstk, hscan⟩ :=
          ih s1 sf (s.prog.length :: ks) k st (by omega) (by rw [hst1, hst]; rfl) hc1 hsf
        refine ⟨sc, '[' :: seg, rest, Relation.ReflTransGen.head hstep hr, ?_, hsc, hstk, ?_⟩
        · rw [hu, hs]; rfl
        · rw [bracket_scan_cons]
          simpa using hscan
      · cases ks with
        | nil =>
          refine ⟨s, [], s1.source, Relation.ReflTransGen.refl, by rw [hu]; rfl, hu, ?_, rfl⟩
          rw [hst]; rfl
        | cons k2 ks2 =>
          rw [hst] at hst1
          simp only [List.cons_append, List.cons.injEq] at hst1
          obtain ⟨sc, seg, rest, hr, hs, hsc, hstk, hscan⟩ :=
            ih s1 sf ks2 k st (by omega) hst1.2.symm hc1 hsf
          refine ⟨sc, ']' :: seg, rest, Relation.ReflTransGen.head hstep hr, ?_, hsc, hstk, ?_⟩
          · rw [hu, hs]; rfl
          · rw [bracket_scan_cons]
            simpa using hscan

/-! ## Every `[` of the source is at the top of an iteration -/

theorem prefix_of_not_mem (b : Char) :
    ∀ (u x pre suf : List Char), u ++ x = pre ++ b :: suf → b ∉ u →
      ∃ w, pre = u ++ w ∧ x = w ++ b :: suf := by
  intro u
  induction u with
  | nil => intro x pre suf h _; exact ⟨pre, rfl, h⟩
  | cons c u ih =>
    intro x pre suf h hb
    cases pre with
    | nil =>
      simp only [List.cons_append, List.nil_append, List.cons.injEq] at h
      exact absurd (by rw [h.1]; exact List.mem_cons_self _ _) hb
    | cons p pre =>
      simp only [List.cons_append, List.cons.injEq] at h
      obtain ⟨w, h1, h2⟩ := ih x pre suf h.2 (fun e => hb (List.mem_cons_of_mem _ e))
      exact ⟨w, by rw [h.1, h1]; rfl, h2⟩

/-- If the loop ends without error, it is at the top of an iteration at every `[` of the
source. -/
theorem open_bracket_reached :
    ∀ (n : Nat) (s sf : CompileState) (pre suf : List Char), pre.length ≤ n →
      s.source = pre ++ '[' :: suf → compile_all s = Except.ok sf →
      ∃ s1, reaches s s1 ∧ s1.source = '[' :: suf := by
  intro n
  induction n with
  | zero =>
    intro s sf pre suf hn hs _
    have : pre = [] := List.eq_nil_of_length_eq_zero (by omega)
    subst this
    exact ⟨s, Relation.ReflTransGen.refl, hs⟩
  | succ n ih =>
    intro s sf pre suf hn hs hc
    cases pre with
    | nil => exact ⟨s, Relation.ReflTransGen.refl, hs⟩
    | cons p pre =>
      rcases compile_all_ok_step s sf hc with ⟨he, _⟩ | ⟨s1, hstep, hc1⟩
      · rw [he] at hs; simp at hs
      · simp only [List.length_cons] at hn
        have key : ∃ w, w.length ≤ n ∧ s1.source = w ++ '[' :: suf := by
          rcases iter_step_consumes _ _ hstep with ⟨u, hu, _, hnot, _⟩ | ⟨hu, _, _⟩ | ⟨k1, hu, _⟩
          · cases u with
            | nil =>
              have := iter_step_length _ _ hstep
              rw [hu] at this
              simp at this
            | cons c u =>
              rw [hs] at hu
              simp only [List.cons_append, List.cons.injEq] at hu
              obtain ⟨w, h1, h2⟩ := prefix_of_not_mem '[' u s1.source pre suf hu.2.symm hnot
              refine ⟨w, ?_, h2⟩
              rw [h1] at hn
              simp at hn
              omega
          · rw [hs] at hu
            simp only [List.cons_append, List.cons.injEq] at hu
            exact ⟨pre, by omega, hu.2.symm⟩
          · rw [hs] at hu
            simp only [List.cons_append, List.cons.injEq] at hu
            exact ⟨pre, by omega, hu.2.symm⟩
        obtain ⟨w, hw, hs1⟩ := key
        obtain ⟨s2, hr, hs2⟩ := ih s1 sf w suf hw hs1 hc1
        exact ⟨s2, Relation.ReflTransGen.head hstep hr, hs2⟩

end BfOpt

end BrainFuck


namespace BrainFuck

namespace BfOpt

/-! ## The two instructions of a loop in the final program -/

theorem iter_step_open_inv (s s1 : CompileState) (rest : List Char) (h : iter_step s s1)
    (hs : s.source = '[' :: rest) (hi : set_zero_idiom rest = false) :
    s1 = { source := rest,
           prog := s.prog ++ [{ type := OperationType.JUMP_ZERO, operand := 0 }],
           loop_stack := s.prog.length :: s.loop_stack } := by
  obtain ⟨c, rest2, hs2, hit⟩ := h
  rw [hs] at hs2
  injection hs2 with h1 h2
  subst h1 h2
  rw [compile_iter_open rest s.prog s.loop_stack hi] at hit
  by_cases hd : s.loop_stack.length ≥ 4096
  · simp [hd] at hit
  · simp only [hd, if_false] at hit
    injection hit with hit
    exact hit.symm

theorem iter_step_close_inv (s s1 : CompileState) (rest : List Char) (h : iter_step s s1)
    (hs : s.source = ']' :: rest) :
    ∃ k st, s.loop_stack = k :: st ∧
      s1 = { source := rest,
             prog := set_operand s.prog k s.prog.length ++
               [{ type := OperationType.JUMP_NONZERO, operand := k }],
             loop_stack := st } := by
  obtain ⟨c, rest2, hs2, hit⟩ := h
  rw [hs] at hs2
  injection hs2 with h1 h2
  subst h1 h2
  rw [compile_iter_close] at hit
  cases hst : s.loop_stack with
  | nil => rw [hst] at hit; simp at hit
  | cons k st =>
    rw [hst] at hit
    simp only at hit
    injection hit with hit
    exact ⟨k, st, rfl, hit.symm⟩

/-- At a reached `]`, the iteration writes the final `JUMP_ZERO` / `JUMP_NONZERO` pair of
the loop that the top of the loop stack opened. -/
theorem close_core (s0 sf sc : CompileState) (rest : List Char) (h0 : s0.loop_stack = [])
    (hc : compile_all s0 = Except.ok sf) (hr : reaches s0 sc) (hs : sc.source = ']' :: rest) :
    ∃ k st sc1, sc.loop_stack = k :: st ∧ iter_step sc sc1 ∧ sc1.source = rest ∧
      sc1.prog.length = sc.prog.length + 1 ∧ k < sc.prog.length ∧
      sf.prog.get? k = some { type := OperationType.JUMP_ZERO, operand := sc.prog.length } ∧
      sf.prog.get? sc.prog.length =
        some { type := OperationType.JUMP_NONZERO, operand := k } := by
  have hcc : compile_all sc = Except.ok sf := by rw [← compile_all_reaches s0 sc hr, hc]
  rcases compile_all_ok_step sc sf hcc with ⟨he, _⟩ | ⟨sc1, hstep, hc1⟩
  · rw [he] at hs; simp at hs
  obtain ⟨k, st, hst, hsc1⟩ := iter_step_close_inv sc sc1 rest hstep hs
  have hok : stack_ok sc := stack_ok_reaches s0 sc hr ⟨by rw [h0]; exact List.Pairwise.nil,
    fun x hx => by rw [h0] at hx; simp at hx⟩
  obtain ⟨hpw, hget⟩ := hok
  rw [hst, List.pairwise_cons] at hpw
  have hk := hget k (by rw [hst]; exact List.mem_cons_self _ _)
  have hklt := lt_length_of_get? _ _ _ hk
  have hr1 : reaches sc1 sf := (compile_all_ok_reaches sc1.source.length sc1 sf
    (Nat.le_refl _) hc1).1
  have hlen1 : sc1.prog.length = sc.prog.length + 1 := by
    rw [hsc1]; simp [length_set_operand]
  have hst1 : sc1.loop_stack = st := by rw [hsc1]
  have hfk : frozen sc1 k := by
    refine ⟨by omega, ?_⟩
    rw [hst1]
    intro hmem
    have := hpw.1 k hmem
    omega
  have hfj : frozen sc1 sc.prog.length := by
    refine ⟨by omega, ?_⟩
    rw [hst1]
    intro hmem
    have := hpw.1 _ hmem
    omega
  have hgk : sc1.prog.get? k =
      some { type := OperationType.JUMP_ZERO, operand := sc.prog.length } := by
    rw [hsc1]
    simp only
    rw [get?_append_emit _ _ _ (by rw [length_set_operand]; exact hklt),
      get?_set_operand_eq _ _ _ _ hk]
  have hgj : sc1.prog.get? sc.prog.length =
      some { type := OperationType.JUMP_NONZERO, operand := k } := by
    rw [hsc1]
    simp only
    have := get?_append_new (set_operand sc.prog k sc.prog.length)
      { type := OperationType.JUMP_NONZERO, operand := k }
    rwa [length_set_operand] at this
  refine ⟨k, st, sc1, hst, hstep, by rw [hsc1], hlen1, hklt, ?_, ?_⟩
  · rw [(frozen_reaches sc1 sf hr1 k hfk).2, hgk]
  · rw [(frozen_reaches sc1 sf hr1 _ hfj).2, hgj]

/-- At a reached generic `[`: the state after it, the reached `]` that closes it, and the
final instruction pair. -/
theorem open_facts (s0 sf so : CompileState) (rest_o : List Char) (h0 : s0.loop_stack = [])
    (hc : compile_all s0 = Except.ok sf) (hsf : sf.loop_stack = []) (hr : reaches s0 so)
    (hs : so.source = '[' :: rest_o) (hi : set_zero_idiom rest_o = false) :
    ∃ so1 sc sc1 seg rest,
      iter_step so so1 ∧ so1.source = rest_o ∧ so1.prog.length = so.prog.length + 1 ∧
      rest_o = seg ++ ']' :: rest ∧ balanced seg ∧
      reaches s0 sc ∧ sc.source = ']' :: rest ∧ so.prog.length < sc.prog.length ∧
      iter_step sc sc1 ∧ sc1.source = rest ∧ sc1.prog.length = sc.prog.length + 1 ∧
      sf.prog.get? so.prog.length =
        some { type := OperationType.JUMP_ZERO, operand := sc.prog.length } ∧
      sf.prog.get? sc.prog.length =
        some { type := OperationType.JUMP_NONZERO, operand := so.prog.length } := by
  have hcc : compile_all so = Except.ok sf := by rw [← compile_all_reaches s0 so hr, hc]
  rcases compile_all_ok_step so sf hcc with ⟨he, _⟩ | ⟨so1, hstep, hc1⟩
  · rw [he] at hs; simp at hs
  have hso1 := iter_step_open_inv so so1 rest_o hstep hs hi
  obtain ⟨sc, seg, rest, hrc, hsrc, hsc, hstk, hscan⟩ :=
    closing_state so1.source.length so1 sf [] so.prog.length so.loop_stack (Nat.le_refl _)
      (by rw [hso1]; rfl) hc1 (by rw [hsf]; simp)
  have hr_sc : reaches s0 sc :=
    Relation.ReflTransGen.trans hr (Relation.ReflTransGen.head hstep hrc)
  obtain ⟨k, st, sc1, hst, hstepc, hsc1, hlen1, hklt, hgk, hgj⟩ :=
    close_core s0 sf sc rest h0 hc hr_sc hsc
  rw [hstk] at hst
  injection hst with hk _
  subst hk
  refine ⟨so1, sc, sc1, seg, rest, hstep, by rw [hso1], by rw [hso1]; simp, ?_, hscan, hr_sc,
    hsc, hklt, hstepc, hsc1, hlen1, hgk, hgj⟩
  rw [← hsrc, hso1]

/-- At a reached `]`: the reached generic `[` that it closes, and the final instruction
pair. -/
theorem close_facts (s0 sf sc : CompileState) (rest : List Char) (h0 : s0.loop_stack = [])
    (hc : compile_all s0 = Except.ok sf) (hr : reaches s0 sc) (hs : sc.source = ']' :: rest) :
    ∃ so so1 sc1 seg,
      reaches s0 so ∧ so.source = '[' :: (seg ++ ']' :: rest) ∧
      set_zero_idiom (seg ++ ']' :: rest) = false ∧ balanced seg ∧
      iter_step so so1 ∧ so1.source = seg ++ ']' :: rest ∧
      so1.prog.length = so.prog.length + 1 ∧ so.prog.length < sc.prog.length ∧
      iter_step sc sc1 ∧ sc1.source = rest ∧ sc1.prog.length = sc.prog.length + 1 ∧
      sf.prog.get? so.prog.length =
        some { type := OperationType.JUMP_ZERO, operand := sc.prog.length } ∧
      sf.prog.get? sc.prog.length =
        some { type := OperationType.JUMP_NONZERO, operand := so.prog.length } := by
  obtain ⟨k, st, sc1, hst, hstepc, hsc1, hlen1, hklt, hgk, hgj⟩ :=
    close_core s0 sf sc rest h0 hc hr hs
  have hop := opened_reaches s0 sc hr h0
  rw [hs, hst] at hop
  obtain ⟨so, seg, hro, hso, hi, hb, _, h1, _⟩ := opened_cons_inv s0 _ _ hop k st rfl
  subst h1
  have hcc : compile_all so = Except.ok sf := by rw [← compile_all_reaches s0 so hro, hc]
  rcases compile_all_ok_step so sf hcc with ⟨he, _⟩ | ⟨so1, hstep, _⟩
  · rw [he] at hso; simp at hso
  have hso1 := iter_step_open_inv so so1 _ hstep hso hi
  exact ⟨so, so1, sc1, seg, hro, hso, hi, hb, hstep, by rw [hso1], by rw [hso1]; simp, hklt,
    hstepc, hsc1, hlen1, hgk, hgj⟩

/-- The instruction that an emitting iteration writes: the `JUMP_ZERO` of a generic `[`,
the `JUMP_NONZERO` of a `]`, or a final instruction that is no jump. -/
theorem emitted_kind (a b : CompileState) (h : iter_step a b) (hok : stack_ok a)
    (hlen : b.prog.length = a.prog.length + 1) :
    (∃ rest, a.source = '[' :: rest ∧ set_zero_idiom rest = false) ∨
    (∃ rest, a.source = ']' :: rest) ∨
    (frozen b a.prog.length ∧ ∃ instr, b.prog.get? a.prog.length = some instr ∧
      instr.type ≠ OperationType.JUMP_ZERO ∧ instr.type ≠ OperationType.JUMP_NONZERO) := by
  have hnot : a.prog.length ∉ a.loop_stack := fun hm =>
    absurd (lt_length_of_get? _ _ _ (hok.2 _ hm)) (Nat.lt_irrefl _)
  have happ : ∀ (instr : Instruction), b.prog = a.prog ++ [instr] →
      b.loop_stack = a.loop_stack → instr.type ≠ OperationType.JUMP_ZERO →
      instr.type ≠ OperationType.JUMP_NONZERO →
      frozen b a.prog.length ∧ ∃ instr, b.prog.get? a.prog.length = some instr ∧
        instr.type ≠ OperationType.JUMP_ZERO ∧ instr.type ≠ OperationType.JUMP_NONZERO := by
    intro instr hp hst h1 h2
    refine ⟨⟨by omega, by rw [hst]; exact hnot⟩, instr, ?_, h1, h2⟩
    rw [hp]
    exact get?_append_new _ _
  rcases iter_step_cases a b h with ⟨c, j, hc, _, _, hp, hst⟩ | ⟨_, hp, hst⟩ | ⟨_, hp, hst⟩ |
    ⟨c, _, _, hp, hst⟩ | ⟨hs, hi, _, _, _⟩ | ⟨k, hs, _, _⟩ | ⟨c, _, _, hp, _⟩
  · refine Or.inr (Or.inr (happ _ hp hst ?_ ?_))
    · rcases fold_opcode_folded c with h | h | h | h <;> simp [h]
    · rcases fold_opcode_folded c with h | h | h | h <;> simp [h]
  · exact Or.inr (Or.inr (happ _ hp hst (by simp) (by simp)))
  · exact Or.inr (Or.inr (happ _ hp hst (by simp) (by simp)))
  · exact Or.inr (Or.inr (happ _ hp hst (by simp) (by simp)))
  · exact Or.inl ⟨_, hs, hi⟩
  · exact Or.inr (Or.inl ⟨_, hs⟩)
  · rw [hp] at hlen
    omega

end BfOpt

end BrainFuck


namespace BrainFuck

namespace BfOpt

/-! ## Jump operands match -/

theorem get?_halt_last (prog : Program) (junk i : Nat) (instr : Instruction)
    (h : (prog ++ [({ type := OperationType.HALT, operand := junk } : Instruction)]).get? i =
      some instr)
    (hty : instr.type ≠ OperationType.HALT) :
    i < prog.length ∧ prog.get? i = some instr := by
  have hlt := lt_length_of_get? _ _ _ h
  simp only [List.length_append, List.length_singleton] at hlt
  by_cases hi : i < prog.length
  · rw [get?_append_emit _ _ _ hi] at h
    exact ⟨hi, h⟩
  · have : i = prog.length := by omega
    subst this
    rw [get?_append_new] at h
    injection h with h
    subst h
    exact absurd rfl hty

/-- A jump instruction of the final program is emitted at a reached generic `[` (for
`JUMP_ZERO`) or at a reached `]` (for `JUMP_NONZERO`). -/
theorem jump_origin (s0 sf : CompileState) (h0 : s0.loop_stack = []) (hp0 : s0.prog = [])
    (hc : compile_all s0 = Except.ok sf) (hsf : sf.loop_stack = []) (i : Nat)
    (instr : Instruction)
    (hget : sf.prog.get? i = some instr) :
    (instr.type = OperationType.JUMP_ZERO →
      ∃ a rest, reaches s0 a ∧ a.prog.length = i ∧ a.source = '[' :: rest ∧
        set_zero_idiom rest = false) ∧
    (instr.type = OperationType.JUMP_NONZERO →
      ∃ a rest, reaches s0 a ∧ a.prog.length = i ∧ a.source = ']' :: rest) := by
  have hrf : reaches s0 sf := (compile_all_ok_reaches s0.source.length s0 sf
    (Nat.le_refl _) hc).1
  have hi := lt_length_of_get? _ _ _ hget
  obtain ⟨a, b, hra, hab, hrb, e1, e2⟩ := emitted_by_step s0 sf hrf i
    (by rw [hp0]; exact Nat.zero_le _) hi
  have hok : stack_ok a := stack_ok_reaches s0 a hra ⟨by rw [h0]; exact List.Pairwise.nil,
    fun x hx => by rw [h0] at hx; simp at hx⟩
  rcases emitted_kind a b hab hok (by omega) with ⟨rest, hs, hidi⟩ | ⟨rest, hs⟩ |
    ⟨hfz, ins, hins, hn1, hn2⟩
  · refine ⟨fun _ => ⟨a, rest, hra, e1, hs, hidi⟩, fun hty => ?_⟩
    exfalso
    obtain ⟨_, _, _, _, _, _, _, _, _, _, _, _, _, _, _, _, hgk, _⟩ :=
      open_facts s0 sf a rest h0 hc hsf hra hs hidi
    rw [e1, hget] at hgk
    injection hgk with hgk
    rw [hgk] at hty
    exact absurd hty (by simp)
  · refine ⟨fun hty => ?_, fun _ => ⟨a, rest, hra, e1, hs⟩⟩
    exfalso
    obtain ⟨k, st, sc1, _, _, _, _, _, _, hgj⟩ := close_core s0 sf a rest h0 hc hra hs
    rw [e1, hget] at hgj
    injection hgj with hgj
    rw [hgj] at hty
    exact absurd hty (by simp)
  · have := (frozen_reaches b sf hrb _ hfz).2
    rw [e1, hget, ← e1, hins] at this
    injection this with this
    subst this
    exact ⟨fun hty => absurd hty hn1, fun hty => absurd hty hn2⟩

theorem drop_after (pre : List Char) (c : Char) (x : List Char) :
    (pre ++ c :: x).drop (pre.length + 1) = x := by
  induction pre with
  | nil => rfl
  | cons p pre ih => simp

/-- A final `JUMP_ZERO i -> j`: the reached generic `[` and the reached `]` it comes from. -/
theorem jump_zero_origin (s0 sf : CompileState) (h0 : s0.loop_stack = []) (hp0 : s0.prog = [])
    (hc : compile_all s0 = Except.ok sf) (hsf : sf.loop_stack = []) (i j : Nat)
    (hget : sf.prog.get? i = some { type := OperationType.JUMP_ZERO, operand := j }) :
    ∃ so sc seg rest, reaches s0 so ∧ so.prog.length = i ∧
      so.source = '[' :: (seg ++ ']' :: rest) ∧ set_zero_idiom (seg ++ ']' :: rest) = false ∧
      balanced seg ∧ reaches s0 sc ∧ sc.source = ']' :: rest ∧ sc.prog.length = j ∧ i < j ∧
      sf.prog.get? j = some { type := OperationType.JUMP_NONZERO, operand := i } := by
  obtain ⟨so, rest_o, hro, e1, hso, hidi⟩ := (jump_origin s0 sf h0 hp0 hc hsf i _ hget).1 rfl
  obtain ⟨so1, sc, sc1, seg, rest, _, _, _, hsplit, hbal, hrc, hsc, hlt, _, _, _, hgk, hgj⟩ :=
    open_facts s0 sf so rest_o h0 hc hsf hro hso hidi
  rw [e1] at hgk hgj hlt
  rw [hget] at hgk
  injection hgk with hgk
  injection hgk with _ hj
  subst hsplit
  exact ⟨so, sc, seg, rest, hro, e1, hso, hidi, hbal, hrc, hsc, hj.symm, by omega,
    by rw [hj]; exact hgj⟩

/-- C1: in the program that `compile_source` builds from a source, (1) a `JUMP_ZERO` at
index `i` with operand `j` has `i < j` and the instruction at `j` is `JUMP_NONZERO` with
operand `i`; (2) a `JUMP_NONZERO` at `j` with operand `i` has `JUMP_ZERO` with operand `j`
at `i`; (3) every pair of matching `[` / `]` of the source that is no set-zero idiom is
compiled to such a pair, at the indices where the loop emits for their positions; (4) every
such pair comes from a matching pair of the source that is no idiom; (5) the indices follow
the order of the source positions. -/
theorem jump_operands_match (junk : Nat) (source : List Char) (P : Program)
    (h : compile_source junk source program_init = Except.ok P) :
    (∀ i j, P.get? i = some { type := OperationType.JUMP_ZERO, operand := j } →
      i < j ∧ P.get? j = some { type := OperationType.JUMP_NONZERO, operand := i }) ∧
    (∀ j i, P.get? j = some { type := OperationType.JUMP_NONZERO, operand := i } →
      P.get? i = some { type := OperationType.JUMP_ZERO, operand := j }) ∧
    (∀ p q, matching source p q → ¬ idiom_at source p →
      ∃ i j, emitted_at source p i ∧ emitted_at source q j ∧
        P.get? i = some { type := OperationType.JUMP_ZERO, operand := j }) ∧
    (∀ i j, P.get? i = some { type := OperationType.JUMP_ZERO, operand := j } →
      ∃ p q, matching source p q ∧ ¬ idiom_at source p ∧ emitted_at source p i ∧
        emitted_at source q j) ∧
    (∀ p p1 i i1, emitted_at source p i → emitted_at source p1 i1 → p ≤ p1 → i ≤ i1) := by
  obtain ⟨sf, hc, hsf, hP⟩ := compile_source_ok junk source _ P h
  obtain ⟨s0, hs0⟩ : ∃ s0 : CompileState,
      s0 = { source := source, prog := program_init, loop_stack := [] } := ⟨_, rfl⟩
  rw [← hs0] at hc
  have h0 : s0.loop_stack = [] := by rw [hs0]
  have hp0 : s0.prog = [] := by rw [hs0]; rfl
  have hsrc0 : s0.source = source := by rw [hs0]
  have hlift : ∀ x instr, sf.prog.get? x = some instr → P.get? x = some instr := by
    intro x instr hx
    rw [hP, get?_append_emit _ _ _ (lt_length_of_get? _ _ _ hx)]
    exact hx
  -- positions of a generic `[` and of its `]`
  have hpos : ∀ (so sc : CompileState) (seg rest : List Char), reaches s0 so →
      so.source = '[' :: (seg ++ ']' :: rest) → set_zero_idiom (seg ++ ']' :: rest) = false →
      balanced seg → reaches s0 sc → sc.source = ']' :: rest →
      ∃ p q, matching source p q ∧ ¬ idiom_at source p ∧
        emitted_at source p so.prog.length ∧ emitted_at source q sc.prog.length := by
    intro so sc seg rest hro hso hidi hbal hrc hsc
    obtain ⟨pre, hpre⟩ := reaches_suffix s0 so hro
    obtain ⟨pre2, hpre2⟩ := reaches_suffix s0 sc hrc
    rw [hsrc0] at hpre hpre2
    have hpre2' : pre2 = pre ++ '[' :: seg := by
      have e1 : source = pre2 ++ ']' :: rest := by rw [← hsc]; exact hpre2
      have e2 : source = (pre ++ '[' :: seg) ++ ']' :: rest := by
        rw [List.append_assoc, List.cons_append, ← hso]; exact hpre
      exact List.append_cancel_right (e1.symm.trans e2)
    refine ⟨pre.length, pre.length + 1 + seg.length, ?_, ?_, ?_, ?_⟩
    · exact ⟨pre, seg, rest, by rw [hpre, hso], rfl, rfl, hbal⟩
    · unfold idiom_at
      rw [hpre, hso, drop_after, hidi]
      simp
    · exact ⟨so, pre, by rw [← hs0]; exact hro, hpre, rfl, rfl⟩
    · refine ⟨sc, pre2, by rw [← hs0]; exact hrc, hpre2, ?_, rfl⟩
      rw [hpre2']
      simp
      omega
  refine ⟨?_, ?_, ?_, ?_, ?_⟩
  · intro i j hget
    obtain ⟨hi, hget'⟩ := get?_halt_last sf.prog junk i _ (by rw [← hP]; exact hget) (by simp)
    obtain ⟨_, _, _, _, _, _, _, _, _, _, _, _, hlt, hgj⟩ :=
      jump_zero_origin s0 sf h0 hp0 hc hsf i j hget'
    exact ⟨hlt, hlift _ _ hgj⟩
  · intro j i hget
    obtain ⟨hj, hget'⟩ := get?_halt_last sf.prog junk j _ (by rw [← hP]; exact hget) (by simp)
    obtain ⟨a, rest, hra, e1, hs⟩ := (jump_origin s0 sf h0 hp0 hc hsf j _ hget').2 rfl
    obtain ⟨k, st, sc1, _, _, _, _, _, hgk, hgj⟩ := close_core s0 sf a rest h0 hc hra hs
    rw [e1] at hgk hgj
    rw [hget'] at hgj
    injection hgj with hgj
    injection hgj with _ hik
    rw [hik]
    exact hlift _ _ hgk
  · intro p q hm hni
    obtain ⟨pre, seg, rest, hsrc, hp, hq, hbal⟩ := hm
    obtain ⟨so, hro, hso⟩ := open_bracket_reached pre.length s0 sf pre (seg ++ ']' :: rest)
      (Nat.le_refl _) (by rw [hsrc0, hsrc]) hc
    have hidi : set_zero_idiom (seg ++ ']' :: rest) = false := by
      unfold idiom_at at hni
      rw [hsrc, ← hp, drop_after] at hni
      simpa using hni
    obtain ⟨so1, sc, sc1, seg1, rest1, _, _, _, hsplit, hbal1, hrc, hsc, hlt, _, _, _, hgk, hgj⟩ :=
      open_facts s0 sf so _ h0 hc hsf hro hso hidi
    have hseg : seg = seg1 := first_return_unique seg seg1 rest rest1 0 hbal hbal1 hsplit
    subst hseg
    have hrest : rest = rest1 := by
      have := List.append_cancel_left hsplit
      injection this
    subst hrest
    refine ⟨so.prog.length, sc.prog.length, ?_, ?_, hlift _ _ hgk⟩
    · exact ⟨so, pre, by rw [← hs0]; exact hro, by rw [hso]; exact hsrc, hp, rfl⟩
    · obtain ⟨pre2, hpre2⟩ := reaches_suffix s0 sc hrc
      rw [hsrc0, hsc] at hpre2
      have e : pre2 = pre ++ '[' :: seg := by
        have e2 : pre2 ++ ']' :: rest = (pre ++ '[' :: seg) ++ ']' :: rest := by
          rw [← hpre2, hsrc]
          simp
        exact List.append_cancel_right e2
      refine ⟨sc, pre2, by rw [← hs0]; exact hrc, by rw [hsc]; exact hpre2, ?_, rfl⟩
      rw [e, hq, ← hp]
      simp
      omega
  · intro i j hget
    obtain ⟨hi, hget'⟩ := get?_halt_last sf.prog junk i _ (by rw [← hP]; exact hget) (by simp)
    obtain ⟨so, sc, seg, rest, hro, e1, hso, hidi, hbal, hrc, hsc, e2, _, _⟩ :=
      jump_zero_origin s0 sf h0 hp0 hc hsf i j hget'
    obtain ⟨p, q, hm, hni, hep, heq⟩ := hpos so sc seg rest hro hso hidi hbal hrc hsc
    rw [e1] at hep
    rw [e2] at heq
    exact ⟨p, q, hm, hni, hep, heq⟩
  · intro p p1 i i1 hep hep1 hle
    obtain ⟨s, pre, hr, hsrc, hp, hi⟩ := hep
    obtain ⟨s1, pre1, hr1, hsrc1, hp1, hi1⟩ := hep1
    rw [← hs0] at hr hr1
    have hlen : s1.source.length ≤ s.source.length := by
      have e1 := congrArg List.length hsrc
      have e2 := congrArg List.length hsrc1
      simp only [List.length_append] at e1 e2
      omega
    rcases reaches_total s0 s s1 hr hr1 with hh | hh
    · have := reaches_prog_length s s1 hh
      omega
    · have hl2 := reaches_length s1 s hh
      have := reaches_same_length s1 s hh (by omega)
      subst this
      omega

theorem jump_operands_match_witness :
    compile_source 0 ['[', ']'] program_init =
      Except.ok [{ type := OperationType.JUMP_ZERO, operand := 1 },
                 { type := OperationType.JUMP_NONZERO, operand := 0 },
                 { type := OperationType.HALT, operand := 0 }] ∧
    ((∀ i j, ([{ type := OperationType.JUMP_ZERO, operand := 1 },
                { type := OperationType.JUMP_NONZERO, operand := 0 },
                { type := OperationType.HALT, operand := 0 }] : Program).get? i =
          some { type := OperationType.JUMP_ZERO, operand := j } →
      i < j ∧ ([{ type := OperationType.JUMP_ZERO, operand := 1 },
                { type := OperationType.JUMP_NONZERO, operand := 0 },
                { type := OperationType.HALT, operand := 0 }] : Program).get? j =
          some { type := OperationType.JUMP_NONZERO, operand := i }) ∧
    (∀ j i, ([{ type := OperationType.JUMP_ZERO, operand := 1 },
                { type := OperationType.JUMP_NONZERO, operand := 0 },
                { type := OperationType.HALT, operand := 0 }] : Program).get? j =
          some { type := OperationType.JUMP_NONZERO, operand := i } →
      ([{ type := OperationType.JUMP_ZERO, operand := 1 },
                { type := OperationType.JUMP_NONZERO, operand := 0 },
                { type := OperationType.HALT, operand := 0 }] : Program).get? i =
          some { type := OperationType.JUMP_ZERO, operand := j }) ∧
    (∀ p q, matching ['[', ']'] p q → ¬ idiom_at ['[', ']'] p →
      ∃ i j, emitted_at ['[', ']'] p i ∧ emitted_at ['[', ']'] q j ∧
        ([{ type := OperationType.JUMP_ZERO, operand := 1 },
                { type := OperationType.JUMP_NONZERO, operand := 0 },
                { type := OperationType.HALT, operand := 0 }] : Program).get? i =
          some { type := OperationType.JUMP_ZERO, operand := j }) ∧
    (∀ i j, ([{ type := OperationType.JUMP_ZERO, operand := 1 },
                { type := OperationType.JUMP_NONZERO, operand := 0 },
                { type := OperationType.HALT, operand := 0 }] : Program).get? i =
          some { type := OperationType.JUMP_ZERO, operand := j } →
      ∃ p q, matching ['[', ']'] p q ∧ ¬ idiom_at ['[', ']'] p ∧ emitted_at ['[', ']'] p i ∧
        emitted_at ['[', ']'] q j) ∧
    (∀ p p1 i i1, emitted_at ['[', ']'] p i → emitted_at ['[', ']'] p1 i1 → p ≤ p1 →
      i ≤ i1)) :=
  ⟨rfl, jump_operands_match 0 ['[', ']'] _ rfl⟩

/-! ## The set-zero idiom -/

/-- The loop comes to the top of an iteration at every `[` of the source, unless an
iteration fails at a position before that `[`. -/
theorem open_bracket_reached_or_error :
    ∀ (n : Nat) (s : CompileState) (pre suf : List Char), pre.length ≤ n →
      s.source = pre ++ '[' :: suf →
      (∃ s1, reaches s s1 ∧ s1.source = '[' :: suf) ∨
      (∃ s1 d rest1 e, reaches s s1 ∧ s1.source = d :: rest1 ∧
        compile_iter d rest1 s1.prog s1.loop_stack = Except.error e ∧
        suf.length + 1 < s1.source.length) := by
  intro n
  induction n with
  | zero =>
    intro s pre suf hn hs
    have : pre = [] := List.eq_nil_of_length_eq_zero (by omega)
    subst this
    exact Or.inl ⟨s, Relation.ReflTransGen.refl, hs⟩
  | succ n ih =>
    intro s pre suf hn hs
    cases pre with
    | nil => exact Or.inl ⟨s, Relation.ReflTransGen.refl, hs⟩
    | cons p pre =>
      simp only [List.length_cons] at hn
      rcases hit : compile_iter p (pre ++ '[' :: suf) s.prog s.loop_stack with e | s1
      · refine Or.inr ⟨s, p, pre ++ '[' :: suf, e, Relation.ReflTransGen.refl, hs, hit, ?_⟩
        rw [hs]
        simp
        omega
      · have hstep : iter_step s s1 := ⟨p, pre ++ '[' :: suf, hs, hit⟩
        have key : ∃ w, w.length ≤ n ∧ s1.source = w ++ '[' :: suf := by
          rcases iter_step_consumes _ _ hstep with ⟨u, hu, _, hnot, _⟩ | ⟨hu, _, _⟩ | ⟨k1, hu, _⟩
          · cases u with
            | nil =>
              have := iter_step_length _ _ hstep
              rw [hu] at this
              simp at this
            | cons c u =>
              rw [hs] at hu
              simp only [List.cons_append, List.cons.injEq] at hu
              obtain ⟨w, h1, h2⟩ := prefix_of_not_mem '[' u s1.source pre suf hu.2.symm hnot
              refine ⟨w, ?_, h2⟩
              rw [h1] at hn
              simp at hn
              omega
          · rw [hs] at hu
            simp only [List.cons_append, List.cons.injEq] at hu
            exact ⟨pre, by omega, hu.2.symm⟩
          · rw [hs] at hu
            simp only [List.cons_append, List.cons.injEq] at hu
            exact ⟨pre, by omega, hu.2.symm⟩
        obtain ⟨w, hw, hs1⟩ := key
        rcases ih s1 w suf hw hs1 with ⟨s2, hr, hs2⟩ | ⟨s2, d, rest1, e, hr, hs2, herr, hl⟩
        · exact Or.inl ⟨s2, Relation.ReflTransGen.head hstep hr, hs2⟩
        · exact Or.inr ⟨s2, d, rest1, e, Relation.ReflTransGen.head hstep hr, hs2, herr, hl⟩

/-- C5: `[-]` and `[+]` compile to exactly `[SET_ZERO, HALT]`; and in any source, at every
`[` followed by one `-` or `+` and then `]`, the loop (unless an iteration has failed at an
earlier position) makes one iteration that consumes the three characters, appends the one
instruction `SET_ZERO` and leaves the loop stack as it is. -/
theorem set_zero_idiom_compiles_to_set_zero :
    (∀ junk, compile_source junk ['[', '-', ']'] program_init =
      Except.ok [{ type := OperationType.SET_ZERO, operand := 0 },
                 { type := OperationType.HALT, operand := junk }]) ∧
    (∀ junk, compile_source junk ['[', '+', ']'] program_init =
      Except.ok [{ type := OperationType.SET_ZERO, operand := 0 },
                 { type := OperationType.HALT, operand := junk }]) ∧
    (∀ (pre rest : List Char) (c : Char) (prog : Program) (st : List Nat),
      (c = '-' ∨ c = '+') →
      (∃ s, reaches { source := pre ++ '[' :: c :: ']' :: rest, prog := prog, loop_stack := st } s ∧
        s.source = '[' :: c :: ']' :: rest ∧
        iter_step s { source := rest,
                      prog := s.prog ++ [{ type := OperationType.SET_ZERO, operand := 0 }],
                      loop_stack := s.loop_stack }) ∨
      (∃ s d rest1 e,
        reaches { source := pre ++ '[' :: c :: ']' :: rest, prog := prog, loop_stack := st } s ∧
        s.source = d :: rest1 ∧
        compile_iter d rest1 s.prog s.loop_stack = Except.error e ∧
        rest.length + 3 < s.source.length)) := by
  refine ⟨fun _ => rfl, fun _ => rfl, ?_⟩
  intro pre rest c prog st hc
  rcases open_bracket_reached_or_error pre.length
      { source := pre ++ '[' :: c :: ']' :: rest, prog := prog, loop_stack := st }
      pre (c :: ']' :: rest) (Nat.le_refl _) rfl with
    ⟨s, hr, hs⟩ | ⟨s, d, rest1, e, hr, hs, herr, hl⟩
  · exact Or.inl ⟨s, hr, hs, '[', c :: ']' :: rest, hs, compile_iter_idiom c rest _ _ hc⟩
  · refine Or.inr ⟨s, d, rest1, e, hr, hs, herr, ?_⟩
    simp only [List.length_cons] at hl
    omega

theorem set_zero_idiom_compiles_to_set_zero_witness :
    ('-' = '-' ∨ '-' = '+') ∧
    ((∃ s, reaches { source := ['+'] ++ '[' :: '-' :: ']' :: ['.'], prog := program_init,
                     loop_stack := [] } s ∧
        s.source = '[' :: '-' :: ']' :: ['.'] ∧
        iter_step s { source := ['.'],
                      prog := s.prog ++ [{ type := OperationType.SET_ZERO, operand := 0 }],
                      loop_stack := s.loop_stack }) ∨
      (∃ s d rest1 e,
        reaches { source := ['+'] ++ '[' :: '-' :: ']' :: ['.'], prog := program_init,
                  loop_stack := [] } s ∧
        s.source = d :: rest1 ∧
        compile_iter d rest1 s.prog s.loop_stack = Except.error e ∧
        ['.'].length + 3 < s.source.length)) :=
  ⟨Or.inl rfl, set_zero_idiom_compiles_to_set_zero.2.2 ['+'] ['.'] '-' program_init []
    (Or.inl rfl)⟩

end BfOpt

end BrainFuck


namespace BrainFuck

namespace Bf

/-! ## The direct interpreter of `bf.c` -/

theorem direct_loop_add (w : World) :
    ∀ (a b : Nat) (m : Machine),
      tap_run_loop w (a + b) m =
        match tap_run_loop w a m with
        | Step.continue m1 => tap_run_loop w b m1
        | Step.exit e m1 => Step.exit e m1 := by
  intro a
  induction a with
  | zero => intro b m; simp [tap_run_loop]
  | succ a ih =>
    intro b m
    rw [Nat.add_right_comm]
    simp only [tap_run_loop]
    rcases tap_run_step w m with m1 | ⟨e, m1⟩
    · exact ih b m1
    · rfl

theorem tap_run_loop_one (w : World) (m : Machine) :
    tap_run_loop w 1 m = tap_run_step w m := by
  simp only [tap_run_loop]
  rcases tap_run_step w m with m1 | ⟨e, m1⟩ <;> rfl

/-- Running on: if `a` steps lead to `m1` and `b` more steps lead to the result `r`, then
`a + b` steps lead to `r`. -/
theorem tap_run_loop_trans (w : World) (a b : Nat) (m m1 : Machine) (r : Step)
    (h1 : tap_run_loop w a m = Step.continue m1) (h2 : tap_run_loop w b m1 = r) :
    tap_run_loop w (a + b) m = r := by
  rw [direct_loop_add, h1]
  exact h2

/-- A run that has returned stays returned with more fuel. -/
theorem direct_loop_exit_mono (w : World) (a b : Nat) (m m1 : Machine) (e : Exit)
    (h : tap_run_loop w a m = Step.exit e m1) (hab : a ≤ b) :
    tap_run_loop w b m = Step.exit e m1 := by
  obtain ⟨c, rfl⟩ : ∃ c, b = a + c := ⟨b - a, by omega⟩
  rw [direct_loop_add, h]

theorem step_end (w : World) (m : Machine) (h : m.tap.codes.get? m.tap.pc = none) :
    tap_run_step w m = Step.exit Exit.finished m := by
  simp only [tap_run_step, h]

theorem step_inert (w : World) (m : Machine) (c : Char) (h : m.tap.codes.get? m.tap.pc = some c)
    (hc : BfOpt.inert_char c) :
    tap_run_step w m = Step.continue { m with tap := { m.tap with pc := m.tap.pc + 1 } } := by
  obtain ⟨h1, h2, h3, h4, h5, h6, h7, h8⟩ := hc
  simp only [tap_run_step, h, h1, h2, h3, h4, h5, h6, h7, h8, if_false, finish_step, if_true]

theorem step_output (w : World) (m : Machine) (h : m.tap.codes.get? m.tap.pc = some '.')
    (hok : w.putchar_ok m.con.writes = true) :
    tap_run_step w m =
      Step.continue { tap := { m.tap with pc := m.tap.pc + 1 },
                      con := m.con.put w (load m.tap.heap m.tap.cell).data } := by
  simp only [tap_run_step, h]
  simp only [show ¬ ('.' = '>') by decide, show ¬ ('.' = '<') by decide,
    show ¬ ('.' = '+') by decide, show ¬ ('.' = '-') by decide, if_false, if_true, tap_output,
    finish_step, hok]

theorem step_input (w : World) (m : Machine) (h : m.tap.codes.get? m.tap.pc = some ',') :
    tap_run_step w m =
      match w.getchar m.con.reads with
      | some c =>
        Step.continue
          { tap := { m.tap with heap := store_data m.tap.heap m.tap.cell (c % 256),
                                pc := m.tap.pc + 1 },
            con := m.con.got }
      | none => Step.continue { tap := { m.tap with pc := m.tap.pc + 1 }, con := m.con.got } := by
  simp only [tap_run_step, h]
  simp only [show ¬ (',' = '>') by decide, show ¬ (',' = '<') by decide,
    show ¬ (',' = '+') by decide, show ¬ (',' = '-') by decide, show ¬ (',' = '.') by decide,
    if_false, if_true, tap_input]
  cases w.getchar m.con.reads <;> rfl

theorem step_open_zero (w : World) (m : Machine) (q : Nat)
    (h : m.tap.codes.get? m.tap.pc = some '[') (hd : (load m.tap.heap m.tap.cell).data = 0)
    (hj : jump_forward_loop (m.tap.codes.drop (m.tap.pc + 1)) m.tap.pc 1 = (LoopResult.OK, q)) :
    tap_run_step w m = Step.continue { m with tap := { m.tap with pc := q + 1 } } := by
  simp only [tap_run_step, h]
  simp only [show ¬ ('[' = '>') by decide, show ¬ ('[' = '<') by decide,
    show ¬ ('[' = '+') by decide, show ¬ ('[' = '-') by decide, show ¬ ('[' = '.') by decide,
    show ¬ ('[' = ',') by decide, if_false, if_true, hd, tap_jump_forward, hj, finish_step]

theorem step_open_nonzero (w : World) (m : Machine)
    (h : m.tap.codes.get? m.tap.pc = some '[') (hd : (load m.tap.heap m.tap.cell).data ≠ 0) :
    tap_run_step w m = Step.continue { m with tap := { m.tap with pc := m.tap.pc + 1 } } := by
  simp only [tap_run_step, h]
  simp only [show ¬ ('[' = '>') by decide, show ¬ ('[' = '<') by decide,
    show ¬ ('[' = '+') by decide, show ¬ ('[' = '-') by decide, show ¬ ('[' = '.') by decide,
    show ¬ ('[' = ',') by decide, if_false, if_true, hd, finish_step]

theorem step_close_nonzero (w : World) (m : Machine) (q : Nat)
    (h : m.tap.codes.get? m.tap.pc = some ']') (hd : (load m.tap.heap m.tap.cell).data ≠ 0)
    (hj : jump_back_loop m.tap.codes m.tap.pc 1 = (LoopResult.OK, q)) :
    tap_run_step w m = Step.continue { m with tap := { m.tap with pc := q + 1 } } := by
  simp only [tap_run_step, h]
  simp only [show ¬ (']' = '>') by decide, show ¬ (']' = '<') by decide,
    show ¬ (']' = '+') by decide, show ¬ (']' = '-') by decide, show ¬ (']' = '.') by decide,
    show ¬ (']' = ',') by decide, show ¬ (']' = '[') by decide, if_false, if_true, hd,
    tap_jump_back, hj, finish_step, ne_eq, not_false_eq_true]

theorem step_close_zero (w : World) (m : Machine)
    (h : m.tap.codes.get? m.tap.pc = some ']') (hd : (load m.tap.heap m.tap.cell).data = 0) :
    tap_run_step w m = Step.continue { m with tap := { m.tap with pc := m.tap.pc + 1 } } := by
  simp only [tap_run_step, h]
  simp only [show ¬ (']' = '>') by decide, show ¬ (']' = '<') by decide,
    show ¬ (']' = '+') by decide, show ¬ (']' = '-') by decide, show ¬ (']' = '.') by decide,
    show ¬ (']' = ',') by decide, show ¬ (']' = '[') by decide, if_false, if_true, hd,
    finish_step, ne_eq, not_true_eq_false]

/-- The effect of one folded character on the heap and the cursor of `bf.c`. -/
theorem step_fold (w : World) (m : Machine) (c : Char)
    (h : m.tap.codes.get? m.tap.pc = some c) (hc : BfOpt.fold_char c) :
    tap_run_step w m =
      Step.continue
        { tap := { heap := (unit_op c m.tap.heap m.tap.cell).1,
                   cell := (unit_op c m.tap.heap m.tap.cell).2,
                   codes := m.tap.codes, pc := m.tap.pc + 1 },
          con := m.con } := by
  simp only [tap_run_step, h]
  rcases hc with hc | hc | hc | hc <;> subst hc
  · simp only [if_true, finish_step, unit_op]
    unfold tap_move_right tap_resize_right
    by_cases hn : node_is_tomp (load m.tap.heap m.tap.cell).next = true
    · simp [hn, grown_right]
    · simp [hn]
  · simp only [show ¬ ('<' = '>') by decide, if_false, if_true, finish_step, unit_op]
    unfold tap_move_left tap_resize_left
    by_cases hn : node_is_tomp (load m.tap.heap m.tap.cell).prev = true
    · simp [hn, grown_left]
    · simp [hn]
  · simp [finish_step, unit_op, tap_increment]
  · simp [finish_step, unit_op, tap_decrement]

end Bf

end BrainFuck


namespace BrainFuck

theorem next_after_grown_right (h : Heap) (p : Ptr) (hn : (load h p).next = Ptr.tomp) :
    (load (grown_right h p) p).next = Ptr.cell h.length := by
  obtain ⟨a, hca, ha⟩ := valid_of_next_tomp _ _ hn
  rw [hca, load_grown_right _ _ _ ha]
  simp [ha]

theorem prev_after_grown_left (h : Heap) (p : Ptr) (hn : (load h p).prev = Ptr.tomp) :
    (load (grown_left h p) p).prev = Ptr.cell (h.length + 1023) := by
  obtain ⟨a, hca, ha⟩ := valid_of_prev_tomp _ _ hn
  rw [hca, load_grown_left _ _ _ ha]
  simp [ha]

namespace BfOpt

/-- When a unit instruction of `bfopt.c` succeeds, it does to the heap and the cursor what
the character does in `bf.c`, and leaves the limit as it is. -/
theorem tape_op_unit (c : Char) (hc : fold_char c) (t t1 : Tap)
    (h : tape_op (fold_opcode c) 1 t = (true, t1)) :
    t1.heap = (unit_op c t.heap t.cell).1 ∧ t1.cell = (unit_op c t.heap t.cell).2 ∧
      t1.cells_limit = t.cells_limit := by
  rcases hc with hc | hc | hc | hc <;> subst hc
  · simp only [fold_opcode, if_true, tape_op, ptr_loop_one] at h
    simp only [unit_op, if_true]
    rcases inc_ptr_body_cases t with ⟨hn, he⟩ | ⟨_, _, he⟩ | ⟨hn, _, he⟩
    · rw [he] at h
      injection h with _ h
      subst h
      simp [node_is_tomp, hn]
    · rw [he] at h
      injection h with h _
      exact absurd h (by simp)
    · rw [he] at h
      injection h with _ h
      subst h
      simp [node_is_tomp, hn, next_after_grown_right _ _ hn]
  · simp only [fold_opcode, show ¬ ('<' = '>') by decide, if_false, if_true, tape_op,
      ptr_loop_one] at h
    simp only [unit_op, show ¬ ('<' = '>') by decide, if_false, if_true]
    rcases dec_ptr_body_cases t with ⟨hn, he⟩ | ⟨_, _, he⟩ | ⟨hn, _, he⟩
    · rw [he] at h
      injection h with _ h
      subst h
      simp [node_is_tomp, hn]
    · rw [he] at h
      injection h with h _
      exact absurd h (by simp)
    · rw [he] at h
      injection h with _ h
      subst h
      simp [node_is_tomp, hn, prev_after_grown_left _ _ hn]
  · simp only [fold_opcode, show ¬ ('+' = '>') by decide, show ¬ ('+' = '<') by decide,
      if_false, if_true, tape_op] at h
    simp only [unit_op, show ¬ ('+' = '>') by decide, show ¬ ('+' = '<') by decide,
      if_false, if_true]
    injection h with _ h
    subst h
    exact ⟨rfl, rfl, rfl⟩
  · simp only [fold_opcode, show ¬ ('-' = '>') by decide, show ¬ ('-' = '<') by decide,
      show ¬ ('-' = '+') by decide, if_false, tape_op] at h
    simp only [unit_op, show ¬ ('-' = '>') by decide, show ¬ ('-' = '<') by decide,
      show ¬ ('-' = '+') by decide, if_false]
    injection h with _ h
    subst h
    exact ⟨rfl, rfl, rfl⟩

end BfOpt

namespace Bf

/-- A run of `j` equal folded characters in `bf.c` does what the folded instruction with
operand `j` does in `bfopt.c`, when that one succeeds. -/
theorem run_fold (w : World) (c : Char) (hc : BfOpt.fold_char c) :
    ∀ (j : Nat) (m : Machine) (t t1 : BfOpt.Tap), 1 ≤ j →
      (∀ i, i < j → m.tap.codes.get? (m.tap.pc + i) = some c) →
      t.heap = m.tap.heap → t.cell = m.tap.cell →
      BfOpt.tape_op (BfOpt.fold_opcode c) j t = (true, t1) →
      tap_run_loop w j m =
        Step.continue { tap := { heap := t1.heap, cell := t1.cell, codes := m.tap.codes,
                                 pc := m.tap.pc + j },
                        con := m.con } := by
  intro j
  induction j with
  | zero => intro m t t1 h; omega
  | succ j ih =>
    intro m t t1 _ hchars hheap hcell hop
    have h0 := hchars 0 (by omega)
    rw [Nat.add_zero] at h0
    have hstep := step_fold w m c h0 hc
    by_cases hj : j = 0
    · subst hj
      obtain ⟨e1, e2, _⟩ := BfOpt.tape_op_unit c hc t t1 hop
      rw [tap_run_loop_one, hstep, e1, e2, hheap, hcell]
    · rw [BfOpt.tape_op_succ _ j t (BfOpt.fold_opcode_folded c)] at hop
      rcases h1 : BfOpt.tape_op (BfOpt.fold_opcode c) 1 t with ⟨_ | _, t2⟩
      · rw [h1] at hop
        injection hop with hop _
        exact absurd hop (by simp)
      · rw [h1] at hop
        simp only at hop
        obtain ⟨e1, e2, _⟩ := BfOpt.tape_op_unit c hc t t2 h1
        rw [hheap, hcell] at e1 e2
        have := ih { tap := { heap := (unit_op c m.tap.heap m.tap.cell).1,
                              cell := (unit_op c m.tap.heap m.tap.cell).2,
                              codes := m.tap.codes, pc := m.tap.pc + 1 },
                     con := m.con } t2 t1 (by omega)
          (fun i hi => by
            have := hchars (i + 1) (by omega)
            simpa [Nat.add_assoc, Nat.add_comm 1 i] using this)
          e1 e2 hop
        rw [Nat.add_comm j 1, direct_loop_add, tap_run_loop_one, hstep]
        simp only
        rw [this]
        simp [Nat.add_assoc]

/-! ## The bracket scanners of `bf.c` find the matching bracket -/

theorem jump_forward_loop_cons (c : Char) (rest : List Char) (pc nesting : Nat) :
    jump_forward_loop (c :: rest) pc (nesting + 1) =
      if c = '[' then jump_forward_loop rest (pc + 1) (nesting + 2)
      else if c = ']' then jump_forward_loop rest (pc + 1) nesting
      else jump_forward_loop rest (pc + 1) (nesting + 1) := rfl

/-- The forward scanner reads over a text as the bracket counter does. -/
theorem jump_forward_scan (seg : List Char) :
    ∀ (rest : List Char) (pc n d e : Nat), BfOpt.bracket_scan seg d = some e →
      jump_forward_loop (seg ++ rest) pc (n + 1 + d) =
        jump_forward_loop rest (pc + seg.length) (n + 1 + e) := by
  induction seg with
  | nil =>
    intro rest pc n d e h
    simp only [BfOpt.bracket_scan, Option.some.injEq] at h
    subst h
    rfl
  | cons c seg ih =>
    intro rest pc n d e h
    rw [BfOpt.bracket_scan_cons] at h
    have hn : n + 1 + d = (n + d) + 1 := by omega
    rw [List.cons_append, hn, jump_forward_loop_cons]
    have hpc : pc + (c :: seg).length = pc + 1 + seg.length := by
      simp only [List.length_cons]; omega
    rw [hpc]
    by_cases h1 : c = '['
    · simp only [h1, if_true] at h ⊢
      have := ih rest (pc + 1) n (d + 1) e h
      rw [← this]
      have e1 : n + d + 2 = n + 1 + (d + 1) := by omega
      rw [e1]
    · by_cases h2 : c = ']'
      · subst h2
        simp only [h1, if_false, if_true] at h ⊢
        by_cases h3 : d = 0
        · simp [h3] at h
        · simp only [h3, if_false] at h
          have := ih rest (pc + 1) n (d - 1) e h
          rw [← this]
          have e1 : n + d = n + 1 + (d - 1) := by omega
          rw [e1]
      · simp only [h1, h2, if_false] at h ⊢
        have := ih rest (pc + 1) n d e h
        rw [← this, hn]

/-- From a `[`, the forward scanner stops on the matching `]`. -/
theorem jump_forward_matching (seg rest : List Char) (pc : Nat) (hb : BfOpt.balanced seg) :
    jump_forward_loop (seg ++ ']' :: rest) pc 1 = (LoopResult.OK, pc + seg.length + 1) := by
  have := jump_forward_scan seg (']' :: rest) pc 0 0 0 hb
  simp only [Nat.zero_add, Nat.add_zero] at this
  rw [this, jump_forward_loop_cons]
  simp only [show ¬ (']' = '[') by decide, if_false, if_true]
  cases rest <;> rfl

theorem jump_back_loop_succ (codes : List Char) (pc nesting : Nat) :
    jump_back_loop codes (pc + 1) (nesting + 1) =
      if codes.getD pc ' ' = ']' then jump_back_loop codes pc (nesting + 2)
      else if codes.getD pc ' ' = '[' then jump_back_loop codes pc nesting
      else jump_back_loop codes pc (nesting + 1) := rfl

theorem getD_middle (pre : List Char) (c : Char) (rest : List Char) :
    (pre ++ c :: rest).getD pre.length ' ' = c := by
  rw [List.getD_eq_getElem?_getD, List.getElem?_append_right (Nat.le_refl _)]
  simp

/-- The backward scanner reads back over a text as the bracket counter reads it. -/
theorem jump_back_scan (seg : List Char) :
    ∀ (pre rest : List Char) (n d e : Nat), BfOpt.bracket_scan seg d = some e →
      jump_back_loop (pre ++ (seg ++ rest)) (pre.length + seg.length) (n + 1 + e) =
        jump_back_loop (pre ++ (seg ++ rest)) pre.length (n + 1 + d) := by
  induction seg using List.reverseRecOn with
  | nil =>
    intro pre rest n d e h
    simp only [BfOpt.bracket_scan, Option.some.injEq] at h
    subst h
    rfl
  | append_singleton seg c ih =>
    intro pre rest n d e h
    rw [BfOpt.bracket_scan_append] at h
    rcases h1 : BfOpt.bracket_scan seg d with _ | e1
    · rw [h1] at h; simp at h
    · rw [h1] at h
      simp only [Option.some_bind] at h
      rw [BfOpt.bracket_scan_cons] at h
      have hcodes : pre ++ ((seg ++ [c]) ++ rest) = pre ++ (seg ++ (c :: rest)) := by simp
      have hget : (pre ++ ((seg ++ [c]) ++ rest)).getD (pre.length + seg.length) ' ' = c := by
        have := getD_middle (pre ++ seg) c rest
        simpa using this
      have hlen : pre.length + (seg ++ [c]).length = (pre.length + seg.length) + 1 := by
        simp; omega
      have hn : n + 1 + e = (n + e) + 1 := by omega
      rw [hlen, hn, jump_back_loop_succ, hget]
      have hih := ih pre (c :: rest) n d e1 h1
      rw [← hcodes] at hih
      rw [← hih]
      by_cases hc1 : c = '['
      · subst hc1
        simp only [show ¬ ('[' = ']') by decide, if_false, if_true] at h ⊢
        simp only [BfOpt.bracket_scan, Option.some.injEq] at h
        congr 1
        omega
      · by_cases hc2 : c = ']'
        · subst hc2
          simp only [hc1, if_false, if_true] at h ⊢
          by_cases h3 : e1 = 0
          · simp [h3] at h
          · simp only [h3, if_false, BfOpt.bracket_scan, Option.some.injEq] at h
            congr 1
            omega
        · simp only [hc1, hc2, if_false] at h ⊢
          simp only [BfOpt.bracket_scan, Option.some.injEq] at h
          congr 1
          omega

/-- From a `]`, the backward scanner stops on the matching `[`. -/
theorem jump_back_matching (pre seg rest : List Char) (hb : BfOpt.balanced seg) :
    jump_back_loop (pre ++ '[' :: (seg ++ ']' :: rest)) (pre.length + 1 + seg.length) 1 =
      (LoopResult.OK, pre.length) := by
  have h := jump_back_scan seg (pre ++ ['[']) (']' :: rest) 0 0 0 hb
  simp only [Nat.zero_add, Nat.add_zero, List.length_append, List.length_singleton,
    List.append_assoc, List.singleton_append] at h
  rw [h, jump_back_loop_succ, getD_middle]
  simp only [show ¬ ('[' = ']') by decide, if_false, if_true]
  cases pre.length <;> rfl

end Bf

end BrainFuck


namespace BrainFuck

theorem store_data_same (h : Heap) (p : Ptr) (d : Nat) (hd : (load h p).data = d) :
    store_data h p d = h := by
  cases p with
  | null => rfl
  | tomp => rfl
  | cell a =>
    by_cases ha : a < h.length
    · simp only [store_data, store]
      have hl : load h (Ptr.cell a) = h[a] := by
        simp [load, List.getD_eq_getElem?_getD, ha]
      rw [hl] at hd ⊢
      have : ({ h[a] with data := d } : Node) = h[a] := by
        rw [← hd]
      rw [this]
      apply List.ext_getElem? 
      intro n
      rw [List.getElem?_set]
      by_cases hn : a = n
      · subst hn
        simp [ha]
      · simp [hn]
    · exact store_invalid h a _ (by omega)

theorem load_store_data_allocated (h : Heap) (p : Ptr) (d : Nat) (hp : allocated h p) :
    (load (store_data h p d) p).data = d := by
  obtain ⟨a, rfl, ha⟩ := hp
  simp only [store_data]
  rw [load_store_same h a _ ha]

theorem get?_after (pre x : List Char) (i : Nat) :
    (pre ++ x).get? (pre.length + i) = x.get? i := by
  simp only [List.get?_eq_getElem?]
  rw [List.getElem?_append_right (by omega)]
  congr 1
  omega

namespace Bf

/-- One turn of the body of `[-]` / `[+]` in `bf.c`, started on the `-` / `+`: the cell gets
its new value; the run goes on after the `]` when that value is 0, and on the `-` / `+`
again otherwise. -/
theorem idiom_turn (w : World) (pre rest : List Char) (c : Char) (hc : c = '-' ∨ c = '+')
    (H : Heap) (cell : Ptr) (con : Console) :
    tap_run_loop w 2
        { tap := { heap := H, cell := cell, codes := pre ++ '[' :: c :: ']' :: rest,
                   pc := pre.length + 1 },
          con := con } =
      Step.continue
        { tap := { heap := (unit_op c H cell).1, cell := cell,
                   codes := pre ++ '[' :: c :: ']' :: rest,
                   pc := if (load (unit_op c H cell).1 cell).data = 0 then pre.length + 3
                         else pre.length + 1 },
          con := con } := by
  have hfold : BfOpt.fold_char c := by
    rcases hc with h | h <;> subst h
    · exact Or.inr (Or.inr (Or.inr rfl))
    · exact Or.inr (Or.inr (Or.inl rfl))
  have hcell2 : (unit_op c H cell).2 = cell := by
    rcases hc with h | h <;> subst h <;> rfl
  have hg1 : (pre ++ '[' :: c :: ']' :: rest).get? (pre.length + 1) = some c :=
    get?_after pre _ 1
  have hg2 : (pre ++ '[' :: c :: ']' :: rest).get? (pre.length + 2) = some ']' :=
    get?_after pre _ 2
  have hc1 : c ≠ '[' := by rcases hc with h | h <;> subst h <;> decide
  have hc2 : c ≠ ']' := by rcases hc with h | h <;> subst h <;> decide
  have hback : jump_back_loop (pre ++ '[' :: c :: ']' :: rest) (pre.length + 2) 1 =
      (LoopResult.OK, pre.length) := by
    have := jump_back_matching pre [c] rest (BfOpt.balanced_single c hc1 hc2)
    simpa using this
  have s1 := step_fold w
    { tap := { heap := H, cell := cell, codes := pre ++ '[' :: c :: ']' :: rest,
               pc := pre.length + 1 },
      con := con } c hg1 hfold
  simp only [hcell2] at s1
  rw [show (2 : Nat) = 1 + 1 from rfl, direct_loop_add, tap_run_loop_one, s1]
  simp only
  rw [tap_run_loop_one]
  by_cases hd : (load (unit_op c H cell).1 cell).data = 0
  · rw [step_close_zero w _ hg2 hd]
    simp only [hd, if_true]
  · rw [step_close_nonzero w _ pre.length hg2 hd hback]
    simp only [hd, if_false]

/-- The body of `[-]` / `[+]` in `bf.c`, started on the `-` / `+` with a cell value between
1 and 255, ends after the `]` with the cell set to 0. -/
theorem idiom_body (w : World) (pre rest : List Char) (c : Char) (hc : c = '-' ∨ c = '+')
    (cell : Ptr) (con : Console) :
    ∀ (k : Nat) (H : Heap), allocated H cell → 1 ≤ (load H cell).data →
      (load H cell).data ≤ 255 →
      (c = '-' → (load H cell).data ≤ k) → (c = '+' → 256 - (load H cell).data ≤ k) →
      ∃ r, 1 ≤ r ∧
        tap_run_loop w r
            { tap := { heap := H, cell := cell, codes := pre ++ '[' :: c :: ']' :: rest,
                       pc := pre.length + 1 },
              con := con } =
          Step.continue
            { tap := { heap := store_data H cell 0, cell := cell,
                       codes := pre ++ '[' :: c :: ']' :: rest, pc := pre.length + 3 },
              con := con } := by
  intro k
  induction k with
  | zero =>
    intro H _ h1 h2 hm hp
    rcases hc with h | h
    · have := hm h; omega
    · have := hp h; omega
  | succ k ih =>
    intro H hcell h1 h2 hm hp
    have hturn := idiom_turn w pre rest c hc H cell con
    have hnew : (unit_op c H cell).1 =
        store_data H cell (if c = '-' then (load H cell).data - 1
          else if (load H cell).data = 255 then 0 else (load H cell).data + 1) := by
      rcases hc with h | h <;> subst h
      · simp only [unit_op, show ¬ ('-' = '>') by decide, show ¬ ('-' = '<') by decide,
          show ¬ ('-' = '+') by decide, if_false, if_true]
        congr 1
        omega
      · simp only [unit_op, show ¬ ('+' = '>') by decide, show ¬ ('+' = '<') by decide,
          show ¬ ('+' = '-') by decide, if_false, if_true]
        congr 1
        by_cases h255 : (load H cell).data = 255
        · simp [h255]
        · simp only [h255, if_false]
          omega
    obtain ⟨d1, hd1⟩ : ∃ d1, d1 = (if c = '-' then (load H cell).data - 1
          else if (load H cell).data = 255 then 0 else (load H cell).data + 1) := ⟨_, rfl⟩
    rw [← hd1] at hnew
    have hdata : (load (unit_op c H cell).1 cell).data = d1 := by
      rw [hnew]
      exact load_store_data_allocated H cell d1 hcell
    rw [hdata, hnew] at hturn
    by_cases hz : d1 = 0
    · refine ⟨2, by omega, ?_⟩
      rw [hturn]
      simp only [hz, if_true]
    · simp only [hz, if_false] at hturn
      have hcell1 : allocated (store_data H cell d1) cell := allocated_store_data H cell cell d1 hcell
      have hd1v : (load (store_data H cell d1) cell).data = d1 :=
        load_store_data_allocated H cell d1 hcell
      obtain ⟨r, hr, hrun⟩ := ih (store_data H cell d1) hcell1
        (by rw [hd1v]; omega)
        (by
          rw [hd1v, hd1]
          by_cases hcm : c = '-'
          · simp only [hcm, if_true]; omega
          · simp only [hcm, if_false]
            by_cases h255 : (load H cell).data = 255
            · simp [h255]
            · simp only [h255, if_false]; omega)
        (by
          intro hcm
          rw [hd1v, hd1]
          simp only [hcm, if_true]
          have := hm hcm
          omega)
        (by
          intro hcp
          have hcm : ¬ (c = '-') := by rw [hcp]; decide
          rw [hd1v, hd1]
          simp only [hcm, if_false]
          have := hp hcp
          by_cases h255 : (load H cell).data = 255
          · rw [hd1] at hz
            simp [hcm, h255] at hz
          · simp only [h255, if_false]; omega)
      refine ⟨2 + r, by omega, ?_⟩
      rw [direct_loop_add, hturn]
      simp only
      rw [hrun, store_data_twice]

/-- The loop `[-]` / `[+]` in `bf.c`, started on its `[`, ends after its `]` with the cell
set to 0 and nothing else changed: what `SET_ZERO` does. -/
theorem idiom_run (w : World) (pre rest : List Char) (c : Char) (hc : c = '-' ∨ c = '+')
    (H : Heap) (cell : Ptr) (con : Console) (hcell : allocated H cell) :
    ∃ r, 1 ≤ r ∧
      tap_run_loop w r
          { tap := { heap := H, cell := cell, codes := pre ++ '[' :: c :: ']' :: rest,
                     pc := pre.length },
            con := con } =
        Step.continue
          { tap := { heap := store_data H cell 0, cell := cell,
                     codes := pre ++ '[' :: c :: ']' :: rest, pc := pre.length + 3 },
            con := con } := by
  have hg0 : (pre ++ '[' :: c :: ']' :: rest).get? pre.length = some '[' := by
    have := get?_after pre ('[' :: c :: ']' :: rest) 0
    simpa using this
  have hc1 : c ≠ '[' := by rcases hc with h | h <;> subst h <;> decide
  have hc2 : c ≠ ']' := by rcases hc with h | h <;> subst h <;> decide
  by_cases hd : (load H cell).data = 0
  · refine ⟨1, Nat.le_refl _, ?_⟩
    have hfw : jump_forward_loop ((pre ++ '[' :: c :: ']' :: rest).drop (pre.length + 1))
        pre.length 1 = (LoopResult.OK, pre.length + 2) := by
      rw [BfOpt.drop_after]
      exact jump_forward_matching [c] rest pre.length (BfOpt.balanced_single c hc1 hc2)
    rw [tap_run_loop_one, step_open_zero w _ (pre.length + 2) hg0 hd hfw,
      store_data_same H cell 0 hd]
  · have hs0 := step_open_nonzero w
      { tap := { heap := H, cell := cell, codes := pre ++ '[' :: c :: ']' :: rest,
                 pc := pre.length },
        con := con } hg0 hd
    have hturn := idiom_turn w pre rest c hc H cell con
    have hunit : ∃ d1, d1 ≤ 255 ∧ (unit_op c H cell).1 = store_data H cell d1 := by
      rcases hc with h | h <;> subst h
      · exact ⟨((load H cell).data + 255) % 256, by omega, rfl⟩
      · exact ⟨((load H cell).data + 1) % 256, by omega, rfl⟩
    obtain ⟨d1, hd1, hnew⟩ := hunit
    have hdata : (load (unit_op c H cell).1 cell).data = d1 := by
      rw [hnew]
      exact load_store_data_allocated H cell d1 hcell
    rw [hdata, hnew] at hturn
    by_cases hz : d1 = 0
    · refine ⟨1 + 2, by omega, ?_⟩
      rw [direct_loop_add, tap_run_loop_one, hs0]
      simp only
      rw [hturn]
      simp only [hz, if_true]
    · simp only [hz, if_false] at hturn
      have hd1v : (load (store_data H cell d1) cell).data = d1 :=
        load_store_data_allocated H cell d1 hcell
      obtain ⟨r, hr, hrun⟩ := idiom_body w pre rest c hc cell con 256 (store_data H cell d1)
        (allocated_store_data H cell cell d1 hcell) (by rw [hd1v]; omega) (by rw [hd1v]; exact hd1)
        (fun _ => by rw [hd1v]; omega) (fun _ => by rw [hd1v]; omega)
      refine ⟨1 + (2 + r), by omega, ?_⟩
      rw [direct_loop_add, tap_run_loop_one, hs0]
      simp only
      rw [direct_loop_add, hturn]
      simp only
      rw [hrun, store_data_twice]

end Bf

end BrainFuck


namespace BrainFuck

namespace BfOpt

/-! ## The two engines run in step -/

theorem tape_op_wf (op : OperationType) (n : Nat) (t : Tap) (hwf : t.wf) :
    (tape_op op n t).2.wf := by
  cases op <;> simp only [tape_op]
  · exact ptr_loop_wf _ inc_ptr_body_wf n t hwf
  · exact ptr_loop_wf _ dec_ptr_body_wf n t hwf
  · exact ⟨linked_store_data _ _ _ hwf.1, allocated_store_data _ _ _ _ hwf.2⟩
  · exact ⟨linked_store_data _ _ _ hwf.1, allocated_store_data _ _ _ _ hwf.2⟩
  all_goals exact hwf

theorem wf_store_data (t : Tap) (d : Nat) (hwf : t.wf) :
    ({ t with heap := store_data t.heap t.cell d } : Tap).wf :=
  ⟨linked_store_data _ _ _ hwf.1, allocated_store_data _ _ _ _ hwf.2⟩

/-- The final program holds, at the index where an iteration emits without touching the
loop stack, the instruction that the iteration emits. -/
theorem fetch_plain (s0 sf s s1 : CompileState) (instr : Instruction)
    (h0 : s0.loop_stack = []) (hc : compile_all s0 = Except.ok sf) (hr : reaches s0 s)
    (hstep : iter_step s s1) (hp : s1.prog = s.prog ++ [instr])
    (hst : s1.loop_stack = s.loop_stack) :
    sf.prog.get? s.prog.length = some instr := by
  have hok : stack_ok s := stack_ok_reaches s0 s hr ⟨by rw [h0]; exact List.Pairwise.nil,
    fun x hx => by rw [h0] at hx; simp at hx⟩
  have hnot : s.prog.length ∉ s.loop_stack := fun hm =>
    absurd (lt_length_of_get? _ _ _ (hok.2 _ hm)) (Nat.lt_irrefl _)
  have hfz : frozen s1 s.prog.length := ⟨by rw [hp]; simp, by rw [hst]; exact hnot⟩
  have hc1 : compile_all s1 = Except.ok sf := by
    rw [← compile_all_step s s1 hstep, ← compile_all_reaches s0 s hr, hc]
  have hr1 := (compile_all_ok_reaches s1.source.length s1 sf (Nat.le_refl _) hc1).1
  rw [(frozen_reaches s1 sf hr1 _ hfz).2, hp]
  exact get?_append_new _ _

/-- A reached state at the end of the source is the final state. -/
theorem reached_end (s0 sf s : CompileState) (hc : compile_all s0 = Except.ok sf)
    (hr : reaches s0 s) (hs : s.source = []) : s = sf := by
  have hcs : compile_all s = Except.ok sf := by rw [← compile_all_reaches s0 s hr, hc]
  obtain ⟨src, prog, st⟩ := s
  simp only at hs
  subst hs
  rw [compile_all_nil] at hcs
  injection hcs

/-- The source position of a reached state. -/
theorem reached_position (s0 s : CompileState) (pc : Nat) (hr : reaches s0 s)
    (hpc : pc + s.source.length = s0.source.length) :
    ∃ pre, s0.source = pre ++ s.source ∧ pre.length = pc := by
  obtain ⟨pre, hpre⟩ := reaches_suffix s0 s hr
  refine ⟨pre, hpre, ?_⟩
  have := congrArg List.length hpre
  simp only [List.length_append] at this
  omega

theorem step_of_fetch (w : World) (P : Program) (M : Machine) (instr : Instruction)
    (h : P.get? M.pc = some instr) :
    tap_run_step w P M =
      match exec_switch w instr M with
      | Step.continue m1 => Step.continue { m1 with pc := m1.pc + 1 }
      | Step.exit e m1 => Step.exit e m1 := by
  simp only [tap_run_step, h]

theorem get?_run (c : Char) (n i : Nat) (x : List Char) (hi : i < n) :
    (List.replicate n c ++ x).get? i = some c := by
  simp only [List.get?_eq_getElem?]
  rw [List.getElem?_append_left (by simpa using hi)]
  simp [List.getElem?_replicate, hi]

end BfOpt

/-- One step of the comparison.  From two machines at the same point, either both engines
return (`HALT` in `bfopt.c`, end of the code in `bf.c`); or `bf.c` steps over a character
that is no instruction; or `bfopt.c` stops on its tape limit; or `bfopt.c` executes one
instruction, `bf.c` executes the characters it was compiled from, and the two machines
are at the same point again. -/
theorem sim_step (w : World) (hw : ∀ k, w.putchar_ok k = true) (junk : Nat)
    (source : List Char) (sf : BfOpt.CompileState) (P : BfOpt.Program)
    (hc : BfOpt.compile_all
      { source := source, prog := BfOpt.program_init, loop_stack := [] } = Except.ok sf)
    (hsf : sf.loop_stack = [])
    (hP : P = sf.prog ++ [{ type := BfOpt.OperationType.HALT, operand := junk }])
    (M : BfOpt.Machine) (B : Bf.Machine) (hsim : sim source M B) :
    (BfOpt.tap_run_step w P M = BfOpt.Step.exit BfOpt.Exit.halt M ∧
      Bf.tap_run_step w B = Bf.Step.exit Bf.Exit.finished B) ∨
    (∃ B1, Bf.tap_run_step w B = Bf.Step.continue B1 ∧ sim source M B1 ∧
      B1.tap.pc = B.tap.pc + 1 ∧ B.tap.pc < source.length) ∨
    (∃ M1, BfOpt.tap_run_step w P M = BfOpt.Step.exit BfOpt.Exit.tape_limit M1) ∨
    (∃ M1 r B1, BfOpt.tap_run_step w P M = BfOpt.Step.continue M1 ∧ 1 ≤ r ∧
      Bf.tap_run_loop w r B = Bf.Step.continue B1 ∧ sim source M1 B1) := by
  obtain ⟨s, hr, hpc, hMpc, hcodes, hheap, hcell, hcon, hwf⟩ := hsim
  obtain ⟨s0, hs0⟩ : ∃ s0 : BfOpt.CompileState,
      s0 = { source := source, prog := BfOpt.program_init, loop_stack := [] } := ⟨_, rfl⟩
  rw [← hs0] at hc hr
  have h0 : s0.loop_stack = [] := by rw [hs0]
  have hsrc0 : s0.source = source := by rw [hs0]
  have hlift : ∀ x instr, sf.prog.get? x = some instr → P.get? x = some instr := by
    intro x instr hx
    rw [hP, BfOpt.get?_append_emit _ _ _ (BfOpt.lt_length_of_get? _ _ _ hx)]
    exact hx
  obtain ⟨pre, hpre, hprelen⟩ := BfOpt.reached_position s0 s B.tap.pc hr
    (by rw [hsrc0]; exact hpc)
  rw [hsrc0] at hpre
  obtain ⟨⟨bh, bc, bcodes, bpc⟩, bcon⟩ := B
  obtain ⟨⟨mh, mc, ml, msz⟩, mpc, mcon⟩ := M
  simp only at hpc hMpc hcodes hheap hcell hcon hprelen
  subst hcodes hheap hcell hcon
  have hcs : BfOpt.compile_all s = Except.ok sf := by
    rw [← BfOpt.compile_all_reaches s0 s hr, hc]
  rcases BfOpt.compile_all_ok_step s sf hcs with ⟨hnil, hsfs⟩ | ⟨s1, hstep, hc1⟩
  · -- the end of the source
    left
    subst hsfs
    constructor
    · apply BfOpt.tap_run_step_halt w P junk
      show P.get? mpc = _
      rw [hMpc, hP]
      exact BfOpt.get?_append_new _ _
    · apply Bf.step_end
      show bcodes.get? bpc = none
      rw [hnil] at hpc
      simp only [List.length_nil, Nat.add_zero] at hpc
      simp only [List.get?_eq_getElem?, List.getElem?_eq_none_iff]
      omega
  · right
    have hr1 : BfOpt.reaches s0 s1 := Relation.ReflTransGen.tail hr hstep
    have hlen_src : bcodes.length = pre.length + s.source.length := by
      rw [hpre]; simp
    rcases BfOpt.iter_step_cases s s1 hstep with ⟨c, j, hfc, hs, _, hp, hst⟩ | ⟨hs, hp, hst⟩ |
      ⟨hs, hp, hst⟩ | ⟨c, hcc, hs, hp, hst⟩ | ⟨hs, hidi, _, hp, hst⟩ | ⟨k, hs, hst, hp⟩ |
      ⟨c, hic, hs, hp, hst⟩
    · -- a run of a folded character
      right
      have hfetch : P.get? mpc = some { type := BfOpt.fold_opcode c, operand := j + 1 } := by
        rw [hMpc]
        exact hlift _ _ (BfOpt.fetch_plain s0 sf s s1 _ h0 hc hr hstep hp hst)
      have hstepM := BfOpt.tap_run_step_folded w P (BfOpt.fold_opcode c) (j + 1)
        { tap := { heap := bh, cell := bc, cells_limit := ml, current_cells_size := msz },
          pc := mpc, con := bcon } (BfOpt.fold_opcode_folded c) hfetch
      rcases hop : BfOpt.tape_op (BfOpt.fold_opcode c) (j + 1)
        { heap := bh, cell := bc, cells_limit := ml, current_cells_size := msz } with ⟨_ | _, t1⟩
      · left
        rw [hop] at hstepM
        exact ⟨_, hstepM⟩
      · right
        rw [hop] at hstepM
        have hrunB := Bf.run_fold w c hfc (j + 1)
          { tap := { heap := bh, cell := bc, codes := bcodes, pc := bpc }, con := bcon }
          { heap := bh, cell := bc, cells_limit := ml, current_cells_size := msz } t1
          (by omega)
          (fun i hi => by
            show bcodes.get? (bpc + i) = some c
            rw [hpre, ← hprelen, get?_after, hs]
            have := BfOpt.get?_run c (j + 1) i s1.source hi
            rwa [List.replicate_succ, List.cons_append] at this)
          rfl rfl hop
        refine ⟨_, j + 1, _, hstepM, by omega, hrunB, s1, by rw [← hs0]; exact hr1, ?_, ?_,
          rfl, rfl, rfl, rfl, ?_⟩
        · show bpc + (j + 1) + s1.source.length = bcodes.length
          rw [hs] at hlen_src
          simp at hlen_src
          omega
        · show mpc + 1 = s1.prog.length
          rw [hp]; simp; omega
        · have := BfOpt.tape_op_wf (BfOpt.fold_opcode c) (j + 1) _ hwf
          rw [hop] at this
          exact this
    · -- `.`
      right; right
      have hfetch : P.get? mpc = some { type := BfOpt.OperationType.OUTPUT, operand := 0 } := by
        rw [hMpc]
        exact hlift _ _ (BfOpt.fetch_plain s0 sf s s1 _ h0 hc hr hstep hp hst)
      have hget : bcodes.get? bpc = some '.' := by
        rw [hpre, ← hprelen]
        have := get?_after pre s.source 0
        rw [Nat.add_zero] at this
        rw [this, hs]
        rfl
      have hstepM := BfOpt.step_of_fetch w P
        { tap := { heap := bh, cell := bc, cells_limit := ml, current_cells_size := msz },
          pc := mpc, con := bcon } _ hfetch
      simp only [BfOpt.exec_switch] at hstepM
      have hstepB := Bf.step_output w
        { tap := { heap := bh, cell := bc, codes := bcodes, pc := bpc }, con := bcon } hget
        (hw _)
      refine ⟨_, 1, _, hstepM, Nat.le_refl _, by rw [Bf.tap_run_loop_one]; exact hstepB, s1,
        by rw [← hs0]; exact hr1, ?_, ?_, rfl, rfl, rfl, rfl, hwf⟩
      · show bpc + 1 + s1.source.length = bcodes.length
        rw [hs] at hlen_src
        simp at hlen_src
        omega
      · show mpc + 1 = s1.prog.length
        rw [hp]; simp; omega
    · -- `,`
      right; right
      have hfetch : P.get? mpc = some { type := BfOpt.OperationType.INPUT, operand := 0 } := by
        rw [hMpc]
        exact hlift _ _ (BfOpt.fetch_plain s0 sf s s1 _ h0 hc hr hstep hp hst)
      have hget : bcodes.get? bpc = some ',' := by
        rw [hpre, ← hprelen]
        have := get?_after pre s.source 0
        rw [Nat.add_zero] at this
        rw [this, hs]
        rfl
      have hposB : bpc + 1 + s1.source.length = bcodes.length := by
        rw [hs] at hlen_src
        simp at hlen_src
        omega
      have hposM : mpc + 1 = s1.prog.length := by rw [hp]; simp; omega
      have hstepM := BfOpt.step_of_fetch w P
        { tap := { heap := bh, cell := bc, cells_limit := ml, current_cells_size := msz },
          pc := mpc, con := bcon } _ hfetch
      have hstepB := Bf.step_input w
        { tap := { heap := bh, cell := bc, codes := bcodes, pc := bpc }, con := bcon } hget
      simp only [BfOpt.exec_switch] at hstepM
      rcases hgc : w.getchar bcon.reads with _ | ch
      · rw [hgc] at hstepM hstepB
        exact ⟨_, 1, _, hstepM, Nat.le_refl _, by rw [Bf.tap_run_loop_one]; exact hstepB, s1,
          by rw [← hs0]; exact hr1, hposB, hposM, rfl, rfl, rfl, rfl, hwf⟩
      · rw [hgc] at hstepM hstepB
        exact ⟨_, 1, _, hstepM, Nat.le_refl _, by rw [Bf.tap_run_loop_one]; exact hstepB, s1,
          by rw [← hs0]; exact hr1, hposB, hposM, rfl, rfl, rfl, rfl,
          BfOpt.wf_store_data _ _ hwf⟩
    · -- a set-zero idiom
      right; right
      have hfetch : P.get? mpc = some { type := BfOpt.OperationType.SET_ZERO, operand := 0 } := by
        rw [hMpc]
        exact hlift _ _ (BfOpt.fetch_plain s0 sf s s1 _ h0 hc hr hstep hp hst)
      obtain ⟨r, hr1', hrun⟩ := Bf.idiom_run w pre s1.source c hcc bh bc bcon hwf.2
      rw [← hs, ← hpre, hprelen] at hrun
      have hstepM := BfOpt.step_of_fetch w P
        { tap := { heap := bh, cell := bc, cells_limit := ml, current_cells_size := msz },
          pc := mpc, con := bcon } _ hfetch
      simp only [BfOpt.exec_switch] at hstepM
      refine ⟨_, r, _, hstepM, hr1', hrun, s1,
        by rw [← hs0]; exact hr1, ?_, ?_, rfl, rfl, rfl, rfl, BfOpt.wf_store_data _ _ hwf⟩
      · show bpc + 3 + s1.source.length = bcodes.length
        rw [hs] at hlen_src
        simp at hlen_src
        omega
      · show mpc + 1 = s1.prog.length
        rw [hp]; simp; omega
    · -- a generic `[`
      right; right
      obtain ⟨so1, sc, sc1, seg, rest, hstep_o, hso1, hlen_o1, hsplit, hbal, hrc, hsc, _,
        hstep_c, hsc1, hlen_c1, hgk, _⟩ :=
        BfOpt.open_facts s0 sf s s1.source h0 hc hsf hr hs hidi
      have hfetch : P.get? mpc =
          some { type := BfOpt.OperationType.JUMP_ZERO, operand := sc.prog.length } := by
        rw [hMpc]
        exact hlift _ _ hgk
      have hget : bcodes.get? bpc = some '[' := by
        rw [hpre, ← hprelen]
        have := get?_after pre s.source 0
        rw [Nat.add_zero] at this
        rw [this, hs]
        rfl
      have hstepM := BfOpt.step_of_fetch w P
        { tap := { heap := bh, cell := bc, cells_limit := ml, current_cells_size := msz },
          pc := mpc, con := bcon } _ hfetch
      simp only [BfOpt.exec_switch] at hstepM
      rw [hs, hsplit] at hlen_src
      simp at hlen_src
      by_cases hd : (load bh bc).data = 0
      · simp only [hd, if_true] at hstepM
        have hfw : Bf.jump_forward_loop (bcodes.drop (bpc + 1)) bpc 1 =
            (Bf.LoopResult.OK, bpc + seg.length + 1) := by
          rw [hpre, hs, ← hprelen, BfOpt.drop_after, hsplit]
          exact Bf.jump_forward_matching seg rest pre.length hbal
        have hstepB := Bf.step_open_zero w
          { tap := { heap := bh, cell := bc, codes := bcodes, pc := bpc }, con := bcon }
          (bpc + seg.length + 1) hget hd hfw
        refine ⟨_, 1, _, hstepM, Nat.le_refl _, by rw [Bf.tap_run_loop_one]; exact hstepB, sc1,
          by rw [← hs0]; exact Relation.ReflTransGen.tail hrc hstep_c, ?_, ?_, rfl, rfl, rfl,
          rfl, hwf⟩
        · show bpc + seg.length + 1 + 1 + sc1.source.length = bcodes.length
          rw [hsc1]
          omega
        · show sc.prog.length + 1 = sc1.prog.length
          omega
      · simp only [hd, if_false] at hstepM
        have hstepB := Bf.step_open_nonzero w
          { tap := { heap := bh, cell := bc, codes := bcodes, pc := bpc }, con := bcon } hget hd
        refine ⟨_, 1, _, hstepM, Nat.le_refl _, by rw [Bf.tap_run_loop_one]; exact hstepB, so1,
          by rw [← hs0]; exact Relation.ReflTransGen.tail hr hstep_o, ?_, ?_, rfl, rfl, rfl,
          rfl, hwf⟩
        · show bpc + 1 + so1.source.length = bcodes.length
          rw [hso1, hsplit]
          simp
          omega
        · show mpc + 1 = so1.prog.length
          omega
    · -- `]`
      right; right
      obtain ⟨so, so1, sc1, seg, hro, hso, _, hbal, hstep_o, hso1, hlen_o1, _, hstep_c, hsc1,
        hlen_c1, _, hgj⟩ := BfOpt.close_facts s0 sf s s1.source h0 hc hr hs
      have hfetch : P.get? mpc =
          some { type := BfOpt.OperationType.JUMP_NONZERO, operand := so.prog.length } := by
        rw [hMpc]
        exact hlift _ _ hgj
      have hget : bcodes.get? bpc = some ']' := by
        rw [hpre, ← hprelen]
        have := get?_after pre s.source 0
        rw [Nat.add_zero] at this
        rw [this, hs]
        rfl
      have hstepM := BfOpt.step_of_fetch w P
        { tap := { heap := bh, cell := bc, cells_limit := ml, current_cells_size := msz },
          pc := mpc, con := bcon } _ hfetch
      simp only [BfOpt.exec_switch] at hstepM
      rw [hs] at hlen_src
      simp at hlen_src
      by_cases hd : (load bh bc).data = 0
      · simp only [hd, ne_eq, not_true_eq_false, if_false] at hstepM
        have hstepB := Bf.step_close_zero w
          { tap := { heap := bh, cell := bc, codes := bcodes, pc := bpc }, con := bcon } hget hd
        refine ⟨_, 1, _, hstepM, Nat.le_refl _, by rw [Bf.tap_run_loop_one]; exact hstepB, sc1,
          by rw [← hs0]; exact Relation.ReflTransGen.tail hr hstep_c, ?_, ?_, rfl, rfl, rfl,
          rfl, hwf⟩
        · show bpc + 1 + sc1.source.length = bcodes.length
          rw [hsc1]
          omega
        · show mpc + 1 = sc1.prog.length
          omega
      · simp only [hd, ne_eq, not_false_eq_true, if_true] at hstepM
        obtain ⟨pre_o, hpre_o⟩ := BfOpt.reaches_suffix s0 so hro
        rw [hsrc0, hso] at hpre_o
        have hlen_o := congrArg List.length hpre_o
        simp at hlen_o
        have hbpc : bpc = pre_o.length + 1 + seg.length := by omega
        have hbk : Bf.jump_back_loop bcodes bpc 1 = (Bf.LoopResult.OK, pre_o.length) := by
          rw [hbpc, hpre_o]
          exact Bf.jump_back_matching pre_o seg s1.source hbal
        have hstepB := Bf.step_close_nonzero w
          { tap := { heap := bh, cell := bc, codes := bcodes, pc := bpc }, con := bcon }
          pre_o.length hget hd hbk
        refine ⟨_, 1, _, hstepM, Nat.le_refl _, by rw [Bf.tap_run_loop_one]; exact hstepB, so1,
          by rw [← hs0]; exact Relation.ReflTransGen.tail hro hstep_o, ?_, ?_, rfl, rfl, rfl,
          rfl, hwf⟩
        · show pre_o.length + 1 + so1.source.length = bcodes.length
          rw [hso1]
          simp
          omega
        · show so.prog.length + 1 = so1.prog.length
          omega
    · -- a character that is no instruction
      left
      have hget : bcodes.get? bpc = some c := by
        rw [hpre, ← hprelen]
        have := get?_after pre s.source 0
        rw [Nat.add_zero] at this
        rw [this, hs]
        rfl
      refine ⟨_, Bf.step_inert w _ c hget hic, ⟨s1, by rw [← hs0]; exact hr1, ?_, ?_, rfl, rfl,
        rfl, rfl, hwf⟩, rfl, ?_⟩
      · show bpc + 1 + s1.source.length = bcodes.length
        rw [hs] at hlen_src
        simp at hlen_src
        omega
      · show mpc = s1.prog.length
        rw [hp]; exact hMpc
      · show bpc < bcodes.length
        rw [hs] at hlen_src
        simp at hlen_src
        omega

end BrainFuck


namespace BrainFuck

theorem sim_same_view (source : List Char) (M : BfOpt.Machine) (B : Bf.Machine)
    (h : sim source M B) : same_view M B := by
  obtain ⟨_, _, _, _, _, h1, h2, h3, _⟩ := h
  exact ⟨h1, h2, h3⟩

/-- One instruction of `bfopt.c` against the characters it was compiled from, the
characters that are no instruction being stepped over first. -/
theorem sim_big_step (w : World) (hw : ∀ k, w.putchar_ok k = true) (junk : Nat)
    (source : List Char) (sf : BfOpt.CompileState) (P : BfOpt.Program)
    (hc : BfOpt.compile_all
      { source := source, prog := BfOpt.program_init, loop_stack := [] } = Except.ok sf)
    (hsf : sf.loop_stack = [])
    (hP : P = sf.prog ++ [{ type := BfOpt.OperationType.HALT, operand := junk }]) :
    ∀ (k : Nat) (M : BfOpt.Machine) (B : Bf.Machine), sim source M B →
      source.length - B.tap.pc ≤ k →
      (BfOpt.tap_run_step w P M = BfOpt.Step.exit BfOpt.Exit.halt M ∧
        ∃ r B1, Bf.tap_run_loop w r B = Bf.Step.continue B1 ∧
          Bf.tap_run_step w B1 = Bf.Step.exit Bf.Exit.finished B1 ∧ same_view M B1) ∨
      (∃ M1, BfOpt.tap_run_step w P M = BfOpt.Step.exit BfOpt.Exit.tape_limit M1) ∨
      (∃ M1 r B1, BfOpt.tap_run_step w P M = BfOpt.Step.continue M1 ∧ 1 ≤ r ∧
        Bf.tap_run_loop w r B = Bf.Step.continue B1 ∧ sim source M1 B1) := by
  intro k
  induction k with
  | zero =>
    intro M B hsim hk
    rcases sim_step w hw junk source sf P hc hsf hP M B hsim with
      ⟨h1, h2⟩ | ⟨B1, _, _, _, hlt⟩ | h | h
    · exact Or.inl ⟨h1, 0, B, rfl, h2, sim_same_view source M B hsim⟩
    · omega
    · exact Or.inr (Or.inl h)
    · exact Or.inr (Or.inr h)
  | succ k ih =>
    intro M B hsim hk
    rcases sim_step w hw junk source sf P hc hsf hP M B hsim with
      ⟨h1, h2⟩ | ⟨B1, hstep, hsim1, hpc, hlt⟩ | h | h
    · exact Or.inl ⟨h1, 0, B, rfl, h2, sim_same_view source M B hsim⟩
    · rcases ih M B1 hsim1 (by omega) with ⟨h1, r, B2, hrun, hfin, hview⟩ | h |
        ⟨M1, r, B2, hM, hr, hrun, hsim2⟩
      · refine Or.inl ⟨h1, 1 + r, B2, ?_, hfin, hview⟩
        exact Bf.tap_run_loop_trans w 1 r B B1 _ (by rw [Bf.tap_run_loop_one]; exact hstep) hrun
      · exact Or.inr (Or.inl h)
      · refine Or.inr (Or.inr ⟨M1, 1 + r, B2, hM, by omega, ?_, hsim2⟩)
        exact Bf.tap_run_loop_trans w 1 r B B1 _ (by rw [Bf.tap_run_loop_one]; exact hstep) hrun
    · exact Or.inr (Or.inl h)
    · exact Or.inr (Or.inr h)

namespace BfOpt

theorem tap_run_loop_succ (w : World) (P : Program) (n : Nat) (M : Machine) :
    tap_run_loop w P (n + 1) M =
      match tap_run_step w P M with
      | Step.continue m1 => tap_run_loop w P n m1
      | Step.exit e m1 => Step.exit e m1 := rfl

theorem tap_run_loop_exit_mono (w : World) (P : Program) (a b : Nat) (m m1 : Machine)
    (e : Exit) (h : tap_run_loop w P a m = Step.exit e m1) (hab : a ≤ b) :
    tap_run_loop w P b m = Step.exit e m1 := by
  obtain ⟨c, rfl⟩ : ∃ c, b = a + c := ⟨b - a, by omega⟩
  rw [tap_run_loop_add, h]

end BfOpt

/-- If the bytecode run reaches `HALT`, the direct run reaches the end of the code, with
the same heap, cursor and streams. -/
theorem sim_halt (w : World) (hw : ∀ k, w.putchar_ok k = true) (junk : Nat)
    (source : List Char) (sf : BfOpt.CompileState) (P : BfOpt.Program)
    (hc : BfOpt.compile_all
      { source := source, prog := BfOpt.program_init, loop_stack := [] } = Except.ok sf)
    (hsf : sf.loop_stack = [])
    (hP : P = sf.prog ++ [{ type := BfOpt.OperationType.HALT, operand := junk }]) :
    ∀ (n : Nat) (M Mf : BfOpt.Machine) (B : Bf.Machine), sim source M B →
      BfOpt.tap_run_loop w P n M = BfOpt.Step.exit BfOpt.Exit.halt Mf →
      ∃ n1 Bf1, Bf.tap_run_loop w n1 B = Bf.Step.exit Bf.Exit.finished Bf1 ∧
        same_view Mf Bf1 := by
  intro n
  induction n with
  | zero => intro M Mf B _ h; simp [BfOpt.tap_run_loop] at h
  | succ n ih =>
    intro M Mf B hsim h
    rw [BfOpt.tap_run_loop_succ] at h
    rcases sim_big_step w hw junk source sf P hc hsf hP _ M B hsim (Nat.le_refl _) with
      ⟨h1, r, B1, hrun, hfin, hview⟩ | ⟨M1, h1⟩ | ⟨M1, r, B1, h1, _, hrun, hsim1⟩
    · rw [h1] at h
      injection h with _ h
      subst h
      exact ⟨r + 1, B1, Bf.tap_run_loop_trans w r 1 B B1 _ hrun
        (by rw [Bf.tap_run_loop_one]; exact hfin), hview⟩
    · rw [h1] at h
      injection h with h _
      exact absurd h (by simp)
    · rw [h1] at h
      obtain ⟨n1, Bf1, hrun1, hview⟩ := ih M1 Mf B1 hsim1 h
      exact ⟨r + n1, Bf1, Bf.tap_run_loop_trans w r n1 B B1 _ hrun hrun1, hview⟩

/-- While the bytecode run goes on, the direct run goes on, through the same states. -/
theorem sim_continue (w : World) (hw : ∀ k, w.putchar_ok k = true) (junk : Nat)
    (source : List Char) (sf : BfOpt.CompileState) (P : BfOpt.Program)
    (hc : BfOpt.compile_all
      { source := source, prog := BfOpt.program_init, loop_stack := [] } = Except.ok sf)
    (hsf : sf.loop_stack = [])
    (hP : P = sf.prog ++ [{ type := BfOpt.OperationType.HALT, operand := junk }]) :
    ∀ (n : Nat) (M M1 : BfOpt.Machine) (B : Bf.Machine), sim source M B →
      BfOpt.tap_run_loop w P n M = BfOpt.Step.continue M1 →
      ∃ n1 B1, n ≤ n1 ∧ Bf.tap_run_loop w n1 B = Bf.Step.continue B1 ∧ sim source M1 B1 := by
  intro n
  induction n with
  | zero =>
    intro M M1 B hsim h
    simp only [BfOpt.tap_run_loop] at h
    injection h with h
    subst h
    exact ⟨0, B, Nat.le_refl _, rfl, hsim⟩
  | succ n ih =>
    intro M M1 B hsim h
    rw [BfOpt.tap_run_loop_succ] at h
    rcases sim_big_step w hw junk source sf P hc hsf hP _ M B hsim (Nat.le_refl _) with
      ⟨h1, _⟩ | ⟨M2, h1⟩ | ⟨M2, r, B2, h1, hr, hrun, hsim2⟩
    · rw [h1] at h; simp at h
    · rw [h1] at h; simp at h
    · rw [h1] at h
      obtain ⟨n1, B1, hn1, hrun1, hsim1⟩ := ih M2 M1 B2 hsim2 h
      exact ⟨r + n1, B1, by omega, Bf.tap_run_loop_trans w r n1 B B2 _ hrun hrun1, hsim1⟩

/-- The bytecode run returns only through `HALT` or a refused growth. -/
theorem sim_exit_kind (w : World) (hw : ∀ k, w.putchar_ok k = true) (junk : Nat)
    (source : List Char) (sf : BfOpt.CompileState) (P : BfOpt.Program)
    (hc : BfOpt.compile_all
      { source := source, prog := BfOpt.program_init, loop_stack := [] } = Except.ok sf)
    (hsf : sf.loop_stack = [])
    (hP : P = sf.prog ++ [{ type := BfOpt.OperationType.HALT, operand := junk }]) :
    ∀ (n : Nat) (M Mf : BfOpt.Machine) (B : Bf.Machine) (e : BfOpt.Exit), sim source M B →
      BfOpt.tap_run_loop w P n M = BfOpt.Step.exit e Mf →
      e = BfOpt.Exit.halt ∨ e = BfOpt.Exit.tape_limit := by
  intro n
  induction n with
  | zero => intro M Mf B e _ h; simp [BfOpt.tap_run_loop] at h
  | succ n ih =>
    intro M Mf B e hsim h
    rw [BfOpt.tap_run_loop_succ] at h
    rcases sim_big_step w hw junk source sf P hc hsf hP _ M B hsim (Nat.le_refl _) with
      ⟨h1, _⟩ | ⟨M2, h1⟩ | ⟨M2, r, B2, h1, hr, hrun, hsim2⟩
    · rw [h1] at h
      injection h with h _
      exact Or.inl h.symm
    · rw [h1] at h
      injection h with h _
      exact Or.inr h.symm
    · rw [h1] at h
      exact ih M2 Mf B2 e hsim2 h

/-- If the direct run returns and the bytecode run never stops on its tape limit, the
direct run has reached the end of the code and the bytecode run reaches `HALT`, with the
same heap, cursor and streams. -/
theorem sim_finished (w : World) (hw : ∀ k, w.putchar_ok k = true) (junk : Nat)
    (source : List Char) (sf : BfOpt.CompileState) (P : BfOpt.Program)
    (hc : BfOpt.compile_all
      { source := source, prog := BfOpt.program_init, loop_stack := [] } = Except.ok sf)
    (hsf : sf.loop_stack = [])
    (hP : P = sf.prog ++ [{ type := BfOpt.OperationType.HALT, operand := junk }]) :
    ∀ (n1 : Nat) (M : BfOpt.Machine) (B Bf1 : Bf.Machine) (e : Bf.Exit), sim source M B →
      (∀ k Mx, BfOpt.tap_run_loop w P k M ≠ BfOpt.Step.exit BfOpt.Exit.tape_limit Mx) →
      Bf.tap_run_loop w n1 B = Bf.Step.exit e Bf1 →
      e = Bf.Exit.finished ∧
        ∃ n Mf, BfOpt.tap_run_loop w P n M = BfOpt.Step.exit BfOpt.Exit.halt Mf ∧
          same_view Mf Bf1 := by
  intro n1
  induction n1 using Nat.strong_induction_on with
  | _ n1 ih =>
    intro M B Bf1 e hsim hlim h
    rcases sim_big_step w hw junk source sf P hc hsf hP _ M B hsim (Nat.le_refl _) with
      ⟨h1, r, B1, hrun, hfin, hview⟩ | ⟨M2, h1⟩ | ⟨M2, r, B2, h1, hr, hrun, hsim2⟩
    · have hend : Bf.tap_run_loop w (r + 1) B = Bf.Step.exit Bf.Exit.finished B1 :=
        Bf.tap_run_loop_trans w r 1 B B1 _ hrun (by rw [Bf.tap_run_loop_one]; exact hfin)
      have e1 := Bf.direct_loop_exit_mono w n1 (n1 + (r + 1)) B Bf1 e h (by omega)
      have e2 := Bf.direct_loop_exit_mono w (r + 1) (n1 + (r + 1)) B B1 _ hend (by omega)
      rw [e1] at e2
      injection e2 with e3 e4
      subst e3 e4
      refine ⟨rfl, 1, M, ?_, hview⟩
      rw [BfOpt.tap_run_loop_succ, h1]
    · exfalso
      apply hlim 1 M2
      rw [BfOpt.tap_run_loop_succ, h1]
    · have hlt : r < n1 := by
        by_contra hge
        have := Bf.direct_loop_exit_mono w n1 r B Bf1 e h (by omega)
        rw [this] at hrun
        exact absurd hrun (by simp)
      obtain ⟨c, hc1⟩ : ∃ c, n1 = r + c := ⟨n1 - r, by omega⟩
      rw [hc1, Bf.direct_loop_add, hrun] at h
      simp only at h
      have hlim2 : ∀ k Mx,
          BfOpt.tap_run_loop w P k M2 ≠ BfOpt.Step.exit BfOpt.Exit.tape_limit Mx := by
        intro k Mx hk
        apply hlim (k + 1) Mx
        rw [BfOpt.tap_run_loop_succ, h1]
        exact hk
      obtain ⟨he, n, Mf, hrunM, hview⟩ := ih c (by omega) M2 B2 Bf1 e hsim2 hlim2 h
      refine ⟨he, n + 1, Mf, ?_, hview⟩
      rw [BfOpt.tap_run_loop_succ, h1]
      exact hrunM

end BrainFuck


namespace BrainFuck

/-- The two engines start at the same point. -/
theorem sim_start (source : List Char) (s l : Nat) (hs : 1 ≤ s) :
    sim source (BfOpt.start (BfOpt.tap_init s l)) (Bf.start (Bf.tap_init source s)) :=
  ⟨_, Relation.ReflTransGen.refl, by simp [Bf.start, Bf.tap_init], rfl, rfl, rfl, rfl, rfl,
    BfOpt.tap_init_wf s l hs⟩

/-- The streams of `bf.c` only grow: a step appends to the output or leaves it. -/
theorem Bf.step_out_grows (w : World) (m : Bf.Machine) :
    (∀ m1, Bf.tap_run_step w m = Bf.Step.continue m1 → m.con.out <+: m1.con.out) ∧
    (∀ e m1, Bf.tap_run_step w m = Bf.Step.exit e m1 → m.con.out <+: m1.con.out) := by
  have hfin : ∀ (r : Bool × Bf.Machine), m.con.out <+: r.2.con.out →
      (∀ m1, Bf.finish_step r = Bf.Step.continue m1 → m.con.out <+: m1.con.out) ∧
      (∀ e m1, Bf.finish_step r = Bf.Step.exit e m1 → m.con.out <+: m1.con.out) := by
    intro r hr
    unfold Bf.finish_step
    by_cases h : r.1 = true
    · simp only [h, if_true]
      exact ⟨fun m1 h1 => by injection h1 with h1; rw [← h1]; exact hr,
        fun e m1 h1 => by simp at h1⟩
    · simp only [h, if_false]
      exact ⟨fun m1 h1 => by simp at h1,
        fun e m1 h1 => by injection h1 with _ h1; rw [← h1]; exact hr⟩
  unfold Bf.tap_run_step
  rcases m.tap.codes.get? m.tap.pc with _ | c
  · exact ⟨fun m1 h1 => by simp at h1,
      fun e m1 h1 => by injection h1 with _ h1; rw [← h1]⟩
  · show (∀ m1, (if c = '>' then _ else _) = Bf.Step.continue m1 → _) ∧
      (∀ e m1, (if c = '>' then _ else _) = Bf.Step.exit e m1 → _)
    by_cases h1 : c = '>'
    · rw [if_pos h1]
      refine hfin _ ?_
      exact List.prefix_refl _
    rw [if_neg h1]
    by_cases h2 : c = '<'
    · rw [if_pos h2]
      refine hfin _ ?_
      exact List.prefix_refl _
    rw [if_neg h2]
    by_cases h3 : c = '+'
    · rw [if_pos h3]
      refine hfin _ ?_
      exact List.prefix_refl _
    rw [if_neg h3]
    by_cases h4 : c = '-'
    · rw [if_pos h4]
      refine hfin _ ?_
      exact List.prefix_refl _
    rw [if_neg h4]
    by_cases h5 : c = '.'
    · rw [if_pos h5]
      refine hfin _ ?_
      show m.con.out <+: (m.con.put w (load m.tap.heap m.tap.cell).data).out
      unfold Console.put
      by_cases hp : w.putchar_ok m.con.writes = true
      · simp only [hp, if_true]
        exact List.prefix_append _ _
      · simp only [hp]
        exact List.prefix_refl _
    rw [if_neg h5]
    by_cases h6 : c = ','
    · rw [if_pos h6]
      refine hfin _ ?_
      unfold Bf.tap_input
      cases w.getchar m.con.reads <;> exact List.prefix_refl _
    rw [if_neg h6]
    by_cases h7 : c = '['
    · rw [if_pos h7]
      by_cases hd : (load m.tap.heap m.tap.cell).data = 0
      · rw [if_pos hd]
        rcases Bf.tap_jump_forward m.tap with ⟨_ | _, t1⟩
        · exact ⟨fun m1 h1 => by simp at h1,
            fun e m1 h1 => by injection h1 with _ h1; rw [← h1]⟩
        · refine hfin _ ?_
          exact List.prefix_refl _
      · rw [if_neg hd]
        refine hfin _ ?_
        exact List.prefix_refl _
    rw [if_neg h7]
    by_cases h8 : c = ']'
    · rw [if_pos h8]
      by_cases hd : (load m.tap.heap m.tap.cell).data ≠ 0
      · rw [if_pos hd]
        rcases Bf.tap_jump_back m.tap with ⟨_ | _, t1⟩
        · exact ⟨fun m1 h1 => by simp at h1,
            fun e m1 h1 => by injection h1 with _ h1; rw [← h1]⟩
        · refine hfin _ ?_
          exact List.prefix_refl _
      · rw [if_neg hd]
        refine hfin _ ?_
        exact List.prefix_refl _
    rw [if_neg h8]
    refine hfin _ ?_
    exact List.prefix_refl _

theorem Bf.loop_out_grows (w : World) :
    ∀ (n : Nat) (m : Bf.Machine), m.con.out <+: (Bf.tap_run_loop w n m).machine.con.out := by
  intro n
  induction n with
  | zero => intro m; exact List.prefix_refl _
  | succ n ih =>
    intro m
    simp only [Bf.tap_run_loop]
    rcases hstep : Bf.tap_run_step w m with m1 | ⟨e, m1⟩
    · exact List.IsPrefix.trans ((Bf.step_out_grows w m).1 m1 hstep) (ih m1)
    · exact (Bf.step_out_grows w m).2 e m1 hstep

/-- The output of a run of `bf.c` that is going on is the beginning of its later output. -/
theorem Bf.run_out_grows (w : World) (a b : Nat) (m m1 : Bf.Machine) (hab : a ≤ b)
    (h : Bf.tap_run_loop w a m = Bf.Step.continue m1) :
    m1.con.out <+: (Bf.tap_run_loop w b m).machine.con.out := by
  obtain ⟨c, rfl⟩ : ∃ c, b = a + c := ⟨b - a, by omega⟩
  rw [Bf.direct_loop_add, h]
  exact Bf.loop_out_grows w c m1

/-- C3: for every balanced source of nesting depth at most 4096, every input stream, every
initial tape size `s >= 1` and every output that accepts all bytes, `compile_source`
succeeds and, if the run of the bytecode never stops on the tape limit: (1) when the
bytecode run reaches `HALT`, the direct run of `bf.c` reaches the end of the code with the
same heap, cursor and streams; (2) when the direct run returns, it has reached the end of
the code and the bytecode run reaches `HALT` with the same heap, cursor and streams; (3)
the bytecode run returns in no other way than `HALT`; (4) every state of a bytecode run
that goes on is a later state of the direct run; (5) the output of a direct run that goes
on is the beginning of an output of the bytecode run. -/
theorem bytecode_engine_agrees_with_direct_interpreter (w : World) (junk s l : Nat)
    (source : List Char) (hw : ∀ k, w.putchar_ok k = true) (hs : 1 ≤ s)
    (hb : BfOpt.balanced source) (hd : BfOpt.depth_within 4096 source 0) :
    ∃ P, BfOpt.compile_source junk source BfOpt.program_init = Except.ok P ∧
      ((∀ fuel m, BfOpt.tap_run w P (BfOpt.tap_init s l) fuel ≠
          BfOpt.Step.exit BfOpt.Exit.tape_limit m) →
        (∀ n m, BfOpt.tap_run w P (BfOpt.tap_init s l) n = BfOpt.Step.exit BfOpt.Exit.halt m →
          ∃ n1 b, Bf.tap_run w (Bf.tap_init source s) n1 = Bf.Step.exit Bf.Exit.finished b ∧
            same_view m b) ∧
        (∀ n1 e b, Bf.tap_run w (Bf.tap_init source s) n1 = Bf.Step.exit e b →
          e = Bf.Exit.finished ∧
            ∃ n m, BfOpt.tap_run w P (BfOpt.tap_init s l) n =
                BfOpt.Step.exit BfOpt.Exit.halt m ∧ same_view m b) ∧
        (∀ n e m, BfOpt.tap_run w P (BfOpt.tap_init s l) n = BfOpt.Step.exit e m →
          e = BfOpt.Exit.halt) ∧
        (∀ n m, BfOpt.tap_run w P (BfOpt.tap_init s l) n = BfOpt.Step.continue m →
          ∃ n1 b, n ≤ n1 ∧ Bf.tap_run w (Bf.tap_init source s) n1 = Bf.Step.continue b ∧
            same_view m b) ∧
        (∀ n1 b, Bf.tap_run w (Bf.tap_init source s) n1 = Bf.Step.continue b →
          ∃ n m, (BfOpt.tap_run w P (BfOpt.tap_init s l) n = BfOpt.Step.continue m ∨
              BfOpt.tap_run w P (BfOpt.tap_init s l) n = BfOpt.Step.exit BfOpt.Exit.halt m) ∧
            b.con.out <+: m.con.out)) := by
  obtain ⟨P, hP⟩ := BfOpt.compile_source_of_balanced junk source BfOpt.program_init hb hd
  refine ⟨P, hP, fun hlim => ?_⟩
  obtain ⟨sf, hc, hsf, hPe⟩ := BfOpt.compile_source_ok junk source _ P hP
  have hstart := sim_start source s l hs
  have hkind : ∀ n e m, BfOpt.tap_run w P (BfOpt.tap_init s l) n = BfOpt.Step.exit e m →
      e = BfOpt.Exit.halt := by
    intro n e m h
    rcases sim_exit_kind w hw junk source sf P hc hsf hPe n _ m _ e hstart h with h1 | h1
    · exact h1
    · subst h1
      exact absurd h (hlim n m)
  refine ⟨?_, ?_, hkind, ?_, ?_⟩
  · intro n m h
    exact sim_halt w hw junk source sf P hc hsf hPe n _ m _ hstart h
  · intro n1 e b h
    exact sim_finished w hw junk source sf P hc hsf hPe n1 _ _ b e hstart hlim h
  · intro n m h
    obtain ⟨n1, b, hn, hrun, hsim⟩ :=
      sim_continue w hw junk source sf P hc hsf hPe n _ m _ hstart h
    exact ⟨n1, b, hn, hrun, sim_same_view source m b hsim⟩
  · intro n1 b h
    rcases hM : BfOpt.tap_run w P (BfOpt.tap_init s l) n1 with m | ⟨e, m⟩
    · obtain ⟨n2, b2, hn, hrun, hsim⟩ :=
        sim_continue w hw junk source sf P hc hsf hPe n1 _ m _ hstart hM
      refine ⟨n1, m, Or.inl hM, ?_⟩
      have := Bf.run_out_grows w n1 n2 _ b hn h
      rw [hrun] at this
      rw [← (sim_same_view source m b2 hsim).2.2]
      exact this
    · have he := hkind n1 e m hM
      subst he
      obtain ⟨n2, b2, hrun, hview⟩ :=
        sim_halt w hw junk source sf P hc hsf hPe n1 _ m _ hstart hM
      refine ⟨n1, m, Or.inr hM, ?_⟩
      have hlt : n1 ≤ n2 := by
        by_contra hge
        have := Bf.direct_loop_exit_mono w n2 n1 _ b2 _ hrun (by omega)
        rw [Bf.tap_run] at h
        rw [this] at h
        exact absurd h (by simp)
      have := Bf.run_out_grows w n1 n2 _ b hlt h
      rw [hrun] at this
      rw [← hview.2.2]
      exact this

/-- A bytecode run that reaches `HALT` never stops on the tape limit. -/
theorem BfOpt.no_tape_limit_of_halt (w : World) (P : BfOpt.Program) (t : BfOpt.Tap) (n : Nat)
    (m : BfOpt.Machine) (h : BfOpt.tap_run w P t n = BfOpt.Step.exit BfOpt.Exit.halt m) :
    ∀ fuel m1, BfOpt.tap_run w P t fuel ≠ BfOpt.Step.exit BfOpt.Exit.tape_limit m1 := by
  intro fuel m1 hf
  have e1 := BfOpt.tap_run_loop_exit_mono w P n (n + fuel) _ m _ h (by omega)
  have e2 := BfOpt.tap_run_loop_exit_mono w P fuel (n + fuel) _ m1 _ hf (by omega)
  rw [e1] at e2
  injection e2 with e3 _
  exact absurd e3 (by simp)

theorem bytecode_engine_agrees_with_direct_interpreter_witness :
    (∀ k, BfOpt.world_AB.putchar_ok k = true) ∧ 1 ≤ 2 ∧
    BfOpt.balanced ['+', '[', '-', ']', '.'] ∧
    BfOpt.depth_within 4096 ['+', '[', '-', ']', '.'] 0 ∧
    BfOpt.compile_source 0 ['+', '[', '-', ']', '.'] BfOpt.program_init =
      Except.ok witness_program ∧
    (∀ fuel m, BfOpt.tap_run BfOpt.world_AB witness_program (BfOpt.tap_init 2 30000) fuel ≠
      BfOpt.Step.exit BfOpt.Exit.tape_limit m) ∧
    (
    (∀ n m, BfOpt.tap_run BfOpt.world_AB witness_program (BfOpt.tap_init 2 30000) n = BfOpt.Step.exit BfOpt.Exit.halt m →
      ∃ n1 b, Bf.tap_run BfOpt.world_AB (Bf.tap_init ['+', '[', '-', ']', '.'] 2) n1 = Bf.Step.exit Bf.Exit.finished b ∧
        same_view m b) ∧
    (∀ n1 e b, Bf.tap_run BfOpt.world_AB (Bf.tap_init ['+', '[', '-', ']', '.'] 2) n1 = Bf.Step.exit e b →
      e = Bf.Exit.finished ∧
        ∃ n m, BfOpt.tap_run BfOpt.world_AB witness_program (BfOpt.tap_init 2 30000) n =
            BfOpt.Step.exit BfOpt.Exit.halt m ∧ same_view m b) ∧
    (∀ n e m, BfOpt.tap_run BfOpt.world_AB witness_program (BfOpt.tap_init 2 30000) n = BfOpt.Step.exit e m →
      e = BfOpt.Exit.halt) ∧
    (∀ n m, BfOpt.tap_run BfOpt.world_AB witness_program (BfOpt.tap_init 2 30000) n = BfOpt.Step.continue m →
      ∃ n1 b, n ≤ n1 ∧ Bf.tap_run BfOpt.world_AB (Bf.tap_init ['+', '[', '-', ']', '.'] 2) n1 = Bf.Step.continue b ∧
        same_view m b) ∧
    (∀ n1 b, Bf.tap_run BfOpt.world_AB (Bf.tap_init ['+', '[', '-', ']', '.'] 2) n1 = Bf.Step.continue b →
      ∃ n m, (BfOpt.tap_run BfOpt.world_AB witness_program (BfOpt.tap_init 2 30000) n = BfOpt.Step.continue m ∨
          BfOpt.tap_run BfOpt.world_AB witness_program (BfOpt.tap_init 2 30000) n = BfOpt.Step.exit BfOpt.Exit.halt m) ∧
        b.con.out <+: m.con.out)) := by
  have hnl : ∀ fuel m, BfOpt.tap_run BfOpt.world_AB witness_program (BfOpt.tap_init 2 30000)
      fuel ≠ BfOpt.Step.exit BfOpt.Exit.tape_limit m :=
    BfOpt.no_tape_limit_of_halt BfOpt.world_AB witness_program (BfOpt.tap_init 2 30000) 4
      (BfOpt.tap_run_loop BfOpt.world_AB witness_program 4
        (BfOpt.start (BfOpt.tap_init 2 30000))).machine (by decide)
  obtain ⟨P, hP, h⟩ := bytecode_engine_agrees_with_direct_interpreter BfOpt.world_AB 0 2 30000
    ['+', '[', '-', ']', '.'] (fun _ => rfl) (by decide) (by decide) (by decide)
  have hPe : P = witness_program := by
    have hc : BfOpt.compile_source 0 ['+', '[', '-', ']', '.'] BfOpt.program_init =
        Except.ok witness_program := rfl
    rw [hc] at hP
    injection hP with hP
    exact hP.symm
  subst hPe
  exact ⟨fun _ => rfl, by decide, by decide, by decide, rfl, hnl, h hnl⟩

end BrainFuck


namespace BrainFuck

namespace BfOpt

/-! ## Single instructions: arithmetic, input, output -/

theorem only_data_at_store_data (h : Heap) (p : Ptr) (d : Nat) :
    only_data_at h (store_data h p d) p :=
  ⟨length_store _ _ _, fun _ hq => load_store_other _ _ _ _ (Ne.symm hq),
    (load_store_data_links h p p d).2, (load_store_data_links h p p d).1⟩

theorem only_data_at_refl (h : Heap) (p : Ptr) : only_data_at h h p :=
  ⟨rfl, fun _ _ => rfl, rfl, rfl⟩

/-- C11: on a cursor that addresses an allocated cell holding `v`, the step at `ADD_VAL n`
goes on with the cell holding `(v + n) mod 256`, the step at `SUB_VAL n` goes on with the
cell holding `(v - n) mod 256` (there is no other outcome); nothing else changes: the other
cells, the links, the cursor, the allocated count and the streams are as before and `pc`
advances by one.  In particular 255 plus one is 0 and 0 minus one is 255. -/
theorem add_sub_wrap_around (w : World) (prog : Program) (m : Machine) (instr : Instruction)
    (hfetch : prog.get? m.pc = some instr) (hcell : allocated m.tap.heap m.tap.cell)
    (hop : instr.type = OperationType.ADD_VAL ∨ instr.type = OperationType.SUB_VAL) :
    ∃ m1, tap_run_step w prog m = Step.continue m1 ∧
      (instr.type = OperationType.ADD_VAL →
        (load m1.tap.heap m1.tap.cell).data =
          ((load m.tap.heap m.tap.cell).data + instr.operand) % 256) ∧
      (instr.type = OperationType.SUB_VAL →
        (((load m1.tap.heap m1.tap.cell).data : Nat) : Int) =
          (((load m.tap.heap m.tap.cell).data : Nat) - (instr.operand : Int)) % 256) ∧
      (instr.type = OperationType.ADD_VAL → instr.operand = 1 →
        (load m.tap.heap m.tap.cell).data = 255 → (load m1.tap.heap m1.tap.cell).data = 0) ∧
      (instr.type = OperationType.SUB_VAL → instr.operand = 1 →
        (load m.tap.heap m.tap.cell).data = 0 → (load m1.tap.heap m1.tap.cell).data = 255) ∧
      only_data_at m.tap.heap m1.tap.heap m.tap.cell ∧ m1.tap.cell = m.tap.cell ∧
      m1.tap.current_cells_size = m.tap.current_cells_size ∧
      m1.tap.cells_limit = m.tap.cells_limit ∧ m1.con = m.con ∧ m1.pc = m.pc + 1 := by
  obtain ⟨ty, n⟩ := instr
  simp only at hop
  rcases hop with h | h
  · subst h
    have hstep : tap_run_step w prog m = Step.continue
        { tap := { m.tap with heap := (store_data m.tap.heap m.tap.cell
                    (((load m.tap.heap m.tap.cell).data + n % 256) % 256)) },
          pc := m.pc + 1, con := m.con } := by
      simp only [tap_run_step, hfetch, exec_switch]
    refine ⟨_, hstep, ?_, ?_, ?_, ?_,
      only_data_at_store_data _ _ _, rfl, rfl, rfl, rfl, rfl⟩
    · intro _
      simp only [load_store_data_allocated _ _ _ hcell]
      omega
    · intro h1
      simp only at h1
      exact absurd h1 (by decide)
    · intro _ h1 h2
      simp only at h1
      simp only [load_store_data_allocated _ _ _ hcell, h1, h2]
    · intro h1
      simp only at h1
      exact absurd h1 (by decide)
  · subst h
    have hstep : tap_run_step w prog m = Step.continue
        { tap := { m.tap with heap := (store_data m.tap.heap m.tap.cell
                    (((load m.tap.heap m.tap.cell).data + 256 - n % 256) % 256)) },
          pc := m.pc + 1, con := m.con } := by
      simp only [tap_run_step, hfetch, exec_switch]
    refine ⟨_, hstep, ?_, ?_, ?_, ?_,
      only_data_at_store_data _ _ _, rfl, rfl, rfl, rfl, rfl⟩
    · intro h1
      simp only at h1
      exact absurd h1 (by decide)
    · intro _
      simp only [load_store_data_allocated _ _ _ hcell]
      omega
    · intro h1
      simp only at h1
      exact absurd h1 (by decide)
    · intro _ h1 h2
      simp only at h1
      simp only [load_store_data_allocated _ _ _ hcell, h1, h2]

theorem add_sub_wrap_around_witness :
    [(⟨OperationType.SUB_VAL, 1⟩ : Instruction)].get? (start (tap_init 1 1)).pc =
      some ⟨OperationType.SUB_VAL, 1⟩ ∧
    allocated (start (tap_init 1 1)).tap.heap (start (tap_init 1 1)).tap.cell ∧
    ((⟨OperationType.SUB_VAL, 1⟩ : Instruction).type = OperationType.ADD_VAL ∨
      (⟨OperationType.SUB_VAL, 1⟩ : Instruction).type = OperationType.SUB_VAL) ∧
    ∃ m1, tap_run_step first_write_fails [(⟨OperationType.SUB_VAL, 1⟩ : Instruction)] (start (tap_init 1 1)) = Step.continue m1 ∧
      ((⟨OperationType.SUB_VAL, 1⟩ : Instruction).type = OperationType.ADD_VAL →
        (load m1.tap.heap m1.tap.cell).data =
          ((load (start (tap_init 1 1)).tap.heap (start (tap_init 1 1)).tap.cell).data + (⟨OperationType.SUB_VAL, 1⟩ : Instruction).operand) % 256) ∧
      ((⟨OperationType.SUB_VAL, 1⟩ : Instruction).type = OperationType.SUB_VAL →
        (((load m1.tap.heap m1.tap.cell).data : Nat) : Int) =
          (((load (start (tap_init 1 1)).tap.heap (start (tap_init 1 1)).tap.cell).data : Nat) - ((⟨OperationType.SUB_VAL, 1⟩ : Instruction).operand : Int)) % 256) ∧
      ((⟨OperationType.SUB_VAL, 1⟩ : Instruction).type = OperationType.ADD_VAL → (⟨OperationType.SUB_VAL, 1⟩ : Instruction).operand = 1 →
        (load (start (tap_init 1 1)).tap.heap (start (tap_init 1 1)).tap.cell).data = 255 → (load m1.tap.heap m1.tap.cell).data = 0) ∧
      ((⟨OperationType.SUB_VAL, 1⟩ : Instruction).type = OperationType.SUB_VAL → (⟨OperationType.SUB_VAL, 1⟩ : Instruction).operand = 1 →
        (load (start (tap_init 1 1)).tap.heap (start (tap_init 1 1)).tap.cell).data = 0 → (load m1.tap.heap m1.tap.cell).data = 255) ∧
      only_data_at (start (tap_init 1 1)).tap.heap m1.tap.heap (start (tap_init 1 1)).tap.cell ∧ m1.tap.cell = (start (tap_init 1 1)).tap.cell ∧
      m1.tap.current_cells_size = (start (tap_init 1 1)).tap.current_cells_size ∧
      m1.tap.cells_limit = (start (tap_init 1 1)).tap.cells_limit ∧ m1.con = (start (tap_init 1 1)).con ∧ m1.pc = (start (tap_init 1 1)).pc + 1 :=
  ⟨rfl, ⟨0, rfl, by decide⟩, Or.inr rfl,
    add_sub_wrap_around first_write_fails _ (start (tap_init 1 1)) ⟨OperationType.SUB_VAL, 1⟩
      rfl ⟨0, rfl, by decide⟩ (Or.inr rfl)⟩

/-- C12: the step at `INPUT` goes on with `pc` advanced by one and one more read made.  At
end-of-stream the whole tape (all cells, links, cursor, allocated count) is unchanged.
When a byte `b` arrives and the cursor addresses an allocated cell, that cell holds `b`
afterwards and nothing else changes. -/
theorem input_at_end_of_stream_keeps_the_cell (w : World) (prog : Program) (m : Machine)
    (instr : Instruction) (hfetch : prog.get? m.pc = some instr)
    (hop : instr.type = OperationType.INPUT) :
    (w.getchar m.con.reads = none →
      tap_run_step w prog m = Step.continue { m with pc := m.pc + 1, con := m.con.got }) ∧
    (∀ b, w.getchar m.con.reads = some b → b < 256 → allocated m.tap.heap m.tap.cell →
      ∃ m1, tap_run_step w prog m = Step.continue m1 ∧
        (load m1.tap.heap m1.tap.cell).data = b ∧
        only_data_at m.tap.heap m1.tap.heap m.tap.cell ∧ m1.tap.cell = m.tap.cell ∧
        m1.tap.current_cells_size = m.tap.current_cells_size ∧
        m1.tap.cells_limit = m.tap.cells_limit ∧ m1.con = m.con.got ∧ m1.pc = m.pc + 1) := by
  obtain ⟨ty, n⟩ := instr
  simp only at hop
  subst hop
  refine ⟨fun hn => ?_, fun b hb hlt hcell => ?_⟩
  · simp only [tap_run_step, hfetch, exec_switch, hn]
  · have hstep : tap_run_step w prog m = Step.continue
        { tap := { m.tap with heap := (store_data m.tap.heap m.tap.cell (b % 256)) },
          pc := m.pc + 1, con := m.con.got } := by
      simp only [tap_run_step, hfetch, exec_switch, hb]
    refine ⟨_, hstep, ?_, only_data_at_store_data _ _ _, rfl, rfl, rfl, rfl, rfl⟩
    simp only [load_store_data_allocated _ _ _ hcell]
    omega

theorem input_at_end_of_stream_keeps_the_cell_witness :
    [(⟨OperationType.INPUT, 0⟩ : Instruction)].get? (start (tap_init 1 1)).pc =
      some ⟨OperationType.INPUT, 0⟩ ∧
    (⟨OperationType.INPUT, 0⟩ : Instruction).type = OperationType.INPUT ∧
    (first_write_fails.getchar (start (tap_init 1 1)).con.reads = none →
      tap_run_step first_write_fails [(⟨OperationType.INPUT, 0⟩ : Instruction)] (start (tap_init 1 1)) = Step.continue { start (tap_init 1 1) with pc := (start (tap_init 1 1)).pc + 1, con := (start (tap_init 1 1)).con.got }) ∧
    (∀ b, first_write_fails.getchar (start (tap_init 1 1)).con.reads = some b → b < 256 → allocated (start (tap_init 1 1)).tap.heap (start (tap_init 1 1)).tap.cell →
      ∃ m1, tap_run_step first_write_fails [(⟨OperationType.INPUT, 0⟩ : Instruction)] (start (tap_init 1 1)) = Step.continue m1 ∧
        (load m1.tap.heap m1.tap.cell).data = b ∧
        only_data_at (start (tap_init 1 1)).tap.heap m1.tap.heap (start (tap_init 1 1)).tap.cell ∧ m1.tap.cell = (start (tap_init 1 1)).tap.cell ∧
        m1.tap.current_cells_size = (start (tap_init 1 1)).tap.current_cells_size ∧
        m1.tap.cells_limit = (start (tap_init 1 1)).tap.cells_limit ∧ m1.con = (start (tap_init 1 1)).con.got ∧ m1.pc = (start (tap_init 1 1)).pc + 1) :=
  ⟨rfl, rfl,
    input_at_end_of_stream_keeps_the_cell first_write_fails _ (start (tap_init 1 1))
      ⟨OperationType.INPUT, 0⟩ rfl rfl⟩

/-- C13, the run that goes on after a failed write: the source `.+.` compiles to
`[OUTPUT, ADD_VAL 1, OUTPUT, HALT]`; when the first write fails, `tap_run` of `bfopt.c`
still executes the three later instructions and reaches `HALT`, having called `putchar`
twice and written the byte 1, while `tap_run` of `bf.c` returns with a runtime error at the
first character, with nothing written. -/
theorem failed_write_does_not_stop_the_bytecode_run :
    compile_source 0 ['.', '+', '.'] program_init =
      Except.ok [⟨OperationType.OUTPUT, 0⟩, ⟨OperationType.ADD_VAL, 1⟩,
        ⟨OperationType.OUTPUT, 0⟩, ⟨OperationType.HALT, 0⟩] ∧
    first_write_fails.putchar_ok 0 = false ∧
    (∃ m, tap_run first_write_fails [⟨OperationType.OUTPUT, 0⟩, ⟨OperationType.ADD_VAL, 1⟩,
        ⟨OperationType.OUTPUT, 0⟩, ⟨OperationType.HALT, 0⟩] (tap_init 1 1) 4 =
          Step.exit Exit.halt m ∧
      m.pc = 3 ∧ m.con.writes = 2 ∧ m.con.out = [1] ∧
      (load m.tap.heap m.tap.cell).data = 1) ∧
    (∃ b, Bf.tap_run first_write_fails (Bf.tap_init ['.', '+', '.'] 1) 1 =
          Bf.Step.exit Bf.Exit.runtime_error b ∧
      b.tap.pc = 0 ∧ b.con.out = [] ∧ (load b.tap.heap b.tap.cell).data = 0) :=
  ⟨rfl, rfl, ⟨_, rfl, rfl, rfl, rfl, rfl⟩, ⟨_, rfl, rfl, rfl, rfl⟩⟩

end BfOpt

end BrainFuck


namespace BrainFuck

namespace BfOpt

/-! ## The cursor stays on an allocated cell -/

theorem exec_switch_wf (w : World) (instr : Instruction) (m : Machine) (h : m.tap.wf) :
    (exec_switch w instr m).machine.tap.wf := by
  obtain ⟨ty, n⟩ := instr
  cases ty <;> simp only [exec_switch]
  · have h1 := ptr_loop_wf _ inc_ptr_body_wf n m.tap h
    rcases hp : ptr_loop inc_ptr_body n m.tap with ⟨b, t⟩
    rw [hp] at h1
    cases b <;> exact h1
  · have h1 := ptr_loop_wf _ dec_ptr_body_wf n m.tap h
    rcases hp : ptr_loop dec_ptr_body n m.tap with ⟨b, t⟩
    rw [hp] at h1
    cases b <;> exact h1
  · exact wf_store_data _ _ h
  · exact wf_store_data _ _ h
  · exact h
  · cases w.getchar m.con.reads with
    | none => exact h
    | some c => exact wf_store_data _ _ h
  · split_ifs <;> exact h
  · split_ifs <;> exact h
  · exact wf_store_data _ _ h
  · exact h

theorem tap_run_step_wf (w : World) (prog : Program) (m : Machine) (h : m.tap.wf) :
    (tap_run_step w prog m).machine.tap.wf := by
  unfold tap_run_step
  cases hf : prog.get? m.pc with
  | none => exact h
  | some instr =>
    have h1 := exec_switch_wf w instr m h
    simp only
    rcases hx : exec_switch w instr m with m1 | ⟨e, m1⟩
    · rw [hx] at h1
      exact h1
    · rw [hx] at h1
      exact h1

theorem tap_run_loop_wf (w : World) (prog : Program) :
    ∀ (fuel : Nat) (m : Machine), m.tap.wf → (tap_run_loop w prog fuel m).machine.tap.wf := by
  intro fuel
  induction fuel with
  | zero => intro m h; exact h
  | succ k ih =>
    intro m h
    have h1 := tap_run_step_wf w prog m h
    rw [tap_run_loop_succ]
    rcases hx : tap_run_step w prog m with m1 | ⟨e, m1⟩
    · rw [hx] at h1
      exact ih m1 h1
    · rw [hx] at h1
      exact h1

theorem not_sentinel_of_allocated (h : Heap) (p : Ptr) (ha : allocated h p) :
    p ≠ Ptr.tomp ∧ p ≠ Ptr.null := by
  obtain ⟨a, rfl, _⟩ := ha
  exact ⟨by simp, by simp⟩

/-- C14: on a tape made by `tap_init` with `initial_size >= 1`, the machine after any
number of steps of any program (still running or returned) has a doubly linked heap and a
cursor that addresses an allocated cell, so neither the sentinel nor null; the same holds
after any number of iterations of the pointer loops started there; and a unit move that
does not grow lands on an allocated cell: the `next` (`prev`) field of the cursor cell is
the sentinel, which triggers the growth, or the address of an allocated cell. -/
theorem cursor_always_on_an_allocated_cell (w : World) (prog : Program) (s l fuel : Nat)
    (hs : 1 ≤ s) :
    (tap_run w prog (tap_init s l) fuel).machine.tap.wf ∧
    (tap_run w prog (tap_init s l) fuel).machine.tap.cell ≠ Ptr.tomp ∧
    (tap_run w prog (tap_init s l) fuel).machine.tap.cell ≠ Ptr.null ∧
    (∀ k, (ptr_loop inc_ptr_body k (tap_run w prog (tap_init s l) fuel).machine.tap).2.wf) ∧
    (∀ k, (ptr_loop dec_ptr_body k (tap_run w prog (tap_init s l) fuel).machine.tap).2.wf) ∧
    ((load (tap_run w prog (tap_init s l) fuel).machine.tap.heap
          (tap_run w prog (tap_init s l) fuel).machine.tap.cell).next ≠ Ptr.tomp →
      allocated (tap_run w prog (tap_init s l) fuel).machine.tap.heap
        (load (tap_run w prog (tap_init s l) fuel).machine.tap.heap
          (tap_run w prog (tap_init s l) fuel).machine.tap.cell).next) ∧
    ((load (tap_run w prog (tap_init s l) fuel).machine.tap.heap
          (tap_run w prog (tap_init s l) fuel).machine.tap.cell).prev ≠ Ptr.tomp →
      allocated (tap_run w prog (tap_init s l) fuel).machine.tap.heap
        (load (tap_run w prog (tap_init s l) fuel).machine.tap.heap
          (tap_run w prog (tap_init s l) fuel).machine.tap.cell).prev) := by
  have hwf : (tap_run w prog (tap_init s l) fuel).machine.tap.wf :=
    tap_run_loop_wf w prog fuel _ (tap_init_wf s l hs)
  obtain ⟨hl, a, hca, ha⟩ := hwf
  have hnot := not_sentinel_of_allocated _ _ ⟨a, hca, ha⟩
  refine ⟨⟨hl, a, hca, ha⟩, hnot.1, hnot.2,
    fun k => ptr_loop_wf _ inc_ptr_body_wf k _ ⟨hl, a, hca, ha⟩,
    fun k => ptr_loop_wf _ dec_ptr_body_wf k _ ⟨hl, a, hca, ha⟩, ?_, ?_⟩
  · intro hn
    rw [hca] at hn ⊢
    rcases (hl a ha).1 with h1 | ⟨b, hb, h1, _⟩
    · exact absurd h1 hn
    · exact ⟨b, h1, hb⟩
  · intro hn
    rw [hca] at hn ⊢
    rcases (hl a ha).2 with h1 | ⟨b, hb, h1, _⟩
    · exact absurd h1 hn
    · exact ⟨b, h1, hb⟩

theorem cursor_always_on_an_allocated_cell_witness :
    1 ≤ 1 ∧
    (tap_run world_AB (echo_program 0) (tap_init 1 2) 3).machine.tap.wf ∧
    (tap_run world_AB (echo_program 0) (tap_init 1 2) 3).machine.tap.cell ≠ Ptr.tomp ∧
    (tap_run world_AB (echo_program 0) (tap_init 1 2) 3).machine.tap.cell ≠ Ptr.null ∧
    (∀ k, (ptr_loop inc_ptr_body k (tap_run world_AB (echo_program 0) (tap_init 1 2) 3).machine.tap).2.wf) ∧
    (∀ k, (ptr_loop dec_ptr_body k (tap_run world_AB (echo_program 0) (tap_init 1 2) 3).machine.tap).2.wf) ∧
    ((load (tap_run world_AB (echo_program 0) (tap_init 1 2) 3).machine.tap.heap
          (tap_run world_AB (echo_program 0) (tap_init 1 2) 3).machine.tap.cell).next ≠ Ptr.tomp →
      allocated (tap_run world_AB (echo_program 0) (tap_init 1 2) 3).machine.tap.heap
        (load (tap_run world_AB (echo_program 0) (tap_init 1 2) 3).machine.tap.heap
          (tap_run world_AB (echo_program 0) (tap_init 1 2) 3).machine.tap.cell).next) ∧
    ((load (tap_run world_AB (echo_program 0) (tap_init 1 2) 3).machine.tap.heap
          (tap_run world_AB (echo_program 0) (tap_init 1 2) 3).machine.tap.cell).prev ≠ Ptr.tomp →
      allocated (tap_run world_AB (echo_program 0) (tap_init 1 2) 3).machine.tap.heap
        (load (tap_run world_AB (echo_program 0) (tap_init 1 2) 3).machine.tap.heap
          (tap_run world_AB (echo_program 0) (tap_init 1 2) 3).machine.tap.cell).prev) :=
  ⟨Nat.le_refl 1,
    cursor_always_on_an_allocated_cell world_AB (echo_program 0) 1 2 3 (Nat.le_refl 1)⟩

end BfOpt

end BrainFuck


namespace BrainFuck

namespace BfOpt

/-! ## Partial pointer moves -/

/-- A pointer loop whose body follows a link whenever the link is not the sentinel walks
along the links as long as no sentinel is met. -/
theorem ptr_loop_walk (body : Tap → Bool × Tap) (link : Node → Ptr)
    (hbody : ∀ t : Tap, link (load t.heap t.cell) ≠ Ptr.tomp →
      body t = (true, { t with cell := link (load t.heap t.cell) })) (t : Tap) :
    ∀ k, (∀ i, i < k → link (load t.heap (nth_link link t.heap t.cell i)) ≠ Ptr.tomp) →
      ptr_loop body k t = (true, { t with cell := nth_link link t.heap t.cell k }) := by
  intro k
  induction k with
  | zero => intro _; rfl
  | succ k ih =>
    intro h
    rw [ptr_loop_succ_right, ih (fun i hi => h i (Nat.lt_succ_of_lt hi))]
    simp only
    rw [hbody _ (h k (Nat.lt_succ_self k))]
    rfl

theorem ptr_loop_refused (body : Tap → Bool × Tap) (n : Nat) (t t1 : Tap)
    (h : ptr_loop body n t = (false, t1)) : ∀ j, ptr_loop body (n + j) t = (false, t1) := by
  intro j
  induction j with
  | zero => exact h
  | succ j ih => rw [← Nat.add_assoc, ptr_loop_succ_right, ih]

theorem inc_ptr_body_follow (t : Tap) (h : (load t.heap t.cell).next ≠ Ptr.tomp) :
    inc_ptr_body t = (true, { t with cell := (load t.heap t.cell).next }) := by
  rcases inc_ptr_body_cases t with ⟨_, he⟩ | ⟨hn, _⟩ | ⟨hn, _⟩
  · exact he
  · exact absurd hn h
  · exact absurd hn h

theorem dec_ptr_body_follow (t : Tap) (h : (load t.heap t.cell).prev ≠ Ptr.tomp) :
    dec_ptr_body t = (true, { t with cell := (load t.heap t.cell).prev }) := by
  rcases dec_ptr_body_cases t with ⟨_, he⟩ | ⟨hn, _⟩ | ⟨hn, _⟩
  · exact he
  · exact absurd hn h
  · exact absurd hn h

/-- A pointer loop that meets the sentinel after `k` moves, on a tape that may not grow,
stops there. -/
theorem ptr_loop_stops (body : Tap → Bool × Tap) (link : Node → Ptr)
    (hbody : ∀ t : Tap, link (load t.heap t.cell) ≠ Ptr.tomp →
      body t = (true, { t with cell := link (load t.heap t.cell) }))
    (hstop : ∀ t : Tap, link (load t.heap t.cell) = Ptr.tomp →
      t.cells_limit ≤ t.current_cells_size → body t = (false, t))
    (t : Tap) (k n : Nat) (hk : k < n)
    (hwalk : ∀ i, i < k → link (load t.heap (nth_link link t.heap t.cell i)) ≠ Ptr.tomp)
    (hend : link (load t.heap (nth_link link t.heap t.cell k)) = Ptr.tomp)
    (hfull : t.cells_limit ≤ t.current_cells_size) :
    ptr_loop body n t = (false, { t with cell := nth_link link t.heap t.cell k }) := by
  have h1 : ptr_loop body (k + 1) t =
      (false, { t with cell := nth_link link t.heap t.cell k }) := by
    rw [ptr_loop_succ_right, ptr_loop_walk body link hbody t k hwalk]
    exact hstop _ hend hfull
  have h2 := ptr_loop_refused body (k + 1) t _ h1 (n - (k + 1))
  rw [show k + 1 + (n - (k + 1)) = n by omega] at h2
  exact h2

/-- C15: when a folded `INC_PTR N` (`DEC_PTR N`) starts with exactly `k < N` linked cells
between the cursor and the boundary in its direction (the first `k` moves meet no sentinel,
the next one does) and the tape may not grow, `tap_run` returns at that instruction with
the cursor on the boundary cell, `k` links away from where it started; the heap (data and
links), the allocated count, `pc` and the streams are those before the instruction. -/
theorem refused_growth_keeps_the_partial_move (w : World) (prog : Program) (m : Machine)
    (instr : Instruction) (k : Nat) (hfetch : prog.get? m.pc = some instr)
    (hk : k < instr.operand) (hfull : m.tap.cells_limit ≤ m.tap.current_cells_size) :
    (instr.type = OperationType.INC_PTR →
      (∀ i, i < k → (load m.tap.heap (nth_next m.tap.heap m.tap.cell i)).next ≠ Ptr.tomp) →
      (load m.tap.heap (nth_next m.tap.heap m.tap.cell k)).next = Ptr.tomp →
      tap_run_step w prog m = Step.exit Exit.tape_limit
        { m with tap := { m.tap with cell := nth_next m.tap.heap m.tap.cell k } }) ∧
    (instr.type = OperationType.DEC_PTR →
      (∀ i, i < k → (load m.tap.heap (nth_prev m.tap.heap m.tap.cell i)).prev ≠ Ptr.tomp) →
      (load m.tap.heap (nth_prev m.tap.heap m.tap.cell k)).prev = Ptr.tomp →
      tap_run_step w prog m = Step.exit Exit.tape_limit
        { m with tap := { m.tap with cell := nth_prev m.tap.heap m.tap.cell k } }) := by
  obtain ⟨ty, n⟩ := instr
  simp only at hk
  refine ⟨fun hty hwalk hend => ?_, fun hty hwalk hend => ?_⟩
  · simp only at hty
    subst hty
    have h1 := ptr_loop_stops inc_ptr_body Node.next inc_ptr_body_follow
      (fun t h1 h2 => by
        rcases inc_ptr_body_cases t with ⟨hn, _⟩ | ⟨_, _, he⟩ | ⟨_, hlt, _⟩
        · exact absurd h1 hn
        · exact he
        · omega) m.tap k n hk hwalk hend hfull
    simp only [tap_run_step, hfetch, exec_switch, h1]
  · simp only at hty
    subst hty
    have h1 := ptr_loop_stops dec_ptr_body Node.prev dec_ptr_body_follow
      (fun t h1 h2 => by
        rcases dec_ptr_body_cases t with ⟨hn, _⟩ | ⟨_, _, he⟩ | ⟨_, hlt, _⟩
        · exact absurd h1 hn
        · exact he
        · omega) m.tap k n hk hwalk hend hfull
    simp only [tap_run_step, hfetch, exec_switch, h1]

theorem refused_growth_keeps_the_partial_move_witness :
    [(⟨OperationType.INC_PTR, 5⟩ : Instruction)].get? (start (tap_init 3 3)).pc =
      some ⟨OperationType.INC_PTR, 5⟩ ∧
    1 < (⟨OperationType.INC_PTR, 5⟩ : Instruction).operand ∧
    (start (tap_init 3 3)).tap.cells_limit ≤ (start (tap_init 3 3)).tap.current_cells_size ∧
    (∀ i, i < 1 → (load (start (tap_init 3 3)).tap.heap
      (nth_next (start (tap_init 3 3)).tap.heap (start (tap_init 3 3)).tap.cell i)).next ≠
        Ptr.tomp) ∧
    (load (start (tap_init 3 3)).tap.heap
      (nth_next (start (tap_init 3 3)).tap.heap (start (tap_init 3 3)).tap.cell 1)).next =
        Ptr.tomp ∧
    (start (tap_init 3 3)).tap.cell = Ptr.cell 1 ∧
    tap_run_step first_write_fails [(⟨OperationType.INC_PTR, 5⟩ : Instruction)]
        (start (tap_init 3 3)) =
      Step.exit Exit.tape_limit
        { start (tap_init 3 3) with tap := { tap_init 3 3 with cell := Ptr.cell 2 } } :=
  ⟨rfl, by decide, by decide, by decide, by decide, rfl,
    (refused_growth_keeps_the_partial_move first_write_fails
      [(⟨OperationType.INC_PTR, 5⟩ : Instruction)] (start (tap_init 3 3))
      ⟨OperationType.INC_PTR, 5⟩ 1 rfl (by decide) (by decide)).1 rfl (by decide) (by decide)⟩

/-! ## The initial tape -/

theorem load_tap_init (s l x : Nat) :
    load (tap_init s l).heap (Ptr.cell x) =
      if x < s then
        { prev := if x = 0 then Ptr.tomp else Ptr.cell (x - 1),
          next := if x = s - 1 then Ptr.tomp else Ptr.cell (x + 1),
          data := 0 }
      else { prev := Ptr.null, next := Ptr.null, data := 0 } :=
  load_init_heap s x

theorem nth_next_tap_init (s l : Nat) :
    ∀ k, s / 2 + k < s →
      nth_link Node.next (tap_init s l).heap (tap_init s l).cell k = Ptr.cell (s / 2 + k) := by
  intro k
  induction k with
  | zero => intro _; rfl
  | succ k ih =>
    intro hk
    show (load (tap_init s l).heap (nth_link Node.next (tap_init s l).heap
      (tap_init s l).cell k)).next = _
    rw [ih (by omega), load_tap_init, if_pos (by omega)]
    simp only
    rw [if_neg (by omega)]
    rfl

theorem nth_prev_tap_init (s l : Nat) :
    ∀ k, k ≤ s / 2 → 1 ≤ s →
      nth_link Node.prev (tap_init s l).heap (tap_init s l).cell k = Ptr.cell (s / 2 - k) := by
  intro k
  induction k with
  | zero => intro _ _; rfl
  | succ k ih =>
    intro hk hs
    show (load (tap_init s l).heap (nth_link Node.prev (tap_init s l).heap
      (tap_init s l).cell k)).prev = _
    rw [ih (by omega) hs, load_tap_init, if_pos (by omega)]
    simp only
    rw [if_neg (by omega)]
    rfl

/-- C18: `tap_init` with `initial_size = s >= 1` makes a tape of exactly `s` cells, all
holding 0, with `current_cells_size = s` and the cursor on the cell of index `s / 2`.  From
there `k <= s / 2` unit moves left land on the cell of index `s / 2 - k` without growth,
and the cell of index 0 has the sentinel on its left, so the next move left calls for
growth; `k <= s - 1 - s / 2` unit moves right land on the cell of index `s / 2 + k`
without growth, and the cell of index `s - 1` has the sentinel on its right. -/
theorem tap_init_cursor_at_midpoint (s l : Nat) (hs : 1 ≤ s) :
    (tap_init s l).heap.length = s ∧
    (∀ a, a < s → (load (tap_init s l).heap (Ptr.cell a)).data = 0) ∧
    (tap_init s l).current_cells_size = s ∧ (tap_init s l).cells_limit = l ∧
    (tap_init s l).cell = Ptr.cell (s / 2) ∧
    (∀ k, k ≤ s / 2 → ptr_loop dec_ptr_body k (tap_init s l) =
      (true, { tap_init s l with cell := Ptr.cell (s / 2 - k) })) ∧
    node_is_tomp (load (tap_init s l).heap (Ptr.cell 0)).prev = true ∧
    (∀ k, k ≤ s - 1 - s / 2 → ptr_loop inc_ptr_body k (tap_init s l) =
      (true, { tap_init s l with cell := Ptr.cell (s / 2 + k) })) ∧
    node_is_tomp (load (tap_init s l).heap (Ptr.cell (s - 1))).next = true := by
  refine ⟨length_init_heap s, fun a ha => ?_, rfl, rfl, rfl, fun k hk => ?_, ?_,
    fun k hk => ?_, ?_⟩
  · rw [load_tap_init, if_pos ha]
  · rw [ptr_loop_walk dec_ptr_body Node.prev dec_ptr_body_follow (tap_init s l) k,
      nth_prev_tap_init s l k hk hs]
    intro i hi
    rw [nth_prev_tap_init s l i (by omega) hs, load_tap_init, if_pos (by omega)]
    simp only
    rw [if_neg (by omega)]
    simp
  · rw [load_tap_init, if_pos (by omega)]
    simp [node_is_tomp]
  · rw [ptr_loop_walk inc_ptr_body Node.next inc_ptr_body_follow (tap_init s l) k,
      nth_next_tap_init s l k (by omega)]
    intro i hi
    rw [nth_next_tap_init s l i (by omega), load_tap_init, if_pos (by omega)]
    simp only
    rw [if_neg (by omega)]
    simp
  · rw [load_tap_init, if_pos (by omega)]
    simp [node_is_tomp]

theorem tap_init_cursor_at_midpoint_witness :
    1 ≤ 4 ∧
    (tap_init 4 10).heap.length = 4 ∧
    (∀ a, a < 4 → (load (tap_init 4 10).heap (Ptr.cell a)).data = 0) ∧
    (tap_init 4 10).current_cells_size = 4 ∧ (tap_init 4 10).cells_limit = 10 ∧
    (tap_init 4 10).cell = Ptr.cell (4 / 2) ∧
    (∀ k, k ≤ 4 / 2 → ptr_loop dec_ptr_body k (tap_init 4 10) =
      (true, { tap_init 4 10 with cell := Ptr.cell (4 / 2 - k) })) ∧
    node_is_tomp (load (tap_init 4 10).heap (Ptr.cell 0)).prev = true ∧
    (∀ k, k ≤ 4 - 1 - 4 / 2 → ptr_loop inc_ptr_body k (tap_init 4 10) =
      (true, { tap_init 4 10 with cell := Ptr.cell (4 / 2 + k) })) ∧
    node_is_tomp (load (tap_init 4 10).heap (Ptr.cell (4 - 1))).next = true :=
  ⟨by decide, tap_init_cursor_at_midpoint 4 10 (by decide)⟩

end BfOpt

end BrainFuck


namespace BrainFuck

namespace BfOpt

/-! ## The trailing `HALT` -/

theorem halt_free_append (prog : Program) (instr : Instruction) (hp : halt_free prog)
    (hi : instr.type ≠ OperationType.HALT) : halt_free (prog ++ [instr]) := by
  intro i x hx
  by_cases hlt : i < prog.length
  · rw [get?_append_emit _ _ _ hlt] at hx
    exact hp i x hx
  · have h1 := lt_length_of_get? _ _ _ hx
    simp only [List.length_append, List.length_singleton] at h1
    have h2 : i = prog.length := by omega
    subst h2
    rw [get?_append_new] at hx
    injection hx with hx
    subst hx
    exact hi

theorem halt_free_set_operand (prog : Program) (k v : Nat) (hp : halt_free prog) :
    halt_free (set_operand prog k v) := by
  intro i x hx
  by_cases hik : i = k
  · subst hik
    cases hg : prog.get? i with
    | none =>
      have h1 := lt_length_of_get? _ _ _ hx
      rw [length_set_operand] at h1
      simp only [List.get?_eq_getElem?] at hg
      rw [List.getElem?_eq_none_iff] at hg
      omega
    | some y =>
      rw [get?_set_operand_eq prog i v y hg] at hx
      injection hx with hx
      subst hx
      exact hp i y hg
  · rw [get?_set_operand_ne prog k v i hik] at hx
    exact hp i x hx

theorem halt_free_step (s s1 : CompileState) (h : iter_step s s1) (hp : halt_free s.prog) :
    halt_free s1.prog := by
  rcases iter_step_cases s s1 h with ⟨c, j, hc, _, _, hprog, _⟩ | ⟨_, hprog, _⟩ |
    ⟨_, hprog, _⟩ | ⟨c, _, _, hprog, _⟩ | ⟨_, _, _, hprog, _⟩ | ⟨k, _, _, hprog⟩ |
    ⟨c, _, _, hprog, _⟩
  · rw [hprog]
    refine halt_free_append _ _ hp ?_
    simp only [fold_opcode]
    split_ifs <;> decide
  · rw [hprog]; exact halt_free_append _ _ hp (by decide)
  · rw [hprog]; exact halt_free_append _ _ hp (by decide)
  · rw [hprog]; exact halt_free_append _ _ hp (by decide)
  · rw [hprog]; exact halt_free_append _ _ hp (by decide)
  · rw [hprog]
    exact halt_free_append _ _ (halt_free_set_operand _ _ _ hp)
      (show OperationType.JUMP_NONZERO ≠ OperationType.HALT by decide)
  · rw [hprog]; exact hp

theorem halt_free_reaches (s s1 : CompileState) (h : reaches s s1) (hp : halt_free s.prog) :
    halt_free s1.prog := by
  induction h with
  | refl => exact hp
  | tail _ hstep ih => exact halt_free_step _ _ hstep ih

theorem compile_all_inert (source : List Char) (prog : Program) (st : List Nat)
    (h : ∀ c, c ∈ source → inert_char c) :
    compile_all { source := source, prog := prog, loop_stack := st } =
      Except.ok { source := [], prog := prog, loop_stack := st } := by
  induction source with
  | nil => rfl
  | cons c rest ih =>
    rw [compile_all_cons, compile_iter_inert c rest prog st (h c (List.mem_cons_self c rest))]
    exact ih (fun d hd => h d (List.mem_cons_of_mem c hd))

/-- C17: a program that `compile_source` builds is not empty, its last instruction is
`HALT`, and no instruction at an earlier index is `HALT`; a source without instruction
characters compiles to the one instruction `HALT`. -/
theorem program_ends_with_its_only_halt (junk : Nat) (source : List Char) :
    (∀ P, compile_source junk source program_init = Except.ok P →
      P ≠ [] ∧ P.get? (P.length - 1) = some ⟨OperationType.HALT, junk⟩ ∧
      ∀ i instr, i + 1 < P.length → P.get? i = some instr →
        instr.type ≠ OperationType.HALT) ∧
    ((∀ c, c ∈ source → inert_char c) →
      compile_source junk source program_init = Except.ok [⟨OperationType.HALT, junk⟩]) := by
  refine ⟨fun P h => ?_, fun h => ?_⟩
  · obtain ⟨sf, hc, _, hP⟩ := compile_source_ok junk source _ P h
    have hr := (compile_all_ok_reaches source.length _ sf (Nat.le_refl _) hc).1
    have hf : halt_free sf.prog :=
      halt_free_reaches _ _ hr (fun i x hx => by simp [program_init] at hx)
    subst hP
    refine ⟨by simp, ?_, fun i instr hi hx => ?_⟩
    · simp only [List.length_append, List.length_singleton, Nat.add_sub_cancel]
      exact get?_append_new _ _
    · simp only [List.length_append, List.length_singleton] at hi
      rw [get?_append_emit _ _ _ (by omega)] at hx
      exact hf i instr hx
  · rw [compile_source_eq, compile_all_inert source _ _ h]
    rfl

theorem program_ends_with_its_only_halt_witness :
    (compile_source 0 ['a', '+', ' ', '.'] program_init =
      Except.ok [⟨OperationType.ADD_VAL, 1⟩, ⟨OperationType.OUTPUT, 0⟩,
        ⟨OperationType.HALT, 0⟩]) ∧
    (([⟨OperationType.ADD_VAL, 1⟩, ⟨OperationType.OUTPUT, 0⟩,
        ⟨OperationType.HALT, 0⟩] : Program) ≠ [] ∧
      ([⟨OperationType.ADD_VAL, 1⟩, ⟨OperationType.OUTPUT, 0⟩,
        ⟨OperationType.HALT, 0⟩] : Program).get? (([⟨OperationType.ADD_VAL, 1⟩,
          ⟨OperationType.OUTPUT, 0⟩, ⟨OperationType.HALT, 0⟩] : Program).length - 1) =
        some ⟨OperationType.HALT, 0⟩ ∧
      ∀ i instr, i + 1 < ([⟨OperationType.ADD_VAL, 1⟩, ⟨OperationType.OUTPUT, 0⟩,
            ⟨OperationType.HALT, 0⟩] : Program).length →
        ([⟨OperationType.ADD_VAL, 1⟩, ⟨OperationType.OUTPUT, 0⟩,
            ⟨OperationType.HALT, 0⟩] : Program).get? i = some instr →
        instr.type ≠ OperationType.HALT) ∧
    (∀ c, c ∈ ['a', ' ', 'b'] → inert_char c) ∧
    compile_source 0 ['a', ' ', 'b'] program_init = Except.ok [⟨OperationType.HALT, 0⟩] :=
  ⟨rfl, (program_ends_with_its_only_halt 0 ['a', '+', ' ', '.']).1 _ rfl,
    by simp [inert_char],
    (program_ends_with_its_only_halt 0 ['a', ' ', 'b']).2 (by simp [inert_char])⟩

end BfOpt

end BrainFuck


namespace BrainFuck

namespace BfOpt

/-! ## The depth of the loop stack -/

theorem generic_within_skip (b : Nat) (c : Char) (rest : List Char) (d : Nat) (h1 : c ≠ '[')
    (h2 : c ≠ ']') : generic_within b (c :: rest) d = generic_within b rest d := by
  simp only [generic_within, h1, h2, if_false]

theorem generic_within_replicate (b : Nat) (c : Char) (h1 : c ≠ '[') (h2 : c ≠ ']')
    (rest : List Char) (d : Nat) :
    ∀ j, generic_within b (List.replicate j c ++ rest) d = generic_within b rest d := by
  intro j
  induction j with
  | zero => rfl
  | succ j ih =>
    rw [List.replicate_succ, List.cons_append, generic_within_skip b c _ d h1 h2, ih]

theorem generic_within_fold (b : Nat) (c : Char) (hc : fold_char c) (rest : List Char)
    (d : Nat) : generic_within b (c :: rest) d = generic_within b (fold_run c rest 1).2 d := by
  obtain ⟨h1, h2⟩ := fold_char_not_bracket c hc
  obtain ⟨j, rest1, hr, _, hf⟩ := fold_run_spec c rest 1
  rw [hf, generic_within_skip b c _ d h1 h2, hr, generic_within_replicate b c h1 h2]

theorem generic_within_idiom (b : Nat) (c : Char) (hc : c = '-' ∨ c = '+') (rest : List Char)
    (d : Nat) :
    generic_within b ('[' :: c :: ']' :: rest) d = generic_within b rest d := by
  have h1 : c ≠ '[' := by rcases hc with h | h <;> subst h <;> decide
  have h2 : c ≠ ']' := by rcases hc with h | h <;> subst h <;> decide
  have hi : set_zero_idiom (c :: ']' :: rest) = true :=
    (set_zero_idiom_iff _).2 ⟨c, rest, hc, rfl⟩
  simp [generic_within, h1, h2, hi]

theorem generic_within_open (b : Nat) (rest : List Char) (d : Nat)
    (hi : set_zero_idiom rest = false) :
    generic_within b ('[' :: rest) d = (d + 1 ≤ b ∧ generic_within b rest (d + 1)) := by
  simp [generic_within, hi]

theorem generic_within_close (b : Nat) (rest : List Char) (d : Nat) :
    generic_within b (']' :: rest) d = generic_within b rest (d - 1) := by
  simp [generic_within]

/-- If the bracket counter read from the depth of the loop stack does not fail and at most
4096 generic loops are ever open, the loop ends without error. -/
theorem compile_all_of_generic :
    ∀ (n : Nat) (s : CompileState) (d : Nat), s.source.length ≤ n →
      bracket_scan s.source s.loop_stack.length = some d →
      generic_within 4096 s.source s.loop_stack.length →
      ∃ sf, compile_all s = Except.ok sf ∧ sf.loop_stack.length = d := by
  intro n
  induction n with
  | zero =>
    intro s d h hs _
    obtain ⟨src, prog, st⟩ := s
    cases src with
    | nil =>
      simp only [bracket_scan, Option.some.injEq] at hs
      exact ⟨_, compile_all_nil prog st, hs⟩
    | cons c rest => simp at h
  | succ n ih =>
    intro s d h hs hd
    obtain ⟨src, prog, st⟩ := s
    cases src with
    | nil =>
      simp only [bracket_scan, Option.some.injEq] at hs
      exact ⟨_, compile_all_nil prog st, hs⟩
    | cons c rest =>
      simp only [List.length_cons] at h
      simp only at hs hd
      rw [compile_all_cons]
      rcases char_cases c with hk | hk | hk | hk | hk | hk
      · rw [compile_iter_fold c rest prog st hk]
        rw [bracket_scan_fold c hk] at hs
        rw [generic_within_fold 4096 c hk] at hd
        exact ih _ d (by have := fold_run_length c rest 1; simp only; omega) hs hd
      · subst hk
        rw [compile_iter_output]
        rw [bracket_scan_skip _ _ _ (by decide) (by decide)] at hs
        rw [generic_within_skip _ _ _ _ (by decide) (by decide)] at hd
        exact ih _ d (by simp only; omega) hs hd
      · subst hk
        rw [compile_iter_input]
        rw [bracket_scan_skip _ _ _ (by decide) (by decide)] at hs
        rw [generic_within_skip _ _ _ _ (by decide) (by decide)] at hd
        exact ih _ d (by simp only; omega) hs hd
      · subst hk
        by_cases hi : set_zero_idiom rest = true
        · obtain ⟨c1, rest2, hc1, rfl⟩ := (set_zero_idiom_iff rest).1 hi
          rw [compile_iter_idiom c1 rest2 prog st hc1]
          rw [bracket_scan_idiom c1 hc1] at hs
          rw [generic_within_idiom 4096 c1 hc1] at hd
          exact ih _ d (by simp only [List.length_cons] at h ⊢; omega) hs hd
        · rw [compile_iter_open rest prog st (by simpa using hi)]
          rw [generic_within_open 4096 rest _ (by simpa using hi)] at hd
          have hlt : ¬ (st.length ≥ 4096) := by omega
          simp only [hlt, if_false]
          exact ih _ d (by simp only; omega) (by simpa [bracket_scan] using hs) hd.2
      · subst hk
        rw [compile_iter_close]
        cases st with
        | nil => simp [bracket_scan] at hs
        | cons k st1 =>
          simp only
          refine ih _ d (by simp only; omega) (by simpa [bracket_scan] using hs) ?_
          rw [generic_within_close] at hd
          simpa using hd
      · rw [compile_iter_inert c rest prog st hk]
        rw [bracket_scan_skip _ _ _ hk.2.2.2.2.2.2.1 hk.2.2.2.2.2.2.2] at hs
        rw [generic_within_skip _ _ _ _ hk.2.2.2.2.2.2.1 hk.2.2.2.2.2.2.2] at hd
        exact ih _ d (by simp only; omega) hs hd

/-- If more than 4096 generic loops are open at some point, the loop fails: at the `[`
that would be the 4097th entry of the loop stack, or before it at a `]` with nothing
open. -/
theorem compile_all_too_deep :
    ∀ (n : Nat) (s : CompileState), s.source.length ≤ n →
      ¬ generic_within 4096 s.source s.loop_stack.length →
      compile_all s = Except.error CompileError.nesting_too_deep ∨
      compile_all s = Except.error CompileError.unmatched_close := by
  intro n
  induction n with
  | zero =>
    intro s h hd
    obtain ⟨src, prog, st⟩ := s
    cases src with
    | nil => exact absurd True.intro hd
    | cons c rest => simp at h
  | succ n ih =>
    intro s h hd
    obtain ⟨src, prog, st⟩ := s
    cases src with
    | nil => exact absurd True.intro hd
    | cons c rest =>
      simp only [List.length_cons] at h
      simp only at hd
      rw [compile_all_cons]
      rcases char_cases c with hk | hk | hk | hk | hk | hk
      · rw [compile_iter_fold c rest prog st hk]
        rw [generic_within_fold 4096 c hk] at hd
        exact ih _ (by have := fold_run_length c rest 1; simp only; omega) hd
      · subst hk
        rw [compile_iter_output]
        rw [generic_within_skip _ _ _ _ (by decide) (by decide)] at hd
        exact ih _ (by simp only; omega) hd
      · subst hk
        rw [compile_iter_input]
        rw [generic_within_skip _ _ _ _ (by decide) (by decide)] at hd
        exact ih _ (by simp only; omega) hd
      · subst hk
        by_cases hi : set_zero_idiom rest = true
        · obtain ⟨c1, rest2, hc1, rfl⟩ := (set_zero_idiom_iff rest).1 hi
          rw [compile_iter_idiom c1 rest2 prog st hc1]
          rw [generic_within_idiom 4096 c1 hc1] at hd
          exact ih _ (by simp only [List.length_cons] at h ⊢; omega) hd
        · rw [compile_iter_open rest prog st (by simpa using hi)]
          rw [generic_within_open 4096 rest _ (by simpa using hi)] at hd
          by_cases hlt : st.length ≥ 4096
          · left
            simp only [hlt, if_true]
          · simp only [hlt, if_false]
            refine ih _ (by simp only; omega) ?_
            intro hg
            exact hd ⟨by omega, hg⟩
      · subst hk
        rw [compile_iter_close]
        cases st with
        | nil => right; rfl
        | cons k st1 =>
          simp only
          refine ih _ (by simp only; omega) ?_
          rw [generic_within_close] at hd
          simpa using hd
      · rw [compile_iter_inert c rest prog st hk]
        rw [generic_within_skip _ _ _ _ hk.2.2.2.2.2.2.1 hk.2.2.2.2.2.2.2] at hd
        exact ih _ (by simp only; omega) hd

theorem loop_stack_bound_step (s s1 : CompileState) (h : iter_step s s1)
    (hb : s.loop_stack.length ≤ 4096) : s1.loop_stack.length ≤ 4096 := by
  rcases iter_step_cases s s1 h with ⟨_, _, _, _, _, _, hst⟩ | ⟨_, _, hst⟩ |
    ⟨_, _, hst⟩ | ⟨_, _, _, _, hst⟩ | ⟨_, _, hlt, _, hst⟩ | ⟨k, _, hst, _⟩ |
    ⟨_, _, _, _, hst⟩
  · rw [hst]; exact hb
  · rw [hst]; exact hb
  · rw [hst]; exact hb
  · rw [hst]; exact hb
  · rw [hst]; simp only [List.length_cons]; omega
  · rw [hst] at hb; simp only [List.length_cons] at hb; omega
  · rw [hst]; exact hb

theorem loop_stack_bound_reaches (s s1 : CompileState) (h : reaches s s1)
    (hb : s.loop_stack.length ≤ 4096) : s1.loop_stack.length ≤ 4096 := by
  induction h with
  | refl => exact hb
  | tail _ hstep ih => exact loop_stack_bound_step _ _ hstep ih

theorem bracket_scan_opens (rest : List Char) :
    ∀ (n d : Nat), bracket_scan (List.replicate n '[' ++ rest) d = bracket_scan rest (d + n) := by
  intro n
  induction n with
  | zero => intro d; rfl
  | succ n ih =>
    intro d
    rw [List.replicate_succ, List.cons_append, bracket_scan_cons]
    simp only [if_true]
    rw [ih, Nat.add_assoc, Nat.add_comm 1 n]

theorem bracket_scan_closes :
    ∀ (n d : Nat), bracket_scan (List.replicate n ']') (d + n) = some d := by
  intro n
  induction n with
  | zero => intro d; rfl
  | succ n ih =>
    intro d
    rw [List.replicate_succ, bracket_scan_cons]
    simp only [show ¬ (']' = '[') by decide, if_false, if_true]
    rw [if_neg (by omega), show d + (n + 1) - 1 = d + n by omega]
    exact ih d

theorem generic_within_closes (b : Nat) :
    ∀ (n d : Nat), generic_within b (List.replicate n ']') d := by
  intro n
  induction n with
  | zero => intro d; exact True.intro
  | succ n ih =>
    intro d
    rw [List.replicate_succ, generic_within_close]
    exact ih _

theorem set_zero_idiom_brackets (n m : Nat) :
    set_zero_idiom (List.replicate n '[' ++ List.replicate m ']') = false := by
  cases n with
  | zero =>
    cases m with
    | zero => rfl
    | succ m => cases m <;> rfl
  | succ n => cases n <;> cases m <;> rfl

theorem generic_within_nested (b m : Nat) :
    ∀ (n d : Nat), d + n ≤ b →
      generic_within b (List.replicate n '[' ++ List.replicate m ']') d := by
  intro n
  induction n with
  | zero => intro d _; exact generic_within_closes b m d
  | succ n ih =>
    intro d h
    rw [List.replicate_succ, List.cons_append,
      generic_within_open b _ d (set_zero_idiom_brackets n m)]
    exact ⟨by omega, ih (d + 1) (by omega)⟩

theorem generic_within_too_nested (b m : Nat) :
    ∀ (n d : Nat), b < d + n → 1 ≤ n →
      ¬ generic_within b (List.replicate n '[' ++ List.replicate m ']') d := by
  intro n
  induction n with
  | zero => intro d _ h; omega
  | succ n ih =>
    intro d h _
    rw [List.replicate_succ, List.cons_append,
      generic_within_open b _ d (set_zero_idiom_brackets n m)]
    intro hg
    by_cases hn : n = 0
    · subst hn; omega
    · exact ih (d + 1) (by omega) (by omega) hg.2

/-- C19: when more than 4096 generic loops (loops that are no set-zero idiom) are open at
some point of the source, `compile_source` returns failure, at the `[` that finds the loop
stack full (or before it, at a `]` with nothing open); a balanced source in which at most
4096 generic loops are ever open is compiled, 4096 included; and the loop stack never
holds more than its 4096 entries. -/
theorem loop_stack_holds_4096_generic_loops (junk : Nat) (source : List Char) :
    (¬ generic_within 4096 source 0 →
      compile_source junk source program_init =
          Except.error CompileError.nesting_too_deep ∨
        compile_source junk source program_init =
          Except.error CompileError.unmatched_close) ∧
    (balanced source → generic_within 4096 source 0 →
      ∃ P, compile_source junk source program_init = Except.ok P) ∧
    (∀ s, reaches { source := source, prog := program_init, loop_stack := [] } s →
      s.loop_stack.length ≤ 4096) := by
  refine ⟨fun hd => ?_, fun hb hd => ?_, fun s hr => ?_⟩
  · rcases compile_all_too_deep source.length
      { source := source, prog := program_init, loop_stack := [] } (Nat.le_refl _) hd
      with h | h
    · left; rw [compile_source_eq, h]
    · right; rw [compile_source_eq, h]
  · obtain ⟨sf, hc, hl⟩ := compile_all_of_generic source.length
      { source := source, prog := program_init, loop_stack := [] } 0 (Nat.le_refl _) hb hd
    refine ⟨sf.prog ++ [{ type := OperationType.HALT, operand := junk }], ?_⟩
    rw [compile_source_eq, hc]
    simp [hl]
  · exact loop_stack_bound_reaches _ s hr (Nat.zero_le _)

theorem loop_stack_holds_4096_generic_loops_witness :
    (¬ generic_within 4096 (List.replicate 4097 '[' ++ List.replicate 4097 ']') 0 ∧
      (compile_source 0 (List.replicate 4097 '[' ++ List.replicate 4097 ']') program_init =
          Except.error CompileError.nesting_too_deep ∨
        compile_source 0 (List.replicate 4097 '[' ++ List.replicate 4097 ']') program_init =
          Except.error CompileError.unmatched_close)) ∧
    (balanced (List.replicate 4096 '[' ++ List.replicate 4096 ']') ∧
      generic_within 4096 (List.replicate 4096 '[' ++ List.replicate 4096 ']') 0 ∧
      ¬ generic_within 4095 (List.replicate 4096 '[' ++ List.replicate 4096 ']') 0 ∧
      ∃ P, compile_source 0 (List.replicate 4096 '[' ++ List.replicate 4096 ']')
        program_init = Except.ok P) :=
  ⟨⟨generic_within_too_nested 4096 4097 4097 0 (by decide) (by decide),
      (loop_stack_holds_4096_generic_loops 0 _).1
        (generic_within_too_nested 4096 4097 4097 0 (by decide) (by decide))⟩,
    ⟨by
        show bracket_scan _ 0 = some 0
        rw [bracket_scan_opens]
        exact bracket_scan_closes 4096 0,
      generic_within_nested 4096 4096 4096 0 (by decide),
      generic_within_too_nested 4095 4096 4096 0 (by decide) (by decide),
      (loop_stack_holds_4096_generic_loops 0 _).2.1
        (by
          show bracket_scan _ 0 = some 0
          rw [bracket_scan_opens]
          exact bracket_scan_closes 4096 0)
        (generic_within_nested 4096 4096 4096 0 (by decide))⟩⟩

end BfOpt

end BrainFuck


namespace BrainFuck

namespace BfOpt

/-! ## Characters that are no instructions -/

theorem inert_char_iff (c : Char) : inert_char c ↔ instruction_char c = false := by
  simp only [inert_char, instruction_char, Bool.or_eq_false_iff, decide_eq_false_iff_not,
    ne_eq, and_assoc]

theorem fold_run_replicate (c : Char) (l : List Char) :
    ∀ (j k : Nat), fold_run c (List.replicate j c ++ l) k = fold_run c l (k + j) := by
  intro j
  induction j with
  | zero => intro k; rfl
  | succ j ih =>
    intro k
    rw [List.replicate_succ, List.cons_append]
    show (if c = c then fold_run c (List.replicate j c ++ l) (k + 1) else _) = _
    rw [if_pos rfl, ih, Nat.add_assoc, Nat.add_comm 1 j]

theorem fold_run_stop (c : Char) (l : List Char) (k : Nat) (h : l.head? ≠ some c) :
    fold_run c l k = (k, l) := by
  cases l with
  | nil => rfl
  | cons d r =>
    have hd : d ≠ c := fun e => h (by rw [e]; rfl)
    show (if d = c then _ else _) = _
    rw [if_neg hd]

/-- What `joins` tests, on the last character `a` of the first text and the first
character `b` of the second. -/
theorem joins_iff (pre rest before r : List Char) (a b : Char)
    (hp : pre.reverse = a :: before) (hr : rest = b :: r) :
    joins pre rest = true ↔
      (a = b ∧ fold_char a) ∨ (a = '[' ∧ set_zero_idiom rest = true) ∨
      ((a = '-' ∨ a = '+') ∧ before.head? = some '[' ∧ b = ']') := by
  subst hr
  unfold joins
  rw [hp]
  simp only [fold_char, Bool.or_eq_true, Bool.and_eq_true, decide_eq_true_eq, or_assoc,
    and_assoc]

theorem joins_nil (rest : List Char) : joins [] rest = false := rfl

theorem joins_right_nil (pre : List Char) : joins pre [] = false := by
  unfold joins
  cases pre.reverse <;> rfl

theorem joins_append_left (p q rest : List Char) (h : joins q rest = true) :
    joins (p ++ q) rest = true := by
  cases hq : q.reverse with
  | nil =>
    have : q = [] := by simpa using hq
    subst this
    simp [joins_nil] at h
  | cons a before =>
    cases rest with
    | nil => simp [joins_right_nil] at h
    | cons b r =>
      have hpq : (p ++ q).reverse = a :: (before ++ p.reverse) := by
        rw [List.reverse_append, hq]; rfl
      rw [joins_iff q _ before r a b hq rfl] at h
      rw [joins_iff (p ++ q) _ (before ++ p.reverse) r a b hpq rfl]
      rcases h with h | h | ⟨h1, h2, h3⟩
      · exact Or.inl h
      · exact Or.inr (Or.inl h)
      · refine Or.inr (Or.inr ⟨h1, ?_, h3⟩)
        cases before with
        | nil => simp at h2
        | cons e f => simpa using h2

theorem joins_tail_false (c : Char) (pre rest : List Char) (h : joins (c :: pre) rest = false) :
    joins pre rest = false := by
  cases hj : joins pre rest with
  | false => rfl
  | true =>
    have := joins_append_left [c] pre rest hj
    simp only [List.singleton_append] at this
    rw [this] at h
    exact absurd h (by decide)

theorem joins_suffix_false (p q rest : List Char) (h : joins (p ++ q) rest = false) :
    joins q rest = false := by
  cases hj : joins q rest with
  | false => rfl
  | true =>
    rw [joins_append_left p q rest hj] at h
    exact absurd h (by decide)

theorem compile_all_skip_inert (x : Char) (rest : List Char) (prog : Program) (st : List Nat)
    (hx : inert_char x) :
    compile_all { source := x :: rest, prog := prog, loop_stack := st } =
      compile_all { source := rest, prog := prog, loop_stack := st } := by
  rw [compile_all_cons, compile_iter_inert x rest prog st hx]

theorem joins_run (c : Char) (hc : fold_char c) (j : Nat) (r : List Char) :
    joins (c :: List.replicate j c) (c :: r) = true := by
  have h1 : joins [c] (c :: r) = true :=
    (joins_iff [c] _ [] r c c rfl rfl).2 (Or.inl ⟨rfl, hc⟩)
  have h2 := joins_append_left (List.replicate j c) [c] (c :: r) h1
  rw [← List.replicate_succ', List.replicate_succ] at h2
  exact h2

theorem joins_idiom_open (rest : List Char) (h : set_zero_idiom rest = true) :
    joins ['['] rest = true := by
  obtain ⟨c1, rest2, _, he⟩ := (set_zero_idiom_iff rest).1 h
  exact (joins_iff ['['] rest [] (']' :: rest2) '[' c1 rfl he).2 (Or.inr (Or.inl ⟨rfl, h⟩))

theorem joins_idiom_close (a : Char) (ha : a = '-' ∨ a = '+') (r : List Char) :
    joins ['[', a] (']' :: r) = true :=
  (joins_iff ['[', a] _ ['['] r a ']' rfl rfl).2 (Or.inr (Or.inr ⟨ha, rfl, rfl⟩))

theorem set_zero_idiom_pair (a b : Char) (l : List Char) :
    set_zero_idiom (a :: b :: l) = true ↔ (a = '-' ∨ a = '+') ∧ b = ']' := by
  simp [set_zero_idiom]

/-- Removing one character that is no instruction from between two texts that do not join
does not change what the loop does. -/
theorem compile_all_remove_inert :
    ∀ (n : Nat) (pre rest : List Char) (x : Char) (prog : Program) (st : List Nat),
      pre.length ≤ n → inert_char x → joins pre rest = false →
      compile_all { source := pre ++ x :: rest, prog := prog, loop_stack := st } =
        compile_all { source := pre ++ rest, prog := prog, loop_stack := st } := by
  intro n
  induction n with
  | zero =>
    intro pre rest x prog st hn hx _
    have : pre = [] := List.length_eq_zero.1 (Nat.le_zero.1 hn)
    subst this
    exact compile_all_skip_inert x rest prog st hx
  | succ n ih =>
    intro pre rest x prog st hn hx hj
    cases pre with
    | nil => exact compile_all_skip_inert x rest prog st hx
    | cons c pre1 =>
      simp only [List.length_cons] at hn
      have hn1 : pre1.length ≤ n := by omega
      have hj1 := joins_tail_false c pre1 rest hj
      simp only [List.cons_append]
      rw [compile_all_cons, compile_all_cons]
      rcases char_cases c with hk | hk | hk | hk | hk | hk
      · rw [compile_iter_fold c _ prog st hk, compile_iter_fold c _ prog st hk]
        simp only
        obtain ⟨j, p1, hp, hhead, _⟩ := fold_run_spec c pre1 1
        subst hp
        rw [List.append_assoc, List.append_assoc, fold_run_replicate, fold_run_replicate]
        cases p1 with
        | nil =>
          simp only [List.nil_append]
          have hxc : (x :: rest).head? ≠ some c := by
            intro hh
            simp only [List.head?_cons, Option.some.injEq] at hh
            subst hh
            rcases hk with h | h | h | h
            · exact hx.1 h
            · exact hx.2.1 h
            · exact hx.2.2.1 h
            · exact hx.2.2.2.1 h
          have hrc : rest.head? ≠ some c := by
            intro hh
            cases rest with
            | nil => simp at hh
            | cons b r =>
              simp only [List.head?_cons, Option.some.injEq] at hh
              subst hh
              simp only [List.append_nil] at hj
              rw [joins_run b hk j r] at hj
              exact absurd hj (by decide)
          rw [fold_run_stop _ _ _ hxc, fold_run_stop _ _ _ hrc]
          exact compile_all_skip_inert x rest _ st hx
        | cons d p2 =>
          have hd1 : (d :: p2 ++ x :: rest).head? ≠ some c := by simpa using hhead
          have hd2 : (d :: p2 ++ rest).head? ≠ some c := by simpa using hhead
          rw [fold_run_stop _ _ _ hd1, fold_run_stop _ _ _ hd2]
          refine ih (d :: p2) rest x _ st ?_ hx
            (joins_suffix_false (c :: List.replicate j c) (d :: p2) rest hj)
          simp only [List.length_append, List.length_replicate] at hn1
          omega
      · subst hk
        rw [compile_iter_output, compile_iter_output]
        exact ih pre1 rest x _ st hn1 hx hj1
      · subst hk
        rw [compile_iter_input, compile_iter_input]
        exact ih pre1 rest x _ st hn1 hx hj1
      · subst hk
        cases pre1 with
        | nil =>
          simp only [List.nil_append]
          have h1 : set_zero_idiom (x :: rest) = false := by
            cases rest with
            | nil => rfl
            | cons b r =>
              cases h : set_zero_idiom (x :: b :: r) with
              | false => rfl
              | true =>
                rcases ((set_zero_idiom_pair x b r).1 h).1 with e | e
                · exact absurd e hx.2.2.2.1
                · exact absurd e hx.2.2.1
          have h2 : set_zero_idiom rest = false := by
            cases h : set_zero_idiom rest with
            | false => rfl
            | true =>
              rw [joins_idiom_open rest h] at hj
              exact absurd hj (by decide)
          rw [compile_iter_open _ prog st h1, compile_iter_open _ prog st h2]
          by_cases hd : st.length ≥ 4096
          · simp only [hd, if_true]
          · simp only [hd, if_false]
            exact compile_all_skip_inert x rest _ _ hx
        | cons a p1 =>
          cases p1 with
          | nil =>
            simp only [List.cons_append, List.nil_append]
            have h1 : set_zero_idiom (a :: x :: rest) = false := by
              cases h : set_zero_idiom (a :: x :: rest) with
              | false => rfl
              | true => exact absurd ((set_zero_idiom_pair a x rest).1 h).2 hx.2.2.2.2.2.2.2
            have h2 : set_zero_idiom (a :: rest) = false := by
              cases h : set_zero_idiom (a :: rest) with
              | false => rfl
              | true =>
                cases rest with
                | nil => exact absurd h (by simp [set_zero_idiom])
                | cons b r =>
                  obtain ⟨ha, hb⟩ := (set_zero_idiom_pair a b r).1 h
                  subst hb
                  rw [joins_idiom_close a ha r] at hj
                  exact absurd hj (by decide)
            rw [compile_iter_open _ prog st h1, compile_iter_open _ prog st h2]
            by_cases hd : st.length ≥ 4096
            · simp only [hd, if_true]
            · simp only [hd, if_false]
              exact ih [a] rest x _ _ hn1 hx hj1
          | cons b p2 =>
            simp only [List.cons_append]
            by_cases hi : (a = '-' ∨ a = '+') ∧ b = ']'
            · obtain ⟨ha, hb⟩ := hi
              subst hb
              rw [compile_iter_idiom a _ prog st ha, compile_iter_idiom a _ prog st ha]
              refine ih p2 rest x _ st ?_ hx (joins_suffix_false ['[', a, ']'] p2 rest hj)
              simp only [List.length_cons] at hn1
              omega
            · have h1 : set_zero_idiom (a :: b :: (p2 ++ x :: rest)) = false := by
                cases h : set_zero_idiom (a :: b :: (p2 ++ x :: rest)) with
                | false => rfl
                | true => exact absurd ((set_zero_idiom_pair a b _).1 h) hi
              have h2 : set_zero_idiom (a :: b :: (p2 ++ rest)) = false := by
                cases h : set_zero_idiom (a :: b :: (p2 ++ rest)) with
                | false => rfl
                | true => exact absurd ((set_zero_idiom_pair a b _).1 h) hi
              rw [compile_iter_open _ prog st h1, compile_iter_open _ prog st h2]
              by_cases hd : st.length ≥ 4096
              · simp only [hd, if_true]
              · simp only [hd, if_false]
                exact ih (a :: b :: p2) rest x _ _ hn1 hx hj1
      · subst hk
        rw [compile_iter_close, compile_iter_close]
        cases st with
        | nil => rfl
        | cons k st1 =>
          simp only
          exact ih pre1 rest x _ _ hn1 hx hj1
      · rw [compile_iter_inert c _ prog st hk, compile_iter_inert c _ prog st hk]
        exact ih pre1 rest x _ _ hn1 hx hj1

theorem strip_inert_cons_instr (x : Char) (rest : List Char) (h : instruction_char x = true) :
    strip_inert (x :: rest) = x :: strip_inert rest := by
  simp [strip_inert, List.filter_cons, h]

theorem strip_inert_cons_inert (x : Char) (rest : List Char) (h : ¬ instruction_char x = true) :
    strip_inert (x :: rest) = strip_inert rest := by
  simp [strip_inert, List.filter_cons, h]

/-- Two texts that join still join when the characters that are no instructions are
removed from the second. -/
theorem joins_strip_right (acc rest : List Char) (h : joins acc rest = true) :
    joins acc (strip_inert rest) = true := by
  cases hq : acc.reverse with
  | nil =>
    have : acc = [] := by simpa using hq
    subst this
    simp [joins_nil] at h
  | cons a before =>
    cases rest with
    | nil => simp [joins_right_nil] at h
    | cons b r =>
      rw [joins_iff acc _ before r a b hq rfl] at h
      rcases h with ⟨h1, h2⟩ | ⟨h1, h2⟩ | ⟨h1, h2, h3⟩
      · have hb : instruction_char b = true := by
          subst h1
          rcases h2 with e | e | e | e <;> subst e <;> rfl
        rw [strip_inert_cons_instr b r hb]
        exact (joins_iff acc _ before _ a b hq rfl).2 (Or.inl ⟨h1, h2⟩)
      · obtain ⟨c1, rest2, hc1, he⟩ := (set_zero_idiom_iff _).1 h2
        injection he with e1 e2
        subst e1 e2
        have hb : instruction_char b = true := by
          rcases hc1 with e | e <;> subst e <;> rfl
        rw [strip_inert_cons_instr b _ hb, strip_inert_cons_instr ']' _ rfl]
        exact (joins_iff acc _ before _ a b hq rfl).2
          (Or.inr (Or.inl ⟨h1, (set_zero_idiom_iff _).2 ⟨b, _, hc1, rfl⟩⟩))
      · subst h3
        rw [strip_inert_cons_instr ']' r rfl]
        exact (joins_iff acc _ before _ a ']' hq rfl).2 (Or.inr (Or.inr ⟨h1, h2, rfl⟩))

/-- When no character that is no instruction hides a join, the loop does the same on the
source and on the source without these characters. -/
theorem compile_all_strip_inert :
    ∀ (src acc : List Char) (prog : Program) (st : List Nat),
      no_hidden_join_from acc src = true →
      compile_all { source := acc ++ src, prog := prog, loop_stack := st } =
        compile_all { source := acc ++ strip_inert src, prog := prog, loop_stack := st } := by
  intro src
  induction src with
  | nil => intro acc prog st _; rfl
  | cons x rest ih =>
    intro acc prog st h
    by_cases hi : instruction_char x = true
    · simp only [no_hidden_join_from, hi, if_true] at h
      rw [strip_inert_cons_instr x rest hi]
      have := ih (acc ++ [x]) prog st h
      simpa only [List.append_assoc, List.singleton_append] using this
    · simp only [no_hidden_join_from, hi, Bool.false_eq_true, if_false, Bool.and_eq_true,
        Bool.not_eq_true'] at h
      have hx : inert_char x := (inert_char_iff x).2 (by simpa using hi)
      have hj : joins acc rest = false := by
        cases hh : joins acc rest with
        | false => rfl
        | true =>
          rw [joins_strip_right acc rest hh] at h
          exact absurd h.1 (by decide)
      rw [strip_inert_cons_inert x rest hi,
        compile_all_remove_inert acc.length acc rest x prog st (Nat.le_refl _) hx hj]
      exact ih acc prog st h.2

/-- C16, counterexample: `+x+` without the character `x` is `++`, and `compile_source`
gives `[ADD_VAL 1, ADD_VAL 1, HALT]` on the first and `[ADD_VAL 2, HALT]` on the second;
likewise `[x-]` compiles to a loop and `[-]` to `[SET_ZERO, HALT]`. -/
theorem inert_character_splits_a_run :
    strip_inert ['+', 'x', '+'] = ['+', '+'] ∧
    compile_source 0 ['+', 'x', '+'] program_init =
      Except.ok [⟨OperationType.ADD_VAL, 1⟩, ⟨OperationType.ADD_VAL, 1⟩,
        ⟨OperationType.HALT, 0⟩] ∧
    compile_source 0 (strip_inert ['+', 'x', '+']) program_init =
      Except.ok [⟨OperationType.ADD_VAL, 2⟩, ⟨OperationType.HALT, 0⟩] ∧
    compile_source 0 ['+', 'x', '+'] program_init ≠
      compile_source 0 (strip_inert ['+', 'x', '+']) program_init ∧
    compile_source 0 ['[', 'x', '-', ']'] program_init =
      Except.ok [⟨OperationType.JUMP_ZERO, 2⟩, ⟨OperationType.SUB_VAL, 1⟩,
        ⟨OperationType.JUMP_NONZERO, 0⟩, ⟨OperationType.HALT, 0⟩] ∧
    compile_source 0 (strip_inert ['[', 'x', '-', ']']) program_init =
      Except.ok [⟨OperationType.SET_ZERO, 0⟩, ⟨OperationType.HALT, 0⟩] := by
  refine ⟨rfl, rfl, rfl, ?_, rfl, rfl⟩
  intro h
  have h1 : (Except.ok [⟨OperationType.ADD_VAL, 1⟩, ⟨OperationType.ADD_VAL, 1⟩,
      ⟨OperationType.HALT, 0⟩] : Except CompileError Program) =
      Except.ok [⟨OperationType.ADD_VAL, 2⟩, ⟨OperationType.HALT, 0⟩] := h
  injection h1 with h2
  exact absurd h2 (by decide)

/-- C16, amended: for every source in which no character other than the eight instruction
characters separates two equal characters among `>` `<` `+` `-` or stands inside a `[-]` /
`[+]` (other such characters disregarded), `compile_source` gives the same result, the
same program or the same failure, as on the source with all such characters removed. -/
theorem inert_characters_only_separate (junk : Nat) (source : List Char)
    (h : no_hidden_join source = true) :
    compile_source junk source program_init =
      compile_source junk (strip_inert source) program_init := by
  have := compile_all_strip_inert source [] program_init [] h
  simp only [List.nil_append] at this
  rw [compile_source_eq, compile_source_eq, this]

theorem inert_characters_only_separate_witness :
    no_hidden_join ['+', 'x', '-', ' ', '[', '-', ']', '\n', ']'] = true ∧
    strip_inert ['+', 'x', '-', ' ', '[', '-', ']', '\n', ']'] = ['+', '-', '[', '-', ']', ']'] ∧
    compile_source 0 ['+', 'x', '-', ' ', '[', '-', ']', '\n', ']'] program_init =
      compile_source 0 (strip_inert ['+', 'x', '-', ' ', '[', '-', ']', '\n', ']'])
        program_init :=
  ⟨by decide, by decide,
    inert_characters_only_separate 0 ['+', 'x', '-', ' ', '[', '-', ']', '\n', ']']
      (by decide)⟩

end BfOpt

end BrainFuck


namespace BrainFuck

namespace BfOpt

/-! ## Runs that stay on a stretch of the tape -/

theorem getD_set (l : List Nat) (p i d : Nat) :
    (l.set p d).getD i 0 = if i = p ∧ p < l.length then d else l.getD i 0 := by
  rw [List.getD_eq_getElem?_getD, List.getD_eq_getElem?_getD, List.getElem?_set]
  by_cases h1 : p = i
  · subst h1
    by_cases h2 : p < l.length
    · simp [h2]
    · simp only [h2, and_false, if_false, if_true]
      rw [List.getElem?_eq_none (by omega)]
  · have h2 : ¬ (i = p ∧ p < l.length) := fun h => h1 h.1.symm
    simp only [h1, h2, if_false]

theorem chained_tap_init (s l : Nat) : chained (tap_init s l).heap := by
  intro x hx
  have hlen : (tap_init s l).heap.length = s := length_init_heap s
  rw [hlen] at hx ⊢
  rw [load_tap_init, if_pos hx]
  exact ⟨rfl, rfl⟩

theorem chained_store_data (h : Heap) (p : Ptr) (d : Nat) (hc : chained h) :
    chained (store_data h p d) := by
  intro x hx
  have hl : (store_data h p d).length = h.length := length_store _ _ _
  rw [hl] at hx ⊢
  obtain ⟨h1, h2⟩ := load_store_data_links h p (Ptr.cell x) d
  rw [h1, h2]
  exact hc x hx

theorem nth_next_chained (h : Heap) (hc : chained h) (x : Nat) :
    ∀ k, x + k < h.length → nth_link Node.next h (Ptr.cell x) k = Ptr.cell (x + k) := by
  intro k
  induction k with
  | zero => intro _; rfl
  | succ k ih =>
    intro hk
    show (load h (nth_link Node.next h (Ptr.cell x) k)).next = _
    rw [ih (by omega), (hc (x + k) (by omega)).1, if_neg (by omega)]
    rfl

theorem nth_prev_chained (h : Heap) (hc : chained h) (x : Nat) (hx : x < h.length) :
    ∀ k, k ≤ x → nth_link Node.prev h (Ptr.cell x) k = Ptr.cell (x - k) := by
  intro k
  induction k with
  | zero => intro _; rfl
  | succ k ih =>
    intro hk
    show (load h (nth_link Node.prev h (Ptr.cell x) k)).prev = _
    rw [ih (by omega), (hc (x - k) (by omega)).2, if_neg (by omega)]
    rfl

/-- A move right inside a chunk follows the links and does not grow the tape. -/
theorem ptr_loop_inc_chained (t : Tap) (hc : chained t.heap) (x n : Nat)
    (hcell : t.cell = Ptr.cell x) (hn : x + n + 1 < t.heap.length) :
    ptr_loop inc_ptr_body n t = (true, { t with cell := Ptr.cell (x + n) }) := by
  rw [ptr_loop_walk inc_ptr_body Node.next inc_ptr_body_follow t n, hcell,
    nth_next_chained t.heap hc x n (by omega)]
  intro i hi
  rw [hcell, nth_next_chained t.heap hc x i (by omega), (hc (x + i) (by omega)).1,
    if_neg (by omega)]
  simp

/-- A move left inside a chunk follows the links and does not grow the tape. -/
theorem ptr_loop_dec_chained (t : Tap) (hc : chained t.heap) (x n : Nat)
    (hcell : t.cell = Ptr.cell x) (hx : x < t.heap.length) (hn : n < x) :
    ptr_loop dec_ptr_body n t = (true, { t with cell := Ptr.cell (x - n) }) := by
  rw [ptr_loop_walk dec_ptr_body Node.prev dec_ptr_body_follow t n, hcell,
    nth_prev_chained t.heap hc x hx n (by omega)]
  intro i hi
  rw [hcell, nth_prev_chained t.heap hc x hx i (by omega), (hc (x - i) (by omega)).2,
    if_neg (by omega)]
  simp

theorem window_cursor_data (base : Nat) (a : Window) (m : Machine) (hw : window_of base a m) :
    (load m.tap.heap m.tap.cell).data = a.cells.getD a.pos 0 := by
  obtain ⟨h1, _, _, _, _, h6, _, h8⟩ := hw
  rw [h6]
  exact h8 a.pos h1

/-- Writing the data byte of the cursor cell is writing the array at the cursor index. -/
theorem window_of_store (base : Nat) (a : Window) (m : Machine) (d : Nat)
    (hw : window_of base a m) :
    window_of base { a with cells := a.cells.set a.pos d }
      { m with tap := { m.tap with heap := store_data m.tap.heap m.tap.cell d } } := by
  obtain ⟨h1, h2, h3, h4, h5, h6, h7, h8⟩ := hw
  have hl : (store_data m.tap.heap m.tap.cell d).length = m.tap.heap.length :=
    length_store _ _ _
  refine ⟨by simpa using h1, h2, by simpa [hl] using h3, h4, h5, h6,
    chained_store_data _ _ _ h7, fun i hi => ?_⟩
  simp only [List.length_set] at hi
  simp only
  rw [getD_set, h6]
  by_cases hip : i = a.pos
  · rw [if_pos ⟨hip, h1⟩, hip]
    exact load_store_data_allocated _ _ _ ⟨base + a.pos, rfl, by omega⟩
  · rw [if_neg (fun h => hip h.1)]
    unfold store_data
    rw [load_store_other _ _ _ _ (show Ptr.cell (base + a.pos) ≠ Ptr.cell (base + i) by
        intro e; injection e with e; omega)]
    exact h8 i hi

theorem length_store_data (h : Heap) (p : Ptr) (d : Nat) :
    (store_data h p d).length = h.length :=
  length_store _ _ _

/-- The `switch` of `tap_run` on the machine does what the `switch` on the window does, as
long as the window is not left; the tape does not grow. -/
theorem window_switch_sim (w : World) (instr : Instruction) (base : Nat) (a a1 : Window)
    (m : Machine) (b : Bool) (hw : window_of base a m)
    (hs : window_switch w instr a = some (b, a1)) :
    ∃ m1, exec_switch w instr m =
        (if b = true then Step.continue m1 else Step.exit Exit.halt m1) ∧
      window_of base a1 m1 ∧ m1.tap.current_cells_size = m.tap.current_cells_size ∧
      m1.tap.heap.length = m.tap.heap.length := by
  have hdata := window_cursor_data base a m hw
  obtain ⟨ty, n⟩ := instr
  cases ty <;> simp only [window_switch] at hs
  · by_cases hlt : a.pos + n < a.cells.length
    · simp only [hlt, if_true, Option.some.injEq, Prod.mk.injEq] at hs
      obtain ⟨hb, ha⟩ := hs
      subst hb ha
      obtain ⟨h1, h2, h3, h4, h5, h6, h7, h8⟩ := hw
      refine ⟨{ m with tap := { m.tap with cell := Ptr.cell (base + a.pos + n) } }, ?_,
        ⟨hlt, h2, h3, h4, h5, by simp only [Nat.add_assoc], h7, h8⟩, rfl, rfl⟩
      simp only [exec_switch,
        ptr_loop_inc_chained m.tap h7 (base + a.pos) n h6 (by omega), if_true]
    · simp [hlt] at hs
  · by_cases hle : n ≤ a.pos
    · simp only [hle, if_true, Option.some.injEq, Prod.mk.injEq] at hs
      obtain ⟨hb, ha⟩ := hs
      subst hb ha
      obtain ⟨h1, h2, h3, h4, h5, h6, h7, h8⟩ := hw
      refine ⟨{ m with tap := { m.tap with cell := Ptr.cell (base + a.pos - n) } }, ?_,
        ⟨by simp only; omega, h2, h3, h4, h5,
          by simp only; rw [Nat.add_sub_assoc hle], h7, h8⟩, rfl, rfl⟩
      simp only [exec_switch,
        ptr_loop_dec_chained m.tap h7 (base + a.pos) n h6 (by omega) (by omega), if_true]
    · simp [hle] at hs
  · simp only [Option.some.injEq, Prod.mk.injEq] at hs
    obtain ⟨hb, ha⟩ := hs
    subst hb ha
    refine ⟨_, ?_, window_of_store base a m _ hw, rfl, length_store_data m.tap.heap m.tap.cell _⟩
    simp only [exec_switch, hdata, if_true]
  · simp only [Option.some.injEq, Prod.mk.injEq] at hs
    obtain ⟨hb, ha⟩ := hs
    subst hb ha
    refine ⟨_, ?_, window_of_store base a m _ hw, rfl, length_store_data m.tap.heap m.tap.cell _⟩
    simp only [exec_switch, hdata, if_true]
  · simp only [Option.some.injEq, Prod.mk.injEq] at hs
    obtain ⟨hb, ha⟩ := hs
    subst hb ha
    obtain ⟨h1, h2, h3, h4, h5, h6, h7, h8⟩ := hw
    refine ⟨{ m with con := m.con.put w (load m.tap.heap m.tap.cell).data }, ?_,
      ⟨h1, h2, h3, h4, by simp only [hdata, h5], h6, h7, h8⟩, rfl, rfl⟩
    simp only [exec_switch, if_true]
  · have hreads : m.con.reads = a.con.reads := by rw [hw.2.2.2.2.1]
    cases hg : w.getchar a.con.reads with
    | none =>
      simp only [hg, Option.some.injEq, Prod.mk.injEq] at hs
      obtain ⟨hb, ha⟩ := hs
      subst hb ha
      obtain ⟨h1, h2, h3, h4, h5, h6, h7, h8⟩ := hw
      refine ⟨{ m with con := m.con.got }, ?_,
        ⟨h1, h2, h3, h4, by simp only [h5], h6, h7, h8⟩, rfl, rfl⟩
      simp only [exec_switch, hreads, hg, if_true]
    | some c =>
      simp only [hg, Option.some.injEq, Prod.mk.injEq] at hs
      obtain ⟨hb, ha⟩ := hs
      subst hb ha
      obtain ⟨h1, h2, h3, h4, h5, h6, h7, h8⟩ := window_of_store base a m (c % 256) hw
      refine ⟨{ tap := { m.tap with heap := (store_data m.tap.heap m.tap.cell (c % 256)) },
                pc := m.pc, con := m.con.got }, ?_,
        ⟨h1, h2, h3, h4, by simp only [hw.2.2.2.2.1], h6, h7, h8⟩, rfl, length_store_data m.tap.heap m.tap.cell _⟩
      simp only [exec_switch, hreads, hg, if_true]
  · by_cases hz : a.cells.getD a.pos 0 = 0
    · simp only [hz, if_true, Option.some.injEq, Prod.mk.injEq] at hs
      obtain ⟨hb, ha⟩ := hs
      subst hb ha
      obtain ⟨h1, h2, h3, h4, h5, h6, h7, h8⟩ := hw
      refine ⟨{ m with pc := n }, ?_, ⟨h1, h2, h3, rfl, h5, h6, h7, h8⟩, rfl, rfl⟩
      simp only [exec_switch, hdata, hz, if_true]
    · simp only [hz, if_false, Option.some.injEq, Prod.mk.injEq] at hs
      obtain ⟨hb, ha⟩ := hs
      subst hb ha
      refine ⟨m, ?_, hw, rfl, rfl⟩
      simp only [exec_switch, hdata, hz, if_false, if_true]
  · by_cases hz : a.cells.getD a.pos 0 = 0
    · simp only [hz, ne_eq, not_true_eq_false, if_false, Option.some.injEq,
        Prod.mk.injEq] at hs
      obtain ⟨hb, ha⟩ := hs
      subst hb ha
      refine ⟨m, ?_, hw, rfl, rfl⟩
      simp only [exec_switch, hdata, hz, ne_eq, not_true_eq_false, if_false, if_true]
    · simp only [hz, ne_eq, not_false_eq_true, if_true, Option.some.injEq,
        Prod.mk.injEq] at hs
      obtain ⟨hb, ha⟩ := hs
      subst hb ha
      obtain ⟨h1, h2, h3, h4, h5, h6, h7, h8⟩ := hw
      refine ⟨{ m with pc := n }, ?_, ⟨h1, h2, h3, rfl, h5, h6, h7, h8⟩, rfl, rfl⟩
      simp only [exec_switch, hdata, hz, ne_eq, not_false_eq_true, if_true]
  · simp only [Option.some.injEq, Prod.mk.injEq] at hs
    obtain ⟨hb, ha⟩ := hs
    subst hb ha
    refine ⟨_, ?_, window_of_store base a m 0 hw, rfl, length_store_data m.tap.heap m.tap.cell _⟩
    simp only [exec_switch, if_true]
  · simp only [Option.some.injEq, Prod.mk.injEq] at hs
    obtain ⟨hb, ha⟩ := hs
    subst hb ha
    refine ⟨m, ?_, hw, rfl, rfl⟩
    simp only [exec_switch]
    rfl

theorem window_step_sim (w : World) (prog : Program) (base : Nat) (a a1 : Window)
    (m : Machine) (b : Bool) (hw : window_of base a m)
    (hs : window_step w prog a = some (b, a1)) :
    ∃ m1, tap_run_step w prog m =
        (if b = true then Step.continue m1 else Step.exit Exit.halt m1) ∧
      window_of base a1 m1 ∧ m1.tap.current_cells_size = m.tap.current_cells_size ∧
      m1.tap.heap.length = m.tap.heap.length := by
  have hpc : m.pc = a.pc := hw.2.2.2.1
  unfold window_step at hs
  unfold tap_run_step
  rw [hpc]
  cases hf : prog.get? a.pc with
  | none => rw [hf] at hs; exact absurd hs (by simp)
  | some instr =>
    rw [hf] at hs
    simp only at hs ⊢
    cases hx : window_switch w instr a with
    | none => rw [hx] at hs; exact absurd hs (by simp)
    | some r =>
      obtain ⟨b2, a2⟩ := r
      obtain ⟨m2, he, hw2, hsz, hlen⟩ := window_switch_sim w instr base a a2 m b2 hw hx
      rw [hx] at hs
      cases b2 with
      | true =>
        simp only [Option.some.injEq, Prod.mk.injEq] at hs
        obtain ⟨hb, ha⟩ := hs
        subst hb ha
        simp only [if_true] at he
        rw [he]
        obtain ⟨h1, h2, h3, h4, h5, h6, h7, h8⟩ := hw2
        exact ⟨{ m2 with pc := m2.pc + 1 }, by simp only [if_true],
          ⟨h1, h2, h3, by simp only [h4], h5, h6, h7, h8⟩, hsz, hlen⟩
      | false =>
        simp only [Option.some.injEq, Prod.mk.injEq] at hs
        obtain ⟨hb, ha⟩ := hs
        subst hb ha
        simp only [Bool.false_eq_true, if_false] at he
        rw [he]
        exact ⟨m2, by simp only [Bool.false_eq_true, if_false], hw2, hsz, hlen⟩

/-- A run of the machine does what the run on the window does, as long as the window is
not left, and the tape does not grow. -/
theorem window_run_sim (w : World) (prog : Program) (base : Nat) :
    ∀ (fuel : Nat) (a a1 : Window) (m : Machine) (b : Bool), window_of base a m →
      window_run w prog fuel a = some (b, a1) →
      ∃ m1, tap_run_loop w prog fuel m =
          (if b = true then Step.continue m1 else Step.exit Exit.halt m1) ∧
        window_of base a1 m1 ∧ m1.tap.current_cells_size = m.tap.current_cells_size ∧
        m1.tap.heap.length = m.tap.heap.length := by
  intro fuel
  induction fuel with
  | zero =>
    intro a a1 m b hw hs
    simp only [window_run, Option.some.injEq, Prod.mk.injEq] at hs
    obtain ⟨hb, ha⟩ := hs
    subst hb ha
    exact ⟨m, rfl, hw, rfl, rfl⟩
  | succ n ih =>
    intro a a1 m b hw hs
    rw [tap_run_loop_succ]
    simp only [window_run] at hs
    cases hx : window_step w prog a with
    | none => rw [hx] at hs; exact absurd hs (by simp)
    | some r =>
      obtain ⟨b2, a2⟩ := r
      obtain ⟨m2, he, hw2, hsz, hlen⟩ := window_step_sim w prog base a a2 m b2 hw hx
      rw [hx] at hs
      cases b2 with
      | true =>
        simp only at hs
        simp only [if_true] at he
        rw [he]
        obtain ⟨m1, h1, h2, h3, h4⟩ := ih a2 a1 m2 b hw2 hs
        exact ⟨m1, h1, h2, h3.trans hsz, h4.trans hlen⟩
      | false =>
        simp only [Option.some.injEq, Prod.mk.injEq] at hs
        obtain ⟨hb, ha⟩ := hs
        subst hb ha
        simp only [Bool.false_eq_true, if_false] at he
        rw [he]
        exact ⟨m2, by simp only [Bool.false_eq_true, if_false], hw2, hsz, hlen⟩

/-! ## A complete run: `Hello` -/

/-- The operand of the trailing `HALT` plays no part in a step. -/
theorem tap_run_step_halt_operand (w : World) (p : Program) (j k : Nat) (m : Machine) :
    tap_run_step w (p ++ [⟨OperationType.HALT, j⟩]) m =
      tap_run_step w (p ++ [⟨OperationType.HALT, k⟩]) m := by
  unfold tap_run_step
  by_cases h1 : m.pc < p.length
  · rw [get?_append_emit _ _ _ h1, get?_append_emit _ _ _ h1]
  · by_cases h2 : m.pc = p.length
    · rw [h2, get?_append_new, get?_append_new]
      rfl
    · have e1 : (p ++ [(⟨OperationType.HALT, j⟩ : Instruction)]).get? m.pc = none := by
        rw [List.get?_eq_none]
        simp only [List.length_append, List.length_singleton]
        omega
      have e2 : (p ++ [(⟨OperationType.HALT, k⟩ : Instruction)]).get? m.pc = none := by
        rw [List.get?_eq_none]
        simp only [List.length_append, List.length_singleton]
        omega
      rw [e1, e2]

theorem tap_run_loop_halt_operand (w : World) (p : Program) (j k : Nat) :
    ∀ (fuel : Nat) (m : Machine),
      tap_run_loop w (p ++ [⟨OperationType.HALT, j⟩]) fuel m =
        tap_run_loop w (p ++ [⟨OperationType.HALT, k⟩]) fuel m := by
  intro fuel
  induction fuel with
  | zero => intro m; rfl
  | succ n ih =>
    intro m
    rw [tap_run_loop_succ, tap_run_loop_succ, tap_run_step_halt_operand w p j k m]
    rcases hs : tap_run_step w (p ++ [⟨OperationType.HALT, k⟩]) m with m1 | ⟨e, m1⟩
    · simp only [hs]
      exact ih m1
    · simp only [hs]

theorem world_ext (w v : World) (h1 : ∀ k, w.getchar k = v.getchar k)
    (h2 : ∀ k, w.putchar_ok k = v.putchar_ok k) : w = v := by
  obtain ⟨g, p⟩ := w
  obtain ⟨g1, p1⟩ := v
  have e1 : g = g1 := funext h1
  have e2 : p = p1 := funext h2
  subst e1 e2
  rfl

theorem length_start_tap_init (s l : Nat) : (start (tap_init s l)).tap.heap.length = s :=
  length_init_heap s

theorem hello_compiles (junk : Nat) :
    compile_source junk hello_source program_init = Except.ok (hello_program junk) := rfl

/-- The run of `hello_program` on an array of eight cells. -/
theorem hello_window_run :
    window_run empty_input (hello_program 0) 565
        { cells := [0, 0, 0, 0, 0, 0, 0, 0], pos := 0, pc := 0,
          con := { reads := 0, writes := 0, out := [] } } =
      some (false, { cells := [0, 0, 72, 111, 88, 32, 8, 0], pos := 3, pc := 40,
                     con := { reads := 0, writes := 5, out := [72, 101, 108, 108, 111] } }) := by
  decide!

theorem hello_window_start :
    window_of 512 { cells := [0, 0, 0, 0, 0, 0, 0, 0], pos := 0, pc := 0,
                    con := { reads := 0, writes := 0, out := [] } }
      (start (tap_init 1024 30000)) := by
  refine ⟨by decide, by decide, ?_, rfl, rfl, rfl, chained_tap_init 1024 30000, ?_⟩
  · show 512 + 8 < (start (tap_init 1024 30000)).tap.heap.length
    rw [length_start_tap_init]
    decide
  · intro i hi
    show (load (tap_init 1024 30000).heap (Ptr.cell (512 + i))).data = _
    simp only [List.length_cons, List.length_nil] at hi
    rw [load_tap_init, if_pos (by omega)]
    have : i = 0 ∨ i = 1 ∨ i = 2 ∨ i = 3 ∨ i = 4 ∨ i = 5 ∨ i = 6 ∨ i = 7 := by omega
    rcases this with h | h | h | h | h | h | h | h <;> subst h <;> rfl

/-- C20: the source `++++++++[>++++[>++>+++>+++>+<<<<-]>+>+>->>+[<]<-]>>.>---.+++++++..+++.`
compiles (to `hello_program`), and on a fresh tape of initial size 1024 and limit 30000,
with an empty input and an output that accepts every byte, the run reaches `HALT` (after
565 instructions) having written exactly the bytes 72, 101, 108, 108, 111, with the tape
still at its 1024 cells; this holds whatever the trailing `HALT` holds as operand. -/
theorem hello_source_prints_hello (w : World) (junk : Nat) (hin : ∀ k, w.getchar k = none)
    (hout : ∀ k, w.putchar_ok k = true) :
    compile_source junk hello_source program_init = Except.ok (hello_program junk) ∧
    ∃ m, tap_run w (hello_program junk) (tap_init 1024 30000) 565 = Step.exit Exit.halt m ∧
      m.con.out = [72, 101, 108, 108, 111] ∧ m.tap.current_cells_size = 1024 ∧
      m.tap.heap.length = 1024 := by
  have hw : w = empty_input := world_ext w empty_input hin hout
  subst hw
  refine ⟨hello_compiles junk, ?_⟩
  obtain ⟨m, hrun, hwin, hsz, hlen⟩ := window_run_sim empty_input (hello_program 0) 512 565
    _ _ (start (tap_init 1024 30000)) false hello_window_start hello_window_run
  simp only [Bool.false_eq_true, if_false] at hrun
  have e : tap_run empty_input (hello_program junk) (tap_init 1024 30000) 565 =
      tap_run_loop empty_input (hello_program 0) 565 (start (tap_init 1024 30000)) :=
    tap_run_loop_halt_operand empty_input hello_body junk 0 565 _
  refine ⟨m, e.trans hrun, ?_, hsz, ?_⟩
  · rw [hwin.2.2.2.2.1]
  · exact hlen.trans (length_start_tap_init 1024 30000)

theorem hello_source_prints_hello_witness :
    (∀ k, empty_input.getchar k = none) ∧ (∀ k, empty_input.putchar_ok k = true) ∧
    compile_source 7 hello_source program_init = Except.ok (hello_program 7) ∧
    ∃ m, tap_run empty_input (hello_program 7) (tap_init 1024 30000) 565 =
        Step.exit Exit.halt m ∧
      m.con.out = [72, 101, 108, 108, 111] ∧ m.tap.current_cells_size = 1024 ∧
      m.tap.heap.length = 1024 :=
  ⟨fun _ => rfl, fun _ => rfl,
    hello_source_prints_hello empty_input 7 (fun _ => rfl) (fun _ => rfl)⟩

end BfOpt

end BrainFuck


namespace BrainFuck

namespace BfOpt

/-! ## What a growth changes -/

/-- C24: a successful `tap_resize_right` / `tap_resize_left` (the tape is below its limit)
on a cursor that addresses the allocated cell `a` leaves the cursor and the limit as they
are, adds exactly 1024 to `current_cells_size` and 1024 nodes to the heap, keeps the data
byte of every old cell and all its links but one: the outward link of the cursor cell
(`next` on the right, `prev` on the left), which now addresses the near end of the new
chunk.  The new cells hold 0 and are linked in address order; the near end links back to
the cursor cell and the far end has the sentinel as its outward link. -/
theorem successful_resize_keeps_the_tape (self : Tap) (a : Nat) (hcell : self.cell = Ptr.cell a)
    (ha : a < self.heap.length) (hroom : self.current_cells_size < self.cells_limit) :
    (∃ t, tap_resize_right self = (true, t) ∧ t.cell = self.cell ∧
      t.cells_limit = self.cells_limit ∧
      t.current_cells_size = self.current_cells_size + 1024 ∧
      t.heap.length = self.heap.length + 1024 ∧
      (∀ x, x < self.heap.length →
        (load t.heap (Ptr.cell x)).data = (load self.heap (Ptr.cell x)).data ∧
        (load t.heap (Ptr.cell x)).prev = (load self.heap (Ptr.cell x)).prev ∧
        (x ≠ a → (load t.heap (Ptr.cell x)).next = (load self.heap (Ptr.cell x)).next)) ∧
      (load t.heap (Ptr.cell a)).next = Ptr.cell self.heap.length ∧
      (∀ i, i < 1024 →
        (load t.heap (Ptr.cell (self.heap.length + i))).data = 0 ∧
        (load t.heap (Ptr.cell (self.heap.length + i))).prev =
          (if i = 0 then Ptr.cell a else Ptr.cell (self.heap.length + i - 1)) ∧
        (load t.heap (Ptr.cell (self.heap.length + i))).next =
          (if i = 1023 then Ptr.tomp else Ptr.cell (self.heap.length + i + 1)))) ∧
    (∃ t, tap_resize_left self = (true, t) ∧ t.cell = self.cell ∧
      t.cells_limit = self.cells_limit ∧
      t.current_cells_size = self.current_cells_size + 1024 ∧
      t.heap.length = self.heap.length + 1024 ∧
      (∀ x, x < self.heap.length →
        (load t.heap (Ptr.cell x)).data = (load self.heap (Ptr.cell x)).data ∧
        (load t.heap (Ptr.cell x)).next = (load self.heap (Ptr.cell x)).next ∧
        (x ≠ a → (load t.heap (Ptr.cell x)).prev = (load self.heap (Ptr.cell x)).prev)) ∧
      (load t.heap (Ptr.cell a)).prev = Ptr.cell (self.heap.length + 1023) ∧
      (∀ i, i < 1024 →
        (load t.heap (Ptr.cell (self.heap.length + i))).data = 0 ∧
        (load t.heap (Ptr.cell (self.heap.length + i))).prev =
          (if i = 0 then Ptr.tomp else Ptr.cell (self.heap.length + i - 1)) ∧
        (load t.heap (Ptr.cell (self.heap.length + i))).next =
          (if i = 1023 then Ptr.cell a else Ptr.cell (self.heap.length + i + 1)))) := by
  have hge : ¬ (self.current_cells_size ≥ self.cells_limit) := by omega
  constructor
  · refine ⟨{ self with heap := grown_right self.heap self.cell,
                         current_cells_size := self.current_cells_size + 1024 },
      by rw [tap_resize_right_eq, if_neg hge], rfl, rfl, rfl, ?_, ?_, ?_, ?_⟩
    · simp only [hcell]
      exact length_grown_right _ _
    · intro x hx
      simp only [hcell]
      rw [load_grown_right _ _ _ ha, if_pos hx]
      by_cases hxa : x = a
      · subst hxa
        rw [if_pos rfl]
        exact ⟨rfl, rfl, fun h => absurd rfl h⟩
      · rw [if_neg hxa]
        exact ⟨rfl, rfl, fun _ => rfl⟩
    · simp only [hcell]
      rw [load_grown_right _ _ _ ha, if_pos ha, if_pos rfl]
    · intro i hi
      simp only [hcell]
      rw [load_grown_right _ _ _ ha, if_neg (by omega), if_pos (by omega)]
      refine ⟨rfl, ?_, ?_⟩
      · by_cases h0 : i = 0
        · subst h0
          simp
        · simp only
          rw [if_neg (by omega), if_neg h0]
      · by_cases h1 : i = 1023
        · subst h1
          simp
        · simp only
          rw [if_neg (by omega), if_neg h1]
  · refine ⟨{ self with heap := grown_left self.heap self.cell,
                         current_cells_size := self.current_cells_size + 1024 },
      by rw [tap_resize_left_eq, if_neg hge], rfl, rfl, rfl, ?_, ?_, ?_, ?_⟩
    · simp only [hcell]
      exact length_grown_left _ _
    · intro x hx
      simp only [hcell]
      rw [load_grown_left _ _ _ ha, if_pos hx]
      by_cases hxa : x = a
      · subst hxa
        rw [if_pos rfl]
        exact ⟨rfl, rfl, fun h => absurd rfl h⟩
      · rw [if_neg hxa]
        exact ⟨rfl, rfl, fun _ => rfl⟩
    · simp only [hcell]
      rw [load_grown_left _ _ _ ha, if_pos ha, if_pos rfl]
    · intro i hi
      simp only [hcell]
      rw [load_grown_left _ _ _ ha, if_neg (by omega), if_pos (by omega)]
      refine ⟨rfl, ?_, ?_⟩
      · by_cases h0 : i = 0
        · subst h0
          simp
        · simp only
          rw [if_neg (by omega), if_neg h0]
      · by_cases h1 : i = 1023
        · subst h1
          simp
        · simp only
          rw [if_neg (by omega), if_neg h1]

theorem successful_resize_keeps_the_tape_witness :
    (tap_init 1 2).cell = Ptr.cell 0 ∧ 0 < (tap_init 1 2).heap.length ∧
    (tap_init 1 2).current_cells_size < (tap_init 1 2).cells_limit ∧
    (∃ t, tap_resize_right (tap_init 1 2) = (true, t) ∧ t.cell = (tap_init 1 2).cell ∧
      t.cells_limit = (tap_init 1 2).cells_limit ∧
      t.current_cells_size = (tap_init 1 2).current_cells_size + 1024 ∧
      t.heap.length = (tap_init 1 2).heap.length + 1024 ∧
      (∀ x, x < (tap_init 1 2).heap.length →
        (load t.heap (Ptr.cell x)).data = (load (tap_init 1 2).heap (Ptr.cell x)).data ∧
        (load t.heap (Ptr.cell x)).prev = (load (tap_init 1 2).heap (Ptr.cell x)).prev ∧
        (x ≠ 0 → (load t.heap (Ptr.cell x)).next = (load (tap_init 1 2).heap (Ptr.cell x)).next)) ∧
      (load t.heap (Ptr.cell 0)).next = Ptr.cell (tap_init 1 2).heap.length ∧
      (∀ i, i < 1024 →
        (load t.heap (Ptr.cell ((tap_init 1 2).heap.length + i))).data = 0 ∧
        (load t.heap (Ptr.cell ((tap_init 1 2).heap.length + i))).prev =
          (if i = 0 then Ptr.cell 0 else Ptr.cell ((tap_init 1 2).heap.length + i - 1)) ∧
        (load t.heap (Ptr.cell ((tap_init 1 2).heap.length + i))).next =
          (if i = 1023 then Ptr.tomp else Ptr.cell ((tap_init 1 2).heap.length + i + 1)))) ∧
    (∃ t, tap_resize_left (tap_init 1 2) = (true, t) ∧ t.cell = (tap_init 1 2).cell ∧
      t.cells_limit = (tap_init 1 2).cells_limit ∧
      t.current_cells_size = (tap_init 1 2).current_cells_size + 1024 ∧
      t.heap.length = (tap_init 1 2).heap.length + 1024 ∧
      (∀ x, x < (tap_init 1 2).heap.length →
        (load t.heap (Ptr.cell x)).data = (load (tap_init 1 2).heap (Ptr.cell x)).data ∧
        (load t.heap (Ptr.cell x)).next = (load (tap_init 1 2).heap (Ptr.cell x)).next ∧
        (x ≠ 0 → (load t.heap (Ptr.cell x)).prev = (load (tap_init 1 2).heap (Ptr.cell x)).prev)) ∧
      (load t.heap (Ptr.cell 0)).prev = Ptr.cell ((tap_init 1 2).heap.length + 1023) ∧
      (∀ i, i < 1024 →
        (load t.heap (Ptr.cell ((tap_init 1 2).heap.length + i))).data = 0 ∧
        (load t.heap (Ptr.cell ((tap_init 1 2).heap.length + i))).prev =
          (if i = 0 then Ptr.tomp else Ptr.cell ((tap_init 1 2).heap.length + i - 1)) ∧
        (load t.heap (Ptr.cell ((tap_init 1 2).heap.length + i))).next =
          (if i = 1023 then Ptr.cell 0 else Ptr.cell ((tap_init 1 2).heap.length + i + 1)))) :=
  ⟨rfl, by decide, by decide,
    successful_resize_keeps_the_tape (tap_init 1 2) 0 rfl (by decide) (by decide)⟩

/-! ## The allocated total and the limit -/

theorem grown_by_refl (t : Tap) : grown_by t 0 t :=
  ⟨rfl, rfl, rfl, fun h => h⟩

theorem grown_by_trans (a b c : Tap) (g h : Nat) (h1 : grown_by a g b) (h2 : grown_by b h c) :
    grown_by a (g + h) c := by
  obtain ⟨a1, a2, a3, a4⟩ := h1
  obtain ⟨b1, b2, b3, b4⟩ := h2
  exact ⟨b1.trans a1, by omega, by omega, fun hlt => b4 (a4 hlt)⟩

theorem inc_ptr_body_growths (t : Tap) : grown_by t (inc_ptr_growths t) (inc_ptr_body t).2 := by
  rcases inc_ptr_body_cases t with ⟨hn, he⟩ | ⟨hn, hl, he⟩ | ⟨hn, hlt, he⟩
  · have hg : inc_ptr_growths t = 0 := by
      simp [inc_ptr_growths, node_is_tomp, hn]
    rw [he, hg]
    exact grown_by_refl t
  · have hg : inc_ptr_growths t = 0 := by
      simp [inc_ptr_growths, node_is_tomp, hn, tap_resize_right_eq, hl]
    rw [he, hg]
    exact grown_by_refl t
  · have hg : inc_ptr_growths t = 1 := by
      simp [inc_ptr_growths, node_is_tomp, hn, tap_resize_right_eq, Nat.not_le.2 hlt]
    rw [he, hg]
    refine ⟨rfl, rfl, ?_, fun _ => ?_⟩
    · show (grown_right t.heap t.cell).length = t.heap.length + 1024 * 1
      rw [length_grown_right]
    · show t.current_cells_size + 1024 < t.cells_limit + 1024
      omega

theorem dec_ptr_body_growths (t : Tap) : grown_by t (dec_ptr_growths t) (dec_ptr_body t).2 := by
  rcases dec_ptr_body_cases t with ⟨hn, he⟩ | ⟨hn, hl, he⟩ | ⟨hn, hlt, he⟩
  · have hg : dec_ptr_growths t = 0 := by
      simp [dec_ptr_growths, node_is_tomp, hn]
    rw [he, hg]
    exact grown_by_refl t
  · have hg : dec_ptr_growths t = 0 := by
      simp [dec_ptr_growths, node_is_tomp, hn, tap_resize_left_eq, hl]
    rw [he, hg]
    exact grown_by_refl t
  · have hg : dec_ptr_growths t = 1 := by
      simp [dec_ptr_growths, node_is_tomp, hn, tap_resize_left_eq, Nat.not_le.2 hlt]
    rw [he, hg]
    refine ⟨rfl, rfl, ?_, fun _ => ?_⟩
    · show (grown_left t.heap t.cell).length = t.heap.length + 1024 * 1
      rw [length_grown_left]
    · show t.current_cells_size + 1024 < t.cells_limit + 1024
      omega

/-- A pointer loop changes the sizes by the growths counted in its iterations. -/
theorem ptr_loop_growths_spec (body : Tap → Bool × Tap) (growths : Tap → Nat)
    (hbody : ∀ t, grown_by t (growths t) (body t).2) :
    ∀ (k : Nat) (t : Tap), grown_by t (ptr_loop_growths body growths k t) (ptr_loop body k t).2 := by
  intro k
  induction k with
  | zero => intro t; exact grown_by_refl t
  | succ k ih =>
    intro t
    have h1 := hbody t
    simp only [ptr_loop, ptr_loop_growths]
    rcases hb : body t with ⟨b, t1⟩
    rw [hb] at h1
    cases b with
    | false =>
      simp only
      have := grown_by_trans _ _ _ _ _ h1 (grown_by_refl t1)
      simpa using this
    | true =>
      simp only
      exact grown_by_trans _ _ _ _ _ h1 (ih t1)

theorem store_data_grown_by (t : Tap) (d : Nat) :
    grown_by t 0 { t with heap := store_data t.heap t.cell d } :=
  ⟨rfl, rfl, length_store_data _ _ _, fun h => h⟩

theorem exec_switch_growths_spec (w : World) (instr : Instruction) (m : Machine) :
    grown_by m.tap (exec_switch_growths instr m) (exec_switch w instr m).machine.tap := by
  obtain ⟨ty, n⟩ := instr
  cases ty <;> simp only [exec_switch, exec_switch_growths]
  · have h1 := ptr_loop_growths_spec _ _ inc_ptr_body_growths n m.tap
    rcases hp : ptr_loop inc_ptr_body n m.tap with ⟨b, t⟩
    rw [hp] at h1
    cases b <;> exact h1
  · have h1 := ptr_loop_growths_spec _ _ dec_ptr_body_growths n m.tap
    rcases hp : ptr_loop dec_ptr_body n m.tap with ⟨b, t⟩
    rw [hp] at h1
    cases b <;> exact h1
  · exact store_data_grown_by _ _
  · exact store_data_grown_by _ _
  · exact grown_by_refl _
  · cases w.getchar m.con.reads with
    | none => exact grown_by_refl _
    | some c => exact store_data_grown_by _ _
  · split_ifs <;> exact grown_by_refl _
  · split_ifs <;> exact grown_by_refl _
  · exact store_data_grown_by _ _
  · exact grown_by_refl _

theorem tap_run_step_growths_spec (w : World) (prog : Program) (m : Machine) :
    grown_by m.tap (tap_run_step_growths prog m) (tap_run_step w prog m).machine.tap := by
  unfold tap_run_step tap_run_step_growths
  cases hf : prog.get? m.pc with
  | none => exact grown_by_refl _
  | some instr =>
    have h1 := exec_switch_growths_spec w instr m
    simp only
    rcases hx : exec_switch w instr m with m1 | ⟨e, m1⟩
    · rw [hx] at h1
      exact h1
    · rw [hx] at h1
      exact h1

theorem tap_run_loop_growths_spec (w : World) (prog : Program) :
    ∀ (fuel : Nat) (m : Machine),
      grown_by m.tap (tap_run_loop_growths w prog fuel m) (tap_run_loop w prog fuel m).machine.tap := by
  intro fuel
  induction fuel with
  | zero => intro m; exact grown_by_refl _
  | succ k ih =>
    intro m
    have h1 := tap_run_step_growths_spec w prog m
    simp only [tap_run_loop, tap_run_loop_growths]
    rcases hx : tap_run_step w prog m with m1 | ⟨e, m1⟩
    · rw [hx] at h1
      exact grown_by_trans _ _ _ _ _ h1 (ih m1)
    · rw [hx] at h1
      simpa using h1

/-- C26: on a tape made by `tap_init` with `initial_size <= max_cells`, the tape after any
number of steps of any program (still running or returned) keeps its limit, has
`current_cells_size < cells_limit + 1024`, and has
`current_cells_size = initial_size + 1024 * n` where `n` is the number of successful growths
so far, the calls of `tap_resize_right` / `tap_resize_left` that have returned `true`; the
heap holds as many nodes.  The same holds after any number of iterations of a pointer loop
started there, with the successful growths of these iterations added. -/
theorem size_passes_the_limit_by_less_than_a_chunk (w : World) (prog : Program)
    (s l fuel : Nat) (hsl : s ≤ l) :
    (tap_run w prog (tap_init s l) fuel).machine.tap.cells_limit = l ∧
    (tap_run w prog (tap_init s l) fuel).machine.tap.current_cells_size <
      (tap_run w prog (tap_init s l) fuel).machine.tap.cells_limit + 1024 ∧
    (tap_run w prog (tap_init s l) fuel).machine.tap.current_cells_size =
      s + 1024 * tap_run_growths w prog (tap_init s l) fuel ∧
    (tap_run w prog (tap_init s l) fuel).machine.tap.heap.length =
      s + 1024 * tap_run_growths w prog (tap_init s l) fuel ∧
    (∀ k,
      (ptr_loop inc_ptr_body k
        (tap_run w prog (tap_init s l) fuel).machine.tap).2.current_cells_size < l + 1024 ∧
      (ptr_loop inc_ptr_body k
        (tap_run w prog (tap_init s l) fuel).machine.tap).2.current_cells_size =
        s + 1024 * (tap_run_growths w prog (tap_init s l) fuel +
          ptr_loop_growths inc_ptr_body inc_ptr_growths k
            (tap_run w prog (tap_init s l) fuel).machine.tap)) ∧
    (∀ k,
      (ptr_loop dec_ptr_body k
        (tap_run w prog (tap_init s l) fuel).machine.tap).2.current_cells_size < l + 1024 ∧
      (ptr_loop dec_ptr_body k
        (tap_run w prog (tap_init s l) fuel).machine.tap).2.current_cells_size =
        s + 1024 * (tap_run_growths w prog (tap_init s l) fuel +
          ptr_loop_growths dec_ptr_body dec_ptr_growths k
            (tap_run w prog (tap_init s l) fuel).machine.tap)) := by
  have h := tap_run_loop_growths_spec w prog fuel (start (tap_init s l))
  have hlen : (tap_init s l).heap.length = s := length_init_heap s
  have hloop : ∀ (body : Tap → Bool × Tap) (growths : Tap → Nat),
      (∀ t, grown_by t (growths t) (body t).2) → ∀ k,
      (ptr_loop body k (tap_run w prog (tap_init s l) fuel).machine.tap).2.current_cells_size <
        l + 1024 ∧
      (ptr_loop body k (tap_run w prog (tap_init s l) fuel).machine.tap).2.current_cells_size =
        s + 1024 * (tap_run_growths w prog (tap_init s l) fuel +
          ptr_loop_growths body growths k
            (tap_run w prog (tap_init s l) fuel).machine.tap) := by
    intro body growths hbody k
    obtain ⟨h1, h2, _, h4⟩ := grown_by_trans _ _ _ _ _ h
      (ptr_loop_growths_spec body growths hbody k _)
    have h4 := h4 (show s < l + 1024 by omega)
    rw [h1] at h4
    exact ⟨h4, h2⟩
  obtain ⟨h1, h2, h3, h4⟩ := h
  have h4 := h4 (show s < l + 1024 by omega)
  refine ⟨h1, h4, h2, ?_, hloop _ _ inc_ptr_body_growths, hloop _ _ dec_ptr_body_growths⟩
  have h3 : (tap_run w prog (tap_init s l) fuel).machine.tap.heap.length =
      (tap_init s l).heap.length + 1024 * tap_run_growths w prog (tap_init s l) fuel := h3
  rw [hlen] at h3
  exact h3

theorem size_passes_the_limit_by_less_than_a_chunk_witness :
    1 ≤ 2 ∧
    tap_run_growths empty_input [(⟨OperationType.INC_PTR, 1⟩ : Instruction)] (tap_init 1 2) 1 =
      1 ∧
    (tap_run empty_input [(⟨OperationType.INC_PTR, 1⟩ : Instruction)] (tap_init 1 2)
      1).machine.tap.cells_limit = 2 ∧
    (tap_run empty_input [(⟨OperationType.INC_PTR, 1⟩ : Instruction)] (tap_init 1 2)
      1).machine.tap.current_cells_size <
      (tap_run empty_input [(⟨OperationType.INC_PTR, 1⟩ : Instruction)] (tap_init 1 2)
        1).machine.tap.cells_limit + 1024 ∧
    (tap_run empty_input [(⟨OperationType.INC_PTR, 1⟩ : Instruction)] (tap_init 1 2)
      1).machine.tap.current_cells_size =
      1 + 1024 * tap_run_growths empty_input [(⟨OperationType.INC_PTR, 1⟩ : Instruction)]
        (tap_init 1 2) 1 :=
  ⟨by decide, by decide,
    (size_passes_the_limit_by_less_than_a_chunk empty_input
      [(⟨OperationType.INC_PTR, 1⟩ : Instruction)] 1 2 1 (by decide)).1,
    (size_passes_the_limit_by_less_than_a_chunk empty_input
      [(⟨OperationType.INC_PTR, 1⟩ : Instruction)] 1 2 1 (by decide)).2.1,
    (size_passes_the_limit_by_less_than_a_chunk empty_input
      [(⟨OperationType.INC_PTR, 1⟩ : Instruction)] 1 2 1 (by decide)).2.2.1⟩

end BfOpt

end BrainFuck


namespace BrainFuck

namespace BfOpt

/-! ## The loop that `SET_ZERO` replaces -/

/-- Two steps of the loop `[JUMP_ZERO 2, ADD_VAL 1 or SUB_VAL 1, JUMP_NONZERO 0, HALT]`
started at its `JUMP_NONZERO`: on a zero cell the run reaches `HALT`; otherwise the cell
is stepped once and the run is at `JUMP_NONZERO` again.  `c` is 1 for `ADD_VAL 1` and 255
for `SUB_VAL 1`. -/
theorem clearing_loop_turn (w : World) (x : Instruction) (c j : Nat)
    (hx : x = ⟨OperationType.ADD_VAL, 1⟩ ∧ c = 1 ∨ x = ⟨OperationType.SUB_VAL, 1⟩ ∧ c = 255)
    (t : Tap) (con : Console) :
    tap_run_loop w [⟨OperationType.JUMP_ZERO, 2⟩, x, ⟨OperationType.JUMP_NONZERO, 0⟩,
        ⟨OperationType.HALT, j⟩] 2 { tap := t, pc := 2, con := con } =
      if (load t.heap t.cell).data = 0 then
        Step.exit Exit.halt { tap := t, pc := 3, con := con }
      else
        Step.continue
          { tap := { t with heap := (store_data t.heap t.cell
                      (((load t.heap t.cell).data + c) % 256)) },
            pc := 2, con := con } := by
  by_cases hd : (load t.heap t.cell).data = 0
  · rw [if_pos hd]
    simp [tap_run_loop, tap_run_step, exec_switch, hd]
  · rw [if_neg hd]
    rcases hx with ⟨h1, h2⟩ | ⟨h1, h2⟩
    · subst h1 h2
      simp [tap_run_loop, tap_run_step, exec_switch, hd]
    · subst h1 h2
      simp [tap_run_loop, tap_run_step, exec_switch, hd]

/-- Started at its `JUMP_NONZERO` on a cell that is `d` steps away from 0, the loop reaches
`HALT` after `2 * d + 2` instructions with the cell at 0 and nothing else changed. -/
theorem clearing_loop_ends (w : World) (x : Instruction) (c j : Nat)
    (hx : x = ⟨OperationType.ADD_VAL, 1⟩ ∧ c = 1 ∨ x = ⟨OperationType.SUB_VAL, 1⟩ ∧ c = 255) :
    ∀ (d : Nat) (t : Tap) (con : Console), allocated t.heap t.cell →
      (load t.heap t.cell).data < 256 → ((load t.heap t.cell).data + c * d) % 256 = 0 →
      d < 256 →
      tap_run_loop w [⟨OperationType.JUMP_ZERO, 2⟩, x, ⟨OperationType.JUMP_NONZERO, 0⟩,
          ⟨OperationType.HALT, j⟩] (2 * d + 2) { tap := t, pc := 2, con := con } =
        Step.exit Exit.halt
          { tap := { t with heap := store_data t.heap t.cell 0 }, pc := 3, con := con } := by
  have hc : c = 1 ∨ c = 255 := by
    rcases hx with ⟨_, h⟩ | ⟨_, h⟩
    · exact Or.inl h
    · exact Or.inr h
  intro d
  induction d with
  | zero =>
    intro t con _ hlt hmod _
    have hd : (load t.heap t.cell).data = 0 := by omega
    rw [show 2 * 0 + 2 = 2 from rfl, clearing_loop_turn w x c j hx, if_pos hd,
      store_data_same _ _ _ hd]
  | succ d ih =>
    intro t con hal hlt hmod hd256
    have hd : (load t.heap t.cell).data ≠ 0 := by
      rcases hc with h | h <;> subst h <;> omega
    rw [show 2 * (d + 1) + 2 = 2 + (2 * d + 2) by omega, tap_run_loop_add,
      clearing_loop_turn w x c j hx, if_neg hd]
    simp only
    have hnew : (load (store_data t.heap t.cell (((load t.heap t.cell).data + c) % 256))
        t.cell).data = ((load t.heap t.cell).data + c) % 256 :=
      load_store_data_allocated _ _ _ hal
    rw [ih { t with heap := (store_data t.heap t.cell
        (((load t.heap t.cell).data + c) % 256)) } con
      (allocated_store_data _ _ _ _ hal) (by simp only [hnew]; omega)
      (by simp only [hnew]; rcases hc with h | h <;> subst h <;> omega) (by omega)]
    simp only [store_data_twice]

/-- The loop `[JUMP_ZERO 2, ADD_VAL 1 or SUB_VAL 1, JUMP_NONZERO 0, HALT]` run from its
start clears the cursor cell and changes nothing else. -/
theorem clearing_loop_run (w : World) (x : Instruction) (c j : Nat)
    (hx : x = ⟨OperationType.ADD_VAL, 1⟩ ∧ c = 1 ∨ x = ⟨OperationType.SUB_VAL, 1⟩ ∧ c = 255)
    (self : Tap) (hal : allocated self.heap self.cell) :
    ∃ n, tap_run w [⟨OperationType.JUMP_ZERO, 2⟩, x, ⟨OperationType.JUMP_NONZERO, 0⟩,
        ⟨OperationType.HALT, j⟩] self n =
      Step.exit Exit.halt
        { tap := { self with heap := store_data self.heap self.cell 0 }, pc := 3,
          con := (start self).con } := by
  have hc : c = 1 ∨ c = 255 := by
    rcases hx with ⟨_, h⟩ | ⟨_, h⟩
    · exact Or.inl h
    · exact Or.inr h
  by_cases hd : (load self.heap self.cell).data = 0
  · refine ⟨2, ?_⟩
    rw [store_data_same _ _ _ hd]
    simp [tap_run, start, tap_run_loop, tap_run_step, exec_switch, hd]
  · have hfirst : tap_run_loop w [⟨OperationType.JUMP_ZERO, 2⟩, x,
        ⟨OperationType.JUMP_NONZERO, 0⟩, ⟨OperationType.HALT, j⟩] 2 (start self) =
        Step.continue
          { tap := { self with heap := (store_data self.heap self.cell
                      (((load self.heap self.cell).data + c) % 256)) },
            pc := 2, con := (start self).con } := by
      rcases hx with ⟨h1, h2⟩ | ⟨h1, h2⟩
      · subst h1 h2
        simp [start, tap_run_loop, tap_run_step, exec_switch, hd]
      · subst h1 h2
        simp [start, tap_run_loop, tap_run_step, exec_switch, hd]
    have hnew : (load (store_data self.heap self.cell
        (((load self.heap self.cell).data + c) % 256)) self.cell).data =
        ((load self.heap self.cell).data + c) % 256 :=
      load_store_data_allocated _ _ _ hal
    obtain ⟨d, hd1, hd2⟩ : ∃ d, d < 256 ∧
        (((load self.heap self.cell).data + c) % 256 + c * d) % 256 = 0 := by
      rcases hc with h | h
      · subst h
        exact ⟨(256 - ((load self.heap self.cell).data + 1) % 256) % 256, by omega, by omega⟩
      · subst h
        exact ⟨((load self.heap self.cell).data + 255) % 256, by omega, by omega⟩
    refine ⟨2 + (2 * d + 2), ?_⟩
    rw [tap_run, tap_run_loop_add, hfirst]
    simp only
    rw [clearing_loop_ends w x c j hx d _ _ (allocated_store_data _ _ _ _ hal)
      (by simp only [hnew]; omega) (by simp only [hnew]; exact hd2) hd1]
    simp only [store_data_twice]

/-- C23: `[-]` compiles to `[SET_ZERO, HALT]` and `[ -]` to the loop
`[JUMP_ZERO 2, SUB_VAL 1, JUMP_NONZERO 0, HALT]` (likewise with `+` and `ADD_VAL 1`); on
every tape whose cursor addresses an allocated cell, the run of the loop reaches `HALT`,
and so does the run of `[SET_ZERO, HALT]`, both with the same tape: the cursor cell holds
0 and nothing else has changed (other cells, links, cursor, allocated count, streams). -/
theorem set_zero_does_what_the_loop_does (w : World) (self : Tap) (junk : Nat)
    (hal : allocated self.heap self.cell) :
    compile_source junk ['[', '-', ']'] program_init =
      Except.ok [⟨OperationType.SET_ZERO, 0⟩, ⟨OperationType.HALT, junk⟩] ∧
    compile_source junk ['[', ' ', '-', ']'] program_init =
      Except.ok [⟨OperationType.JUMP_ZERO, 2⟩, ⟨OperationType.SUB_VAL, 1⟩,
        ⟨OperationType.JUMP_NONZERO, 0⟩, ⟨OperationType.HALT, junk⟩] ∧
    compile_source junk ['[', ' ', '+', ']'] program_init =
      Except.ok [⟨OperationType.JUMP_ZERO, 2⟩, ⟨OperationType.ADD_VAL, 1⟩,
        ⟨OperationType.JUMP_NONZERO, 0⟩, ⟨OperationType.HALT, junk⟩] ∧
    (∃ m, tap_run w [⟨OperationType.SET_ZERO, 0⟩, ⟨OperationType.HALT, junk⟩] self 2 =
        Step.exit Exit.halt m ∧
      m.tap = { self with heap := store_data self.heap self.cell 0 } ∧
      m.con = (start self).con) ∧
    (∃ n m, tap_run w [⟨OperationType.JUMP_ZERO, 2⟩, ⟨OperationType.SUB_VAL, 1⟩,
        ⟨OperationType.JUMP_NONZERO, 0⟩, ⟨OperationType.HALT, junk⟩] self n =
          Step.exit Exit.halt m ∧
      m.tap = { self with heap := store_data self.heap self.cell 0 } ∧
      m.con = (start self).con) ∧
    (∃ n m, tap_run w [⟨OperationType.JUMP_ZERO, 2⟩, ⟨OperationType.ADD_VAL, 1⟩,
        ⟨OperationType.JUMP_NONZERO, 0⟩, ⟨OperationType.HALT, junk⟩] self n =
          Step.exit Exit.halt m ∧
      m.tap = { self with heap := store_data self.heap self.cell 0 } ∧
      m.con = (start self).con) ∧
    (load (store_data self.heap self.cell 0) self.cell).data = 0 ∧
    only_data_at self.heap (store_data self.heap self.cell 0) self.cell := by
  refine ⟨rfl, rfl, rfl, ⟨_, rfl, rfl, rfl⟩, ?_, ?_, load_store_data_allocated _ _ _ hal,
    only_data_at_store_data _ _ _⟩
  · obtain ⟨n, hn⟩ := clearing_loop_run w ⟨OperationType.SUB_VAL, 1⟩ 255 junk
      (Or.inr ⟨rfl, rfl⟩) self hal
    exact ⟨n, _, hn, rfl, rfl⟩
  · obtain ⟨n, hn⟩ := clearing_loop_run w ⟨OperationType.ADD_VAL, 1⟩ 1 junk
      (Or.inl ⟨rfl, rfl⟩) self hal
    exact ⟨n, _, hn, rfl, rfl⟩

theorem set_zero_does_what_the_loop_does_witness :
    allocated (tap_init 1 1).heap (tap_init 1 1).cell ∧
    compile_source 0 ['[', '-', ']'] program_init =
      Except.ok [⟨OperationType.SET_ZERO, 0⟩, ⟨OperationType.HALT, 0⟩] ∧
    compile_source 0 ['[', ' ', '-', ']'] program_init =
      Except.ok [⟨OperationType.JUMP_ZERO, 2⟩, ⟨OperationType.SUB_VAL, 1⟩,
        ⟨OperationType.JUMP_NONZERO, 0⟩, ⟨OperationType.HALT, 0⟩] ∧
    compile_source 0 ['[', ' ', '+', ']'] program_init =
      Except.ok [⟨OperationType.JUMP_ZERO, 2⟩, ⟨OperationType.ADD_VAL, 1⟩,
        ⟨OperationType.JUMP_NONZERO, 0⟩, ⟨OperationType.HALT, 0⟩] ∧
    (∃ m, tap_run empty_input [⟨OperationType.SET_ZERO, 0⟩, ⟨OperationType.HALT, 0⟩] (tap_init 1 1) 2 =
        Step.exit Exit.halt m ∧
      m.tap = { tap_init 1 1 with heap := store_data (tap_init 1 1).heap (tap_init 1 1).cell 0 } ∧
      m.con = (start (tap_init 1 1)).con) ∧
    (∃ n m, tap_run empty_input [⟨OperationType.JUMP_ZERO, 2⟩, ⟨OperationType.SUB_VAL, 1⟩,
        ⟨OperationType.JUMP_NONZERO, 0⟩, ⟨OperationType.HALT, 0⟩] (tap_init 1 1) n =
          Step.exit Exit.halt m ∧
      m.tap = { tap_init 1 1 with heap := store_data (tap_init 1 1).heap (tap_init 1 1).cell 0 } ∧
      m.con = (start (tap_init 1 1)).con) ∧
    (∃ n m, tap_run empty_input [⟨OperationType.JUMP_ZERO, 2⟩, ⟨OperationType.ADD_VAL, 1⟩,
        ⟨OperationType.JUMP_NONZERO, 0⟩, ⟨OperationType.HALT, 0⟩] (tap_init 1 1) n =
          Step.exit Exit.halt m ∧
      m.tap = { tap_init 1 1 with heap := store_data (tap_init 1 1).heap (tap_init 1 1).cell 0 } ∧
      m.con = (start (tap_init 1 1)).con) ∧
    (load (store_data (tap_init 1 1).heap (tap_init 1 1).cell 0) (tap_init 1 1).cell).data = 0 ∧
    only_data_at (tap_init 1 1).heap (store_data (tap_init 1 1).heap (tap_init 1 1).cell 0) (tap_init 1 1).cell :=
  ⟨⟨0, rfl, by decide⟩,
    set_zero_does_what_the_loop_does empty_input (tap_init 1 1) 0 ⟨0, rfl, by decide⟩⟩

end BfOpt

end BrainFuck


namespace BrainFuck

namespace BfOpt

/-! ## The program counter stays inside the program -/

/-- In a compiled program the operand of a jump is an index below the trailing `HALT`. -/
theorem jump_operand_below_halt (junk : Nat) (source : List Char) (P : Program)
    (h : compile_source junk source program_init = Except.ok P) (i : Nat)
    (instr : Instruction) (hget : P.get? i = some instr)
    (hty : instr.type = OperationType.JUMP_ZERO ∨ instr.type = OperationType.JUMP_NONZERO) :
    instr.operand + 1 < P.length := by
  obtain ⟨sf, hc, hsf, hP⟩ := compile_source_ok junk source _ P h
  obtain ⟨s0, hs0⟩ : ∃ s0 : CompileState,
      s0 = { source := source, prog := program_init, loop_stack := [] } := ⟨_, rfl⟩
  rw [← hs0] at hc
  have h0 : s0.loop_stack = [] := by rw [hs0]
  have hp0 : s0.prog = [] := by rw [hs0]; rfl
  have hlen : P.length = sf.prog.length + 1 := by rw [hP]; simp
  have hnh : instr.type ≠ OperationType.HALT := by
    rcases hty with e | e <;> rw [e] <;> decide
  obtain ⟨hi, hget1⟩ := get?_halt_last sf.prog junk i instr (by rw [← hP]; exact hget) hnh
  obtain ⟨ty, n⟩ := instr
  simp only at hty ⊢
  rcases hty with e | e
  · subst e
    obtain ⟨_, _, _, _, _, _, _, _, _, _, _, _, _, hgj⟩ :=
      jump_zero_origin s0 sf h0 hp0 hc hsf i n hget1
    have := lt_length_of_get? _ _ _ hgj
    omega
  · subst e
    obtain ⟨a, rest, hra, e1, hs⟩ := (jump_origin s0 sf h0 hp0 hc hsf i _ hget1).2 rfl
    obtain ⟨k, st, sc1, _, _, _, _, hk, _, hgj⟩ := close_core s0 sf a rest h0 hc hra hs
    rw [e1] at hgj hk
    rw [hget1] at hgj
    injection hgj with hgj
    injection hgj with _ hik
    omega

/-- What the `switch` of `tap_run` does to `pc`, and how it can return. -/
theorem exec_switch_pc (w : World) (instr : Instruction) (m : Machine) :
    (∀ m1, exec_switch w instr m = Step.continue m1 →
      instr.type ≠ OperationType.HALT ∧
      (m1.pc = m.pc ∨
        ((instr.type = OperationType.JUMP_ZERO ∨ instr.type = OperationType.JUMP_NONZERO) ∧
          m1.pc = instr.operand))) ∧
    (∀ e m1, exec_switch w instr m = Step.exit e m1 →
      m1.pc = m.pc ∧ (e = Exit.halt ∨ e = Exit.tape_limit)) := by
  obtain ⟨ty, n⟩ := instr
  cases ty <;> simp only [exec_switch]
  · rcases hp : ptr_loop inc_ptr_body n m.tap with ⟨b, t⟩
    cases b
    · refine ⟨fun m1 h => by simp at h, fun e m1 h => ?_⟩
      simp only [Step.exit.injEq] at h
      obtain ⟨h1, h2⟩ := h
      subst h1 h2
      exact ⟨rfl, Or.inr rfl⟩
    · refine ⟨fun m1 h => ?_, fun e m1 h => by simp at h⟩
      simp only [Step.continue.injEq] at h
      subst h
      exact ⟨by decide, Or.inl rfl⟩
  · rcases hp : ptr_loop dec_ptr_body n m.tap with ⟨b, t⟩
    cases b
    · refine ⟨fun m1 h => by simp at h, fun e m1 h => ?_⟩
      simp only [Step.exit.injEq] at h
      obtain ⟨h1, h2⟩ := h
      subst h1 h2
      exact ⟨rfl, Or.inr rfl⟩
    · refine ⟨fun m1 h => ?_, fun e m1 h => by simp at h⟩
      simp only [Step.continue.injEq] at h
      subst h
      exact ⟨by decide, Or.inl rfl⟩
  · refine ⟨fun m1 h => ?_, fun e m1 h => by simp at h⟩
    simp only [Step.continue.injEq] at h
    subst h
    exact ⟨by decide, Or.inl rfl⟩
  · refine ⟨fun m1 h => ?_, fun e m1 h => by simp at h⟩
    simp only [Step.continue.injEq] at h
    subst h
    exact ⟨by decide, Or.inl rfl⟩
  · refine ⟨fun m1 h => ?_, fun e m1 h => by simp at h⟩
    simp only [Step.continue.injEq] at h
    subst h
    exact ⟨by decide, Or.inl rfl⟩
  · cases w.getchar m.con.reads with
    | none =>
      refine ⟨fun m1 h => ?_, fun e m1 h => by simp at h⟩
      simp only [Step.continue.injEq] at h
      subst h
      exact ⟨by decide, Or.inl rfl⟩
    | some c =>
      refine ⟨fun m1 h => ?_, fun e m1 h => by simp at h⟩
      simp only [Step.continue.injEq] at h
      subst h
      exact ⟨by decide, Or.inl rfl⟩
  · by_cases hd : (load m.tap.heap m.tap.cell).data = 0
    · simp only [hd, if_true]
      refine ⟨fun m1 h => ?_, fun e m1 h => by simp at h⟩
      simp only [Step.continue.injEq] at h
      subst h
      exact ⟨by decide, Or.inr ⟨by simp, rfl⟩⟩
    · simp only [hd, if_false]
      refine ⟨fun m1 h => ?_, fun e m1 h => by simp at h⟩
      simp only [Step.continue.injEq] at h
      subst h
      exact ⟨by decide, Or.inl rfl⟩
  · by_cases hd : (load m.tap.heap m.tap.cell).data = 0
    · simp only [hd, ne_eq, not_true_eq_false, if_false]
      refine ⟨fun m1 h => ?_, fun e m1 h => by simp at h⟩
      simp only [Step.continue.injEq] at h
      subst h
      exact ⟨by decide, Or.inl rfl⟩
    · simp only [hd, ne_eq, not_false_eq_true, if_true]
      refine ⟨fun m1 h => ?_, fun e m1 h => by simp at h⟩
      simp only [Step.continue.injEq] at h
      subst h
      exact ⟨by decide, Or.inr ⟨by simp, rfl⟩⟩
  · refine ⟨fun m1 h => ?_, fun e m1 h => by simp at h⟩
    simp only [Step.continue.injEq] at h
    subst h
    exact ⟨by decide, Or.inl rfl⟩
  · refine ⟨fun m1 h => by simp at h, fun e m1 h => ?_⟩
    simp only [Step.exit.injEq] at h
    obtain ⟨h1, h2⟩ := h
    subst h1 h2
    exact ⟨rfl, Or.inl rfl⟩

/-- A step of a compiled program that starts inside the program ends inside it, and
returns only at `HALT` or at a refused growth. -/
theorem tap_run_step_in_range (w : World) (junk : Nat) (source : List Char) (P : Program)
    (h : compile_source junk source program_init = Except.ok P) (m : Machine)
    (hpc : m.pc < P.length) :
    (∀ m1, tap_run_step w P m = Step.continue m1 → m1.pc < P.length) ∧
    (∀ e m1, tap_run_step w P m = Step.exit e m1 →
      (e = Exit.halt ∨ e = Exit.tape_limit) ∧ m1.pc < P.length) := by
  obtain ⟨sf, _, _, hP⟩ := compile_source_ok junk source _ P h
  have hlen : P.length = sf.prog.length + 1 := by rw [hP]; simp
  cases hf : P.get? m.pc with
  | none =>
    rw [List.get?_eq_none] at hf
    omega
  | some instr =>
    rw [step_of_fetch w P m instr hf]
    obtain ⟨hcont, hexit⟩ := exec_switch_pc w instr m
    rcases hx : exec_switch w instr m with m2 | ⟨e2, m2⟩
    · simp only
      refine ⟨fun m1 h1 => ?_, fun e m1 h1 => by simp at h1⟩
      simp only [Step.continue.injEq] at h1
      subst h1
      simp only
      obtain ⟨hnh, hpc2⟩ := hcont m2 hx
      rcases hpc2 with e | ⟨hj, e⟩
      · rw [e]
        have := (get?_halt_last sf.prog junk m.pc instr (by rw [← hP]; exact hf) hnh).1
        omega
      · rw [e]
        exact jump_operand_below_halt junk source P h m.pc instr hf hj
    · simp only
      refine ⟨fun m1 h1 => by simp at h1, fun e m1 h1 => ?_⟩
      simp only [Step.exit.injEq] at h1
      obtain ⟨h2, h3⟩ := h1
      subst h2 h3
      obtain ⟨e1, e3⟩ := hexit e2 m2 hx
      exact ⟨e3, by rw [e1]; exact hpc⟩

theorem tap_run_loop_in_range (w : World) (junk : Nat) (source : List Char) (P : Program)
    (h : compile_source junk source program_init = Except.ok P) :
    ∀ (fuel : Nat) (m : Machine), m.pc < P.length →
      (∀ m1, tap_run_loop w P fuel m = Step.continue m1 → m1.pc < P.length) ∧
      (∀ e m1, tap_run_loop w P fuel m = Step.exit e m1 →
        (e = Exit.halt ∨ e = Exit.tape_limit) ∧ m1.pc < P.length) := by
  intro fuel
  induction fuel with
  | zero =>
    intro m hpc
    refine ⟨fun m1 h1 => ?_, fun e m1 h1 => by simp [tap_run_loop] at h1⟩
    simp only [tap_run_loop, Step.continue.injEq] at h1
    subst h1
    exact hpc
  | succ n ih =>
    intro m hpc
    obtain ⟨hc, he⟩ := tap_run_step_in_range w junk source P h m hpc
    rw [tap_run_loop_succ]
    rcases hx : tap_run_step w P m with m2 | ⟨e2, m2⟩
    · exact ih m2 (hc m2 hx)
    · simp only
      refine ⟨fun m1 h1 => by simp at h1, fun e m1 h1 => ?_⟩
      simp only [Step.exit.injEq] at h1
      obtain ⟨h2, h3⟩ := h1
      subst h2 h3
      exact he e2 m2 hx

/-- C25: in a program that `compile_source` builds, the operand of every jump is an index
below the trailing `HALT`; on any tape and with any streams, `pc` is a valid index at
every fetch, so `tap_run` finds an instruction each time, and it returns only by `HALT`
or by a refused growth, never because `pc < prog->size` has become false. -/
theorem run_never_leaves_the_program (w : World) (junk : Nat) (source : List Char)
    (P : Program) (self : Tap)
    (h : compile_source junk source program_init = Except.ok P) :
    (∀ i instr, P.get? i = some instr →
      instr.type = OperationType.JUMP_ZERO ∨ instr.type = OperationType.JUMP_NONZERO →
      instr.operand < P.length - 1) ∧
    (∀ fuel m, tap_run w P self fuel = Step.continue m →
      m.pc < P.length ∧ ∃ instr, P.get? m.pc = some instr) ∧
    (∀ fuel e m, tap_run w P self fuel = Step.exit e m →
      (e = Exit.halt ∨ e = Exit.tape_limit) ∧ e ≠ Exit.pc_end ∧ m.pc < P.length) := by
  have hpos : (start self).pc < P.length := by
    obtain ⟨sf, _, _, hP⟩ := compile_source_ok junk source _ P h
    rw [hP]
    simp [start]
  refine ⟨fun i instr hg hty => ?_, fun fuel m hr => ?_, fun fuel e m hr => ?_⟩
  · have := jump_operand_below_halt junk source P h i instr hg hty
    omega
  · have hlt := (tap_run_loop_in_range w junk source P h fuel _ hpos).1 m hr
    refine ⟨hlt, ?_⟩
    cases hf : P.get? m.pc with
    | none =>
      rw [List.get?_eq_none] at hf
      omega
    | some instr => exact ⟨instr, rfl⟩
  · obtain ⟨h1, h2⟩ := (tap_run_loop_in_range w junk source P h fuel _ hpos).2 e m hr
    refine ⟨h1, ?_, h2⟩
    rcases h1 with e1 | e1 <;> rw [e1] <;> decide

theorem run_never_leaves_the_program_witness :
    compile_source 0 [',', '[', '.', ',', ']'] program_init = Except.ok (echo_program 0) ∧
    (∀ i instr, (echo_program 0).get? i = some instr →
      instr.type = OperationType.JUMP_ZERO ∨ instr.type = OperationType.JUMP_NONZERO →
      instr.operand < (echo_program 0).length - 1) ∧
    (∀ fuel m, tap_run world_AB (echo_program 0) (tap_init 1 1) fuel = Step.continue m →
      m.pc < (echo_program 0).length ∧ ∃ instr, (echo_program 0).get? m.pc = some instr) ∧
    (∀ fuel e m, tap_run world_AB (echo_program 0) (tap_init 1 1) fuel = Step.exit e m →
      (e = Exit.halt ∨ e = Exit.tape_limit) ∧ e ≠ Exit.pc_end ∧ m.pc < (echo_program 0).length) :=
  ⟨rfl, run_never_leaves_the_program world_AB 0 [',', '[', '.', ',', ']'] (echo_program 0)
    (tap_init 1 1) rfl⟩

end BfOpt

end BrainFuck


namespace BrainFuck

namespace BfOpt

/-! ## The status that `main` returns -/

/-- C21, counterexample: on the source `>` with `-s 1 -m 1` the run stops on the tape limit
at its first instruction, and `main` returns `EXIT_SUCCESS`; the failure shows only in the
two lines on the standard error stream. -/
theorem tape_limit_failure_returns_success :
    compile_source 0 ['>'] program_init =
      Except.ok [⟨OperationType.INC_PTR, 1⟩, ⟨OperationType.HALT, 0⟩] ∧
    tap_run empty_input [⟨OperationType.INC_PTR, 1⟩, ⟨OperationType.HALT, 0⟩]
        (tap_init 1 1) 1 =
      Step.exit Exit.tape_limit (start (tap_init 1 1)) ∧
    main_after_read empty_input 0 ['>'] 1 1 1 =
      some (ExitStatus.EXIT_SUCCESS,
        [Message.tape_limit_exceeded, Message.memory_limit_exceeded]) :=
  ⟨rfl, rfl, rfl⟩

/-- C21, amended: `main` returns `EXIT_FAILURE` exactly when `compile_source` fails, which
it does on every source with unbalanced brackets (after the line `Compilation Failed.`);
when `compile_source` succeeds, `main` returns `EXIT_SUCCESS` as soon as `tap_run`
returns, after `HALT` and after a refused growth alike: the two differ only by the lines
`Error: Tape limit exceeded!` and `Runtime Error: Memory limit exceeded` on the standard
error stream. -/
theorem main_status_tells_compilation_only (w : World) (junk : Nat) (source : List Char)
    (s l fuel : Nat) :
    (∀ e, compile_source junk source program_init = Except.error e →
      main_after_read w junk source s l fuel =
        some (ExitStatus.EXIT_FAILURE, compile_messages e ++ [Message.compilation_failed])) ∧
    (¬ balanced source →
      ∃ msgs, main_after_read w junk source s l fuel =
        some (ExitStatus.EXIT_FAILURE, msgs ++ [Message.compilation_failed])) ∧
    (∀ P m, compile_source junk source program_init = Except.ok P →
      tap_run w P (tap_init s l) fuel = Step.exit Exit.halt m →
      main_after_read w junk source s l fuel = some (ExitStatus.EXIT_SUCCESS, [])) ∧
    (∀ P m, compile_source junk source program_init = Except.ok P →
      tap_run w P (tap_init s l) fuel = Step.exit Exit.tape_limit m →
      main_after_read w junk source s l fuel =
        some (ExitStatus.EXIT_SUCCESS,
          [Message.tape_limit_exceeded, Message.memory_limit_exceeded])) ∧
    (∀ P m, compile_source junk source program_init = Except.ok P →
      tap_run w P (tap_init s l) fuel = Step.continue m →
      main_after_read w junk source s l fuel = none) := by
  refine ⟨fun e he => ?_, fun hb => ?_, fun P m hc hr => ?_, fun P m hc hr => ?_,
    fun P m hc hr => ?_⟩
  · simp only [main_after_read, he]
  · obtain ⟨e, he⟩ := compile_source_error_of_not_ok junk source program_init
      (fun ⟨P, hP⟩ => hb (compile_source_balanced junk source _ P hP))
    exact ⟨compile_messages e, by simp only [main_after_read, he]⟩
  · simp only [main_after_read, hc, hr, run_messages]
  · simp only [main_after_read, hc, hr, run_messages]
  · simp only [main_after_read, hc, hr]

theorem main_status_tells_compilation_only_witness :
    ¬ balanced ['[', '+'] ∧
    main_after_read empty_input 0 ['[', '+'] 1 1 5 =
      some (ExitStatus.EXIT_FAILURE, [Message.unmatched_open, Message.compilation_failed]) ∧
    compile_source 0 ['>'] program_init =
      Except.ok [⟨OperationType.INC_PTR, 1⟩, ⟨OperationType.HALT, 0⟩] ∧
    tap_run empty_input [⟨OperationType.INC_PTR, 1⟩, ⟨OperationType.HALT, 0⟩]
        (tap_init 1 1) 5 =
      Step.exit Exit.tape_limit (start (tap_init 1 1)) ∧
    main_after_read empty_input 0 ['>'] 1 1 5 =
      some (ExitStatus.EXIT_SUCCESS,
        [Message.tape_limit_exceeded, Message.memory_limit_exceeded]) :=
  ⟨by decide,
    (main_status_tells_compilation_only empty_input 0 ['[', '+'] 1 1 5).1
      CompileError.unmatched_open rfl,
    rfl, rfl,
    (main_status_tells_compilation_only empty_input 0 ['>'] 1 1 5).2.2.2.1
      [⟨OperationType.INC_PTR, 1⟩, ⟨OperationType.HALT, 0⟩] (start (tap_init 1 1)) rfl rfl⟩

end BfOpt

namespace BfList

/-! ## `tap_move` of `bflist.c` and the limit -/

/-- When the array must grow, the target index is within the limit but twice the capacity
is not, `tap_move` returns `false`. -/
theorem tap_move_refuses_when_doubling_passes (self : Tap) (offset : Int)
    (hpos : 0 ≤ self.pos + offset) (hgrow : self.right_cap ≤ (self.pos + offset).toNat)
    (hdouble : self.limit < self.right_cap * 2) :
    (tap_move self offset).1 = false := by
  unfold tap_move
  simp only [ge_iff_le, hpos, hgrow, if_true, gt_iff_lt]
  by_cases h1 : self.right_cap * 2 ≤ (self.pos + offset).toNat
  · simp only [h1, if_true]
    rw [if_pos (by omega)]
  · simp only [h1, if_false]
    rw [if_pos hdouble]

/-- C27, the move that fails within the limit: on the tape of `tap_init(2, 3)`, a move
to position 2 (and a move to position -3, index 2 on the left side) returns `false`,
although the index 2 is below the limit 3: the doubled capacity 4 is compared with the
limit.  With the default sizes, `tap_init(1024, 30000)`, a move to position 16383 succeeds
and the next move by one cell, to position 16384, returns `false`: the doubled capacity
32768 is above the limit 30000. -/
theorem doubling_refuses_a_position_within_the_limit :
    (tap_move (tap_init 2 3) 2).1 = false ∧
    (tap_move (tap_init 2 3) 2).2.pos = 2 ∧
    side_index (tap_move (tap_init 2 3) 2).2.pos < (tap_init 2 3).limit ∧
    (tap_move (tap_init 2 3) (-3)).1 = false ∧
    (tap_move (tap_init 2 3) (-3)).2.pos = -3 ∧
    side_index (tap_move (tap_init 2 3) (-3)).2.pos < (tap_init 2 3).limit ∧
    (tap_move (tap_init 1024 30000) 16383).1 = true ∧
    (tap_move (tap_init 1024 30000) 16383).2.right_cap = 16384 ∧
    (tap_move (tap_move (tap_init 1024 30000) 16383).2 1).1 = false ∧
    (tap_move (tap_move (tap_init 1024 30000) 16383).2 1).2.pos = 16384 ∧
    side_index (tap_move (tap_move (tap_init 1024 30000) 16383).2 1).2.pos <
      (tap_init 1024 30000).limit := by
  decide

end BfList

end BrainFuck


namespace BrainFuck

namespace BfOpt

/-! ## Runs are folded whole -/

theorem fold_opcode_inj (c d : Char) (hc : fold_char c) (hd : fold_char d)
    (h : fold_opcode c = fold_opcode d) : c = d := by
  rcases hc with e | e | e | e <;> rcases hd with f | f | f | f <;> subst e f <;>
    first
    | rfl
    | exact absurd h (by decide)

theorem not_fold_of_not_folded_char (c y : Char) (hc : fold_char c)
    (hy : y = '.' ∨ y = ',' ∨ y = '[' ∨ y = ']' ∨ inert_char y) : y ≠ c := by
  intro e
  subst e
  rcases hc with e | e | e | e <;> subst e <;>
    rcases hy with h | h | h | h | h <;>
    first
    | exact absurd h (by decide)
    | exact absurd rfl h.1
    | exact absurd rfl h.2.1
    | exact absurd rfl h.2.2.1
    | exact absurd rfl h.2.2.2.1

/-- The last character that an iteration consumes is not the folded character that the
next iteration starts on. -/
theorem step_last_char (a b : CompileState) (h : iter_step a b) :
    ∃ u y, a.source = u ++ y :: b.source ∧
      ∀ c, fold_char c → b.source.head? = some c → y ≠ c := by
  rcases iter_step_cases a b h with ⟨c0, j, hc0, hsrc, hhead, _, _⟩ | ⟨hsrc, _, _⟩ |
    ⟨hsrc, _, _⟩ | ⟨c1, _, hsrc, _, _⟩ | ⟨hsrc, _, _, _, _⟩ | ⟨k, hsrc, _, _⟩ |
    ⟨x, hx, hsrc, _, _⟩
  · refine ⟨List.replicate j c0, c0, ?_, fun c _ hh e => hhead (by rw [hh, e])⟩
    rw [hsrc, ← List.cons_append, ← List.replicate_succ, List.replicate_succ',
      List.append_assoc]
    rfl
  · exact ⟨[], '.', hsrc, fun c hc _ => not_fold_of_not_folded_char c _ hc (Or.inl rfl)⟩
  · exact ⟨[], ',', hsrc,
      fun c hc _ => not_fold_of_not_folded_char c _ hc (Or.inr (Or.inl rfl))⟩
  · exact ⟨['[', c1], ']', hsrc,
      fun c hc _ => not_fold_of_not_folded_char c _ hc (Or.inr (Or.inr (Or.inr (Or.inl rfl))))⟩
  · exact ⟨[], '[', hsrc,
      fun c hc _ => not_fold_of_not_folded_char c _ hc (Or.inr (Or.inr (Or.inl rfl)))⟩
  · exact ⟨[], ']', hsrc,
      fun c hc _ => not_fold_of_not_folded_char c _ hc (Or.inr (Or.inr (Or.inr (Or.inl rfl))))⟩
  · exact ⟨[], x, hsrc,
      fun c hc _ => not_fold_of_not_folded_char c _ hc (Or.inr (Or.inr (Or.inr (Or.inr hx))))⟩

/-- A folded character on which an iteration starts is not the character just before. -/
theorem run_starts_after_another_char (s0 a : CompileState) (hr : reaches s0 a)
    (pre : List Char) (hpre : s0.source = pre ++ a.source) (c : Char) (hc : fold_char c)
    (hhead : a.source.head? = some c) : pre.getLast? ≠ some c := by
  rcases Relation.ReflTransGen.cases_tail hr with e | ⟨x, hrx, hstep⟩
  · subst e
    have : pre = [] := by
      have h1 := congrArg List.length hpre
      simp only [List.length_append] at h1
      exact List.length_eq_zero.1 (by omega)
    subst this
    simp
  · obtain ⟨u, y, hsrc, hy⟩ := step_last_char x a hstep
    obtain ⟨px, hpx⟩ := reaches_suffix s0 x hrx
    have e1 : pre ++ a.source = (px ++ u ++ [y]) ++ a.source := by
      rw [← hpre, hpx, hsrc]
      simp
    have e2 : pre = px ++ u ++ [y] := List.append_cancel_right e1
    rw [e2, List.getLast?_append_of_ne_nil _ (by simp)]
    simp only [List.getLast?_singleton, ne_eq, Option.some.injEq]
    exact hy c hc hhead

/-- In a source of instruction characters every iteration emits an instruction. -/
theorem no_silent_step (x y : CompileState) (h : iter_step x y)
    (hall : ∀ ch, ch ∈ x.source → instruction_char ch = true) :
    y.prog.length = x.prog.length + 1 := by
  rcases iter_step_cases x y h with ⟨c, j, _, _, _, hp, _⟩ | ⟨_, hp, _⟩ | ⟨_, hp, _⟩ |
    ⟨c, _, _, hp, _⟩ | ⟨_, _, _, hp, _⟩ | ⟨k, _, _, hp⟩ | ⟨c, hc, hs, _, _⟩
  all_goals first
    | (rw [hp]; simp [length_set_operand])
    | skip
  have h1 := hall c (by rw [hs]; exact List.mem_cons_self _ _)
  rw [(inert_char_iff c).1 hc] at h1
  exact absurd h1 (by decide)

theorem same_length_same_state (x y : CompileState) (h : reaches x y)
    (hall : ∀ ch, ch ∈ x.source → instruction_char ch = true)
    (hl : y.prog.length = x.prog.length) : x = y := by
  rcases Relation.ReflTransGen.cases_head h with h0 | ⟨z, hz, hzy⟩
  · exact h0
  · have h1 := no_silent_step x z hz hall
    have h2 := reaches_prog_length z y hzy
    omega

/-- What an iteration leaves at its index of the final program: the folded instruction of
the run it read, nothing, or an instruction that is not a folded one. -/
theorem emitted_final (s0 sf a b : CompileState) (h0 : s0.loop_stack = [])
    (hc : compile_all s0 = Except.ok sf) (hsf : sf.loop_stack = []) (hr : reaches s0 a)
    (hstep : iter_step a b) :
    (∃ c j, fold_char c ∧ a.source = c :: (List.replicate j c ++ b.source) ∧
      b.source.head? ≠ some c ∧
      sf.prog.get? a.prog.length = some { type := fold_opcode c, operand := j + 1 }) ∨
    b.prog.length = a.prog.length ∨
    (∃ instr, sf.prog.get? a.prog.length = some instr ∧ ¬ folded instr.type) := by
  rcases iter_step_cases a b hstep with ⟨c, j, hfc, hs, hh, hp, hst⟩ | ⟨_, hp, hst⟩ |
    ⟨_, hp, hst⟩ | ⟨c, _, _, hp, hst⟩ | ⟨hs, hi, _, _, _⟩ | ⟨k, hs, _, _⟩ | ⟨c, _, _, hp, _⟩
  · exact Or.inl ⟨c, j, hfc, hs, hh, fetch_plain s0 sf a b _ h0 hc hr hstep hp hst⟩
  · exact Or.inr (Or.inr ⟨_, fetch_plain s0 sf a b _ h0 hc hr hstep hp hst, by simp [folded]⟩)
  · exact Or.inr (Or.inr ⟨_, fetch_plain s0 sf a b _ h0 hc hr hstep hp hst, by simp [folded]⟩)
  · exact Or.inr (Or.inr ⟨_, fetch_plain s0 sf a b _ h0 hc hr hstep hp hst, by simp [folded]⟩)
  · obtain ⟨_, sc, _, _, _, _, _, _, _, _, _, _, _, _, _, _, hg, _⟩ :=
      open_facts s0 sf a b.source h0 hc hsf hr hs hi
    exact Or.inr (Or.inr ⟨_, hg, by simp [folded]⟩)
  · obtain ⟨k1, _, _, _, _, _, _, _, _, hg⟩ := close_core s0 sf a b.source h0 hc hr hs
    exact Or.inr (Or.inr ⟨_, hg, by simp [folded]⟩)
  · exact Or.inr (Or.inl (by rw [hp]))

/-- A folded instruction of the final program is the one emitted for a run that the loop
read whole. -/
theorem folded_instruction_origin (s0 sf : CompileState) (h0 : s0.loop_stack = [])
    (hc : compile_all s0 = Except.ok sf) (hsf : sf.loop_stack = [])
    (i : Nat) (instr : Instruction) (hlo : s0.prog.length ≤ i)
    (hget : sf.prog.get? i = some instr) (hty : folded instr.type) :
    ∃ a b c j, reaches s0 a ∧ iter_step a b ∧ a.prog.length = i ∧ b.prog.length = i + 1 ∧
      fold_char c ∧ a.source = c :: (List.replicate j c ++ b.source) ∧
      b.source.head? ≠ some c ∧ instr = { type := fold_opcode c, operand := j + 1 } := by
  have hr := (compile_all_ok_reaches s0.source.length s0 sf (Nat.le_refl _) hc).1
  obtain ⟨a, b, hra, hab, _, e1, e2⟩ :=
    emitted_by_step s0 sf hr i hlo (lt_length_of_get? _ _ _ hget)
  rcases emitted_final s0 sf a b h0 hc hsf hra hab with ⟨c, j, hfc, hs, hh, hg⟩ | hl |
    ⟨x, hg, hx⟩
  · rw [e1, hget] at hg
    injection hg with hg
    exact ⟨a, b, c, j, hra, hab, e1, e2, hfc, hs, hh, hg⟩
  · omega
  · rw [e1, hget] at hg
    injection hg with hg
    rw [hg] at hty
    exact absurd hty hx

/-- C22: when `compile_source` succeeds, every `INC_PTR` / `DEC_PTR` / `ADD_VAL` / `SUB_VAL`
instruction of the program was compiled from a maximal run of its character in the source (the
character before the run and the character after it are different, or absent), and its
operand is the length of that run, at least 1; when moreover the source is made only of the
eight instruction characters, no two adjacent instructions have the same opcode among these
four; and `+++` compiles to `ADD_VAL 3` followed by `HALT`. -/
theorem runs_are_folded_maximally (junk : Nat) (source : List Char) (P : Program)
    (h : compile_source junk source program_init = Except.ok P) :
    (∀ i instr, P.get? i = some instr → folded instr.type →
      ∃ c pre rest, fold_char c ∧ instr.type = fold_opcode c ∧ 1 ≤ instr.operand ∧
        source = pre ++ (List.replicate instr.operand c ++ rest) ∧
        pre.getLast? ≠ some c ∧ rest.head? ≠ some c ∧ emitted_at source pre.length i) ∧
    ((∀ ch, ch ∈ source → instruction_char ch = true) →
      ∀ i a b, P.get? i = some a → P.get? (i + 1) = some b → folded a.type →
        a.type ≠ b.type) ∧
    compile_source junk ['+', '+', '+'] program_init =
      Except.ok [{ type := OperationType.ADD_VAL, operand := 3 },
        { type := OperationType.HALT, operand := junk }] := by
  obtain ⟨sf, hc, hsf, hP⟩ := compile_source_ok junk source program_init P h
  have hnh : ∀ (x : Instruction), folded x.type → x.type ≠ OperationType.HALT := by
    intro x hx e
    rw [e] at hx
    simp [folded] at hx
  have horigin : ∀ i instr, P.get? i = some instr → folded instr.type →
      ∃ a b c j, reaches { source := source, prog := program_init, loop_stack := [] } a ∧
        iter_step a b ∧ a.prog.length = i ∧ b.prog.length = i + 1 ∧
        fold_char c ∧ a.source = c :: (List.replicate j c ++ b.source) ∧
        b.source.head? ≠ some c ∧ instr = { type := fold_opcode c, operand := j + 1 } := by
    intro i instr hget hty
    rw [hP] at hget
    obtain ⟨_, hg⟩ := get?_halt_last sf.prog junk i instr hget (hnh instr hty)
    exact folded_instruction_origin _ sf rfl hc hsf i instr (Nat.zero_le _) hg hty
  refine ⟨?_, ?_, rfl⟩
  · intro i instr hget hty
    obtain ⟨a, b, c, j, hra, hab, e1, e2, hfc, hs, hh, hi⟩ := horigin i instr hget hty
    obtain ⟨pre, hpre⟩ := reaches_suffix _ a hra
    simp only at hpre
    have hhead : a.source.head? = some c := by rw [hs]; rfl
    have hlast := run_starts_after_another_char _ a hra pre hpre c hfc hhead
    refine ⟨c, pre, b.source, hfc, by rw [hi], by rw [hi]; exact Nat.le_add_left 1 j, ?_,
      hlast, hh, ⟨a, pre, hra, hpre, rfl, e1⟩⟩
    rw [hpre, hs, hi]
    rfl
  · intro hall i x y hx hy hfx hxy
    have hfy : folded y.type := by rw [← hxy]; exact hfx
    obtain ⟨a1, b1, c1, j1, hra1, hab1, _, e1, hfc1, _, hh1, hi1⟩ := horigin i x hx hfx
    obtain ⟨a2, b2, c2, j2, hra2, _, e2, _, hfc2, hs2, _, hi2⟩ := horigin (i + 1) y hy hfy
    have hrb1 := Relation.ReflTransGen.tail hra1 hab1
    have hsub : ∀ (z : CompileState),
        reaches { source := source, prog := program_init, loop_stack := [] } z →
        ∀ ch, ch ∈ z.source → instruction_char ch = true := by
      intro z hz ch hch
      obtain ⟨pre, hpre⟩ := reaches_suffix _ z hz
      simp only at hpre
      exact hall ch (by rw [hpre]; exact List.mem_append_right _ hch)
    have hsame : b1 = a2 := by
      rcases reaches_total _ b1 a2 hrb1 hra2 with hr | hr
      · exact same_length_same_state b1 a2 hr (hsub b1 hrb1) (by omega)
      · exact (same_length_same_state a2 b1 hr (hsub a2 hra2) (by omega)).symm
    have hc12 : c1 = c2 := by
      apply fold_opcode_inj c1 c2 hfc1 hfc2
      rw [hi1, hi2] at hxy
      exact hxy
    apply hh1
    rw [hsame, hs2, hc12]
    rfl

theorem runs_are_folded_maximally_witness :
    compile_source 0 ['+', '+', '>', '>', '>', '+'] program_init =
      Except.ok [{ type := OperationType.ADD_VAL, operand := 2 },
        { type := OperationType.INC_PTR, operand := 3 },
        { type := OperationType.ADD_VAL, operand := 1 },
        { type := OperationType.HALT, operand := 0 }] ∧
    (∀ i instr,
      List.get? [({ type := OperationType.ADD_VAL, operand := 2 } : Instruction),
        { type := OperationType.INC_PTR, operand := 3 },
        { type := OperationType.ADD_VAL, operand := 1 },
        { type := OperationType.HALT, operand := 0 }] i = some instr → folded instr.type →
      ∃ c pre rest, fold_char c ∧ instr.type = fold_opcode c ∧ 1 ≤ instr.operand ∧
        ['+', '+', '>', '>', '>', '+'] = pre ++ (List.replicate instr.operand c ++ rest) ∧
        pre.getLast? ≠ some c ∧ rest.head? ≠ some c ∧
        emitted_at ['+', '+', '>', '>', '>', '+'] pre.length i) ∧
    (∀ i a b,
      List.get? [({ type := OperationType.ADD_VAL, operand := 2 } : Instruction),
        { type := OperationType.INC_PTR, operand := 3 },
        { type := OperationType.ADD_VAL, operand := 1 },
        { type := OperationType.HALT, operand := 0 }] i = some a →
      List.get? [({ type := OperationType.ADD_VAL, operand := 2 } : Instruction),
        { type := OperationType.INC_PTR, operand := 3 },
        { type := OperationType.ADD_VAL, operand := 1 },
        { type := OperationType.HALT, operand := 0 }] (i + 1) = some b →
      folded a.type → a.type ≠ b.type) :=
  ⟨rfl,
    (runs_are_folded_maximally 0 ['+', '+', '>', '>', '>', '+'] _ rfl).1,
    (runs_are_folded_maximally 0 ['+', '+', '>', '>', '>', '+'] _ rfl).2.1 (by decide)⟩

end BfOpt

end BrainFuck
